import Mathlib

/-! # xv6 virtual memory (kernel/vm.c): a shallow embedding

Physical memory is one byte-addressed store; page tables and data frames both
live in it, exactly as in the C code, so aliasing between them is expressible
and is excluded only by explicit invariants.  Machine words are natural numbers
with explicit reduction modulo `2 ^ 64` where the C arithmetic can wrap.
-/

namespace Xv6

/-! ## Constants and macros of `riscv.h` -/

/-- Modelled from the spec: `riscv.h` is not among the sources; `PGSIZE` is the
fixed page size, 4096 bytes (512 eight-byte entries per table, as the loop bound
of `freewalk` in `vm.c` shows). -/
def PGSIZE : Nat := 4096

/-- Modelled from the spec: `PGSHIFT` of `riscv.h`, bits of offset within a page. -/
def PGSHIFT : Nat := 12

/-- Modelled from the spec: `PTE_V` of `riscv.h`, the validity bit `1L << 0`. -/
def PTE_V : Nat := 1 <<< 0

/-- Modelled from the spec: `PTE_R` of `riscv.h`, the readable bit `1L << 1`. -/
def PTE_R : Nat := 1 <<< 1

/-- Modelled from the spec: `PTE_W` of `riscv.h`, the writable bit `1L << 2`. -/
def PTE_W : Nat := 1 <<< 2

/-- Modelled from the spec: `PTE_X` of `riscv.h`, the executable bit `1L << 3`. -/
def PTE_X : Nat := 1 <<< 3

/-- Modelled from the spec: `PTE_U` of `riscv.h`, the user-accessible bit `1L << 4`. -/
def PTE_U : Nat := 1 <<< 4

/-- Modelled from the spec: `MAXVA` of `riscv.h`, one beyond the highest usable
virtual address of the three-level table, `1L << (9 + 9 + 9 + 12 - 1)`. -/
def MAXVA : Nat := 1 <<< (9 + 9 + 9 + 12 - 1)

/-- The number of values of a `uint64`. -/
def U64 : Nat := 2 ^ 64

/-- Modelled from the spec: `PGROUNDUP(sz)` of `riscv.h`,
`((sz) + PGSIZE - 1) & ~(PGSIZE - 1)` in 64-bit arithmetic. -/
def PGROUNDUP (sz : Nat) : Nat := ((sz + PGSIZE - 1) % U64) &&& (U64 - PGSIZE)

/-- Modelled from the spec: `PGROUNDDOWN(a)` of `riscv.h`, `(a) & ~(PGSIZE - 1)`. -/
def PGROUNDDOWN (a : Nat) : Nat := a &&& (U64 - PGSIZE)

/-- Modelled from the spec: `PXSHIFT(level)` of `riscv.h`. -/
def PXSHIFT (level : Nat) : Nat := PGSHIFT + 9 * level

/-- Modelled from the spec: `PX(level, va)` of `riscv.h`, the nine-bit index of
`va` into the table of the given level. -/
def PX (level va : Nat) : Nat := (va >>> PXSHIFT level) &&& 0x1FF

/-- Modelled from the spec: `PA2PTE(pa)` of `riscv.h`, `((pa) >> 12) << 10`. -/
def PA2PTE (pa : Nat) : Nat := (pa >>> 12) <<< 10

/-- Modelled from the spec: `PTE2PA(pte)` of `riscv.h`, `((pte) >> 10) << 12`
as a `uint64`. -/
def PTE2PA (pte : Nat) : Nat := ((pte >>> 10) <<< 12) % U64

/-- Modelled from the spec: `PTE_FLAGS(pte)` of `riscv.h`, `(pte) & 0x3FF`. -/
def PTE_FLAGS (pte : Nat) : Nat := pte &&& 0x3FF

/-! ## Machine state -/

/-- The part of the machine the virtual-memory code reads and writes: physical
memory (one byte per address), the allocator's free pages, and the size of the
current process (`myproc()->sz`). -/
structure Kernel where
  mem : Nat → Nat
  freelist : List Nat
  procsz : Nat

/-- The result of running a kernel routine: a normal return with the final
state, a fatal halt (`panic`), or exhaustion of the iteration bound the
embedding gives to a loop. -/
inductive Outcome (α : Type) where
  | ret : α → Kernel → Outcome α
  | panic : String → Outcome α
  | diverge : Outcome α

/-- Sequencing of a routine's outcome with its continuation. -/
def Outcome.bind {α β : Type} (x : Outcome α) (f : α → Kernel → Outcome β) : Outcome β :=
  match x with
  | .ret a s => f a s
  | .panic m => .panic m
  | .diverge => .diverge

/-- The returned value, when the routine returned. -/
def Outcome.val {α : Type} : Outcome α → Option α
  | .ret a _ => some a
  | _ => none

/-- The final state, when the routine returned. -/
def Outcome.state {α : Type} : Outcome α → Option Kernel
  | .ret _ s => some s
  | _ => none

/-- One byte of physical memory. -/
def ld8 (m : Nat → Nat) (a : Nat) : Nat := m a % 256

/-- A 64-bit little-endian load, the read of a `pte_t`. -/
def ld64 (m : Nat → Nat) (a : Nat) : Nat :=
  ld8 m a + 256 * (ld8 m (a + 1) + 256 * (ld8 m (a + 2) + 256 * (ld8 m (a + 3) +
    256 * (ld8 m (a + 4) + 256 * (ld8 m (a + 5) + 256 * (ld8 m (a + 6) +
    256 * ld8 m (a + 7)))))))

/-- A 64-bit little-endian store, the write of a `pte_t`. -/
def st64 (m : Nat → Nat) (a v : Nat) : Nat → Nat :=
  fun x => if a ≤ x ∧ x < a + 8 then (v / 256 ^ (x - a)) % 256 else m x

/-- The C library `memset(dst, c, n)`. -/
def memset (m : Nat → Nat) (dst c n : Nat) : Nat → Nat :=
  fun x => if dst ≤ x ∧ x < dst + n then c % 256 else m x

/-- The C library `memmove(dst, src, n)` between two regions of physical memory. -/
def memmove (m : Nat → Nat) (dst src n : Nat) : Nat → Nat :=
  fun x => if dst ≤ x ∧ x < dst + n then m (src + (x - dst)) else m x

/-- Modelled from the spec: `kalloc` of `kalloc.c` is not among the sources; the
allocator hands out one page of its free pages, or nothing when none is left. -/
def kalloc (s : Kernel) : Option Nat × Kernel :=
  match s.freelist with
  | [] => (none, s)
  | p :: rest => (some p, { s with freelist := rest })

/-- Modelled from the spec: `kfree` of `kalloc.c` is not among the sources; the
page is given back to the allocator's free pages. -/
def kfree (s : Kernel) (pa : Nat) : Kernel :=
  { s with freelist := pa :: s.freelist }

/-! ## `walk`, `walkaddr`, `mappages` -/

/-- The loop of `walk` from `level` down to 1, then the address of the level-0
entry. -/
def walkLevels (va alloc : Nat) : Nat → Kernel → Nat → Outcome (Option Nat)
  | 0, s, pagetable => .ret (some (pagetable + 8 * PX 0 va)) s
  | level + 1, s, pagetable =>
    let pte := pagetable + 8 * PX (level + 1) va
    if ld64 s.mem pte &&& PTE_V ≠ 0 then
      walkLevels va alloc level s (PTE2PA (ld64 s.mem pte))
    else if alloc = 0 then .ret none s
    else
      match kalloc s with
      | (none, s1) => .ret none s1
      | (some pg, s1) =>
        let m1 := memset s1.mem pg 0 PGSIZE
        let m2 := st64 m1 pte (PA2PTE pg ||| PTE_V)
        walkLevels va alloc level { s1 with mem := m2 } pg

/-- `walk(pagetable, va, alloc)`: the address of the level-0 entry for `va`, or
nothing (the null pointer). -/
def walk (s : Kernel) (pagetable va alloc : Nat) : Outcome (Option Nat) :=
  if va ≥ MAXVA then .panic "walk"
  else walkLevels va alloc 2 s pagetable

/-- `walkaddr(pagetable, va)`. -/
def walkaddr (s : Kernel) (pagetable va : Nat) : Outcome Nat :=
  if va ≥ MAXVA then .ret 0 s
  else
    (walk s pagetable va 0).bind fun pte s1 =>
      match pte with
      | none => .ret 0 s1
      | some pte =>
        if ld64 s1.mem pte &&& PTE_V = 0 ∨ ld64 s1.mem pte &&& PTE_U = 0 then .ret 0 s1
        else .ret (PTE2PA (ld64 s1.mem pte)) s1

/-- The `for(;;)` loop of `mappages`; `fuel` bounds the number of iterations. -/
def mappagesLoop (pagetable perm last : Nat) : Nat → Kernel → Nat → Nat → Outcome Int
  | 0, _, _, _ => .diverge
  | fuel + 1, s, a, pa =>
    (walk s pagetable a 1).bind fun pte s1 =>
      match pte with
      | none => .ret (-1) s1
      | some pte =>
        if ld64 s1.mem pte &&& PTE_V ≠ 0 then .panic "mappages: remap"
        else
          let s2 := { s1 with mem := st64 s1.mem pte (PA2PTE pa ||| perm ||| PTE_V) }
          if a = last then .ret 0 s2
          else mappagesLoop pagetable perm last fuel s2 ((a + PGSIZE) % U64) ((pa + PGSIZE) % U64)

/-- `mappages(pagetable, va, size, pa, perm)`; `perm` is the flag word as it is
or-ed into the 64-bit entry. -/
def mappages (s : Kernel) (pagetable va size pa perm : Nat) : Outcome Int :=
  if va % PGSIZE ≠ 0 ∨ size % PGSIZE ≠ 0 then .panic "mappages: not aligned"
  else if size = 0 then .panic "mappages: size"
  else
    mappagesLoop pagetable perm ((va + size + (U64 - PGSIZE)) % U64) (size / PGSIZE) s va pa

/-! ## `uvmunmap`, `uvmalloc`, `uvmdealloc` -/

/-- The loop of `uvmunmap`, for `a` up to `endva = va + npages*PGSIZE`; `fuel`
bounds the number of iterations. -/
def uvmunmapLoop (pagetable endva do_free : Nat) : Nat → Kernel → Nat → Outcome Unit
  | 0, s, a => if a < endva then .diverge else .ret () s
  | fuel + 1, s, a =>
    if a < endva then
      (walk s pagetable a 0).bind fun pte s1 =>
        match pte with
        | none => uvmunmapLoop pagetable endva do_free fuel s1 ((a + PGSIZE) % U64)
        | some pte =>
          if ld64 s1.mem pte &&& PTE_V = 0 then
            uvmunmapLoop pagetable endva do_free fuel s1 ((a + PGSIZE) % U64)
          else
            let s2 := if do_free ≠ 0 then kfree s1 (PTE2PA (ld64 s1.mem pte)) else s1
            uvmunmapLoop pagetable endva do_free fuel { s2 with mem := st64 s2.mem pte 0 }
              ((a + PGSIZE) % U64)
    else .ret () s

/-- `uvmunmap(pagetable, va, npages, do_free)`. -/
def uvmunmap (s : Kernel) (pagetable va npages do_free : Nat) : Outcome Unit :=
  if va % PGSIZE ≠ 0 then .panic "uvmunmap: not aligned"
  else uvmunmapLoop pagetable ((va + npages * PGSIZE) % U64) do_free npages s va

/-- A `uint64` stored into an `int` and passed on as a `uint64` argument:
truncation to 32 bits, then sign extension. -/
def viaInt (x : Nat) : Nat :=
  if x % 2 ^ 32 < 2 ^ 31 then x % 2 ^ 32 else x % 2 ^ 32 + (U64 - 2 ^ 32)

/-- `uvmdealloc(pagetable, oldsz, newsz)`. -/
def uvmdealloc (s : Kernel) (pagetable oldsz newsz : Nat) : Outcome Nat :=
  if newsz ≥ oldsz then .ret oldsz s
  else if PGROUNDUP newsz < PGROUNDUP oldsz then
    (uvmunmap s pagetable (PGROUNDUP newsz)
        (viaInt ((PGROUNDUP oldsz - PGROUNDUP newsz) / PGSIZE)) 1).bind
      fun _ s1 => .ret newsz s1
  else .ret newsz s

/-- The loop of `uvmalloc`; `oldsz` is the rounded-up old size, `fuel` bounds
the number of iterations. -/
def uvmallocLoop (pagetable oldsz newsz xperm : Nat) : Nat → Kernel → Nat → Outcome Nat
  | 0, s, a => if a < newsz then .diverge else .ret newsz s
  | fuel + 1, s, a =>
    if a < newsz then
      match kalloc s with
      | (none, s1) => (uvmdealloc s1 pagetable a oldsz).bind fun _ s2 => .ret 0 s2
      | (some mem, s1) =>
        (mappages { s1 with mem := memset s1.mem mem 0 PGSIZE } pagetable a PGSIZE mem
            (PTE_R ||| PTE_U ||| xperm)).bind fun r s3 =>
          if r ≠ 0 then
            (uvmdealloc (kfree s3 mem) pagetable a oldsz).bind fun _ s4 => .ret 0 s4
          else uvmallocLoop pagetable oldsz newsz xperm fuel s3 ((a + PGSIZE) % U64)
    else .ret newsz s

/-- `uvmalloc(pagetable, oldsz, newsz, xperm)`. -/
def uvmalloc (s : Kernel) (pagetable oldsz newsz xperm : Nat) : Outcome Nat :=
  if newsz < oldsz then .ret oldsz s
  else
    uvmallocLoop pagetable (PGROUNDUP oldsz) newsz xperm (newsz / PGSIZE + 1) s
      (PGROUNDUP oldsz)

/-! ## `vmfault`, `ismapped` -/

/-- `ismapped(pagetable, va)`. -/
def ismapped (s : Kernel) (pagetable va : Nat) : Outcome Nat :=
  (walk s pagetable va 0).bind fun pte s1 =>
    match pte with
    | none => .ret 0 s1
    | some pte => .ret (if ld64 s1.mem pte &&& PTE_V ≠ 0 then 1 else 0) s1

/-- `vmfault(pagetable, va, read)`; the process size `myproc()->sz` is the
field `procsz` of the state. -/
def vmfault (s : Kernel) (pagetable va _read : Nat) : Outcome Nat :=
  if va ≥ s.procsz then .ret 0 s
  else
    (ismapped s pagetable (PGROUNDDOWN va)).bind fun r s1 =>
      if r ≠ 0 then .ret 0 s1
      else
        match kalloc s1 with
        | (none, s2) => .ret 0 s2
        | (some mem, s2) =>
          (mappages { s2 with mem := memset s2.mem mem 0 PGSIZE } pagetable (PGROUNDDOWN va)
              PGSIZE mem (PTE_W ||| PTE_U ||| PTE_R)).bind fun r s4 =>
            if r ≠ 0 then .ret 0 (kfree s4 mem) else .ret mem s4

/-! ## `copyout`, `copyin` -/

/-- The C library `memmove(dst, src, n)` from a kernel buffer, given by its
bytes, into physical memory. -/
def memmoveIn (m : Nat → Nat) (dst : Nat) (src : List Nat) (n : Nat) : Nat → Nat :=
  fun x => if dst ≤ x ∧ x < dst + n then src.getD (x - dst) 0 % 256 else m x

/-- The bytes that `memmove(dst, src, n)` copies out of physical memory into a
kernel buffer. -/
def memmoveOut (m : Nat → Nat) (src n : Nat) : List Nat :=
  (List.range n).map fun i => ld8 m (src + i)

/-- The `while` loop of `copyout`; `src` is the rest of the kernel buffer and
`fuel` bounds the number of iterations. -/
def copyoutLoop (pagetable : Nat) : Nat → Kernel → Nat → List Nat → Nat → Outcome Int
  | 0, s, _, _, len => if len > 0 then .diverge else .ret 0 s
  | fuel + 1, s, dstva, src, len =>
    if len > 0 then
      if PGROUNDDOWN dstva ≥ MAXVA then .ret (-1) s
      else
        (walkaddr s pagetable (PGROUNDDOWN dstva)).bind fun pa0 s1 =>
          (if pa0 = 0 then vmfault s1 pagetable (PGROUNDDOWN dstva) 0 else .ret pa0 s1).bind
            fun pa0 s2 =>
              if pa0 = 0 then .ret (-1) s2
              else
                (walk s2 pagetable (PGROUNDDOWN dstva) 0).bind fun pte s3 =>
                  match pte with
                  | none => .panic "copyout: null pte"
                  | some pte =>
                    if ld64 s3.mem pte &&& PTE_W = 0 then .ret (-1) s3
                    else
                      let n := min (PGSIZE - (dstva - PGROUNDDOWN dstva)) len
                      copyoutLoop pagetable fuel
                        { s3 with
                          mem := memmoveIn s3.mem (pa0 + (dstva - PGROUNDDOWN dstva)) src n }
                        ((PGROUNDDOWN dstva + PGSIZE) % U64) (src.drop n) (len - n)
    else .ret 0 s

/-- `copyout(pagetable, dstva, src, len)`; the kernel buffer `src` is given by
its bytes. -/
def copyout (s : Kernel) (pagetable dstva : Nat) (src : List Nat) (len : Nat) : Outcome Int :=
  copyoutLoop pagetable len s dstva src len

/-- The `while` loop of `copyin`; `dst` holds the bytes copied so far. -/
def copyinLoop (pagetable : Nat) :
    Nat → Kernel → List Nat → Nat → Nat → Outcome (Int × List Nat)
  | 0, s, dst, _, len => if len > 0 then .diverge else .ret (0, dst) s
  | fuel + 1, s, dst, srcva, len =>
    if len > 0 then
      (walkaddr s pagetable (PGROUNDDOWN srcva)).bind fun pa0 s1 =>
        (if pa0 = 0 then vmfault s1 pagetable (PGROUNDDOWN srcva) 1 else .ret pa0 s1).bind
          fun pa0 s2 =>
            if pa0 = 0 then .ret (-1, dst) s2
            else
              let n := min (PGSIZE - (srcva - PGROUNDDOWN srcva)) len
              copyinLoop pagetable fuel s2
                (dst ++ memmoveOut s2.mem (pa0 + (srcva - PGROUNDDOWN srcva)) n)
                ((PGROUNDDOWN srcva + PGSIZE) % U64) (len - n)
    else .ret (0, dst) s

/-- `copyin(pagetable, dst, srcva, len)`: the return value and the bytes
written to the kernel buffer `dst`, in order. -/
def copyin (s : Kernel) (pagetable srcva len : Nat) : Outcome (Int × List Nat) :=
  copyinLoop pagetable len s [] srcva len

/-! ## `uvmcopy` -/

/-- The `err:` exit of `uvmcopy`. -/
def uvmcopyErr (s : Kernel) (new i : Nat) : Outcome Int :=
  (uvmunmap s new 0 (i / PGSIZE) 1).bind fun _ s1 => .ret (-1) s1

/-- The `for` loop of `uvmcopy`; `fuel` bounds the number of iterations. -/
def uvmcopyLoop (old new sz : Nat) : Nat → Kernel → Nat → Outcome Int
  | 0, s, i => if i < sz then .diverge else .ret 0 s
  | fuel + 1, s, i =>
    if i < sz then
      (walk s old i 0).bind fun pte s1 =>
        match pte with
        | none => .panic "uvmcopy: pte should exist"
        | some pte =>
          if ld64 s1.mem pte &&& PTE_V = 0 then .panic "uvmcopy: page not present"
          else
            match kalloc s1 with
            | (none, s2) => uvmcopyErr s2 new i
            | (some mem, s2) =>
              (mappages { s2 with mem := memmove s2.mem mem (PTE2PA (ld64 s1.mem pte)) PGSIZE }
                  new i PGSIZE mem (PTE_FLAGS (ld64 s1.mem pte))).bind fun r s4 =>
                if r ≠ 0 then uvmcopyErr (kfree s4 mem) new i
                else uvmcopyLoop old new sz fuel s4 ((i + PGSIZE) % U64)
    else .ret 0 s

/-- `uvmcopy(old, new, sz)`. -/
def uvmcopy (s : Kernel) (old new sz : Nat) : Outcome Int :=
  uvmcopyLoop old new sz (sz / PGSIZE + 1) s 0

/-! ## Specification vocabulary: entries, the table tree, the leaf view -/

/-- Entry `i` of the table page at physical address `T`. -/
def entry (m : Nat → Nat) (T i : Nat) : Nat := ld64 m (T + 8 * i)

/-- The page at `p` sits at depth `d` of the tree rooted at `pt`: depth 0 is the
root (level 2), depths 1 and 2 are the level-1 and level-0 tables, depth 3 the
frames that valid level-0 entries reference. -/
def IsTable (m : Nat → Nat) (pt : Nat) : Nat → Nat → Prop
  | 0, p => p = pt
  | d + 1, p => ∃ q i, IsTable m pt d q ∧ i < 512 ∧ entry m q i &&& PTE_V ≠ 0 ∧
      p = PTE2PA (entry m q i)

/-- The table tree rooted at `pt` is an owning tree down to depth `D`
(`D = 2`: the table pages; `D = 3`: the table pages and the mapped frames):
its pages are pairwise distinct, and none but the root may be at address 0. -/
structure Tree (D : Nat) (m : Nat → Nat) (pt : Nat) : Prop where
  root_aligned : pt % PGSIZE = 0
  nonzero : ∀ d < D, ∀ p, IsTable m pt (d + 1) p → p ≠ 0
  no_root_child : ∀ d < D, ∀ q i, IsTable m pt d q → i < 512 →
    entry m q i &&& PTE_V ≠ 0 → PTE2PA (entry m q i) ≠ pt
  unique_parent : ∀ d < D, ∀ e < D, ∀ q r i j, IsTable m pt d q → IsTable m pt e r →
    i < 512 → j < 512 → entry m q i &&& PTE_V ≠ 0 → entry m r j &&& PTE_V ≠ 0 →
    PTE2PA (entry m q i) = PTE2PA (entry m r j) → q = r ∧ i = j

/-- Well-formedness of the address space rooted at `pt` together with the
allocator: the tree is an owning tree down to depth `D`, the free pages are
distinct non-null page-aligned addresses, and no page of the tree is free. -/
structure Inv (D : Nat) (s : Kernel) (pt : Nat) : Prop where
  tree : Tree D s.mem pt
  free_nodup : s.freelist.Nodup
  free_aligned : ∀ p ∈ s.freelist, p % PGSIZE = 0 ∧ p ≠ 0 ∧ p < U64
  free_fresh : ∀ d ≤ D, ∀ p, IsTable s.mem pt d p → p ∉ s.freelist

/-- The hypotheses under which `walk` links the fresh page `p` (the head of the
free pages) from the invalid entry `i` of the table `q` at depth `d`. -/
structure LinkStep (D : Nat) (s : Kernel) (pt d q i p : Nat) (rest : List Nat) : Prop where
  inv : Inv D s pt
  hd : d < D
  hq : IsTable s.mem pt d q
  hi : i < 512
  hinv : ¬ (entry s.mem q i &&& PTE_V ≠ 0)
  hfree : s.freelist = p :: rest

/-- The walk without allocation as a function of memory: the address of the
level-0 entry for `va`, starting in the table `T` of the given level. -/
def lookupFrom (m : Nat → Nat) (va : Nat) : Nat → Nat → Option Nat
  | 0, T => some (T + 8 * PX 0 va)
  | level + 1, T =>
    if entry m T (PX (level + 1) va) &&& PTE_V ≠ 0 then
      lookupFrom m va level (PTE2PA (entry m T (PX (level + 1) va)))
    else none

/-- The level-0 entry that the table `T` of the given level holds for `va`; 0
(an invalid entry) when an interior table is missing. -/
def pteFrom (m : Nat → Nat) (va level T : Nat) : Nat :=
  match lookupFrom m va level T with
  | none => 0
  | some a => ld64 m a

/-- The leaf entry for `va` in the table rooted at `pt` (0 when there is none). -/
def pteOf (m : Nat → Nat) (pt va : Nat) : Nat := pteFrom m va 2 pt

/-- The pages an operation on the table rooted at `pt` may write: its table
pages and the allocator's free pages. -/
def Own (s : Kernel) (pt P : Nat) : Prop :=
  P ∈ s.freelist ∨ ∃ d, d ≤ 2 ∧ IsTable s.mem pt d P

/-- Every byte that differs between `s` and `t` lies in a page that `s` owns. -/
def Footprint (s : Kernel) (pt : Nat) (t : Kernel) : Prop :=
  ∀ x, t.mem x ≠ s.mem x → ∃ P, Own s pt P ∧ P ≤ x ∧ x < P + PGSIZE

/-- The memory after `walk` has zeroed the fresh page `pg` and linked it from
entry `i` of the table `q`. -/
def linkTable (m : Nat → Nat) (q i pg : Nat) : Nat → Nat :=
  st64 (memset m pg 0 PGSIZE) (q + 8 * i) (PA2PTE pg ||| PTE_V)

/-- The number of interior tables that `walk` with allocation has to create
for `va`, starting in the table `T` of the given level. -/
def missing (m : Nat → Nat) (va : Nat) : Nat → Nat → Nat
  | 0, _ => 0
  | level + 1, T =>
    if entry m T (PX (level + 1) va) &&& PTE_V ≠ 0 then
      missing m va level (PTE2PA (entry m T (PX (level + 1) va)))
    else level + 1

/-- What `walk` with allocation, started in the table `T` at depth `e`,
guarantees about its result `r`, its final state `t` and the pages `used`. -/
structure WalkSpec (D pt va level T e : Nat) (s : Kernel) (r : Option Nat) (t : Kernel)
    (used : List Nat) : Prop where
  inv : Inv D t pt
  procsz : t.procsz = s.procsz
  free : s.freelist = used ++ t.freelist
  tables_old : ∀ d P, d ≤ D → IsTable s.mem pt d P → IsTable t.mem pt d P
  tables_new : ∀ d P, d ≤ D → IsTable t.mem pt d P →
    IsTable s.mem pt d P ∨ (P ∈ used ∧ e < d ∧ d ≤ 2)
  used_tables : ∀ P ∈ used, ∃ d, e < d ∧ d ≤ 2 ∧ IsTable t.mem pt d P
  leaf : ∀ va' level' d T', d + level' = 2 → IsTable s.mem pt d T' →
    pteFrom t.mem va' level' T' = pteFrom s.mem va' level' T'
  above : ∀ d T' j, d < e → IsTable s.mem pt d T' → j < 512 →
    entry t.mem T' j = entry s.mem T' j
  lookup_mono : ∀ va' level' d T' x, d + level' = 2 → IsTable s.mem pt d T' →
    lookupFrom s.mem va' level' T' = some x → lookupFrom t.mem va' level' T' = some x
  foot : ∀ x, t.mem x ≠ s.mem x →
    ∃ P, (P ∈ used ∨ ∃ d, e ≤ d ∧ d < 2 ∧ IsTable s.mem pt d P) ∧ P ≤ x ∧ x < P + PGSIZE
  found : ∀ a, r = some a →
    lookupFrom t.mem va level T = some a ∧ used.length = missing s.mem va level T
  failed : r = none → t.freelist = [] ∧ s.freelist.length < missing s.mem va level T

/-- Two virtual addresses select the same entry at every level. -/
def SamePage (va vb : Nat) : Prop :=
  PX 2 va = PX 2 vb ∧ PX 1 va = PX 1 vb ∧ PX 0 va = PX 0 vb

instance (va vb : Nat) : Decidable (SamePage va vb) := by
  unfold SamePage
  infer_instance

/-- What an operation that maps pages into the table rooted at `pt` guarantees
about the table pages and the allocator: `used` are the free pages it turned
into interior tables. -/
structure MapSpec (pt : Nat) (s t : Kernel) (used : List Nat) : Prop where
  inv : Inv 2 t pt
  procsz : t.procsz = s.procsz
  free : s.freelist = used ++ t.freelist
  tables_old : ∀ d P, d ≤ 2 → IsTable s.mem pt d P → IsTable t.mem pt d P
  tables_new : ∀ d P, d ≤ 2 → IsTable t.mem pt d P →
    IsTable s.mem pt d P ∨ (P ∈ used ∧ 0 < d)
  used_tables : ∀ P ∈ used, ∃ d, 0 < d ∧ d ≤ 2 ∧ IsTable t.mem pt d P
  lookup_mono : ∀ va x, lookupFrom s.mem va 2 pt = some x → lookupFrom t.mem va 2 pt = some x
  foot : ∀ x, t.mem x ≠ s.mem x →
    ∃ P, (P ∈ used ∨ ∃ d, d ≤ 2 ∧ IsTable s.mem pt d P) ∧ P ≤ x ∧ x < P + PGSIZE

/-- The final state of an outcome (`d` when the routine did not return). -/
def Outcome.final {α : Type} (x : Outcome α) (d : Kernel) : Kernel :=
  match x with
  | .ret _ t => t
  | _ => d

/-- The memories `m` and `n` agree on every entry of every table page of the
tree rooted at `pt` in `m`. -/
def TableEq (m n : Nat → Nat) (pt : Nat) : Prop :=
  ∀ d ≤ 2, ∀ T, IsTable m pt d T → ∀ j < 512, entry n T j = entry m T j

/-- The frames of the valid leaf entries among the `n` pages from `a` on, the
frame of the last page first: the order in which `uvmunmap` leaves them on the
free pages. -/
def validFrames (m : Nat → Nat) (pt a : Nat) : Nat → List Nat
  | 0 => []
  | n + 1 =>
    validFrames m pt (a + PGSIZE) n ++
      (if pteOf m pt a &&& PTE_V ≠ 0 then [PTE2PA (pteOf m pt a)] else [])

/-- What the loop of `uvmalloc` guarantees when it maps the `n` pages from `a`
on: `frames` are the data pages it mapped, `used` the free pages that became
interior tables. -/
structure GrowSpec (pt perm a n : Nat) (s t : Kernel) (frames used : List Nat) : Prop where
  inv : Inv 2 t pt
  procsz : t.procsz = s.procsz
  count : t.freelist.length + used.length + n = s.freelist.length
  frames_len : frames.length = n
  frames_free : ∀ P ∈ frames, P ∈ s.freelist
  used_free : ∀ P ∈ used, P ∈ s.freelist
  used_tables : ∀ P ∈ used, ∃ d, 0 < d ∧ d ≤ 2 ∧ IsTable t.mem pt d P
  tables_old : ∀ d P, d ≤ 2 → IsTable s.mem pt d P → IsTable t.mem pt d P
  lookup_mono : ∀ va x, lookupFrom s.mem va 2 pt = some x → lookupFrom t.mem va 2 pt = some x
  mapped : ∀ j, j < n →
    pteOf t.mem pt (a + j * PGSIZE) = PA2PTE (frames.getD j 0) ||| perm ||| PTE_V
  outside : ∀ vb, vb < MAXVA → (vb < a ∨ a + n * PGSIZE ≤ vb) →
    pteOf t.mem pt vb = pteOf s.mem pt vb
  no_new : (∀ j, j < n → missing s.mem (a + j * PGSIZE) 2 pt = 0) → used = []

/-- The page of `va` is mapped, user-accessible and backed by a non-null frame:
the condition under which `walkaddr` translates `va`. -/
def Readable (m : Nat → Nat) (pt va : Nat) : Prop :=
  pteOf m pt va &&& PTE_V ≠ 0 ∧ pteOf m pt va &&& PTE_U ≠ 0 ∧ PTE2PA (pteOf m pt va) ≠ 0

/-- The physical address that the table rooted at `pt` gives to `va`. -/
def physOf (m : Nat → Nat) (pt va : Nat) : Nat :=
  PTE2PA (pteOf m pt va) + va % PGSIZE

/-- The frames mapped below `MAXVA` by the table rooted at `pt` are owned by
it alone: each is non-null, not free, not a table page, and mapped by the
entries of one page only. -/
def FrameOK (s : Kernel) (pt : Nat) : Prop :=
  ∀ va, va < MAXVA → pteOf s.mem pt va &&& PTE_V ≠ 0 →
    PTE2PA (pteOf s.mem pt va) ≠ 0 ∧ PTE2PA (pteOf s.mem pt va) ∉ s.freelist ∧
    (∀ d, d ≤ 2 → ¬ IsTable s.mem pt d (PTE2PA (pteOf s.mem pt va))) ∧
    (∀ vb, vb < MAXVA → pteOf s.mem pt vb &&& PTE_V ≠ 0 →
      PTE2PA (pteOf s.mem pt vb) = PTE2PA (pteOf s.mem pt va) → SamePage va vb)

/-- What `copyout` has established once the page of `va` is ready to be
written, in the state `t` reached from `s`: the page is mapped writable for the
user, every mapping that existed is as it was, and so are the bytes of the
frames that were mapped. -/
structure Resolved (pt va : Nat) (s t : Kernel) : Prop where
  inv : Inv 2 t pt
  frames : FrameOK t pt
  procsz : t.procsz = s.procsz
  valid : pteOf t.mem pt va &&& PTE_V ≠ 0
  user : pteOf t.mem pt va &&& PTE_U ≠ 0
  writable : pteOf t.mem pt va &&& PTE_W ≠ 0
  keep : ∀ vb, vb < MAXVA → pteOf s.mem pt vb &&& PTE_V ≠ 0 →
    pteOf t.mem pt vb = pteOf s.mem pt vb
  other : ∀ vb, ¬ SamePage va vb → pteOf t.mem pt vb = pteOf s.mem pt vb
  bytes : ∀ vb, vb < MAXVA → pteOf s.mem pt vb &&& PTE_V ≠ 0 → ∀ i, i < PGSIZE →
    t.mem (PTE2PA (pteOf s.mem pt vb) + i) = s.mem (PTE2PA (pteOf s.mem pt vb) + i)
  free_len : s.freelist.length ≤ t.freelist.length + 3

/-- The page of `va` may be written by `copyout`: it has no valid leaf entry
(and will be filled on demand), or it is mapped user-accessible and writable. -/
def CanWrite (m : Nat → Nat) (pt va : Nat) : Prop :=
  pteOf m pt va &&& PTE_V = 0 ∨
    (pteOf m pt va &&& PTE_V ≠ 0 ∧ pteOf m pt va &&& PTE_U ≠ 0 ∧ pteOf m pt va &&& PTE_W ≠ 0)

/-- What `copyout` has achieved in the state `t`, reached from `s`, after the
first `len` bytes of `src` went to `dstva`. -/
structure Copied (pt dstva len : Nat) (src : List Nat) (s t : Kernel) : Prop where
  inv : Inv 2 t pt
  frames : FrameOK t pt
  procsz : t.procsz = s.procsz
  written : ∀ i, i < len → Readable t.mem pt (dstva + i) ∧
    ld8 t.mem (physOf t.mem pt (dstva + i)) = src.getD i 0 % 256
  keep : ∀ vb, vb < MAXVA → pteOf s.mem pt vb &&& PTE_V ≠ 0 →
    pteOf t.mem pt vb = pteOf s.mem pt vb
  bytes : ∀ vb, vb < MAXVA → pteOf s.mem pt vb &&& PTE_V ≠ 0 →
    (vb < dstva ∨ dstva + len ≤ vb) → t.mem (physOf s.mem pt vb) = s.mem (physOf s.mem pt vb)

/-- The page of `va` may be read by `copyin`: it has no valid leaf entry (and
will be filled on demand), or it is mapped user-accessible. -/
def CanRead (m : Nat → Nat) (pt va : Nat) : Prop :=
  pteOf m pt va &&& PTE_V = 0 ∨ (pteOf m pt va &&& PTE_V ≠ 0 ∧ pteOf m pt va &&& PTE_U ≠ 0)

/-- The address spaces rooted at `old` and `new` are well formed, own their
frames exclusively and share no page: no table page and no frame of `new` is a
table page or a frame of `old`. -/
structure Apart (s : Kernel) (old new : Nat) : Prop where
  inv_old : Inv 2 s old
  frames_old : FrameOK s old
  inv_new : Inv 2 s new
  frames_new : FrameOK s new
  tab_tab : ∀ d ≤ 2, ∀ e ≤ 2, ∀ P, IsTable s.mem new d P → ¬ IsTable s.mem old e P
  tab_frame : ∀ d ≤ 2, ∀ P, IsTable s.mem new d P → ∀ vb, vb < MAXVA →
    pteOf s.mem old vb &&& PTE_V ≠ 0 → PTE2PA (pteOf s.mem old vb) ≠ P
  frame_tab : ∀ va, va < MAXVA → pteOf s.mem new va &&& PTE_V ≠ 0 →
    ∀ e ≤ 2, ¬ IsTable s.mem old e (PTE2PA (pteOf s.mem new va))
  frame_frame : ∀ va, va < MAXVA → pteOf s.mem new va &&& PTE_V ≠ 0 → ∀ vb, vb < MAXVA →
    pteOf s.mem old vb &&& PTE_V ≠ 0 →
    PTE2PA (pteOf s.mem new va) ≠ PTE2PA (pteOf s.mem old vb)

/-- What both outcomes of the loop of `uvmcopy` guarantee in the state `t`
reached from `s`: the table rooted at `old`, the bytes of its frames, and the
table pages of `new` are as they were. -/
structure CopyKeep (old new : Nat) (s t : Kernel) : Prop where
  old_tables : TableEq s.mem t.mem old
  old_bytes : ∀ vb, vb < MAXVA → pteOf s.mem old vb &&& PTE_V ≠ 0 → ∀ k, k < PGSIZE →
    t.mem (PTE2PA (pteOf s.mem old vb) + k) = s.mem (PTE2PA (pteOf s.mem old vb) + k)
  tables_mono : ∀ d ≤ 2, ∀ P, IsTable s.mem new d P → IsTable t.mem new d P

/-- What the loop of `uvmcopy` guarantees when it returns 0 after copying the
`n` pages from page number `k` on. -/
structure CopyDone (old new k n : Nat) (s t : Kernel) : Prop where
  apart : Apart t old new
  count : t.freelist.length + n + (if n = 0 then 0 else missing s.mem (k * PGSIZE) 2 new) ≤
    s.freelist.length
  new_keep : ∀ vb, vb < MAXVA → pteOf s.mem new vb &&& PTE_V ≠ 0 →
    pteOf t.mem new vb = pteOf s.mem new vb
  new_bytes : ∀ vb, vb < MAXVA → pteOf s.mem new vb &&& PTE_V ≠ 0 → ∀ i, i < PGSIZE →
    t.mem (PTE2PA (pteOf s.mem new vb) + i) = s.mem (PTE2PA (pteOf s.mem new vb) + i)
  copied : ∀ j, j < n →
    pteOf t.mem new ((k + j) * PGSIZE) &&& PTE_V ≠ 0 ∧
    PTE_FLAGS (pteOf t.mem new ((k + j) * PGSIZE)) =
      PTE_FLAGS (pteOf s.mem old ((k + j) * PGSIZE)) ∧
    ∀ i, i < PGSIZE →
      t.mem (PTE2PA (pteOf t.mem new ((k + j) * PGSIZE)) + i) =
        s.mem (PTE2PA (pteOf s.mem old ((k + j) * PGSIZE)) + i)

/-- What the loop of `uvmcopy` guarantees when it returns -1, entered at page
number `k`: no page of `new` is mapped any more, and the pages that were free
or were frames of `new` are free again, each once, except for `used`, which
have become interior tables of `new`. -/
structure CopyUndone (new k : Nat) (s t : Kernel) (used : List Nat) : Prop where
  cleared : ∀ vb, vb < MAXVA → pteOf t.mem new vb &&& PTE_V = 0
  returned : (validFrames s.mem new 0 k ++ s.freelist).Perm (used ++ t.freelist)
  used_tables : ∀ P ∈ used, ∃ d, 0 < d ∧ d ≤ 2 ∧ IsTable t.mem new d P

/-- The kinds of entries are told apart by their permission bits: a valid entry
of a level-2 or level-1 table (depth 0 or 1) has none of R, W and X, and a valid
entry of a level-0 table (depth 2) has at least one of them. -/
structure Shaped (m : Nat → Nat) (pt : Nat) : Prop where
  interior : ∀ d < 2, ∀ T, IsTable m pt d T → ∀ j < 512, entry m T j &&& PTE_V ≠ 0 →
    entry m T j &&& (PTE_R ||| PTE_W ||| PTE_X) = 0
  leaf : ∀ T, IsTable m pt 2 T → ∀ j < 512, entry m T j &&& PTE_V ≠ 0 →
    entry m T j &&& (PTE_R ||| PTE_W ||| PTE_X) ≠ 0

/-- What `uvmalloc` leaves behind when it returns 0 because the allocator ran
out, for the range `[a0, E)`: no page of the range is mapped, the leaf entries
outside the range are as they were, and the pages `used` have become interior
tables. -/
structure GrowUndone (pt a0 E : Nat) (s t : Kernel) (used : List Nat) : Prop where
  cleared : ∀ vb, vb < MAXVA → a0 ≤ vb → vb < E → pteOf t.mem pt vb &&& PTE_V = 0
  outside : ∀ vb, vb < MAXVA → (vb < a0 ∨ E ≤ vb) → pteOf t.mem pt vb = pteOf s.mem pt vb
  used_tables : ∀ P ∈ used, ∃ d, 0 < d ∧ d ≤ 2 ∧ IsTable t.mem pt d P

/-! ## `uvmcreate`, `freewalk`, `uvmfree`, `uvmclear` -/

/-- `uvmcreate()`: the new, zeroed root table, or 0 when no page is free. -/
def uvmcreate (s : Kernel) : Outcome Nat :=
  match kalloc s with
  | (none, s1) => .ret 0 s1
  | (some pagetable, s1) => .ret pagetable { s1 with mem := memset s1.mem pagetable 0 PGSIZE }

/-- The `for` loop of `freewalk` over the entries `i, i+1, ...` of `pagetable`,
`n` of them; `descend` is the recursive call of `freewalk` on a child table. -/
def freewalkLoop (descend : Kernel → Nat → Outcome Unit) (pagetable : Nat) :
    Nat → Kernel → Nat → Outcome Unit
  | 0, s, _ => .ret () s
  | n + 1, s, i =>
    if ld64 s.mem (pagetable + 8 * i) &&& PTE_V ≠ 0 ∧
        ld64 s.mem (pagetable + 8 * i) &&& (PTE_R ||| PTE_W ||| PTE_X) = 0 then
      (descend s (PTE2PA (ld64 s.mem (pagetable + 8 * i)))).bind fun _ s1 =>
        freewalkLoop descend pagetable n { s1 with mem := st64 s1.mem (pagetable + 8 * i) 0 }
          (i + 1)
    else if ld64 s.mem (pagetable + 8 * i) &&& PTE_V ≠ 0 then .panic "freewalk: leaf"
    else freewalkLoop descend pagetable n s (i + 1)

/-- `freewalk(pagetable)`; `fuel` bounds the depth of the recursion. -/
def freewalk : Nat → Kernel → Nat → Outcome Unit
  | 0, _, _ => .diverge
  | fuel + 1, s, pagetable =>
    (freewalkLoop (freewalk fuel) pagetable 512 s 0).bind fun _ s1 =>
      .ret () (kfree s1 pagetable)

/-- `uvmfree(pagetable, sz)`; `fuel` bounds the depth of the recursion of
`freewalk`. -/
def uvmfree (fuel : Nat) (s : Kernel) (pagetable sz : Nat) : Outcome Unit :=
  (if sz > 0 then uvmunmap s pagetable 0 (PGROUNDUP sz / PGSIZE) 1 else .ret () s).bind
    fun _ s1 => freewalk fuel s1 pagetable

/-- `uvmclear(pagetable, va)`. -/
def uvmclear (s : Kernel) (pagetable va : Nat) : Outcome Unit :=
  (walk s pagetable va 0).bind fun pte s1 =>
    match pte with
    | none => .panic "uvmclear"
    | some pte =>
      .ret () { s1 with mem := st64 s1.mem pte (ld64 s1.mem pte &&& (U64 - 1 - PTE_U)) }

/-! ## `copyinstr` -/

/-- The inner `while (n > 0)` loop of `copyinstr`, reading physical memory from
`p`: whether the NUL was met, the bytes written to `dst` so far, and what is
left of `max`. -/
def copyinstrScan (m : Nat → Nat) : Nat → Nat → List Nat → Nat → Bool × List Nat × Nat
  | 0, _, dst, max => (false, dst, max)
  | n + 1, p, dst, max =>
    if ld8 m p = 0 then (true, dst ++ [0], max)
    else copyinstrScan m n (p + 1) (dst ++ [ld8 m p]) (max - 1)

/-- The outer `while` loop of `copyinstr`; `dst` holds the bytes written so far
and `fuel` bounds the number of iterations. -/
def copyinstrLoop (pagetable : Nat) :
    Nat → Kernel → List Nat → Nat → Nat → Outcome (Int × List Nat)
  | 0, s, dst, _, max => if max > 0 then .diverge else .ret (-1, dst) s
  | fuel + 1, s, dst, srcva, max =>
    if max > 0 then
      (walkaddr s pagetable (PGROUNDDOWN srcva)).bind fun pa0 s1 =>
        if pa0 = 0 then .ret (-1, dst) s1
        else
          match copyinstrScan s1.mem (min (PGSIZE - (srcva - PGROUNDDOWN srcva)) max)
              (pa0 + (srcva - PGROUNDDOWN srcva)) dst max with
          | (true, dst, _) => .ret (0, dst) s1
          | (false, dst, max) =>
            copyinstrLoop pagetable fuel s1 dst ((PGROUNDDOWN srcva + PGSIZE) % U64) max
    else .ret (-1, dst) s

/-- `copyinstr(pagetable, dst, srcva, max)`: the return value and the bytes
written to the kernel buffer `dst`, in order. -/
def copyinstr (s : Kernel) (pagetable srcva max : Nat) : Outcome (Int × List Nat) :=
  copyinstrLoop pagetable max s [] srcva max

/-! ## The process, `do_mmap`, `do_munmap` (kernel/mmap.c) -/

/-- One slot of the table of memory-mapped regions of a process, with the
fields that `kexec` uses (`proc.h` is not among the sources). -/
structure mmap_area where
  used : Nat
  va_start : Nat
  length : Nat
  f : Nat
deriving DecidableEq

/-- The fields of `struct proc` that `kexec` and `usertrap` use, the trapframe
registers `epc`, `sp` and `a1` among them (`proc.h` is not among the sources);
the size `p->sz` is the field `procsz` of the kernel state, and the strings are
given by their bytes before the terminating NUL. -/
structure Proc where
  pagetable : Nat
  name : List Nat
  epc : Nat
  sp : Nat
  a1 : Nat
  mmap_areas : List mmap_area
  mmap_hint : Nat
  killed : Nat
deriving DecidableEq

/-- `do_mmap(addr, length, prot, flags, fd, offset)`, called for the process
`p`. -/
def do_mmap (s : Kernel) (p : Proc) (_addr _length : Nat) (_prot _flags _fd : Int)
    (_offset : Nat) : Outcome (Nat × Proc) :=
  .ret (0, p) s

/-- `do_munmap(addr, length)`, called for the process `p`. -/
def do_munmap (s : Kernel) (p : Proc) (_addr _length : Nat) : Outcome (Int × Proc) :=
  .ret (0, p) s

/-! ## `kexec` (kernel/exec.c) -/

/-- The size of an `unsigned int`. -/
def U32 : Nat := 2 ^ 32

/-- The largest number of arguments of `exec` (param.h, not among the sources;
the value of xv6). -/
def MAXARG : Nat := 32

/-- The number of pages of the user stack (param.h, not among the sources; the
value of xv6). -/
def USERSTACK : Nat := 1

/-- The magic number of an ELF header, `"\x7FELF"` in little endian (elf.h, not
among the sources). -/
def ELF_MAGIC : Nat := 0x464C457F

/-- The program header type of a loadable segment (elf.h, not among the
sources). -/
def ELF_PROG_LOAD : Nat := 1

/-- The size of a `struct proghdr` (elf.h, not among the sources). -/
def sizeof_proghdr : Nat := 56

/-- The length of the field `name` of a process (proc.h, not among the sources;
the value of xv6). -/
def sizeof_name : Nat := 16

/-- The fields of `struct elfhdr` that `kexec` reads. -/
structure elfhdr where
  magic : Nat
  entry : Nat
  phoff : Nat
  phnum : Nat

/-- The fields of `struct proghdr` that `kexec` reads. -/
structure proghdr where
  type : Nat
  flags : Nat
  off : Nat
  vaddr : Nat
  filesz : Nat
  memsz : Nat

/-- An executable file as `readi` presents it to `kexec` (fs.c is not among the
sources): `elf` is the header when `readi(ip, 0, &elf, 0, sizeof(elf))` reads it
in full, `ph off` the program header when `readi(ip, 0, &ph, off, sizeof(ph))`
does, and `data off n` the bytes that `readi(ip, 0, pa, off, n)` delivers, at
most `n` of them. -/
structure Inode where
  elf : Option elfhdr
  ph : Nat → Option proghdr
  data : Nat → Nat → List Nat

/-- The routines that `kexec` and `usertrap` call and that are defined outside
the sources at hand: `namei` (fs.c), `proc_pagetable` and `proc_freepagetable`
(proc.c), `syscall` (syscall.c) and `yield` (proc.c). The routines `begin_op`,
`end_op`, `ilock`, `iunlockput`, `fileclose`, `intr_on` and `printf` act on
state that is not part of `Kernel` or `Proc` and are left out. -/
structure Env where
  namei : List Nat → Option Inode
  proc_pagetable : Kernel → Proc → Outcome Nat
  proc_freepagetable : Kernel → Nat → Nat → Outcome Unit
  syscall : Kernel → Proc → Outcome Proc
  yield : Kernel → Proc → Outcome Proc

/-- `flags2perm(flags)`, with the `#else` values of the ELF flags. -/
def flags2perm (flags : Nat) : Nat :=
  ((if flags &&& 0x1 ≠ 0 then PTE_X else 0) ||| (if flags &&& 0x2 ≠ 0 then PTE_W else 0) |||
    (if flags &&& 0x4 ≠ 0 then PTE_R else 0)) ||| PTE_U

/-- The `for` loop of `loadseg`; `i` is an `unsigned int` and `fuel` bounds the
number of iterations. -/
def loadsegLoop (pagetable va : Nat) (ip : Inode) (offset sz : Nat) :
    Nat → Kernel → Nat → Outcome Int
  | 0, s, i => if i < sz then .diverge else .ret 0 s
  | fuel + 1, s, i =>
    if i < sz then
      (walkaddr s pagetable ((va + i) % U64)).bind fun pa s1 =>
        if pa = 0 then .panic "loadseg: address should exist"
        else
          let n := if sz - i < PGSIZE then sz - i else PGSIZE
          let got := (ip.data ((offset + i) % U32) n).take n
          if got.length ≠ n then
            .ret (-1) { s1 with mem := memmoveIn s1.mem pa got got.length }
          else
            loadsegLoop pagetable va ip offset sz fuel
              { s1 with mem := memmoveIn s1.mem pa got got.length } ((i + PGSIZE) % U32)
    else .ret 0 s

/-- `loadseg(pagetable, va, ip, offset, sz)`; `offset` and `sz` are `unsigned
int`s. -/
def loadseg (s : Kernel) (pagetable va : Nat) (ip : Inode) (offset sz : Nat) : Outcome Int :=
  loadsegLoop pagetable va ip offset sz (sz / PGSIZE + 1) s 0

/-- The loop of `kexec` over the program headers, `n` of them from number `i`
on, with the image size `sz` so far: whether every header was accepted and
loaded, and the size reached (which the `bad:` exit frees). -/
def kexecSegments (pagetable : Nat) (ip : Inode) (elf : elfhdr) :
    Nat → Kernel → Nat → Nat → Outcome (Bool × Nat)
  | 0, s, _, sz => .ret (true, sz) s
  | n + 1, s, i, sz =>
    match ip.ph ((elf.phoff + i * sizeof_proghdr) % U32) with
    | none => .ret (false, sz) s
    | some ph =>
      if ph.type ≠ ELF_PROG_LOAD then kexecSegments pagetable ip elf n s (i + 1) sz
      else if ph.memsz < ph.filesz then .ret (false, sz) s
      else if (ph.vaddr + ph.memsz) % U64 < ph.vaddr then .ret (false, sz) s
      else if ph.vaddr % PGSIZE ≠ 0 then .ret (false, sz) s
      else
        (uvmalloc s pagetable sz ((ph.vaddr + ph.memsz) % U64) (flags2perm ph.flags)).bind
          fun sz1 s1 =>
            if sz1 = 0 then .ret (false, sz) s1
            else
              (loadseg s1 pagetable ph.vaddr ip (ph.off % U32) (ph.filesz % U32)).bind
                fun r s2 =>
                  if r < 0 then .ret (false, sz1) s2
                  else kexecSegments pagetable ip elf n s2 (i + 1) sz1

/-- The slot `i` of the table of regions is marked unused. -/
def clearUsed (p : Proc) (i : Nat) : Proc :=
  { p with mmap_areas := p.mmap_areas.modify (fun m => { m with used := 0 }) i }

/-- The loop of `kexec` over the table of memory-mapped regions, `n` slots from
number `i` on. -/
def kexecMunmap : Nat → Kernel → Proc → Nat → Outcome Proc
  | 0, s, p, _ => .ret p s
  | n + 1, s, p, i =>
    if (p.mmap_areas.getD i ⟨0, 0, 0, 0⟩).used ≠ 0 then
      (do_munmap s p (p.mmap_areas.getD i ⟨0, 0, 0, 0⟩).va_start
          (p.mmap_areas.getD i ⟨0, 0, 0, 0⟩).length).bind fun r s1 =>
        (if r.1 < 0 then
          (uvmunmap s1 r.2.pagetable (r.2.mmap_areas.getD i ⟨0, 0, 0, 0⟩).va_start
              (viaInt ((r.2.mmap_areas.getD i ⟨0, 0, 0, 0⟩).length / PGSIZE)) 1).bind
            fun _ s2 => .ret (clearUsed r.2 i) s2
        else .ret r.2 s1).bind fun p1 s2 => kexecMunmap n s2 (clearUsed p1 i) (i + 1)
    else kexecMunmap n s p (i + 1)

/-- The loop of `kexec` over the argument strings still to push, with the count
`argc`, the stack pointer `sp` and the addresses `ustack` recorded so far: the
final stack pointer and addresses, or nothing after `goto bad`. -/
def kexecArgs (pagetable stackbase : Nat) :
    Kernel → List (List Nat) → Nat → Nat → List Nat → Outcome (Option (Nat × List Nat))
  | s, [], _, sp, ustack => .ret (some (sp, ustack)) s
  | s, arg :: rest, argc, sp, ustack =>
    if argc ≥ MAXARG then .ret none s
    else if (sp + (U64 - (arg.length + 1) % U64)) % U64 -
        (sp + (U64 - (arg.length + 1) % U64)) % U64 % 16 < stackbase then .ret none s
    else
      (copyout s pagetable ((sp + (U64 - (arg.length + 1) % U64)) % U64 -
          (sp + (U64 - (arg.length + 1) % U64)) % U64 % 16) (arg ++ [0])
          ((arg.length + 1) % U64)).bind fun r s1 =>
        if r < 0 then .ret none s1
        else
          kexecArgs pagetable stackbase s1 rest (argc + 1)
            ((sp + (U64 - (arg.length + 1) % U64)) % U64 -
              (sp + (U64 - (arg.length + 1) % U64)) % U64 % 16)
            (ustack ++ [(sp + (U64 - (arg.length + 1) % U64)) % U64 -
              (sp + (U64 - (arg.length + 1) % U64)) % U64 % 16])

/-- The bytes of a `uint64` in memory, least significant first. -/
def bytes64 (v : Nat) : List Nat :=
  (List.range 8).map fun i => v / 256 ^ i % 256

/-- The stack-building step of `kexec` (exec.c:128-171) on the new table
`pagetable` with the image size `sz`: the size to free on `goto bad` or to
commit, and the final stack pointer on success. -/
def kexecStack (s : Kernel) (pagetable sz : Nat) (argv : List (List Nat)) :
    Outcome (Nat × Option Nat) :=
  (uvmalloc s pagetable (PGROUNDUP sz) ((PGROUNDUP sz + (USERSTACK + 1) * PGSIZE) % U64)
      (PTE_R ||| PTE_W ||| PTE_U)).bind fun sz1 s1 =>
    if sz1 = 0 then .ret (PGROUNDUP sz, none) s1
    else
      (uvmclear s1 pagetable ((sz1 + (U64 - (USERSTACK + 1) * PGSIZE)) % U64)).bind fun _ s2 =>
        (kexecArgs pagetable ((sz1 + (U64 - USERSTACK * PGSIZE)) % U64) s2 argv 0 sz1 []).bind
          fun r s3 =>
            match r with
            | none => .ret (sz1, none) s3
            | some (sp, ustack) =>
              if (sp + (U64 - (argv.length + 1) * 8 % U64)) % U64 -
                  (sp + (U64 - (argv.length + 1) * 8 % U64)) % U64 % 16 <
                  (sz1 + (U64 - USERSTACK * PGSIZE)) % U64 then .ret (sz1, none) s3
              else
                (copyout s3 pagetable ((sp + (U64 - (argv.length + 1) * 8 % U64)) % U64 -
                    (sp + (U64 - (argv.length + 1) * 8 % U64)) % U64 % 16)
                    ((ustack ++ [0]).flatMap bytes64) ((argv.length + 1) * 8 % U64)).bind
                  fun r s4 =>
                    if r < 0 then .ret (sz1, none) s4
                    else
                      .ret (sz1, some ((sp + (U64 - (argv.length + 1) * 8 % U64)) % U64 -
                        (sp + (U64 - (argv.length + 1) * 8 % U64)) % U64 % 16)) s4

/-- The scan of `kexec` for the last component of `path`: `last` is the text
after the last `/` seen so far. -/
def lastComponent : List Nat → List Nat → List Nat
  | [], last => last
  | c :: s, last => if c = 47 then lastComponent s s else lastComponent s last

/-- The `bad:` exit of `kexec` once the new page table exists. -/
def kexecBad (E : Env) (s : Kernel) (p : Proc) (pagetable sz : Nat) : Outcome (Int × Proc) :=
  (E.proc_freepagetable s pagetable sz).bind fun _ s1 => .ret (-1, p) s1

/-- The rest of `kexec` from the stack-building step on (exec.c:128-201), for
the new table `pagetable` with the image size `sz`; `oldsz` is the size of the
process read at exec.c:106. -/
def kexecTail (E : Env) (elf : elfhdr) (path : List Nat) (argv : List (List Nat))
    (pagetable sz oldsz : Nat) (s : Kernel) (p : Proc) : Outcome (Int × Proc) :=
  (kexecStack s pagetable sz argv).bind fun st s1 =>
    match st.2 with
    | none => kexecBad E s1 p pagetable st.1
    | some sp =>
      (E.proc_freepagetable { s1 with procsz := st.1 } p.pagetable oldsz).bind fun _ s2 =>
        .ret ((argv.length : Int),
          { p with
            a1 := sp
            name := (lastComponent path path).take (sizeof_name - 1)
            pagetable := pagetable
            epc := elf.entry
            sp := sp }) s2

/-- `kexec(path, argv)` for the process `p`: the return value and the process
afterwards. A string is given by its bytes before the terminating NUL, so
`argv` is the list of the argument strings before the null pointer, and
`strlen` is the length of the list. The number of slots `MAX_MMAP_AREAS`
(proc.h, not among the sources) is the length of `p.mmap_areas`. -/
def kexec (E : Env) (s : Kernel) (p : Proc) (path : List Nat) (argv : List (List Nat)) :
    Outcome (Int × Proc) :=
  match E.namei path with
  | none => .ret (-1, p) s
  | some ip =>
    match ip.elf with
    | none => .ret (-1, p) s
    | some elf =>
      if elf.magic ≠ ELF_MAGIC then .ret (-1, p) s
      else
        (E.proc_pagetable s p).bind fun pagetable s1 =>
          if pagetable = 0 then .ret (-1, p) s1
          else
            (kexecSegments pagetable ip elf elf.phnum s1 0 0).bind fun seg s2 =>
              if seg.1 = false then kexecBad E s2 p pagetable seg.2
              else
                (kexecMunmap p.mmap_areas.length s2 p 0).bind fun p1 s3 =>
                  kexecTail E elf path argv pagetable seg.2 s2.procsz s3
                    { p1 with mmap_hint := 0 }

/-! ## `usertrap` (kernel/trap.c) -/

/-- The bit of `sstatus` that tells a trap from supervisor mode (riscv.h, not
among the sources). -/
def SSTATUS_SPP : Nat := 1 <<< 8

/-- `devintr()`, as far as its return value goes: it depends on `scause` alone;
the device handlers it calls act on state outside `Kernel` and `Proc`. -/
def devintr (scause : Nat) : Nat :=
  if scause &&& 0x8000000000000000 ≠ 0 ∧ scause &&& 0xff = 9 then 1
  else if scause = 0x8000000000000001 then 2
  else 0

/-- `usertrapret()`, as far as `Kernel` and `Proc` go: the return to user mode,
at `p.epc`. -/
def usertrapret (s : Kernel) (p : Proc) : Outcome Proc :=
  .ret p s

/-- `usertrap()` for the process `p`, with the control registers `sstatus`,
`sepc`, `scause` and `stval` as the hardware has set them. The outcome `ret`
is the return to user mode through `usertrapret`. -/
def usertrap (E : Env) (sstatus sepc scause stval : Nat) (s : Kernel) (p : Proc) :
    Outcome Proc :=
  if sstatus &&& SSTATUS_SPP ≠ 0 then .panic "usertrap: not from user mode"
  else
    (if scause = 8 then
      if p.killed ≠ 0 then .panic "some error message"
      else E.syscall s { p with epc := (sepc + 4) % U64 }
    else if scause = 13 ∨ scause = 15 then
      (vmfault s p.pagetable stval (if scause = 15 then 1 else 0)).bind fun mem s1 =>
        if mem = 0 then .ret { p with epc := sepc, killed := 1 } s1
        else .ret { p with epc := sepc } s1
    else if scause = 2 then .ret { p with epc := sepc, killed := 1 } s
    else if devintr scause = 0 then .ret { p with epc := sepc, killed := 1 } s
    else .ret { p with epc := sepc } s).bind fun p1 s1 =>
      if p1.killed ≠ 0 then .panic "some error message"
      else
        (if scause = 1 ∨ scause = 5 then E.yield s1 p1 else .ret p1 s1).bind fun p2 s2 =>
          usertrapret s2 p2

/-- The pages that the valid entries `i, i+1, ...` of the table `T`, `n` of
them, reference, in the order of the entries. -/
def kids (m : Nat → Nat) (T : Nat) : Nat → Nat → List Nat
  | 0, _ => []
  | n + 1, i =>
    (if entry m T i &&& PTE_V ≠ 0 then [PTE2PA (entry m T i)] else []) ++ kids m T n (i + 1)

/-- The table pages of the three-level tree rooted at `pt`, in the order in
which `freewalk` frees them: for each level-1 table its level-0 tables and then
the table itself, and the root last. -/
def tablePages (m : Nat → Nat) (pt : Nat) : List Nat :=
  (kids m pt 512 0).flatMap (fun T => kids m T 512 0 ++ [T]) ++ [pt]

/-! ## The layout of the argument stack -/

/-- Following the specification ("16-byte-aligned stack pointer after each
push"): the stack pointer after the strings of `argv` were pushed downwards
from `sp`, each push followed by rounding down to a multiple of 16. -/
def stackAfter : Nat → List (List Nat) → Nat
  | sp, [] => sp
  | sp, arg :: rest => stackAfter ((sp - (arg.length + 1)) / 16 * 16) rest

/-- The state in which `kexec` pushes onto the new stack: in the owning tree
rooted at `pt` the page at `base` is mapped valid, user-accessible and writable
onto the frame `f`. -/
structure StackPage (pt base f : Nat) (s : Kernel) : Prop where
  inv : Inv 2 s pt
  frames : FrameOK s pt
  aligned : base % PGSIZE = 0
  below : base + PGSIZE ≤ MAXVA
  valid : pteOf s.mem pt base &&& PTE_V ≠ 0
  user : pteOf s.mem pt base &&& PTE_U ≠ 0
  writable : pteOf s.mem pt base &&& PTE_W ≠ 0
  frame : PTE2PA (pteOf s.mem pt base) = f

/-! ## The writes to `ustack` -/

/-- The argument loop of `kexec` and the write after it (exec.c:152-163) with
the array `uint64 ustack[MAXARG]` (exec.c:55) watched: the result of
`kexecArgs`, and, after `idx`, the indices `argc` of the writes
`ustack[argc] = sp` (exec.c:161) in the order they happen, followed by the index
of `ustack[argc] = 0` (exec.c:163) when the loop ends at the null pointer. -/
def kexecArgsIdx (pagetable stackbase : Nat) :
    Kernel → List (List Nat) → Nat → Nat → List Nat → List Nat →
      Outcome (Option (Nat × List Nat) × List Nat)
  | s, [], argc, sp, ustack, idx => .ret (some (sp, ustack), idx ++ [argc]) s
  | s, arg :: rest, argc, sp, ustack, idx =>
    if argc ≥ MAXARG then .ret (none, idx) s
    else if (sp + (U64 - (arg.length + 1) % U64)) % U64 -
        (sp + (U64 - (arg.length + 1) % U64)) % U64 % 16 < stackbase then .ret (none, idx) s
    else
      (copyout s pagetable ((sp + (U64 - (arg.length + 1) % U64)) % U64 -
          (sp + (U64 - (arg.length + 1) % U64)) % U64 % 16) (arg ++ [0])
          ((arg.length + 1) % U64)).bind fun r s1 =>
        if r < 0 then .ret (none, idx) s1
        else
          kexecArgsIdx pagetable stackbase s1 rest (argc + 1)
            ((sp + (U64 - (arg.length + 1) % U64)) % U64 -
              (sp + (U64 - (arg.length + 1) % U64)) % U64 % 16)
            (ustack ++ [(sp + (U64 - (arg.length + 1) % U64)) % U64 -
              (sp + (U64 - (arg.length + 1) % U64)) % U64 % 16])
            (idx ++ [argc])

/-! ## Well-formed address spaces -/

/-- A machine with zeroed memory, a root table at `0x1000` and eight free pages. -/
def demo : Kernel :=
  { mem := fun _ => 0
    freelist := [0x2000, 0x3000, 0x4000, 0x5000, 0x6000, 0x7000, 0x8000, 0x9000]
    procsz := 0x10000 }

/-- The state after mapping two pages at virtual address 0 with all of R, W, X
and U into the empty table of `demo`. -/
def demoMapped : Kernel :=
  (mappages demo 0x1000 0 0x2000 0x80000000 0x1e).final demo

/-- The state after mapping one page with the flag word `0x410`, which has a
bit set above the ten flag bits of an entry. -/
def demoWide : Kernel :=
  (mappages demo 0x1000 0 0x1000 0x80000000 0x410).final demo

/-- The state after `vmfault` has resolved the address `0x2345` in `demo`. -/
def demoFaulted : Kernel :=
  (vmfault demo 0x1000 0x2345 0).final demo

/-- A machine with zeroed memory holding two empty root tables, at `0x1000`
(the parent) and `0x2000` (the child), and seven free pages; the parent has no
page mapped yet. -/
def demoFork : Kernel :=
  { mem := fun _ => 0
    freelist := [0x3000, 0x4000, 0x5000, 0x6000, 0x7000, 0x8000, 0x9000]
    procsz := 0x1000 }

/-- The state after the second page of `demo`, at virtual address `0x1000`, has
been mapped as a text page: readable, executable and user-accessible, but not
writable. -/
def demoText : Kernel :=
  (mappages demo 0x1000 0x1000 0x1000 0x80000000 (PTE_R ||| PTE_X ||| PTE_U)).final demo

/-- The state after the second page of `demo`, at virtual address `0x1000`, has
been mapped as a kernel-only page, readable and writable but not
user-accessible, as the stack guard page is. -/
def demoGuard : Kernel :=
  (mappages demo 0x1000 0x1000 0x1000 0x80000000 (PTE_R ||| PTE_W)).final demo

/-- A machine with zeroed memory, empty root tables at `0x1000` and `0x2000`,
ten free pages and a process of two pages. -/
def demoPair : Kernel :=
  { mem := fun _ => 0
    freelist := [0x3000, 0x4000, 0x5000, 0x6000, 0x7000, 0x8000, 0x9000, 0xa000, 0xb000, 0xc000]
    procsz := 0x2000 }

/-- The state after `vmfault` has filled both pages of the process of
`demoPair` in the table at `0x1000`; six pages are still free. -/
def demoParent : Kernel :=
  (vmfault ((vmfault demoPair 0x1000 0 0).final demoPair) 0x1000 0x1000 0).final demoPair

/-- As `demoPair`, with seven free pages. -/
def demoTight : Kernel :=
  { mem := fun _ => 0
    freelist := [0x3000, 0x4000, 0x5000, 0x6000, 0x7000, 0x8000, 0x9000]
    procsz := 0x2000 }

/-- The state after `vmfault` has filled both pages of the process of
`demoTight` in the table at `0x1000`; three pages are still free, one fewer than
a copy of the two pages into an empty table takes. -/
def demoParentTight : Kernel :=
  (vmfault ((vmfault demoTight 0x1000 0 0).final demoTight) 0x1000 0x1000 0).final demoTight

/-- A machine with zeroed memory, a root table at `0x1000` and three free
pages: enough to map one page into the empty table, not two. -/
def demoThree : Kernel :=
  { mem := fun _ => 0
    freelist := [0x2000, 0x3000, 0x4000]
    procsz := 0x10000 }

/-- A file whose header does not carry the ELF magic number. -/
def demoText0 : Inode :=
  { elf := some ⟨0x12345678, 0, 0, 0⟩
    ph := fun _ => none
    data := fun _ _ => [] }

/-- An executable without segments: a header with the ELF magic number and no
program header. -/
def demoElf : Inode :=
  { elf := some ⟨ELF_MAGIC, 0, 64, 0⟩
    ph := fun _ => none
    data := fun _ _ => [] }

/-- An instance of the outside routines: the path `"t"` names `demoText0`, every
other path `demoElf`; a new page table is an empty root table from `uvmcreate`
and is freed by `uvmfree`; `syscall` and `yield` return at once. -/
def demoEnv : Env :=
  { namei := fun path => if path = [116] then some demoText0 else some demoElf
    proc_pagetable := fun s _ => uvmcreate s
    proc_freepagetable := fun s pagetable sz => uvmfree 3 s pagetable sz
    syscall := fun s p => .ret p s
    yield := fun s p => .ret p s }

/-- A process named `"sh"` on the page table at `0x1000`, with one
memory-mapped region in use. -/
def demoProc : Proc :=
  { pagetable := 0x1000
    name := [115, 104]
    epc := 0x40
    sp := 0x3000
    a1 := 0x2ff0
    mmap_areas := [⟨1, 0x40000000, 0x2000, 7⟩, ⟨0, 0, 0, 0⟩]
    mmap_hint := 0x40002000
    killed := 0 }

/-- The state after `uvmcreate` has taken the first of the three free pages of
`demoThree` as the root of a new page table, at `0x2000`. -/
def demoExecTable : Kernel :=
  (uvmcreate demoThree).final demoThree

/-- The state after the stack-building step of `kexec` has failed on the new
table of `demoExecTable` for want of free pages. -/
def demoExecStack : Kernel :=
  (kexecStack demoExecTable 0x2000 0 [[115, 104]]).final demoExecTable

/-- The state after the new page table of `demoExecStack` has been freed. -/
def demoExecFreed : Kernel :=
  (uvmfree 3 demoExecStack 0x2000 0).final demoExecStack

/-- The state `demoMapped` with the string `"hi"` and its terminating NUL
stored across the boundary of its two mapped pages, from the virtual address
`0xfff` on. -/
def demoString : Kernel :=
  { demoMapped with mem := memmoveIn demoMapped.mem (0x80000000 + 0xfff) [104, 105, 0] 3 }

/-- An executable with a single loadable segment: one page at virtual address 0,
readable and executable, of which the file holds the first four bytes. -/
def demoProg : Inode :=
  { elf := some ⟨ELF_MAGIC, 0, 64, 1⟩
    ph := fun off => if off = 64 then some ⟨ELF_PROG_LOAD, 5, 0x1000, 0, 4, 0x1000⟩ else none
    data := fun off n => if off = 0x1000 then [0x13, 0, 0, 0].take n else [] }

/-- As `demoEnv`, with every path naming `demoProg`. -/
def demoProgEnv : Env :=
  { demoEnv with namei := fun _ => some demoProg }

/-- The state after the process `demoProc` has run `kexec` on `demoProg` with
the arguments `["prog", "a", "bb"]` in the machine `demo`. -/
def demoExecDone : Kernel :=
  (kexec demoProgEnv demo demoProc [112, 114, 111, 103]
    [[112, 114, 111, 103], [97], [98, 98]]).final demo

/-- The state after a second page has been mapped into `demoText`, at the
virtual address `0x40000000`, which lies under another entry of the root table:
`mappages` allocates two interior tables for it. -/
def demoTextMore : Kernel :=
  (mappages demoText 0x1000 0x40000000 0x1000 0x80001000 (PTE_R ||| PTE_W ||| PTE_U)).final
    demoText

end Xv6

/-! # Theorems -/

namespace Xv6

/-! ## Bit-level facts about entries -/

theorem testBit_false_of_lt_of_le {x n i : Nat} (h : x < 2 ^ n) (hi : n ≤ i) :
    x.testBit i = false :=
  Nat.testBit_eq_false_of_lt (lt_of_lt_of_le h (Nat.pow_le_pow_right (by norm_num) hi))

theorem and_pagemask (x : Nat) (h : x < 2 ^ 64) : x &&& (2 ^ 64 - 4096) = x / 4096 * 4096 := by
  apply Nat.eq_of_testBit_eq
  intro i
  have e : (2:Nat)^64 - 4096 = 2^12 * (2^52 - 1) := by norm_num
  rw [e, Nat.testBit_and, Nat.testBit_mul_pow_two, Nat.testBit_two_pow_sub_one,
    show (4096:Nat) = 2^12 by norm_num, Nat.mul_comm (x / 2^12), Nat.testBit_mul_pow_two,
    ← Nat.shiftRight_eq_div_pow, Nat.testBit_shiftRight]
  by_cases h1 : i ≥ 12
  · have e2 : 12 + (i - 12) = i := by omega
    by_cases h2 : i - 12 < 52
    · simp [h1, h2, e2]
    · have : x.testBit i = false := testBit_false_of_lt_of_le h (by omega)
      simp [h1, h2, e2, this]
  · simp [h1]

theorem and_bit (x k : Nat) : x &&& 2 ^ k ≠ 0 ↔ x / 2 ^ k % 2 = 1 := by
  rw [Nat.and_two_pow, Nat.testBit_to_div_mod]
  by_cases h : x / 2 ^ k % 2 = 1 <;> simp [h]

theorem or_bit (x y k : Nat) :
    (x ||| y) / 2 ^ k % 2 = 1 ↔ (x / 2 ^ k % 2 = 1 ∨ y / 2 ^ k % 2 = 1) := by
  have := Nat.testBit_or x y k
  simp only [Nat.testBit_to_div_mod] at this
  by_cases h1 : x / 2 ^ k % 2 = 1 <;> by_cases h2 : y / 2 ^ k % 2 = 1 <;> simp_all

theorem valid_iff (e : Nat) : e &&& PTE_V ≠ 0 ↔ e % 2 = 1 := by
  have := and_bit e 0
  simp [PTE_V]

theorem user_iff (e : Nat) : e &&& PTE_U ≠ 0 ↔ e / 16 % 2 = 1 := by
  have := and_bit e 4
  simpa [PTE_U] using this

theorem write_iff (e : Nat) : e &&& PTE_W ≠ 0 ↔ e / 4 % 2 = 1 := by
  have := and_bit e 2
  simpa [PTE_W] using this

theorem PX_eq (level va : Nat) : PX level va = va / 2 ^ (12 + 9 * level) % 512 := by
  unfold PX PXSHIFT PGSHIFT
  rw [Nat.shiftRight_eq_div_pow]
  exact Nat.and_pow_two_sub_one_eq_mod _ 9

theorem PX_lt (level va : Nat) : PX level va < 512 := by
  rw [PX_eq]; omega

theorem PTE2PA_eq (e : Nat) : PTE2PA e = e / 1024 * 4096 % 2 ^ 64 := by
  unfold PTE2PA U64
  rw [Nat.shiftLeft_eq, Nat.shiftRight_eq_div_pow]

theorem PTE2PA_aligned (e : Nat) : PTE2PA e % PGSIZE = 0 := by
  rw [PTE2PA_eq]; unfold PGSIZE; omega

theorem PA2PTE_eq (pa : Nat) : PA2PTE pa = pa / 4096 * 1024 := by
  unfold PA2PTE
  rw [Nat.shiftLeft_eq, Nat.shiftRight_eq_div_pow]

theorem PA2PTE_or (pa f : Nat) (hf : f < 1024) : PA2PTE pa ||| f = pa / 4096 * 1024 + f := by
  rw [PA2PTE_eq]
  have := Nat.mul_add_lt_is_or (i := 10) (b := f) (by simpa using hf) (pa / 4096)
  rw [Nat.mul_comm] at this
  simpa using this.symm

theorem PGROUNDDOWN_eq (a : Nat) (h : a < U64) : PGROUNDDOWN a = a / 4096 * 4096 := by
  unfold PGROUNDDOWN U64 PGSIZE
  exact and_pagemask a h

theorem PGROUNDUP_eq (a : Nat) :
    PGROUNDUP a = (a + 4095) % 2 ^ 64 / 4096 * 4096 := by
  unfold PGROUNDUP U64 PGSIZE
  exact and_pagemask _ (Nat.mod_lt _ (by norm_num))

/-! ## Loads and stores -/

theorem ld8_lt (m : Nat → Nat) (a : Nat) : ld8 m a < 256 := Nat.mod_lt _ (by norm_num)

theorem ld64_lt (m : Nat → Nat) (a : Nat) : ld64 m a < 2 ^ 64 := by
  have h0 := ld8_lt m a
  have h1 := ld8_lt m (a + 1)
  have h2 := ld8_lt m (a + 2)
  have h3 := ld8_lt m (a + 3)
  have h4 := ld8_lt m (a + 4)
  have h5 := ld8_lt m (a + 5)
  have h6 := ld8_lt m (a + 6)
  have h7 := ld8_lt m (a + 7)
  unfold ld64
  omega

theorem ld64_congr {m n : Nat → Nat} {a : Nat} (h : ∀ x, a ≤ x → x < a + 8 → n x = m x) :
    ld64 n a = ld64 m a := by
  unfold ld64 ld8
  rw [h a (by omega) (by omega), h (a + 1) (by omega) (by omega), h (a + 2) (by omega) (by omega),
    h (a + 3) (by omega) (by omega), h (a + 4) (by omega) (by omega),
    h (a + 5) (by omega) (by omega), h (a + 6) (by omega) (by omega),
    h (a + 7) (by omega) (by omega)]

theorem st64_out (m : Nat → Nat) (a v x : Nat) (h : x < a ∨ a + 8 ≤ x) : st64 m a v x = m x := by
  unfold st64
  rw [if_neg (by omega)]

theorem memset_out (m : Nat → Nat) (p c n x : Nat) (h : x < p ∨ p + n ≤ x) :
    memset m p c n x = m x := by
  unfold memset
  rw [if_neg (by omega)]

theorem memset_in (m : Nat → Nat) (p c n x : Nat) (h1 : p ≤ x) (h2 : x < p + n) :
    memset m p c n x = c % 256 := by
  unfold memset
  rw [if_pos ⟨h1, h2⟩]

theorem ld64_st64_same (m : Nat → Nat) (a v : Nat) (h : v < 2 ^ 64) :
    ld64 (st64 m a v) a = v := by
  unfold ld64 ld8 st64
  simp only [le_refl, Nat.le_add_right, Nat.lt_add_one, Nat.add_lt_add_iff_left, Nat.reduceLT,
    Nat.lt_add_right_iff_pos, Nat.ofNat_pos, and_self, if_true, Nat.add_sub_cancel_left,
    Nat.sub_self, pow_zero, Nat.div_one, Nat.mod_mod, pow_one]
  norm_num
  omega

theorem ld64_st64_disj (m : Nat → Nat) (a v b : Nat) (h : b + 8 ≤ a ∨ a + 8 ≤ b) :
    ld64 (st64 m a v) b = ld64 m b :=
  ld64_congr fun x h1 h2 => st64_out m a v x (by omega)

theorem ld64_memset_disj (m : Nat → Nat) (p c n b : Nat) (h : b + 8 ≤ p ∨ p + n ≤ b) :
    ld64 (memset m p c n) b = ld64 m b :=
  ld64_congr fun x h1 h2 => memset_out m p c n x (by omega)

theorem ld64_memset_zero (m : Nat → Nat) (p n b : Nat) (h1 : p ≤ b) (h2 : b + 8 ≤ p + n) :
    ld64 (memset m p 0 n) b = 0 := by
  unfold ld64 ld8
  rw [memset_in m p 0 n b (by omega) (by omega), memset_in m p 0 n (b + 1) (by omega) (by omega),
    memset_in m p 0 n (b + 2) (by omega) (by omega), memset_in m p 0 n (b + 3) (by omega) (by omega),
    memset_in m p 0 n (b + 4) (by omega) (by omega), memset_in m p 0 n (b + 5) (by omega) (by omega),
    memset_in m p 0 n (b + 6) (by omega) (by omega), memset_in m p 0 n (b + 7) (by omega) (by omega)]

/-- Two entry slots of page-aligned tables are equal or do not overlap. -/
theorem slot_disj {T U i j : Nat} (hT : T % PGSIZE = 0) (hU : U % PGSIZE = 0)
    (hi : i < 512) (hj : j < 512) (h : ¬ (T = U ∧ i = j)) :
    T + 8 * i + 8 ≤ U + 8 * j ∨ U + 8 * j + 8 ≤ T + 8 * i := by
  unfold PGSIZE at hT hU
  omega

/-- An entry slot of a page-aligned table lies inside the table's page. -/
theorem slot_in_page {T i : Nat} (hi : i < 512) :
    T ≤ T + 8 * i ∧ T + 8 * i + 8 ≤ T + PGSIZE := by
  unfold PGSIZE
  omega

/-- Distinct page-aligned pages do not overlap. -/
theorem page_disj {P Q : Nat} (hP : P % PGSIZE = 0) (hQ : Q % PGSIZE = 0) (h : P ≠ Q) :
    P + PGSIZE ≤ Q ∨ Q + PGSIZE ≤ P := by
  unfold PGSIZE at *
  omega

/-! ## The table tree -/

theorem link_valid (p : Nat) : (PA2PTE p ||| PTE_V) &&& PTE_V ≠ 0 := by
  rw [valid_iff]
  have := (or_bit (PA2PTE p) PTE_V 0).2 (Or.inr (by decide))
  simpa using this

theorem link_lt (p : Nat) (h : p < U64) : PA2PTE p ||| PTE_V < 2 ^ 64 := by
  rw [PA2PTE_or p PTE_V (by decide)]
  unfold U64 at h
  unfold PTE_V
  norm_num
  omega

theorem link_PTE2PA (p : Nat) (h : p < U64) (ha : p % PGSIZE = 0) :
    PTE2PA (PA2PTE p ||| PTE_V) = p := by
  rw [PA2PTE_or p PTE_V (by decide), PTE2PA_eq]
  unfold U64 at h
  unfold PGSIZE at ha
  unfold PTE_V
  norm_num
  omega

theorem isTable_aligned {m : Nat → Nat} {pt : Nat} (h : pt % PGSIZE = 0) :
    ∀ d p, IsTable m pt d p → p % PGSIZE = 0
  | 0, p, hp => by
    have : p = pt := hp
    rw [this]; exact h
  | _ + 1, _, ⟨_, _, _, _, _, e⟩ => e ▸ PTE2PA_aligned _

theorem isTable_congr {m n : Nat → Nat} {pt : Nat} (k : Nat)
    (h : ∀ d < k, ∀ T, IsTable m pt d T → ∀ i < 512, entry n T i = entry m T i) :
    ∀ d ≤ k, ∀ T, IsTable n pt d T ↔ IsTable m pt d T := by
  intro d
  induction d with
  | zero => intro _ T; exact Iff.rfl
  | succ d ih =>
    intro hd T
    constructor
    · rintro ⟨q, i, hq, hi, hv, e⟩
      have hq1 := (ih (by omega) q).1 hq
      have e1 := h d (by omega) q hq1 i hi
      exact ⟨q, i, hq1, hi, e1 ▸ hv, e1 ▸ e⟩
    · rintro ⟨q, i, hq, hi, hv, e⟩
      have e1 := h d (by omega) q hq i hi
      exact ⟨q, i, (ih (by omega) q).2 hq, hi, e1.symm ▸ hv, e1.symm ▸ e⟩

theorem Tree.level_unique {D : Nat} {m : Nat → Nat} {pt : Nat} (I : Tree D m pt) :
    ∀ d e p, d ≤ D → e ≤ D → IsTable m pt d p → IsTable m pt e p → d = e := by
  intro d
  induction d with
  | zero =>
    intro e p _ he hp hq
    cases e with
    | zero => rfl
    | succ e =>
      obtain ⟨q, i, hq, hi, hv, eq⟩ := hq
      have : p = pt := hp
      exact absurd (eq.symm.trans this) (I.no_root_child e (by omega) q i hq hi hv)
  | succ d ih =>
    intro e p hd he hp hq
    cases e with
    | zero =>
      obtain ⟨q, i, hq1, hi, hv, eq⟩ := hp
      have : p = pt := hq
      exact absurd (eq.symm.trans this) (I.no_root_child d (by omega) q i hq1 hi hv)
    | succ e =>
      obtain ⟨q, i, hq1, hi, hv, eq⟩ := hp
      obtain ⟨r, j, hr1, hj, hw, eq2⟩ := hq
      have := I.unique_parent d (by omega) e (by omega) q r i j hq1 hr1 hi hj hv hw
        (eq.symm.trans eq2)
      rw [ih e q (by omega) (by omega) hq1 (this.1 ▸ hr1)]

theorem Tree.table_aligned {D : Nat} {m : Nat → Nat} {pt : Nat} (I : Tree D m pt) {d p : Nat}
    (h : IsTable m pt d p) : p % PGSIZE = 0 :=
  isTable_aligned I.root_aligned d p h

/-! ## Linking a fresh table page -/

theorem entry_link_self (m : Nat → Nat) (q i p : Nat) (hp : p < U64) :
    entry (linkTable m q i p) q i = PA2PTE p ||| PTE_V :=
  ld64_st64_same _ _ _ (link_lt p hp)

theorem entry_link_new (m : Nat → Nat) {q i p j : Nat} (hq : q % PGSIZE = 0)
    (hp : p % PGSIZE = 0) (hi : i < 512) (hj : j < 512) (hne : q ≠ p) :
    entry (linkTable m q i p) p j = 0 := by
  unfold entry linkTable
  rw [ld64_st64_disj _ _ _ _ (by
    have := slot_disj hp hq hj hi (fun h => hne h.1.symm)
    omega)]
  have := slot_in_page (T := p) hj
  exact ld64_memset_zero _ _ _ _ this.1 this.2

theorem entry_link_other (m : Nat → Nat) {q i p T j : Nat} (hq : q % PGSIZE = 0)
    (hp : p % PGSIZE = 0) (hT : T % PGSIZE = 0) (hi : i < 512) (hj : j < 512)
    (hne : T ≠ p) (hslot : ¬ (T = q ∧ j = i)) :
    entry (linkTable m q i p) T j = entry m T j := by
  unfold entry linkTable
  rw [ld64_st64_disj _ _ _ _ (by
    have := slot_disj hT hq hj hi hslot
    omega)]
  have h1 := slot_in_page (T := T) hj
  have h2 := page_disj hT hp hne
  exact ld64_memset_disj _ _ _ _ _ (by omega)

theorem linkTable_footprint (m : Nat → Nat) {q i p x : Nat} (hi : i < 512)
    (h : linkTable m q i p x ≠ m x) :
    (p ≤ x ∧ x < p + PGSIZE) ∨ (q ≤ x ∧ x < q + PGSIZE) := by
  by_contra hc
  apply h
  have := slot_in_page (T := q) hi
  unfold linkTable
  rw [st64_out _ _ _ _ (by omega), memset_out _ _ _ _ _ (by omega)]

theorem zero_not_valid : ¬ ((0 : Nat) &&& PTE_V ≠ 0) := by simp

theorem LinkStep.p_mem {D : Nat} {s : Kernel} {pt d q i p : Nat} {rest : List Nat}
    (L : LinkStep D s pt d q i p rest) : p ∈ s.freelist := by
  rw [L.hfree]; exact List.mem_cons_self _ _

theorem LinkStep.p_aligned {D : Nat} {s : Kernel} {pt d q i p : Nat} {rest : List Nat}
    (L : LinkStep D s pt d q i p rest) : p % PGSIZE = 0 :=
  (L.inv.free_aligned p L.p_mem).1

theorem LinkStep.p_lt {D : Nat} {s : Kernel} {pt d q i p : Nat} {rest : List Nat}
    (L : LinkStep D s pt d q i p rest) : p < U64 :=
  (L.inv.free_aligned p L.p_mem).2.2

theorem LinkStep.not_table {D : Nat} {s : Kernel} {pt d q i p : Nat} {rest : List Nat}
    (L : LinkStep D s pt d q i p rest) {e T : Nat} (he : e ≤ D) (hT : IsTable s.mem pt e T) :
    T ≠ p :=
  fun h => L.inv.free_fresh e he T hT (h ▸ L.p_mem)

theorem LinkStep.entry_other {D : Nat} {s : Kernel} {pt d q i p : Nat} {rest : List Nat}
    (L : LinkStep D s pt d q i p rest) {e T j : Nat} (he : e ≤ D) (hT : IsTable s.mem pt e T)
    (hj : j < 512) (hslot : ¬ (T = q ∧ j = i)) :
    entry (linkTable s.mem q i p) T j = entry s.mem T j :=
  entry_link_other s.mem (L.inv.tree.table_aligned L.hq) L.p_aligned
    (L.inv.tree.table_aligned hT) L.hi hj (L.not_table he hT) hslot

theorem LinkStep.entry_new {D : Nat} {s : Kernel} {pt d q i p : Nat} {rest : List Nat}
    (L : LinkStep D s pt d q i p rest) {j : Nat} (hj : j < 512) :
    entry (linkTable s.mem q i p) p j = 0 :=
  entry_link_new s.mem (L.inv.tree.table_aligned L.hq) L.p_aligned L.hi hj
    (L.not_table (Nat.le_of_lt L.hd) L.hq)

theorem LinkStep.isTable_iff {D : Nat} {s : Kernel} {pt d q i p : Nat} {rest : List Nat}
    (L : LinkStep D s pt d q i p rest) :
    ∀ e ≤ D, ∀ T, IsTable (linkTable s.mem q i p) pt e T ↔
      (IsTable s.mem pt e T ∨ (e = d + 1 ∧ T = p)) := by
  intro e
  induction e with
  | zero =>
    intro _ T
    constructor
    · intro h; exact Or.inl h
    · rintro (h | ⟨h, _⟩)
      · exact h
      · omega
  | succ e ih =>
    intro he T
    constructor
    · rintro ⟨r, j, hr, hj, hv, eq⟩
      rcases (ih (by omega) r).1 hr with hr1 | ⟨_, hr1⟩
      · by_cases hs : r = q ∧ j = i
        · obtain ⟨rfl, rfl⟩ := hs
          rw [entry_link_self _ _ _ _ L.p_lt, link_PTE2PA p L.p_lt L.p_aligned] at eq
          have := L.inv.tree.level_unique e d r (by omega) (Nat.le_of_lt L.hd) hr1 L.hq
          exact Or.inr ⟨by omega, eq⟩
        · have e1 := L.entry_other (by omega : e ≤ D) hr1 hj hs
          exact Or.inl ⟨r, j, hr1, hj, e1 ▸ hv, e1 ▸ eq⟩
      · rw [hr1, L.entry_new hj] at hv
        exact absurd hv zero_not_valid
    · rintro (⟨r, j, hr, hj, hv, eq⟩ | ⟨h1, h2⟩)
      · have hs : ¬ (r = q ∧ j = i) := by
          rintro ⟨rfl, rfl⟩
          exact L.hinv hv
        have e1 := L.entry_other (by omega : e ≤ D) hr hj hs
        exact ⟨r, j, (ih (by omega) r).2 (Or.inl hr), hj, e1.symm ▸ hv, e1.symm ▸ eq⟩
      · have hde : e = d := by omega
        subst hde
        refine ⟨q, i, (ih (by omega) q).2 (Or.inl L.hq), L.hi, ?_, ?_⟩
        · rw [entry_link_self _ _ _ _ L.p_lt]; exact link_valid p
        · rw [entry_link_self _ _ _ _ L.p_lt, link_PTE2PA p L.p_lt L.p_aligned, h2]

/-- What a valid entry of an old table looks like after the link: it is the
new link itself, or it is unchanged and its child is an old page. -/
theorem LinkStep.classify {D : Nat} {s : Kernel} {pt d q i p : Nat} {rest : List Nat}
    (L : LinkStep D s pt d q i p rest) {e r j : Nat} (he : e < D)
    (hr : IsTable (linkTable s.mem q i p) pt e r) (hj : j < 512)
    (hv : entry (linkTable s.mem q i p) r j &&& PTE_V ≠ 0) :
    (r = q ∧ j = i ∧ PTE2PA (entry (linkTable s.mem q i p) r j) = p) ∨
    (IsTable s.mem pt e r ∧ entry (linkTable s.mem q i p) r j = entry s.mem r j ∧
      entry s.mem r j &&& PTE_V ≠ 0 ∧ PTE2PA (entry s.mem r j) ≠ p) := by
  rcases (L.isTable_iff e (Nat.le_of_lt he) r).1 hr with hr1 | ⟨_, hr1⟩
  · by_cases hs : r = q ∧ j = i
    · obtain ⟨rfl, rfl⟩ := hs
      left
      refine ⟨rfl, rfl, ?_⟩
      rw [entry_link_self _ _ _ _ L.p_lt, link_PTE2PA p L.p_lt L.p_aligned]
    · right
      have e1 := L.entry_other (Nat.le_of_lt he) hr1 hj hs
      rw [e1] at hv
      exact ⟨hr1, e1, hv, L.not_table (e := e + 1) he ⟨r, j, hr1, hj, hv, rfl⟩⟩
  · rw [hr1, L.entry_new hj] at hv
    exact absurd hv zero_not_valid

theorem LinkStep.link_tree {D : Nat} {s : Kernel} {pt d q i p : Nat} {rest : List Nat}
    (L : LinkStep D s pt d q i p rest) : Tree D (linkTable s.mem q i p) pt where
  root_aligned := L.inv.tree.root_aligned
  nonzero := by
    intro e he T hT
    rcases (L.isTable_iff (e + 1) he T).1 hT with h | ⟨_, h⟩
    · exact L.inv.tree.nonzero e he T h
    · rw [h]; exact (L.inv.free_aligned p L.p_mem).2.1
  no_root_child := by
    intro e he r j hr hj hv
    rcases L.classify he hr hj hv with ⟨_, _, h⟩ | ⟨hr1, e1, hv1, _⟩
    · rw [h]
      exact fun hp => L.not_table (Nat.zero_le D) (show IsTable s.mem pt 0 pt from rfl) hp.symm
    · rw [e1]; exact L.inv.tree.no_root_child e he r j hr1 hj hv1
  unique_parent := by
    intro e1 he1 e2 he2 r1 r2 j1 j2 hr1 hr2 hj1 hj2 hv1 hv2 heq
    rcases L.classify he1 hr1 hj1 hv1 with ⟨a1, a2, a3⟩ | ⟨b1, b2, b3, b4⟩
    · rcases L.classify he2 hr2 hj2 hv2 with ⟨c1, c2, _⟩ | ⟨_, c2, _, c4⟩
      · exact ⟨a1.trans c1.symm, a2.trans c2.symm⟩
      · rw [a3, c2] at heq
        exact absurd heq.symm c4
    · rcases L.classify he2 hr2 hj2 hv2 with ⟨_, _, c3⟩ | ⟨c1, c2, c3, _⟩
      · rw [c3, b2] at heq
        exact absurd heq b4
      · rw [b2, c2] at heq
        exact L.inv.tree.unique_parent e1 he1 e2 he2 r1 r2 j1 j2 b1 c1 hj1 hj2 b3 c3 heq

theorem LinkStep.rest_nodup {D : Nat} {s : Kernel} {pt d q i p : Nat} {rest : List Nat}
    (L : LinkStep D s pt d q i p rest) : p ∉ rest ∧ rest.Nodup := by
  have := L.inv.free_nodup
  rw [L.hfree] at this
  exact List.nodup_cons.1 this

theorem LinkStep.inv_post {D : Nat} {s : Kernel} {pt d q i p : Nat} {rest : List Nat}
    (L : LinkStep D s pt d q i p rest) :
    Inv D { s with mem := linkTable s.mem q i p, freelist := rest } pt where
  tree := L.link_tree
  free_nodup := L.rest_nodup.2
  free_aligned := by
    intro x hx
    exact L.inv.free_aligned x (by rw [L.hfree]; exact List.mem_cons_of_mem _ hx)
  free_fresh := by
    intro e he T hT hx
    rcases (L.isTable_iff e he T).1 hT with h | ⟨_, h⟩
    · exact L.inv.free_fresh e he T h (by rw [L.hfree]; exact List.mem_cons_of_mem _ hx)
    · exact L.rest_nodup.1 (h ▸ hx)

/-! ## The leaf view -/

theorem pteFrom_zero (m : Nat → Nat) (va T : Nat) : pteFrom m va 0 T = entry m T (PX 0 va) := rfl

theorem pteFrom_succ (m : Nat → Nat) (va level T : Nat) :
    pteFrom m va (level + 1) T =
      if entry m T (PX (level + 1) va) &&& PTE_V ≠ 0 then
        pteFrom m va level (PTE2PA (entry m T (PX (level + 1) va)))
      else 0 := by
  unfold pteFrom
  rw [lookupFrom]
  by_cases h : entry m T (PX (level + 1) va) &&& PTE_V ≠ 0
  · rw [if_pos h, if_pos h]
  · rw [if_neg h, if_neg h]

theorem pteFrom_empty (m : Nat → Nat) (va T : Nat) (h : ∀ j < 512, entry m T j = 0) :
    ∀ level, pteFrom m va level T = 0
  | 0 => by rw [pteFrom_zero, h _ (PX_lt 0 va)]
  | level + 1 => by
    rw [pteFrom_succ, h _ (PX_lt _ va), if_neg zero_not_valid]

theorem LinkStep.pteFrom_eq {D : Nat} {s : Kernel} {pt d q i p : Nat} {rest : List Nat}
    (L : LinkStep D s pt d q i p rest) (hD : 2 ≤ D) (hd2 : d < 2) (va : Nat) :
    ∀ level e T, e + level = 2 → IsTable s.mem pt e T →
      pteFrom (linkTable s.mem q i p) va level T = pteFrom s.mem va level T := by
  intro level
  induction level with
  | zero =>
    intro e T he hT
    rw [pteFrom_zero, pteFrom_zero]
    apply L.entry_other (by omega : e ≤ D) hT (PX_lt 0 va)
    rintro ⟨rfl, _⟩
    have := L.inv.tree.level_unique e d T (by omega) (by omega) hT L.hq
    omega
  | succ level ih =>
    intro e T he hT
    rw [pteFrom_succ, pteFrom_succ]
    by_cases hs : T = q ∧ PX (level + 1) va = i
    · obtain ⟨rfl, hs2⟩ := hs
      rw [hs2, if_neg L.hinv, entry_link_self _ _ _ _ L.p_lt, if_pos (link_valid p),
        link_PTE2PA p L.p_lt L.p_aligned]
      exact pteFrom_empty _ _ _ (fun j hj => L.entry_new hj) level
    · rw [L.entry_other (by omega : e ≤ D) hT (PX_lt _ va) hs]
      split
      · rename_i hv
        exact ih (e + 1) _ (by omega) ⟨T, _, hT, PX_lt _ va, hv, rfl⟩
      · rfl

theorem LinkStep.lookup_mono {D : Nat} {s : Kernel} {pt d q i p : Nat} {rest : List Nat}
    (L : LinkStep D s pt d q i p rest) (hD : 2 ≤ D) (va : Nat) :
    ∀ level e T x, e + level = 2 → IsTable s.mem pt e T →
      lookupFrom s.mem va level T = some x →
      lookupFrom (linkTable s.mem q i p) va level T = some x := by
  intro level
  induction level with
  | zero => intro e T x _ _ h; exact h
  | succ level ih =>
    intro e T x he hT h
    rw [lookupFrom] at h ⊢
    split at h
    · rename_i hv
      have hs : ¬ (T = q ∧ PX (level + 1) va = i) := by
        rintro ⟨rfl, rfl⟩
        exact L.hinv hv
      rw [L.entry_other (by omega : e ≤ D) hT (PX_lt _ va) hs, if_pos hv]
      exact ih (e + 1) _ x (by omega) ⟨T, _, hT, PX_lt _ va, hv, rfl⟩ h
    · cases h

/-! ## `walk` -/

theorem walkLevels_valid {va alloc level : Nat} {s : Kernel} {T : Nat}
    (hv : entry s.mem T (PX (level + 1) va) &&& PTE_V ≠ 0) :
    walkLevels va alloc (level + 1) s T =
      walkLevels va alloc level s (PTE2PA (entry s.mem T (PX (level + 1) va))) := by
  unfold entry at hv
  rw [walkLevels]
  simp only [hv, ne_eq, not_false_eq_true, if_true]
  rfl

theorem walkLevels_noalloc {va level : Nat} {s : Kernel} {T : Nat}
    (hv : ¬ (entry s.mem T (PX (level + 1) va) &&& PTE_V ≠ 0)) :
    walkLevels va 0 (level + 1) s T = .ret none s := by
  unfold entry at hv
  rw [walkLevels]
  simp only [hv, if_false, if_true]

theorem walkLevels_nomem {va alloc level : Nat} {s : Kernel} {T : Nat}
    (hv : ¬ (entry s.mem T (PX (level + 1) va) &&& PTE_V ≠ 0)) (ha : alloc ≠ 0)
    (hf : s.freelist = []) :
    walkLevels va alloc (level + 1) s T = .ret none s := by
  unfold entry at hv
  rw [walkLevels]
  simp only [hv, if_false, ha, kalloc, hf]

theorem walkLevels_link {va alloc level : Nat} {s : Kernel} {T p : Nat} {rest : List Nat}
    (hv : ¬ (entry s.mem T (PX (level + 1) va) &&& PTE_V ≠ 0)) (ha : alloc ≠ 0)
    (hf : s.freelist = p :: rest) :
    walkLevels va alloc (level + 1) s T =
      walkLevels va alloc level
        { s with mem := linkTable s.mem T (PX (level + 1) va) p, freelist := rest } p := by
  unfold entry at hv
  rw [walkLevels]
  simp only [hv, if_false, ha, kalloc, hf]
  rfl

theorem missing_empty (m : Nat → Nat) (va T : Nat) (h : ∀ j < 512, entry m T j = 0) :
    ∀ level, missing m va level T = level
  | 0 => rfl
  | level + 1 => by
    rw [missing, h _ (PX_lt _ va), if_neg zero_not_valid]

theorem walkSpec_done {D pt va T e : Nat} {s : Kernel} (I : Inv D s pt) :
    WalkSpec D pt va 0 T e s (some (T + 8 * PX 0 va)) s [] where
  inv := I
  procsz := rfl
  free := rfl
  tables_old := fun _ _ _ h => h
  tables_new := fun _ _ _ h => Or.inl h
  used_tables := fun _ h => absurd h (List.not_mem_nil _)
  leaf := fun _ _ _ _ _ _ => rfl
  above := fun _ _ _ _ _ _ => rfl
  lookup_mono := fun _ _ _ _ _ _ _ h => h
  foot := fun _ h => absurd rfl h
  found := fun a h => by
    cases h
    exact ⟨rfl, rfl⟩
  failed := fun h => by cases h

theorem walkSpec_nomem {D pt va level T e : Nat} {s : Kernel} (I : Inv D s pt)
    (hv : ¬ (entry s.mem T (PX (level + 1) va) &&& PTE_V ≠ 0)) (hf : s.freelist = []) :
    WalkSpec D pt va (level + 1) T e s none s [] where
  inv := I
  procsz := rfl
  free := rfl
  tables_old := fun _ _ _ h => h
  tables_new := fun _ _ _ h => Or.inl h
  used_tables := fun _ h => absurd h (List.not_mem_nil _)
  leaf := fun _ _ _ _ _ _ => rfl
  above := fun _ _ _ _ _ _ => rfl
  lookup_mono := fun _ _ _ _ _ _ _ h => h
  foot := fun _ h => absurd rfl h
  found := fun a h => by cases h
  failed := fun _ => by
    rw [missing, if_neg hv, hf]
    exact ⟨rfl, Nat.succ_pos _⟩

theorem walkSpec_valid {D pt va level T e : Nat} {s t : Kernel} {r : Option Nat}
    {used : List Nat} (hT : IsTable s.mem pt e T)
    (hv : entry s.mem T (PX (level + 1) va) &&& PTE_V ≠ 0)
    (W : WalkSpec D pt va level (PTE2PA (entry s.mem T (PX (level + 1) va))) (e + 1) s r t used) :
    WalkSpec D pt va (level + 1) T e s r t used where
  inv := W.inv
  procsz := W.procsz
  free := W.free
  tables_old := W.tables_old
  tables_new := fun d P hd h => by
    rcases W.tables_new d P hd h with h1 | ⟨h1, h2, h3⟩
    · exact Or.inl h1
    · exact Or.inr ⟨h1, by omega, h3⟩
  used_tables := fun P hP => by
    obtain ⟨d, h1, h2, h3⟩ := W.used_tables P hP
    exact ⟨d, by omega, h2, h3⟩
  leaf := W.leaf
  above := fun d T' j hd h hj => W.above d T' j (by omega) h hj
  lookup_mono := W.lookup_mono
  foot := fun x hx => by
    obtain ⟨P, h1 | ⟨d, h1, h2, h3⟩, hP⟩ := W.foot x hx
    · exact ⟨P, Or.inl h1, hP⟩
    · exact ⟨P, Or.inr ⟨d, by omega, h2, h3⟩, hP⟩
  found := fun a ha => by
    obtain ⟨h1, h2⟩ := W.found a ha
    have e1 := W.above e T (PX (level + 1) va) (Nat.lt_succ_self e) hT (PX_lt _ va)
    constructor
    · rw [lookupFrom, e1, if_pos hv]; exact h1
    · rw [missing, if_pos hv]; exact h2
  failed := fun hr => by
    obtain ⟨h1, h2⟩ := W.failed hr
    refine ⟨h1, ?_⟩
    rw [missing, if_pos hv]; exact h2

theorem walkSpec_link {D pt va level T e p : Nat} {rest : List Nat} {s t : Kernel}
    {r : Option Nat} {used : List Nat} (hD : 2 ≤ D) (he : e < 2)
    (L : LinkStep D s pt e T (PX (level + 1) va) p rest)
    (W : WalkSpec D pt va level p (e + 1)
      { s with mem := linkTable s.mem T (PX (level + 1) va) p, freelist := rest } r t used) :
    WalkSpec D pt va (level + 1) T e s r t (p :: used) where
  inv := W.inv
  procsz := W.procsz
  free := by
    have := W.free
    simp only at this
    rw [L.hfree, this]; rfl
  tables_old := fun d P hd h =>
    W.tables_old d P hd ((L.isTable_iff d hd P).2 (Or.inl h))
  tables_new := fun d P hd h => by
    rcases W.tables_new d P hd h with h1 | ⟨h1, h2, h3⟩
    · rcases (L.isTable_iff d hd P).1 h1 with h4 | ⟨h4, h5⟩
      · exact Or.inl h4
      · exact Or.inr ⟨h5 ▸ List.mem_cons_self _ _, by omega, by omega⟩
    · exact Or.inr ⟨List.mem_cons_of_mem _ h1, by omega, h3⟩
  used_tables := fun P hP => by
    rcases List.mem_cons.1 hP with h | h
    · refine ⟨e + 1, Nat.lt_succ_self e, by omega, ?_⟩
      rw [h]
      exact W.tables_old (e + 1) p (by omega) ((L.isTable_iff (e + 1) (by omega) p).2 (Or.inr ⟨rfl, rfl⟩))
    · obtain ⟨d, h1, h2, h3⟩ := W.used_tables P h
      exact ⟨d, by omega, h2, h3⟩
  leaf := fun va' level' d T' hd hT' => by
    rw [W.leaf va' level' d T' hd ((L.isTable_iff d (by omega) T').2 (Or.inl hT'))]
    exact L.pteFrom_eq hD he va' level' d T' hd hT'
  above := fun d T' j hd hT' hj => by
    rw [W.above d T' j (by omega) ((L.isTable_iff d (by omega) T').2 (Or.inl hT')) hj]
    apply L.entry_other (by omega : d ≤ D) hT' hj
    rintro ⟨rfl, _⟩
    have := L.inv.tree.level_unique d e T' (by omega) (by omega) hT' L.hq
    omega
  lookup_mono := fun va' level' d T' x hd hT' hx =>
    W.lookup_mono va' level' d T' x hd ((L.isTable_iff d (by omega) T').2 (Or.inl hT'))
      (L.lookup_mono hD va' level' d T' x hd hT' hx)
  foot := fun x hx => by
    by_cases h1 : t.mem x = linkTable s.mem T (PX (level + 1) va) p x
    · rw [h1] at hx
      rcases linkTable_footprint s.mem L.hi hx with h | h
      · exact ⟨p, Or.inl (List.mem_cons_self _ _), h⟩
      · exact ⟨T, Or.inr ⟨e, le_refl e, he, L.hq⟩, h⟩
    · obtain ⟨P, h2 | ⟨d, h2, h3, h4⟩, hP⟩ := W.foot x h1
      · exact ⟨P, Or.inl (List.mem_cons_of_mem _ h2), hP⟩
      · rcases (L.isTable_iff d (by omega) P).1 h4 with h5 | ⟨_, h5⟩
        · exact ⟨P, Or.inr ⟨d, by omega, h3, h5⟩, hP⟩
        · exact ⟨P, Or.inl (h5 ▸ List.mem_cons_self _ _), hP⟩
  found := fun a ha => by
    obtain ⟨h1, h2⟩ := W.found a ha
    have e1 := W.above e T (PX (level + 1) va) (Nat.lt_succ_self e)
      ((L.isTable_iff e (by omega) T).2 (Or.inl L.hq)) (PX_lt _ va)
    simp only at e1
    constructor
    · rw [lookupFrom, e1, entry_link_self _ _ _ _ L.p_lt, if_pos (link_valid p),
        link_PTE2PA p L.p_lt L.p_aligned]
      exact h1
    · rw [missing, if_neg L.hinv, List.length_cons, h2]
      simp only
      rw [missing_empty _ va p (fun j hj => L.entry_new hj) level]
  failed := fun hr => by
    obtain ⟨h1, h2⟩ := W.failed hr
    refine ⟨h1, ?_⟩
    simp only at h2
    rw [missing_empty _ va p (fun j hj => L.entry_new hj) level] at h2
    rw [missing, if_neg L.hinv, L.hfree, List.length_cons]
    omega

/-- The specification of `walk` with allocation, by induction on the level. -/
theorem walkLevels_spec {D pt va alloc : Nat} (hD : 2 ≤ D) (ha : alloc ≠ 0) :
    ∀ level (s : Kernel) (T e : Nat), e + level = 2 → Inv D s pt → IsTable s.mem pt e T →
      ∃ r t used, walkLevels va alloc level s T = .ret r t ∧
        WalkSpec D pt va level T e s r t used := by
  intro level
  induction level with
  | zero =>
    intro s T e _ I _
    exact ⟨_, _, _, rfl, walkSpec_done I⟩
  | succ level ih =>
    intro s T e he I hT
    by_cases hv : entry s.mem T (PX (level + 1) va) &&& PTE_V ≠ 0
    · obtain ⟨r, t, used, h1, h2⟩ := ih s (PTE2PA (entry s.mem T (PX (level + 1) va))) (e + 1)
        (by omega) I ⟨T, _, hT, PX_lt _ va, hv, rfl⟩
      exact ⟨r, t, used, (walkLevels_valid hv).trans h1, walkSpec_valid hT hv h2⟩
    · cases hf : s.freelist with
      | nil => exact ⟨_, _, _, walkLevels_nomem hv ha hf, walkSpec_nomem I hv hf⟩
      | cons p rest =>
        have L : LinkStep D s pt e T (PX (level + 1) va) p rest :=
          ⟨I, by omega, hT, PX_lt _ va, hv, hf⟩
        obtain ⟨r, t, used, h1, h2⟩ := ih _ p (e + 1) (by omega) L.inv_post
          ((L.isTable_iff (e + 1) (by omega) p).2 (Or.inr ⟨rfl, rfl⟩))
        exact ⟨r, t, p :: used, (walkLevels_link hv ha hf).trans h1,
          walkSpec_link hD (by omega) L h2⟩

/-- Without allocation `walk` only reads: it returns what `lookupFrom` computes
and leaves the state as it is. -/
theorem walkLevels_zero (va : Nat) :
    ∀ level (s : Kernel) (T : Nat),
      walkLevels va 0 level s T = .ret (lookupFrom s.mem va level T) s := by
  intro level
  induction level with
  | zero => intro s T; rfl
  | succ level ih =>
    intro s T
    by_cases hv : entry s.mem T (PX (level + 1) va) &&& PTE_V ≠ 0
    · rw [walkLevels_valid hv, ih, lookupFrom, if_pos hv]
    · rw [walkLevels_noalloc hv, lookupFrom, if_neg hv]

theorem walk_zero (s : Kernel) (pt va : Nat) (h : va < MAXVA) :
    walk s pt va 0 = .ret (lookupFrom s.mem va 2 pt) s := by
  unfold walk
  rw [if_neg (by omega), walkLevels_zero]

theorem walkaddr_eq (s : Kernel) (pt va : Nat) (h : va < MAXVA) :
    walkaddr s pt va =
      .ret (if pteOf s.mem pt va &&& PTE_V = 0 ∨ pteOf s.mem pt va &&& PTE_U = 0 then 0
        else PTE2PA (pteOf s.mem pt va)) s := by
  unfold walkaddr
  rw [if_neg (by omega), walk_zero s pt va h]
  unfold pteOf pteFrom Outcome.bind
  cases lookupFrom s.mem va 2 pt with
  | none => simp
  | some a =>
    simp only
    split <;> rfl

theorem SamePage.px {va vb : Nat} (h : SamePage va vb) :
    ∀ l, l ≤ 2 → PX l va = PX l vb := by
  intro l hl
  obtain ⟨h2, h1, h0⟩ := h
  interval_cases l
  · exact h0
  · exact h1
  · exact h2

theorem samePage_refl (va : Nat) : SamePage va va := ⟨rfl, rfl, rfl⟩

theorem lookupFrom_samePage (m : Nat → Nat) {va vb : Nat} (h : SamePage va vb) :
    ∀ level, level ≤ 2 → ∀ T, lookupFrom m va level T = lookupFrom m vb level T := by
  intro level
  induction level with
  | zero =>
    intro _ T
    rw [lookupFrom, lookupFrom, h.px 0 (by omega)]
  | succ level ih =>
    intro hl T
    rw [lookupFrom, lookupFrom, h.px (level + 1) hl]
    split
    · exact ih (by omega) _
    · rfl

theorem pteOf_samePage (m : Nat → Nat) (pt : Nat) {va vb : Nat} (h : SamePage va vb) :
    pteOf m pt va = pteOf m pt vb := by
  unfold pteOf pteFrom
  rw [lookupFrom_samePage m h 2 (le_refl 2)]

theorem lookupFrom_congr {m n : Nat → Nat} {pt : Nat} (va : Nat)
    (h : ∀ e < 2, ∀ T, IsTable m pt e T → ∀ j < 512, entry n T j = entry m T j) :
    ∀ level e T, e + level = 2 → IsTable m pt e T →
      lookupFrom n va level T = lookupFrom m va level T := by
  intro level
  induction level with
  | zero => intro e T _ _; rfl
  | succ level ih =>
    intro e T he hT
    rw [lookupFrom, lookupFrom, h e (by omega) T hT _ (PX_lt _ va)]
    split
    · rename_i hv
      exact ih (e + 1) _ (by omega) ⟨T, _, hT, PX_lt _ va, hv, rfl⟩
    · rfl

theorem lookupFrom_table {m : Nat → Nat} {pt va a : Nat} :
    ∀ level e T, e + level = 2 → IsTable m pt e T → lookupFrom m va level T = some a →
      ∃ T0, IsTable m pt 2 T0 ∧ a = T0 + 8 * PX 0 va := by
  intro level
  induction level with
  | zero =>
    intro e T he hT h
    have he2 : e = 2 := by omega
    subst he2
    rw [lookupFrom] at h
    exact ⟨T, hT, (Option.some.inj h).symm⟩
  | succ level ih =>
    intro e T he hT h
    rw [lookupFrom] at h
    split at h
    · rename_i hv
      exact ih (e + 1) _ (by omega) ⟨T, _, hT, PX_lt _ va, hv, rfl⟩ h
    · cases h

theorem lookup2_some {m : Nat → Nat} {pt va a : Nat} (h : lookupFrom m va 2 pt = some a) :
    entry m pt (PX 2 va) &&& PTE_V ≠ 0 ∧
    entry m (PTE2PA (entry m pt (PX 2 va))) (PX 1 va) &&& PTE_V ≠ 0 ∧
    a = PTE2PA (entry m (PTE2PA (entry m pt (PX 2 va))) (PX 1 va)) + 8 * PX 0 va := by
  rw [lookupFrom] at h
  split at h
  · rename_i h2
    rw [lookupFrom] at h
    split at h
    · rename_i h1
      rw [lookupFrom] at h
      exact ⟨h2, h1, (Option.some.inj h).symm⟩
    · cases h
  · cases h

/-- In an owning tree, addresses of different pages have non-overlapping leaf
entries. -/
theorem Tree.slot_apart {D : Nat} {m : Nat → Nat} {pt va vb a b : Nat} (I : Tree D m pt)
    (hD : 2 ≤ D) (ha : lookupFrom m va 2 pt = some a) (hb : lookupFrom m vb 2 pt = some b)
    (hne : ¬ SamePage va vb) : a + 8 ≤ b ∨ b + 8 ≤ a := by
  obtain ⟨a2, a1, a0⟩ := lookup2_some ha
  obtain ⟨b2, b1, b0⟩ := lookup2_some hb
  have hr : IsTable m pt 0 pt := rfl
  have ta : IsTable m pt 1 (PTE2PA (entry m pt (PX 2 va))) := ⟨pt, _, hr, PX_lt _ _, a2, rfl⟩
  have tb : IsTable m pt 1 (PTE2PA (entry m pt (PX 2 vb))) := ⟨pt, _, hr, PX_lt _ _, b2, rfl⟩
  rw [a0, b0]
  apply slot_disj (PTE2PA_aligned _) (PTE2PA_aligned _) (PX_lt _ _) (PX_lt _ _)
  rintro ⟨h1, h0⟩
  have u1 := I.unique_parent 1 (by omega) 1 (by omega) _ _ _ _ ta tb (PX_lt _ _) (PX_lt _ _)
    a1 b1 h1
  have u2 := I.unique_parent 0 (by omega) 0 (by omega) _ _ _ _ hr hr (PX_lt _ _) (PX_lt _ _)
    a2 b2 u1.1
  exact hne ⟨u2.2, u1.2, h0⟩

/-! ## Writing a leaf entry -/

theorem Tree.leaf_above {D : Nat} {m : Nat → Nat} {pt va a : Nat} (I : Tree D m pt)
    (hD : 2 ≤ D) (ha : lookupFrom m va 2 pt = some a) (v : Nat) :
    ∀ e < 2, ∀ T, IsTable m pt e T → ∀ j < 512, entry (st64 m a v) T j = entry m T j := by
  intro e he T hT j hj
  obtain ⟨T0, h0, rfl⟩ := lookupFrom_table 2 0 pt rfl rfl ha
  unfold entry
  apply ld64_st64_disj
  have := slot_disj (I.table_aligned hT) (I.table_aligned h0) hj (PX_lt 0 va) (by
    rintro ⟨rfl, _⟩
    have := I.level_unique e 2 T (by omega) hD hT h0
    omega)
  omega

theorem Tree.leaf_isTable {D : Nat} {m : Nat → Nat} {pt va a : Nat} (I : Tree D m pt)
    (hD : 2 ≤ D) (ha : lookupFrom m va 2 pt = some a) (v : Nat) :
    ∀ d ≤ 2, ∀ T, IsTable (st64 m a v) pt d T ↔ IsTable m pt d T :=
  isTable_congr 2 (I.leaf_above hD ha v)

theorem Tree.leaf_lookup {D : Nat} {m : Nat → Nat} {pt va a : Nat} (I : Tree D m pt)
    (hD : 2 ≤ D) (ha : lookupFrom m va 2 pt = some a) (v vb : Nat) :
    lookupFrom (st64 m a v) vb 2 pt = lookupFrom m vb 2 pt :=
  lookupFrom_congr vb (I.leaf_above hD ha v) 2 0 pt rfl rfl

theorem Tree.leaf_pteOf {D : Nat} {m : Nat → Nat} {pt va a : Nat} (I : Tree D m pt)
    (hD : 2 ≤ D) (ha : lookupFrom m va 2 pt = some a) {v : Nat} (hv : v < 2 ^ 64) (vb : Nat) :
    pteOf (st64 m a v) pt vb = if SamePage va vb then v else pteOf m pt vb := by
  unfold pteOf pteFrom
  rw [I.leaf_lookup hD ha v vb]
  by_cases hs : SamePage va vb
  · rw [if_pos hs, ← lookupFrom_samePage m hs 2 (le_refl 2), ha]
    exact ld64_st64_same m a v hv
  · rw [if_neg hs]
    cases hb : lookupFrom m vb 2 pt with
    | none => rfl
    | some b =>
      have := I.slot_apart hD ha hb hs
      exact ld64_st64_disj m a v b (by omega)

theorem Tree.of_above_eq {m n : Nat → Nat} {pt : Nat} (I : Tree 2 m pt)
    (h : ∀ e < 2, ∀ T, IsTable m pt e T → ∀ j < 512, entry n T j = entry m T j) :
    Tree 2 n pt where
  root_aligned := I.root_aligned
  nonzero := fun d hd p hp =>
    I.nonzero d hd p ((isTable_congr 2 h (d + 1) (by omega) p).1 hp)
  no_root_child := fun d hd q i hq hi hv => by
    have hq1 := (isTable_congr 2 h d (by omega) q).1 hq
    have e1 := h d hd q hq1 i hi
    rw [e1] at hv ⊢
    exact I.no_root_child d hd q i hq1 hi hv
  unique_parent := fun d hd e he q r i j hq hr hi hj hv hw heq => by
    have hq1 := (isTable_congr 2 h d (by omega) q).1 hq
    have hr1 := (isTable_congr 2 h e (by omega) r).1 hr
    have e1 := h d hd q hq1 i hi
    have e2 := h e he r hr1 j hj
    rw [e1] at hv heq
    rw [e2] at hw heq
    exact I.unique_parent d hd e he q r i j hq1 hr1 hi hj hv hw heq

theorem Tree.leaf_tree {m : Nat → Nat} {pt va a : Nat} (I : Tree 2 m pt)
    (ha : lookupFrom m va 2 pt = some a) (v : Nat) : Tree 2 (st64 m a v) pt :=
  I.of_above_eq (I.leaf_above (le_refl 2) ha v)

theorem Tree.leaf_foot {D : Nat} {m : Nat → Nat} {pt va a : Nat} (_I : Tree D m pt)
    (ha : lookupFrom m va 2 pt = some a) (v x : Nat) (hx : st64 m a v x ≠ m x) :
    ∃ P, IsTable m pt 2 P ∧ P ≤ x ∧ x < P + PGSIZE := by
  obtain ⟨T0, h0, rfl⟩ := lookupFrom_table 2 0 pt rfl rfl ha
  refine ⟨T0, h0, ?_⟩
  by_contra hc
  apply hx
  have := slot_in_page (T := T0) (PX_lt 0 va)
  exact st64_out _ _ _ _ (by omega)

theorem Inv.leaf_write {s : Kernel} {pt va a : Nat} (I : Inv 2 s pt)
    (ha : lookupFrom s.mem va 2 pt = some a) (v : Nat) :
    Inv 2 { s with mem := st64 s.mem a v } pt where
  tree := I.tree.leaf_tree ha v
  free_nodup := I.free_nodup
  free_aligned := I.free_aligned
  free_fresh := fun d hd p hp =>
    I.free_fresh d hd p ((I.tree.leaf_isTable (le_refl 2) ha v d hd p).1 hp)

/-! ## `mappages` -/

theorem walk_alloc_spec {D pt va : Nat} {s : Kernel} (hD : 2 ≤ D) (h : va < MAXVA)
    (I : Inv D s pt) :
    ∃ r t used, walk s pt va 1 = .ret r t ∧ WalkSpec D pt va 2 pt 0 s r t used := by
  unfold walk
  rw [if_neg (by omega)]
  exact walkLevels_spec hD (by decide) 2 s pt 0 rfl I rfl

theorem MapSpec.map_refl {pt : Nat} {s : Kernel} (I : Inv 2 s pt) : MapSpec pt s s [] where
  inv := I
  procsz := rfl
  free := rfl
  tables_old := fun _ _ _ h => h
  tables_new := fun _ _ _ h => Or.inl h
  used_tables := fun _ h => absurd h (List.not_mem_nil _)
  lookup_mono := fun _ _ h => h
  foot := fun _ h => absurd rfl h

theorem MapSpec.map_trans {pt : Nat} {s t u : Kernel} {used1 used2 : List Nat}
    (A : MapSpec pt s t used1) (B : MapSpec pt t u used2) :
    MapSpec pt s u (used1 ++ used2) where
  inv := B.inv
  procsz := B.procsz.trans A.procsz
  free := by rw [A.free, B.free, List.append_assoc]
  tables_old := fun d P hd h => B.tables_old d P hd (A.tables_old d P hd h)
  tables_new := fun d P hd h => by
    rcases B.tables_new d P hd h with h1 | ⟨h1, h2⟩
    · rcases A.tables_new d P hd h1 with h3 | ⟨h3, h4⟩
      · exact Or.inl h3
      · exact Or.inr ⟨List.mem_append_left _ h3, h4⟩
    · exact Or.inr ⟨List.mem_append_right _ h1, h2⟩
  used_tables := fun P hP => by
    rcases List.mem_append.1 hP with h | h
    · obtain ⟨d, h1, h2, h3⟩ := A.used_tables P h
      exact ⟨d, h1, h2, B.tables_old d P h2 h3⟩
    · exact B.used_tables P h
  lookup_mono := fun va x h => B.lookup_mono va x (A.lookup_mono va x h)
  foot := fun x hx => by
    by_cases h1 : u.mem x = t.mem x
    · rw [h1] at hx
      obtain ⟨P, h2 | h2, hP⟩ := A.foot x hx
      · exact ⟨P, Or.inl (List.mem_append_left _ h2), hP⟩
      · exact ⟨P, Or.inr h2, hP⟩
    · obtain ⟨P, h2 | ⟨d, h2, h3⟩, hP⟩ := B.foot x h1
      · exact ⟨P, Or.inl (List.mem_append_right _ h2), hP⟩
      · rcases A.tables_new d P h2 h3 with h4 | ⟨h4, _⟩
        · exact ⟨P, Or.inr ⟨d, h2, h4⟩, hP⟩
        · exact ⟨P, Or.inl (List.mem_append_left _ h4), hP⟩

theorem WalkSpec.toMap {pt va : Nat} {s t : Kernel} {r : Option Nat} {used : List Nat}
    (W : WalkSpec 2 pt va 2 pt 0 s r t used) : MapSpec pt s t used where
  inv := W.inv
  procsz := W.procsz
  free := W.free
  tables_old := W.tables_old
  tables_new := fun d P hd h => by
    rcases W.tables_new d P hd h with h1 | ⟨h1, h2, _⟩
    · exact Or.inl h1
    · exact Or.inr ⟨h1, h2⟩
  used_tables := fun P hP => by
    obtain ⟨d, h1, h2, h3⟩ := W.used_tables P hP
    exact ⟨d, h1, h2, h3⟩
  lookup_mono := fun va x h => W.lookup_mono va 2 0 pt x rfl rfl h
  foot := fun x hx => by
    obtain ⟨P, h1 | ⟨d, _, h2, h3⟩, hP⟩ := W.foot x hx
    · exact ⟨P, Or.inl h1, hP⟩
    · exact ⟨P, Or.inr ⟨d, by omega, h3⟩, hP⟩

theorem MapSpec.of_leaf_write {pt va a : Nat} {s : Kernel} (I : Inv 2 s pt)
    (ha : lookupFrom s.mem va 2 pt = some a) (v : Nat) :
    MapSpec pt s { s with mem := st64 s.mem a v } [] where
  inv := I.leaf_write ha v
  procsz := rfl
  free := rfl
  tables_old := fun d P hd h => (I.tree.leaf_isTable (le_refl 2) ha v d hd P).2 h
  tables_new := fun d P hd h => Or.inl ((I.tree.leaf_isTable (le_refl 2) ha v d hd P).1 h)
  used_tables := fun _ h => absurd h (List.not_mem_nil _)
  lookup_mono := fun vb x h => by rw [I.tree.leaf_lookup (le_refl 2) ha v vb]; exact h
  foot := fun x hx => by
    obtain ⟨P, h1, hP⟩ := I.tree.leaf_foot ha v x hx
    exact ⟨P, Or.inr ⟨2, le_refl 2, h1⟩, hP⟩

/-- One iteration of the body of `mappages`: a successful walk followed by the
write of the leaf entry. -/
theorem mapStep {pt va slot v : Nat} {s t : Kernel} {used : List Nat}
    (W : WalkSpec 2 pt va 2 pt 0 s (some slot) t used) (hv : v < 2 ^ 64) :
    MapSpec pt s { t with mem := st64 t.mem slot v } used ∧
    ∀ vb, pteOf (st64 t.mem slot v) pt vb = if SamePage va vb then v else pteOf s.mem pt vb := by
  have ha := (W.found slot rfl).1
  constructor
  · have := W.toMap.map_trans (MapSpec.of_leaf_write W.inv ha v)
    rwa [List.append_nil] at this
  · intro vb
    rw [W.inv.tree.leaf_pteOf (le_refl 2) ha hv vb]
    unfold pteOf
    rw [W.leaf vb 2 0 pt rfl rfl]

theorem leaf_lt {pa perm : Nat} (hpa : pa < U64) (hperm : perm < U64) :
    PA2PTE pa ||| perm ||| PTE_V < 2 ^ 64 := by
  apply Nat.or_lt_two_pow
  · apply Nat.or_lt_two_pow
    · rw [PA2PTE_eq]
      unfold U64 at hpa
      omega
    · exact hperm
  · decide

theorem leaf_valid (pa perm : Nat) : (PA2PTE pa ||| perm ||| PTE_V) &&& PTE_V ≠ 0 := by
  rw [valid_iff]
  have := (or_bit (PA2PTE pa ||| perm) PTE_V 0).2 (Or.inr (by decide))
  simpa using this

theorem flags_lt {perm : Nat} (h : perm < 1024) : perm ||| PTE_V < 1024 :=
  Nat.or_lt_two_pow (n := 10) h (by decide)

theorem leaf_eq {pa perm : Nat} (h : perm < 1024) :
    PA2PTE pa ||| perm ||| PTE_V = pa / 4096 * 1024 + (perm ||| PTE_V) := by
  rw [Nat.or_assoc, PA2PTE_or pa _ (flags_lt h)]

theorem leaf_PTE2PA {pa perm : Nat} (h : perm < 1024) (hpa : pa < U64)
    (ha : pa % PGSIZE = 0) : PTE2PA (PA2PTE pa ||| perm ||| PTE_V) = pa := by
  have := flags_lt h
  rw [leaf_eq h, PTE2PA_eq]
  unfold U64 at hpa
  unfold PGSIZE at ha
  omega

theorem leaf_flags {pa perm : Nat} (h : perm < 1024) :
    PTE_FLAGS (PA2PTE pa ||| perm ||| PTE_V) = perm ||| PTE_V := by
  have := flags_lt h
  unfold PTE_FLAGS
  rw [leaf_eq h, show (0x3FF : Nat) = 2 ^ 10 - 1 by norm_num, Nat.and_pow_two_sub_one_eq_mod]
  omega

theorem leaf_user (pa : Nat) {perm : Nat} (h : perm &&& PTE_U ≠ 0) :
    (PA2PTE pa ||| perm ||| PTE_V) &&& PTE_U ≠ 0 := by
  rw [show PTE_U = 2 ^ 4 by decide, and_bit] at h ⊢
  rw [or_bit, or_bit]
  exact Or.inl (Or.inr h)

theorem samePage_iff {va vb : Nat} (ha : va < 2 ^ 39) (hb : vb < 2 ^ 39) :
    SamePage va vb ↔ va / 4096 = vb / 4096 := by
  unfold SamePage
  rw [PX_eq, PX_eq, PX_eq, PX_eq, PX_eq, PX_eq]
  norm_num
  omega

theorem MAXVA_eq : MAXVA = 2 ^ 38 := by decide

theorem samePage_of_aligned {a vb : Nat} (ha : a % PGSIZE = 0) (h1 : a < MAXVA)
    (h2 : vb < MAXVA) : SamePage a vb ↔ (a ≤ vb ∧ vb < a + PGSIZE) := by
  rw [MAXVA_eq] at h1 h2
  rw [samePage_iff (by omega) (by omega)]
  unfold PGSIZE at *
  omega

theorem walk_panic (s : Kernel) (pt va alloc : Nat) (h : MAXVA ≤ va) :
    walk s pt va alloc = .panic "walk" := by
  unfold walk
  rw [if_pos h]

theorem mappagesLoop_succ (pt perm last fuel : Nat) (s : Kernel) (a pa : Nat) :
    mappagesLoop pt perm last (fuel + 1) s a pa =
      (walk s pt a 1).bind fun pte s1 =>
        match pte with
        | none => .ret (-1) s1
        | some pte =>
          if ld64 s1.mem pte &&& PTE_V ≠ 0 then .panic "mappages: remap"
          else
            if a = last then
              .ret 0 { s1 with mem := st64 s1.mem pte (PA2PTE pa ||| perm ||| PTE_V) }
            else mappagesLoop pt perm last fuel
              { s1 with mem := st64 s1.mem pte (PA2PTE pa ||| perm ||| PTE_V) }
              ((a + PGSIZE) % U64) ((pa + PGSIZE) % U64) := rfl

/-- The loop of `mappages`, when it returns 0: every page from `a` to `last` has
the requested leaf entry and every other page has the entry it had. -/
theorem mappagesLoop_ok {pt perm last : Nat} (hperm : perm < U64) :
    ∀ fuel (s : Kernel) (a pa : Nat) (t : Kernel), Inv 2 s pt → a % PGSIZE = 0 → pa < U64 →
      a ≤ last → (last - a) % PGSIZE = 0 →
      mappagesLoop pt perm last fuel s a pa = .ret 0 t →
      last < MAXVA ∧ (∃ used, MapSpec pt s t used) ∧
      (∀ k, a + k * PGSIZE ≤ last →
        pteOf t.mem pt (a + k * PGSIZE) = PA2PTE ((pa + k * PGSIZE) % U64) ||| perm ||| PTE_V) ∧
      (∀ vb, vb < MAXVA → (vb < a ∨ last + PGSIZE ≤ vb) →
        pteOf t.mem pt vb = pteOf s.mem pt vb) := by
  intro fuel
  induction fuel with
  | zero =>
    intro s a pa t _ _ _ _ _ h
    cases h
  | succ fuel ih =>
    intro s a pa t I ha hpa hle hmod h
    rw [mappagesLoop_succ] at h
    by_cases hva : a < MAXVA
    · obtain ⟨r, s1, used, hw, W⟩ := walk_alloc_spec (le_refl 2) hva I
      rw [hw] at h
      cases r with
      | none => simp [Outcome.bind] at h
      | some slot =>
        simp only [Outcome.bind] at h
        split at h
        · cases h
        · obtain ⟨M, hp⟩ := mapStep (v := PA2PTE pa ||| perm ||| PTE_V) W (leaf_lt hpa hperm)
          by_cases hlast : a = last
          · rw [if_pos hlast] at h
            injection h with _ h
            subst h
            subst hlast
            refine ⟨hva, ⟨used, M⟩, ?_, ?_⟩
            · intro k hk
              have hk0 : k = 0 := by
                unfold PGSIZE at hk
                omega
              subst hk0
              simp only [Nat.zero_mul, Nat.add_zero]
              rw [hp, if_pos (samePage_refl a), Nat.mod_eq_of_lt hpa]
            · intro vb hvb hout
              simp only
              rw [hp, if_neg]
              rw [samePage_of_aligned ha hva hvb]
              omega
          · rw [if_neg hlast] at h
            have hnext : (a + PGSIZE) % U64 = a + PGSIZE := by
              rw [MAXVA_eq] at hva
              unfold PGSIZE U64
              omega
            rw [hnext] at h
            have hlt : a + PGSIZE ≤ last := by
              unfold PGSIZE at hmod ⊢
              omega
            obtain ⟨h1, ⟨used2, M2⟩, h3, h4⟩ := ih _ (a + PGSIZE) _ t M.inv
              (by unfold PGSIZE at ha ⊢; omega) (Nat.mod_lt _ (by decide)) hlt
              (by unfold PGSIZE at hmod ⊢; omega) h
            refine ⟨h1, ⟨_, M.map_trans M2⟩, ?_, ?_⟩
            · intro k hk
              cases k with
              | zero =>
                simp only [Nat.zero_mul, Nat.add_zero]
                rw [h4 a hva (Or.inl (by unfold PGSIZE; omega))]
                simp only
                rw [hp, if_pos (samePage_refl a), Nat.mod_eq_of_lt hpa]
              | succ k =>
                have := h3 k (by unfold PGSIZE at hk ⊢; omega)
                rw [show a + (k + 1) * PGSIZE = a + PGSIZE + k * PGSIZE by ring,
                  show (pa + (k + 1) * PGSIZE) % U64 = ((pa + PGSIZE) % U64 + k * PGSIZE) % U64 by
                    unfold PGSIZE U64; omega]
                exact this
            · intro vb hvb hout
              rw [h4 vb hvb (by unfold PGSIZE at hout ⊢; omega)]
              simp only
              rw [hp, if_neg]
              rw [samePage_of_aligned ha hva hvb]
              unfold PGSIZE at hout ⊢
              omega
    · rw [walk_panic s pt a 1 (by omega)] at h
      cases h

theorem Outcome.eq_ret_of_val {α : Type} {x : Outcome α} {v : α} (d : Kernel)
    (h : x.val = some v) : x = .ret v (x.final d) := by
  cases x with
  | ret a t =>
    simp only [Outcome.val, Option.some.injEq] at h
    rw [h]; rfl
  | panic m => cases h
  | diverge => cases h

theorem pteOf_valid_slot {m : Nat → Nat} {pt va : Nat} (h : pteOf m pt va &&& PTE_V ≠ 0) :
    ∃ a, lookupFrom m va 2 pt = some a ∧ pteOf m pt va = ld64 m a := by
  unfold pteOf pteFrom at h ⊢
  cases hl : lookupFrom m va 2 pt with
  | none =>
    rw [hl] at h
    exact absurd h zero_not_valid
  | some a => exact ⟨a, rfl, rfl⟩

/-- An empty root table, with a sane allocator, is a well-formed address space. -/
theorem inv_empty {D : Nat} {s : Kernel} {pt : Nat} (hz : ∀ j < 512, entry s.mem pt j = 0)
    (ha : pt % PGSIZE = 0) (hn : s.freelist.Nodup)
    (hf : ∀ p ∈ s.freelist, p % PGSIZE = 0 ∧ p ≠ 0 ∧ p < U64) (hpt : pt ∉ s.freelist) :
    Inv D s pt := by
  have none : ∀ d p, ¬ IsTable s.mem pt (d + 1) p := by
    intro d
    induction d with
    | zero =>
      rintro p ⟨q, i, hq, hi, hv, _⟩
      have : q = pt := hq
      rw [this, hz i hi] at hv
      exact zero_not_valid hv
    | succ d ih =>
      rintro p ⟨q, i, hq, _⟩
      exact ih q hq
  have root : ∀ d q, IsTable s.mem pt d q → d = 0 ∧ q = pt := by
    intro d q hq
    cases d with
    | zero => exact ⟨rfl, hq⟩
    | succ d => exact absurd hq (none d q)
  have inval : ∀ d q i, IsTable s.mem pt d q → i < 512 → ¬ (entry s.mem q i &&& PTE_V ≠ 0) := by
    intro d q i hq hi hv
    rw [(root d q hq).2, hz i hi] at hv
    exact zero_not_valid hv
  exact {
    tree := {
      root_aligned := ha
      nonzero := fun d _ p hp => absurd hp (none d p)
      no_root_child := fun d _ q i hq hi hv => absurd hv (inval d q i hq hi)
      unique_parent := fun d _ _ _ q _ i _ hq _ hi _ hv _ _ => absurd hv (inval d q i hq hi) }
    free_nodup := hn
    free_aligned := hf
    free_fresh := fun d _ p hp => by rw [(root d p hp).2]; exact hpt }

theorem demo_inv : Inv 2 demo 0x1000 := by
  apply inv_empty
  · intro j _; rfl
  · decide
  · decide
  · decide
  · decide

theorem mappages_eq {s : Kernel} {pt va size pa perm : Nat} (hva : va % PGSIZE = 0)
    (hsz : size % PGSIZE = 0) (hsz0 : size ≠ 0) (hmax : va + size ≤ MAXVA) :
    mappages s pt va size pa perm =
      mappagesLoop pt perm (va + size - PGSIZE) (size / PGSIZE) s va pa := by
  have e : (va + size + (U64 - PGSIZE)) % U64 = va + size - PGSIZE := by
    rw [MAXVA_eq] at hmax
    unfold PGSIZE U64 at *
    omega
  unfold mappages
  rw [if_neg (by omega), if_neg hsz0, e]

/-! ## C1: `mappages` then `walkaddr` -/

/-- C1 (as amended): for every well-formed page table and allocator state, every
page-aligned `va` and `pa`, every non-zero page-multiple `size` with
`va + size ≤ MAXVA`, and every `perm` that lies within the ten flag bits of an
entry and includes `PTE_U`: when `mappages(pt, va, size, pa, perm)` returns 0,
`walkaddr(pt, va + k*PGSIZE)` is `pa + k*PGSIZE` (in 64-bit arithmetic) for every
`k < size/PGSIZE`, and the flag bits of that leaf entry are exactly
`perm | PTE_V`. -/
theorem mappages_walkaddr (s t : Kernel) (pt va size pa perm : Nat)
    (I : Inv 2 s pt) (hva : va % PGSIZE = 0) (hpa : pa % PGSIZE = 0) (hpa64 : pa < U64)
    (hsz : size % PGSIZE = 0) (hsz0 : size ≠ 0) (hmax : va + size ≤ MAXVA)
    (hperm : perm < 1024) (hU : perm &&& PTE_U ≠ 0)
    (h : mappages s pt va size pa perm = .ret 0 t) :
    ∀ k, k < size / PGSIZE →
      walkaddr t pt (va + k * PGSIZE) = .ret ((pa + k * PGSIZE) % U64) t ∧
      ∃ slot, walk t pt (va + k * PGSIZE) 0 = .ret (some slot) t ∧
        PTE_FLAGS (ld64 t.mem slot) = perm ||| PTE_V := by
  intro k hk
  rw [mappages_eq hva hsz hsz0 hmax] at h
  have hge : PGSIZE ≤ size := by unfold PGSIZE at *; omega
  obtain ⟨_, _, hin, _⟩ := mappagesLoop_ok (by unfold U64; omega) _ s va pa t I hva hpa64
    (by omega) (by unfold PGSIZE at *; omega) h
  have hk1 : va + k * PGSIZE ≤ va + size - PGSIZE := by unfold PGSIZE at *; omega
  have hlt : va + k * PGSIZE < MAXVA := by unfold PGSIZE at *; omega
  have hp := hin k hk1
  have hal : (pa + k * PGSIZE) % U64 % PGSIZE = 0 := by unfold PGSIZE U64 at *; omega
  have hv := leaf_valid ((pa + k * PGSIZE) % U64) perm
  have hu := leaf_user ((pa + k * PGSIZE) % U64) hU
  rw [← hp] at hv hu
  constructor
  · rw [walkaddr_eq t pt _ hlt, if_neg (by
      rintro (h1 | h1)
      · exact hv h1
      · exact hu h1)]
    rw [hp, leaf_PTE2PA hperm (Nat.mod_lt _ (by decide)) hal]
  · obtain ⟨slot, h1, h2⟩ := pteOf_valid_slot hv
    refine ⟨slot, ?_, ?_⟩
    · rw [walk_zero t pt _ hlt, h1]
    · rw [← h2, hp, leaf_flags hperm]

theorem mappages_walkaddr_witness :
    (walkaddr demoMapped 0x1000 (0 + 0 * PGSIZE) =
        .ret ((0x80000000 + 0 * PGSIZE) % U64) demoMapped ∧
      ∃ slot, walk demoMapped 0x1000 (0 + 0 * PGSIZE) 0 = .ret (some slot) demoMapped ∧
        PTE_FLAGS (ld64 demoMapped.mem slot) = 0x1e ||| PTE_V) ∧
    (walkaddr demoMapped 0x1000 (0 + 1 * PGSIZE) =
        .ret ((0x80000000 + 1 * PGSIZE) % U64) demoMapped ∧
      ∃ slot, walk demoMapped 0x1000 (0 + 1 * PGSIZE) 0 = .ret (some slot) demoMapped ∧
        PTE_FLAGS (ld64 demoMapped.mem slot) = 0x1e ||| PTE_V) :=
  ⟨mappages_walkaddr demo demoMapped 0x1000 0 0x2000 0x80000000 0x1e demo_inv (by decide)
      (by decide) (by decide) (by decide) (by decide) (by decide) (by decide) (by decide)
      (Outcome.eq_ret_of_val demo (by decide)) 0 (by decide),
    mappages_walkaddr demo demoMapped 0x1000 0 0x2000 0x80000000 0x1e demo_inv (by decide)
      (by decide) (by decide) (by decide) (by decide) (by decide) (by decide) (by decide)
      (Outcome.eq_ret_of_val demo (by decide)) 1 (by decide)⟩

/-- C1 as stated fails for a `perm` that includes `PTE_U` but has a bit above
the ten flag bits: with `perm = 0x410`, `mappages` returns 0, yet `walkaddr`
yields `0x80001000` instead of `pa = 0x80000000`, and the flag bits of the leaf
are `0x11` instead of `perm | PTE_V = 0x411`. -/
theorem mappages_wide_perm_counterexample :
    Inv 2 demo 0x1000 ∧ 0x410 &&& PTE_U ≠ 0 ∧ pteOf demo.mem 0x1000 0 &&& PTE_V = 0 ∧
    mappages demo 0x1000 0 0x1000 0x80000000 0x410 = .ret 0 demoWide ∧
    (walkaddr demoWide 0x1000 0).val = some 0x80001000 ∧
    (walkaddr demoWide 0x1000 0).val ≠ some (0x80000000 % U64) ∧
    PTE_FLAGS (pteOf demoWide.mem 0x1000 0) = 0x11 ∧
    PTE_FLAGS (pteOf demoWide.mem 0x1000 0) ≠ 0x410 ||| PTE_V :=
  ⟨demo_inv, by decide, by decide, Outcome.eq_ret_of_val demo (by decide), by decide,
    by decide, by decide, by decide⟩

/-! ## C2: `walkaddr` -/

theorem pteOf_unfold (m : Nat → Nat) (pt va : Nat) :
    pteOf m pt va =
      if entry m pt (PX 2 va) &&& PTE_V ≠ 0 then
        if entry m (PTE2PA (entry m pt (PX 2 va))) (PX 1 va) &&& PTE_V ≠ 0 then
          entry m (PTE2PA (entry m (PTE2PA (entry m pt (PX 2 va))) (PX 1 va))) (PX 0 va)
        else 0
      else 0 := by
  unfold pteOf
  rw [pteFrom_succ]
  split
  · rw [pteFrom_succ]
    split
    · rw [pteFrom_zero]
    · rfl
  · rfl

/-- C2: for every page table and every `va`, `walkaddr` returns normally (it
never halts) and leaves memory and the allocator unchanged; it returns 0 if
`va ≥ MAXVA`, if the level-2 or the level-1 entry on the path of `va` is
invalid, or if the leaf entry is invalid or lacks `PTE_U` (so also for a valid
kernel-only leaf), and otherwise the physical page address stored in the
leaf. -/
theorem walkaddr_spec (s : Kernel) (pt va : Nat) :
    let e2 := entry s.mem pt (PX 2 va)
    let e1 := entry s.mem (PTE2PA e2) (PX 1 va)
    let e0 := entry s.mem (PTE2PA e1) (PX 0 va)
    walkaddr s pt va =
      .ret (if MAXVA ≤ va ∨ e2 &&& PTE_V = 0 ∨ e1 &&& PTE_V = 0 ∨
                e0 &&& PTE_V = 0 ∨ e0 &&& PTE_U = 0 then 0
            else PTE2PA e0) s := by
  intro e2 e1 e0
  by_cases hva : MAXVA ≤ va
  · rw [if_pos (Or.inl hva)]
    unfold walkaddr
    rw [if_pos hva]
  · rw [walkaddr_eq s pt va (by omega), pteOf_unfold]
    by_cases h2 : e2 &&& PTE_V = 0
    · rw [if_pos (Or.inr (Or.inl h2)), if_neg (not_not.2 h2)]
      simp
    · rw [if_pos h2]
      by_cases h1 : e1 &&& PTE_V = 0
      · rw [if_pos (Or.inr (Or.inr (Or.inl h1))), if_neg (not_not.2 h1)]
        simp
      · rw [if_pos h1]
        by_cases h0 : e0 &&& PTE_V = 0 ∨ e0 &&& PTE_U = 0
        · rw [if_pos h0, if_pos (Or.inr (Or.inr (Or.inr h0)))]
        · rw [if_neg h0, if_neg]
          rintro (h | h | h | h)
          · exact hva h
          · exact h2 h
          · exact h1 h
          · exact h0 h

/-! ## Memory changes outside the table pages -/

theorem TableEq.te_isTable {m n : Nat → Nat} {pt : Nat} (h : TableEq m n pt) :
    ∀ d ≤ 3, ∀ T, IsTable n pt d T ↔ IsTable m pt d T :=
  isTable_congr 3 (fun d hd T hT j hj => h d (by omega) T hT j hj)

theorem TableEq.te_symm {m n : Nat → Nat} {pt : Nat} (h : TableEq m n pt) : TableEq n m pt :=
  fun d hd T hT j hj => (h d hd T ((h.te_isTable d (by omega) T).1 hT) j hj).symm

theorem TableEq.te_trans {m n k : Nat → Nat} {pt : Nat} (h1 : TableEq m n pt)
    (h2 : TableEq n k pt) : TableEq m k pt :=
  fun d hd T hT j hj =>
    (h2 d hd T ((h1.te_isTable d (by omega) T).2 hT) j hj).trans (h1 d hd T hT j hj)

theorem TableEq.te_refl (m : Nat → Nat) (pt : Nat) : TableEq m m pt :=
  fun _ _ _ _ _ _ => rfl

theorem TableEq.te_lookup {m n : Nat → Nat} {pt : Nat} (h : TableEq m n pt) (va : Nat) :
    Xv6.lookupFrom n va 2 pt = Xv6.lookupFrom m va 2 pt :=
  lookupFrom_congr va (fun e he T hT j hj => h e (by omega) T hT j hj) 2 0 pt rfl rfl

theorem TableEq.te_pteOf {m n : Nat → Nat} {pt : Nat} (h : TableEq m n pt) (va : Nat) :
    Xv6.pteOf n pt va = Xv6.pteOf m pt va := by
  unfold Xv6.pteOf pteFrom
  rw [h.te_lookup va]
  cases hl : Xv6.lookupFrom m va 2 pt with
  | none => rfl
  | some a =>
    obtain ⟨T0, h0, rfl⟩ := lookupFrom_table 2 0 pt rfl rfl hl
    exact h 2 (le_refl 2) T0 h0 _ (PX_lt 0 va)

theorem TableEq.te_missing {m n : Nat → Nat} {pt : Nat} (h : TableEq m n pt) (va : Nat) :
    ∀ level e T, e + level = 2 → IsTable m pt e T →
      missing n va level T = missing m va level T := by
  intro level
  induction level with
  | zero => intro e T _ _; rfl
  | succ level ih =>
    intro e T he hT
    rw [missing, missing, h e (by omega) T hT _ (PX_lt _ va)]
    split
    · rename_i hv
      exact ih (e + 1) _ (by omega) ⟨T, _, hT, PX_lt _ va, hv, rfl⟩
    · rfl

theorem TableEq.te_tree {m n : Nat → Nat} {pt : Nat} (h : TableEq m n pt) (I : Tree 2 m pt) :
    Tree 2 n pt :=
  I.of_above_eq (fun e he T hT j hj => h e (by omega) T hT j hj)

theorem TableEq.te_inv {s : Kernel} {n : Nat → Nat} {pt : Nat} (h : TableEq s.mem n pt)
    (I : Inv 2 s pt) {f : List Nat} (hn : f.Nodup) (hsub : ∀ p ∈ f, p ∈ s.freelist) :
    Inv 2 { s with mem := n, freelist := f } pt where
  tree := h.te_tree I.tree
  free_nodup := hn
  free_aligned := fun p hp => I.free_aligned p (hsub p hp)
  free_fresh := fun d hd p hp hf =>
    I.free_fresh d hd p ((h.te_isTable d (by omega) p).1 hp) (hsub p hf)

/-- Changes confined to page-aligned pages that are not table pages leave the
tables as they are. -/
theorem tableEq_of_outside {m n : Nat → Nat} {pt : Nat} (I : Tree 2 m pt)
    (h : ∀ x, n x ≠ m x → ∃ P, P % PGSIZE = 0 ∧ (∀ d ≤ 2, ¬ IsTable m pt d P) ∧
      P ≤ x ∧ x < P + PGSIZE) : TableEq m n pt := by
  intro d hd T hT j hj
  unfold entry
  apply ld64_congr
  intro x h1 h2
  by_contra hx
  obtain ⟨P, hP, hnot, h3, h4⟩ := h x hx
  have hne : T ≠ P := fun e => hnot d hd (e ▸ hT)
  have := page_disj (I.table_aligned hT) hP hne
  have := slot_in_page (T := T) hj
  omega

/-! ## Mapping one page -/

theorem pteOf_of_lookup {m : Nat → Nat} {pt va a : Nat} (h : lookupFrom m va 2 pt = some a) :
    pteOf m pt va = ld64 m a := by
  unfold pteOf pteFrom
  rw [h]

/-- `mappages` of a single page whose leaf entry is invalid: it returns 0 and
installs the entry, or the allocator ran out of pages for the interior tables
and it returns -1 with every leaf entry as before. -/
theorem mappages_one (pa perm : Nat) {pt a : Nat} {s : Kernel} (I : Inv 2 s pt)
    (ha : a % PGSIZE = 0) (hlt : a < MAXVA) (hinv : pteOf s.mem pt a &&& PTE_V = 0)
    (hpa : pa < U64) (hperm : perm < U64) :
    ∃ r t used, mappages s pt a PGSIZE pa perm = .ret r t ∧ MapSpec pt s t used ∧
      ((r = 0 ∧ used.length = missing s.mem a 2 pt ∧
          ∀ vb, pteOf t.mem pt vb =
            if SamePage a vb then PA2PTE pa ||| perm ||| PTE_V else pteOf s.mem pt vb) ∨
       (r = -1 ∧ t.freelist = [] ∧ s.freelist.length < missing s.mem a 2 pt ∧
          ∀ vb, pteOf t.mem pt vb = pteOf s.mem pt vb)) := by
  have hmax : a + PGSIZE ≤ MAXVA := by
    rw [MAXVA_eq] at hlt ⊢
    unfold PGSIZE at ha ⊢
    omega
  rw [mappages_eq ha (by decide) (by decide) hmax, Nat.add_sub_cancel,
    show PGSIZE / PGSIZE = 1 by decide, mappagesLoop_succ]
  obtain ⟨r, s1, used, hw, W⟩ := walk_alloc_spec (le_refl 2) hlt I
  rw [hw]
  cases r with
  | none =>
    refine ⟨-1, s1, used, rfl, W.toMap, Or.inr ⟨rfl, (W.failed rfl).1, (W.failed rfl).2, ?_⟩⟩
    intro vb
    exact W.leaf vb 2 0 pt rfl rfl
  | some slot =>
    have hl := (W.found slot rfl).1
    have hs : ld64 s1.mem slot &&& PTE_V = 0 := by
      rw [← pteOf_of_lookup hl]
      unfold pteOf
      rw [W.leaf a 2 0 pt rfl rfl]
      exact hinv
    obtain ⟨M, hp⟩ := mapStep (v := PA2PTE pa ||| perm ||| PTE_V) W (leaf_lt hpa hperm)
    refine ⟨0, _, used, ?_, M, Or.inl ⟨rfl, (W.found slot rfl).2, hp⟩⟩
    simp only [Outcome.bind]
    rw [if_neg (not_not.2 hs)]
    simp only [if_true]

/-! ## `vmfault` -/

theorem ismapped_eq (s : Kernel) (pt va : Nat) (h : va < MAXVA) :
    ismapped s pt va = .ret (if pteOf s.mem pt va &&& PTE_V ≠ 0 then 1 else 0) s := by
  unfold ismapped
  rw [walk_zero s pt va h]
  unfold pteOf pteFrom Outcome.bind
  cases lookupFrom s.mem va 2 pt with
  | none => simp
  | some a => rfl

theorem PGROUNDDOWN_facts {va : Nat} (h : va < MAXVA) :
    PGROUNDDOWN va % PGSIZE = 0 ∧ PGROUNDDOWN va ≤ va ∧ va < PGROUNDDOWN va + PGSIZE ∧
      PGROUNDDOWN va < MAXVA := by
  rw [MAXVA_eq] at h ⊢
  rw [PGROUNDDOWN_eq va (by unfold U64; omega)]
  unfold PGSIZE
  omega

/-- Taking the page `p` off the free pages and rewriting its bytes leaves the
table tree as it is. -/
theorem Inv.take_page {s : Kernel} {pt p : Nat} {rest : List Nat} {n : Nat → Nat}
    (I : Inv 2 s pt) (hf : s.freelist = p :: rest)
    (hn : ∀ x, n x ≠ s.mem x → p ≤ x ∧ x < p + PGSIZE) :
    TableEq s.mem n pt ∧ Inv 2 { s with mem := n, freelist := rest } pt := by
  have hp : p ∈ s.freelist := by rw [hf]; exact List.mem_cons_self _ _
  have hnd : (p :: rest).Nodup := hf ▸ I.free_nodup
  have E : TableEq s.mem n pt := tableEq_of_outside I.tree (fun x hx =>
    ⟨p, (I.free_aligned p hp).1, fun d hd hT => I.free_fresh d hd p hT hp, hn x hx⟩)
  exact ⟨E, E.te_inv I (List.nodup_cons.1 hnd).2
    (fun q hq => by rw [hf]; exact List.mem_cons_of_mem _ hq)⟩

theorem memset_changes (m : Nat → Nat) (p c n x : Nat) (h : memset m p c n x ≠ m x) :
    p ≤ x ∧ x < p + n := by
  by_contra hc
  exact h (memset_out m p c n x (by omega))

/-- The two ways `vmfault` ends for an address below the process size whose
page has no valid leaf entry: it maps a fresh zeroed page, or the allocator
could not supply the pages and it returns 0 with every leaf entry as before. -/
theorem vmfault_cases {s : Kernel} {pt va : Nat} (read : Nat) (I : Inv 2 s pt)
    (hsz : va < s.procsz) (hal : PGROUNDDOWN va % PGSIZE = 0) (hlt : PGROUNDDOWN va < MAXVA)
    (hinv : pteOf s.mem pt (PGROUNDDOWN va) &&& PTE_V = 0) :
    (∃ pa rest used t, s.freelist = pa :: rest ∧ vmfault s pt va read = .ret pa t ∧
      TableEq s.mem (memset s.mem pa 0 PGSIZE) pt ∧
      MapSpec pt { s with mem := memset s.mem pa 0 PGSIZE, freelist := rest } t used ∧
      used.length = missing s.mem (PGROUNDDOWN va) 2 pt ∧
      (∀ vb, pteOf t.mem pt vb =
        if SamePage (PGROUNDDOWN va) vb then PA2PTE pa ||| (PTE_W ||| PTE_U ||| PTE_R) ||| PTE_V
        else pteOf s.mem pt vb) ∧
      (∀ i, i < PGSIZE → t.mem (pa + i) = 0)) ∨
    (∃ t, vmfault s pt va read = .ret 0 t ∧ t.procsz = s.procsz ∧
      s.freelist.length < missing s.mem (PGROUNDDOWN va) 2 pt + 1 ∧
      ∀ vb, pteOf t.mem pt vb = pteOf s.mem pt vb) := by
  cases hf : s.freelist with
  | nil =>
    right
    refine ⟨s, ?_, rfl, by simp, fun _ => rfl⟩
    unfold vmfault
    rw [if_neg (by omega), ismapped_eq s pt _ hlt, if_neg (not_not.2 hinv)]
    simp only [Outcome.bind, kalloc, hf, ne_eq, not_true_eq_false, if_false]
  | cons pa rest =>
    have hpa : pa ∈ s.freelist := by rw [hf]; exact List.mem_cons_self _ _
    obtain ⟨hpa1, hpa2, hpa3⟩ := I.free_aligned pa hpa
    obtain ⟨E, I3⟩ := I.take_page hf (memset_changes s.mem pa 0 PGSIZE)
    have hinv3 : pteOf (memset s.mem pa 0 PGSIZE) pt (PGROUNDDOWN va) &&& PTE_V = 0 := by
      rw [E.te_pteOf]; exact hinv
    obtain ⟨r, t, used, hm, M, hr⟩ := mappages_one pa
      (PTE_W ||| PTE_U ||| PTE_R) I3 hal hlt hinv3 hpa3 (by decide)
    have hmiss : missing (memset s.mem pa 0 PGSIZE) (PGROUNDDOWN va) 2 pt =
        missing s.mem (PGROUNDDOWN va) 2 pt := E.te_missing _ 2 0 pt rfl rfl
    rcases hr with ⟨hr0, hlen, hp⟩ | ⟨hr1, _, hlen, hp⟩
    · left
      refine ⟨pa, rest, used, t, rfl, ?_, E, M, hlen.trans hmiss, ?_, ?_⟩
      · unfold vmfault
        rw [if_neg (by omega), ismapped_eq s pt _ hlt, if_neg (not_not.2 hinv)]
        simp only [Outcome.bind, kalloc, hf, ne_eq, not_true_eq_false, if_false]
        rw [hm, hr0]
        simp
      · intro vb
        rw [hp vb, E.te_pteOf]
      · intro i hi
        have h0 : memset s.mem pa 0 PGSIZE (pa + i) = 0 :=
          memset_in s.mem pa 0 PGSIZE (pa + i) (by omega) (by omega)
        rw [← h0]
        by_contra hx
        obtain ⟨P, hP, h1, h2⟩ := M.foot (pa + i) hx
        have hnd : (pa :: rest).Nodup := hf ▸ I.free_nodup
        have hPal : P % PGSIZE = 0 ∧ P ≠ pa := by
          rcases hP with hP | ⟨d, hd, hT⟩
          · have hPr : P ∈ rest := by
              have := M.free
              simp only at this
              rw [this]; exact List.mem_append_left _ hP
            exact ⟨(I.free_aligned P (by rw [hf]; exact List.mem_cons_of_mem _ hPr)).1,
              fun e => (List.nodup_cons.1 hnd).1 (e ▸ hPr)⟩
          · have hT1 := (E.te_isTable d (by omega) P).1 hT
            exact ⟨I.tree.table_aligned hT1, fun e => I.free_fresh d hd P hT1 (e ▸ hpa)⟩
        have := page_disj hPal.1 hpa1 hPal.2
        omega
    · right
      refine ⟨kfree t pa, ?_, M.procsz, ?_, ?_⟩
      · unfold vmfault
        rw [if_neg (by omega), ismapped_eq s pt _ hlt, if_neg (not_not.2 hinv)]
        simp only [Outcome.bind, kalloc, hf, ne_eq, not_true_eq_false, if_false]
        rw [hm, hr1]
        simp
      · simp only at hlen
        rw [hmiss] at hlen
        simp only [List.length_cons]
        omega
      · intro vb
        show pteOf t.mem pt vb = _
        rw [hp vb, E.te_pteOf]

/-- The successful path of `vmfault`. -/
theorem vmfault_ok {s : Kernel} {pt va : Nat} (read : Nat) (I : Inv 2 s pt)
    (hsz : va < s.procsz) (hmax : va < MAXVA)
    (hinv : pteOf s.mem pt (PGROUNDDOWN va) &&& PTE_V = 0)
    (halloc : missing s.mem (PGROUNDDOWN va) 2 pt + 1 ≤ s.freelist.length) :
    ∃ pa rest used t, s.freelist = pa :: rest ∧ vmfault s pt va read = .ret pa t ∧
      TableEq s.mem (memset s.mem pa 0 PGSIZE) pt ∧
      MapSpec pt { s with mem := memset s.mem pa 0 PGSIZE, freelist := rest } t used ∧
      used.length = missing s.mem (PGROUNDDOWN va) 2 pt ∧
      (∀ vb, pteOf t.mem pt vb =
        if SamePage (PGROUNDDOWN va) vb then PA2PTE pa ||| (PTE_W ||| PTE_U ||| PTE_R) ||| PTE_V
        else pteOf s.mem pt vb) ∧
      (∀ i, i < PGSIZE → t.mem (pa + i) = 0) := by
  obtain ⟨hal, _, _, hlt⟩ := PGROUNDDOWN_facts hmax
  rcases vmfault_cases read I hsz hal hlt hinv with h | ⟨_, _, _, h, _⟩
  · exact h
  · omega

/-! ## C5: `vmfault` maps a fresh zeroed page -/

/-- C5: for every well-formed address space, every `va` below the process size
and below `MAXVA` whose page has no valid leaf entry, and an allocator that
holds the page itself and the interior tables still missing for it:
`vmfault(pt, va, read)` returns a non-zero physical address `pa`; afterwards the
leaf for `PGROUNDDOWN(va)` is valid with flags exactly `R|W|U|V` and points to
`pa`, and all `PGSIZE` bytes of the frame at `pa` are zero. -/
theorem vmfault_fresh_page (s : Kernel) (pt va read : Nat) (I : Inv 2 s pt)
    (hsz : va < s.procsz) (hmax : va < MAXVA)
    (hinv : pteOf s.mem pt (PGROUNDDOWN va) &&& PTE_V = 0)
    (halloc : missing s.mem (PGROUNDDOWN va) 2 pt + 1 ≤ s.freelist.length) :
    ∃ pa t, vmfault s pt va read = .ret pa t ∧ pa ≠ 0 ∧
      (∃ slot, walk t pt (PGROUNDDOWN va) 0 = .ret (some slot) t ∧
        ld64 t.mem slot &&& PTE_V ≠ 0 ∧
        PTE_FLAGS (ld64 t.mem slot) = PTE_R ||| PTE_W ||| PTE_U ||| PTE_V ∧
        PTE2PA (ld64 t.mem slot) = pa) ∧
      ∀ i, i < PGSIZE → ld8 t.mem (pa + i) = 0 := by
  obtain ⟨pa, rest, used, t, hf, hv, _, _, _, hp, hz⟩ := vmfault_ok read I hsz hmax hinv halloc
  obtain ⟨_, _, _, hlt⟩ := PGROUNDDOWN_facts hmax
  have hpa : pa ∈ s.freelist := by rw [hf]; exact List.mem_cons_self _ _
  obtain ⟨hpa1, hpa2, hpa3⟩ := I.free_aligned pa hpa
  have hleaf := hp (PGROUNDDOWN va)
  rw [if_pos (samePage_refl _)] at hleaf
  have hval := leaf_valid pa (PTE_W ||| PTE_U ||| PTE_R)
  rw [← hleaf] at hval
  obtain ⟨slot, h1, h2⟩ := pteOf_valid_slot hval
  refine ⟨pa, t, hv, hpa2, ⟨slot, ?_, ?_, ?_, ?_⟩, ?_⟩
  · rw [walk_zero t pt _ hlt, h1]
  · rw [← h2]; exact hval
  · rw [← h2, hleaf, leaf_flags (by decide)]
    decide
  · rw [← h2, hleaf, leaf_PTE2PA (by decide) hpa3 hpa1]
  · intro i hi
    unfold ld8
    rw [hz i hi]

theorem vmfault_fresh_page_witness :
    ∃ pa t, vmfault demo 0x1000 0x2345 0 = .ret pa t ∧ pa ≠ 0 ∧
      (∃ slot, walk t 0x1000 (PGROUNDDOWN 0x2345) 0 = .ret (some slot) t ∧
        ld64 t.mem slot &&& PTE_V ≠ 0 ∧
        PTE_FLAGS (ld64 t.mem slot) = PTE_R ||| PTE_W ||| PTE_U ||| PTE_V ∧
        PTE2PA (ld64 t.mem slot) = pa) ∧
      ∀ i, i < PGSIZE → ld8 t.mem (pa + i) = 0 :=
  vmfault_fresh_page demo 0x1000 0x2345 0 demo_inv (by decide) (by decide) (by decide)
    (by decide)

/-! ## C6: `vmfault` refuses out-of-bounds and already mapped addresses -/

theorem vmfault_mapped {s : Kernel} {pt va : Nat} (read : Nat)
    (hlt : PGROUNDDOWN va < MAXVA) (hv : pteOf s.mem pt (PGROUNDDOWN va) &&& PTE_V ≠ 0) :
    vmfault s pt va read = .ret 0 s := by
  unfold vmfault
  split
  · rfl
  · rw [ismapped_eq s pt _ hlt, if_pos hv]
    rfl

/-- C6: `vmfault(pt, va, read)` returns 0 and leaves memory, the page table and
the allocator exactly as they were whenever `va` is at or beyond the process
size, or the page containing `va` already has a valid leaf entry; and for a
well-formed address space a second `vmfault` on the same address right after a
successful one returns 0 and changes nothing. -/
theorem vmfault_refuses (s : Kernel) (pt va read : Nat) :
    (s.procsz ≤ va → vmfault s pt va read = .ret 0 s) ∧
    (∀ slot, walk s pt (PGROUNDDOWN va) 0 = .ret (some slot) s →
      ld64 s.mem slot &&& PTE_V ≠ 0 → vmfault s pt va read = .ret 0 s) ∧
    (∀ pa t again, Inv 2 s pt → va < U64 → vmfault s pt va read = .ret pa t → pa ≠ 0 →
      vmfault t pt va again = .ret 0 t) := by
  refine ⟨?_, ?_, ?_⟩
  · intro h
    unfold vmfault
    rw [if_pos h]
  · intro slot hw hv
    by_cases hlt : PGROUNDDOWN va < MAXVA
    · rw [walk_zero s pt _ hlt] at hw
      injection hw with hw
      exact vmfault_mapped read hlt (by rw [pteOf_of_lookup hw]; exact hv)
    · rw [walk_panic s pt _ 0 (by omega)] at hw
      cases hw
  · intro pa t again I hva h hpa
    have hal : PGROUNDDOWN va % PGSIZE = 0 := by
      rw [PGROUNDDOWN_eq va hva]
      unfold PGSIZE
      omega
    by_cases hsz : va < s.procsz
    · by_cases hlt : PGROUNDDOWN va < MAXVA
      · by_cases hinv : pteOf s.mem pt (PGROUNDDOWN va) &&& PTE_V = 0
        · rcases vmfault_cases read I hsz hal hlt hinv with
            ⟨pa1, rest, used, t1, _, hv, _, M, _, hp, _⟩ | ⟨t1, hv, _⟩
          · rw [hv] at h
            injection h with h1 h2
            subst h2
            have hleaf := hp (PGROUNDDOWN va)
            rw [if_pos (samePage_refl _)] at hleaf
            have hval := leaf_valid pa1 (PTE_W ||| PTE_U ||| PTE_R)
            rw [← hleaf] at hval
            exact vmfault_mapped again hlt hval
          · rw [hv] at h
            injection h with h1 h2
            exact absurd h1.symm hpa
        · rw [vmfault_mapped read hlt hinv] at h
          injection h with h1 h2
          exact absurd h1.symm hpa
      · unfold vmfault ismapped at h
        rw [if_neg (by omega), walk_panic s pt _ 0 (by omega)] at h
        cases h
    · unfold vmfault at h
      rw [if_pos (by omega)] at h
      injection h with h1 h2
      exact absurd h1.symm hpa

theorem vmfault_refuses_witness :
    vmfault demo 0x1000 0x10000 0 = .ret 0 demo ∧
    vmfault demoMapped 0x1000 0x1234 1 = .ret 0 demoMapped ∧
    vmfault demoFaulted 0x1000 0x2345 1 = .ret 0 demoFaulted :=
  ⟨(vmfault_refuses demo 0x1000 0x10000 0).1 (by decide),
    (vmfault_refuses demoMapped 0x1000 0x1234 1).2.1 0x3008
      ((walk_zero demoMapped 0x1000 _ (by decide)).trans
        (congrArg (fun r => Outcome.ret r demoMapped) (by decide)))
      (by decide),
    (vmfault_refuses demo 0x1000 0x2345 0).2.2 0x2000 demoFaulted 1 demo_inv (by decide)
      (Outcome.eq_ret_of_val demo (by decide)) (by decide)⟩

/-! ## C9: `uvmcopy` on a source with an unmapped page -/

/-- C9 (the code's behaviour): when the first page below `sz` has no valid leaf
entry in the source table, which is the state of a page that awaits its lazy
fill by `vmfault`, `uvmcopy` does not skip the page: it takes the fatal halt. -/
theorem uvmcopy_unmapped_halts (s : Kernel) (old new sz : Nat) (hsz : 0 < sz)
    (hinv : pteOf s.mem old 0 &&& PTE_V = 0) :
    uvmcopy s old new sz = .panic "uvmcopy: pte should exist" ∨
    uvmcopy s old new sz = .panic "uvmcopy: page not present" := by
  unfold uvmcopy
  rw [uvmcopyLoop, if_pos hsz, walk_zero s old 0 (by decide)]
  cases hl : lookupFrom s.mem 0 2 old with
  | none => left; rfl
  | some a =>
    right
    rw [pteOf_of_lookup hl] at hinv
    simp only [Outcome.bind]
    rw [if_pos hinv]

theorem uvmcopy_unmapped_halts_witness :
    uvmcopy demoFork 0x1000 0x2000 0x1000 = .panic "uvmcopy: pte should exist" ∨
    uvmcopy demoFork 0x1000 0x2000 0x1000 = .panic "uvmcopy: page not present" :=
  uvmcopy_unmapped_halts demoFork 0x1000 0x2000 0x1000 (by decide) (by decide)

/-! ## `uvmunmap` -/

theorem validFrames_congr {m n : Nat → Nat} {pt : Nat} :
    ∀ k a, (∀ j, j < k → pteOf n pt (a + j * PGSIZE) = pteOf m pt (a + j * PGSIZE)) →
      validFrames n pt a k = validFrames m pt a k := by
  intro k
  induction k with
  | zero => intro a _; rfl
  | succ k ih =>
    intro a h
    rw [validFrames, validFrames]
    have h0 := h 0 (Nat.succ_pos k)
    simp only [Nat.zero_mul, Nat.add_zero] at h0
    rw [h0, ih (a + PGSIZE) (fun j hj => by
      have := h (j + 1) (by omega)
      rw [show a + (j + 1) * PGSIZE = a + PGSIZE + j * PGSIZE by ring] at this
      exact this)]

theorem validFrames_length_le (m : Nat → Nat) (pt : Nat) :
    ∀ k a, (validFrames m pt a k).length ≤ k := by
  intro k
  induction k with
  | zero => intro a; exact Nat.le_refl 0
  | succ k ih =>
    intro a
    rw [validFrames, List.length_append]
    have := ih (a + PGSIZE)
    split <;> simp <;> omega

theorem validFrames_all {m : Nat → Nat} {pt : Nat} :
    ∀ k a, (∀ j, j < k → pteOf m pt (a + j * PGSIZE) &&& PTE_V ≠ 0) →
      (validFrames m pt a k).length = k := by
  intro k
  induction k with
  | zero => intro a _; rfl
  | succ k ih =>
    intro a h
    have h0 := h 0 (Nat.succ_pos k)
    simp only [Nat.zero_mul, Nat.add_zero] at h0
    rw [validFrames, List.length_append, if_pos h0, ih (a + PGSIZE) (fun j hj => by
      have := h (j + 1) (by omega)
      rw [show a + (j + 1) * PGSIZE = a + PGSIZE + j * PGSIZE by ring] at this
      exact this)]
    rfl

theorem uvmunmapLoop_zero (pt endva do_free : Nat) (s : Kernel) (a : Nat) (h : ¬ a < endva) :
    ∀ fuel, uvmunmapLoop pt endva do_free fuel s a = .ret () s
  | 0 => by rw [uvmunmapLoop, if_neg h]
  | fuel + 1 => by rw [uvmunmapLoop, if_neg h]

theorem uvmunmapLoop_succ (pt endva do_free fuel : Nat) (s : Kernel) (a : Nat) (h : a < endva)
    (hlt : a < MAXVA) :
    uvmunmapLoop pt endva do_free (fuel + 1) s a =
      if pteOf s.mem pt a &&& PTE_V = 0 then
        uvmunmapLoop pt endva do_free fuel s ((a + PGSIZE) % U64)
      else
        match lookupFrom s.mem a 2 pt with
        | none => .panic "unreachable"
        | some slot =>
          uvmunmapLoop pt endva do_free fuel
            { (if do_free ≠ 0 then kfree s (PTE2PA (pteOf s.mem pt a)) else s) with
              mem := st64 s.mem slot 0 }
            ((a + PGSIZE) % U64) := by
  rw [uvmunmapLoop, if_pos h, walk_zero s pt a hlt]
  cases hl : lookupFrom s.mem a 2 pt with
  | none =>
    have : pteOf s.mem pt a = 0 := by unfold pteOf pteFrom; rw [hl]
    rw [this]
    simp [Outcome.bind]
  | some slot =>
    rw [pteOf_of_lookup hl]
    simp only [Outcome.bind]
    split
    · rfl
    · by_cases hd : do_free ≠ 0
      · simp only [hd, if_true, kfree, ne_eq, not_false_eq_true]
      · simp only [hd, if_false]


theorem samePage_step {a j : Nat} (ha : a % PGSIZE = 0) (h : a + PGSIZE + j * PGSIZE < MAXVA) :
    ¬ SamePage a (a + PGSIZE + j * PGSIZE) := by
  rw [samePage_of_aligned ha (by omega) h]
  unfold PGSIZE
  omega

/-- The loop of `uvmunmap` over `n` pages from `a` on, in an owning tree. -/
theorem uvmunmapLoop_spec (pt do_free : Nat) :
    ∀ fuel n (s : Kernel) (a : Nat), n ≤ fuel → Tree 2 s.mem pt → a % PGSIZE = 0 →
      a + n * PGSIZE ≤ MAXVA →
      ∃ t, uvmunmapLoop pt (a + n * PGSIZE) do_free fuel s a = .ret () t ∧
        Tree 2 t.mem pt ∧ t.procsz = s.procsz ∧
        t.freelist = (if do_free ≠ 0 then validFrames s.mem pt a n else []) ++ s.freelist ∧
        (∀ e < 2, ∀ T, IsTable s.mem pt e T → ∀ j < 512, entry t.mem T j = entry s.mem T j) ∧
        (∀ vb, vb < MAXVA → a ≤ vb → vb < a + n * PGSIZE → pteOf t.mem pt vb &&& PTE_V = 0) ∧
        (∀ vb, vb < MAXVA → (vb < a ∨ a + n * PGSIZE ≤ vb) →
          pteOf t.mem pt vb = pteOf s.mem pt vb) ∧
        (∀ x, t.mem x ≠ s.mem x → ∃ P, IsTable s.mem pt 2 P ∧ P ≤ x ∧ x < P + PGSIZE) := by
  intro fuel
  induction fuel with
  | zero =>
    intro n s a hn I _ _
    have : n = 0 := by omega
    subst this
    refine ⟨s, ?_, I, rfl, ?_, fun _ _ _ _ _ _ => rfl, ?_, fun _ _ _ => rfl, fun _ h => absurd rfl h⟩
    · exact uvmunmapLoop_zero pt _ do_free s a (by omega) 0
    · simp [validFrames]
    · intro vb _ h1 h2; omega
  | succ fuel ih =>
    intro n s a hn I ha hmax
    cases n with
    | zero =>
      refine ⟨s, ?_, I, rfl, ?_, fun _ _ _ _ _ _ => rfl, ?_, fun _ _ _ => rfl,
        fun _ h => absurd rfl h⟩
      · exact uvmunmapLoop_zero pt _ do_free s a (by omega) _
      · simp [validFrames]
      · intro vb _ h1 h2; omega
    | succ n =>
      have hP : 0 < PGSIZE := by decide
      have hend : a + (n + 1) * PGSIZE = a + PGSIZE + n * PGSIZE := by ring
      have hlt : a < MAXVA := by
        have : 0 < (n + 1) * PGSIZE := Nat.mul_pos (Nat.succ_pos n) hP
        omega
      have hnext : (a + PGSIZE) % U64 = a + PGSIZE := by
        rw [MAXVA_eq] at hlt
        unfold PGSIZE U64
        omega
      have ha2 : (a + PGSIZE) % PGSIZE = 0 := by unfold PGSIZE at ha ⊢; omega
      rw [uvmunmapLoop_succ pt _ do_free fuel s a (by rw [hend]; omega) hlt, hnext, hend]
      by_cases hv : pteOf s.mem pt a &&& PTE_V = 0
      · rw [if_pos hv]
        obtain ⟨t, h1, h2, h3, h4, h5, h6, h7, h8⟩ := ih n s (a + PGSIZE) (by omega) I ha2
          (by omega)
        refine ⟨t, h1, h2, h3, ?_, h5, ?_, ?_, h8⟩
        · rw [h4, validFrames, if_neg (not_not.2 hv), List.append_nil]
        · intro vb hvb hlo hhi
          by_cases hin : a + PGSIZE ≤ vb
          · exact h6 vb hvb hin hhi
          · rw [h7 vb hvb (Or.inl (by omega)),
              ← pteOf_samePage s.mem pt ((samePage_of_aligned ha hlt hvb).2 ⟨hlo, by omega⟩)]
            exact hv
        · intro vb hvb hout
          exact h7 vb hvb (by omega)
      · rw [if_neg hv]
        obtain ⟨slot, hl, _⟩ := pteOf_valid_slot hv
        rw [hl]
        simp only
        have I3 := I.leaf_tree hl 0
        have hp3 := fun vb => I.leaf_pteOf (le_refl 2) hl (v := 0) (by norm_num) vb
        obtain ⟨t, h1, h2, h3, h4, h5, h6, h7, h8⟩ := ih n
          { (if do_free ≠ 0 then kfree s (PTE2PA (pteOf s.mem pt a)) else s) with
            mem := st64 s.mem slot 0 } (a + PGSIZE) (by omega) I3 ha2 (by omega)
        simp only at h2 h3 h4 h5 h6 h7 h8
        have hfr : validFrames (st64 s.mem slot 0) pt (a + PGSIZE) n =
            validFrames s.mem pt (a + PGSIZE) n :=
          validFrames_congr n (a + PGSIZE) (fun j hj => by
            have hj1 : a + PGSIZE + j * PGSIZE < MAXVA := by
              have : j * PGSIZE < n * PGSIZE := Nat.mul_lt_mul_of_pos_right hj hP
              omega
            rw [hp3, if_neg (samePage_step ha hj1)])
        refine ⟨t, h1, h2, ?_, ?_, ?_, ?_, ?_, ?_⟩
        · rw [h3]; split <;> rfl
        · rw [h4, hfr, validFrames, if_pos hv]
          by_cases hd : do_free ≠ 0
          · simp only [hd, if_true, kfree, ne_eq, not_false_eq_true, List.append_assoc,
              List.singleton_append]
          · simp only [hd, if_false, List.nil_append]
        · intro e he T hT j hj
          rw [h5 e he T ((I.leaf_isTable (le_refl 2) hl 0 e (by omega) T).2 hT) j hj]
          exact I.leaf_above (le_refl 2) hl 0 e he T hT j hj
        · intro vb hvb hlo hhi
          by_cases hin : a + PGSIZE ≤ vb
          · exact h6 vb hvb hin hhi
          · rw [h7 vb hvb (Or.inl (by omega)), hp3,
              if_pos ((samePage_of_aligned ha hlt hvb).2 ⟨hlo, by omega⟩)]
            rfl
        · intro vb hvb hout
          rw [h7 vb hvb (by omega), hp3, if_neg]
          rw [samePage_of_aligned ha hlt hvb]
          omega
        · intro x hx
          by_cases hx1 : t.mem x = st64 s.mem slot 0 x
          · rw [hx1] at hx
            exact I.leaf_foot hl 0 x hx
          · obtain ⟨P, hP1, hP2⟩ := h8 x hx1
            exact ⟨P, (I.leaf_isTable (le_refl 2) hl 0 2 (le_refl 2) P).1 hP1, hP2⟩

theorem uvmunmap_spec (pt va npages do_free : Nat) {s : Kernel}
    (I : Tree 2 s.mem pt) (ha : va % PGSIZE = 0) (hmax : va + npages * PGSIZE ≤ MAXVA) :
    ∃ t, uvmunmap s pt va npages do_free = .ret () t ∧
      Tree 2 t.mem pt ∧ t.procsz = s.procsz ∧
      t.freelist = (if do_free ≠ 0 then validFrames s.mem pt va npages else []) ++ s.freelist ∧
      (∀ e < 2, ∀ T, IsTable s.mem pt e T → ∀ j < 512, entry t.mem T j = entry s.mem T j) ∧
      (∀ vb, vb < MAXVA → va ≤ vb → vb < va + npages * PGSIZE →
        pteOf t.mem pt vb &&& PTE_V = 0) ∧
      (∀ vb, vb < MAXVA → (vb < va ∨ va + npages * PGSIZE ≤ vb) →
        pteOf t.mem pt vb = pteOf s.mem pt vb) ∧
      (∀ x, t.mem x ≠ s.mem x → ∃ P, IsTable s.mem pt 2 P ∧ P ≤ x ∧ x < P + PGSIZE) := by
  unfold uvmunmap
  rw [if_neg (not_not.2 ha), show (va + npages * PGSIZE) % U64 = va + npages * PGSIZE by
    rw [MAXVA_eq] at hmax
    unfold U64
    omega]
  exact uvmunmapLoop_spec pt do_free npages npages s va (le_refl _) I ha hmax

theorem PGROUNDUP_facts {sz : Nat} (h : sz ≤ MAXVA) :
    PGROUNDUP sz % PGSIZE = 0 ∧ sz ≤ PGROUNDUP sz ∧ PGROUNDUP sz < sz + PGSIZE ∧
      PGROUNDUP sz ≤ MAXVA := by
  rw [MAXVA_eq] at h ⊢
  have e : (sz + 4095) % 2 ^ 64 = sz + 4095 := Nat.mod_eq_of_lt (by omega)
  rw [PGROUNDUP_eq, e]
  unfold PGSIZE
  omega

theorem PGROUNDUP_mono {a b : Nat} (h : a ≤ b) (hb : b ≤ MAXVA) :
    PGROUNDUP a ≤ PGROUNDUP b := by
  rw [MAXVA_eq] at hb
  have e1 : (a + 4095) % 2 ^ 64 = a + 4095 := Nat.mod_eq_of_lt (by omega)
  have e2 : (b + 4095) % 2 ^ 64 = b + 4095 := Nat.mod_eq_of_lt (by omega)
  rw [PGROUNDUP_eq, PGROUNDUP_eq, e1, e2]
  omega

theorem viaInt_small {x : Nat} (h : x < 2 ^ 31) : viaInt x = x := by
  unfold viaInt
  rw [Nat.mod_eq_of_lt (by omega), if_pos h]

/-- `uvmdealloc` from `oldsz` down to `newsz`: it returns `newsz` after unmapping
and freeing the pages between the two rounded-up sizes. -/
theorem uvmdealloc_spec (pt oldsz newsz : Nat) {s : Kernel} (I : Tree 2 s.mem pt)
    (hle : newsz ≤ oldsz) (hmax : oldsz ≤ MAXVA) :
    ∃ t, uvmdealloc s pt oldsz newsz = .ret newsz t ∧
      Tree 2 t.mem pt ∧ t.procsz = s.procsz ∧
      t.freelist = validFrames s.mem pt (PGROUNDUP newsz)
        ((PGROUNDUP oldsz - PGROUNDUP newsz) / PGSIZE) ++ s.freelist ∧
      (∀ e < 2, ∀ T, IsTable s.mem pt e T → ∀ j < 512, entry t.mem T j = entry s.mem T j) ∧
      (∀ vb, vb < MAXVA → PGROUNDUP newsz ≤ vb → vb < PGROUNDUP oldsz →
        pteOf t.mem pt vb &&& PTE_V = 0) ∧
      (∀ vb, vb < MAXVA → (vb < PGROUNDUP newsz ∨ PGROUNDUP oldsz ≤ vb) →
        pteOf t.mem pt vb = pteOf s.mem pt vb) ∧
      (∀ x, t.mem x ≠ s.mem x → ∃ P, IsTable s.mem pt 2 P ∧ P ≤ x ∧ x < P + PGSIZE) := by
  obtain ⟨o1, o2, o3, o4⟩ := PGROUNDUP_facts hmax
  obtain ⟨n1, n2, n3, n4⟩ := PGROUNDUP_facts (le_trans hle hmax)
  have hmono := PGROUNDUP_mono hle hmax
  by_cases hup : PGROUNDUP newsz < PGROUNDUP oldsz
  · have hlt : newsz < oldsz := by
      by_contra hc
      have : newsz = oldsz := by omega
      rw [this] at hup
      omega
    have hn : (PGROUNDUP oldsz - PGROUNDUP newsz) / PGSIZE * PGSIZE =
        PGROUNDUP oldsz - PGROUNDUP newsz := by
      unfold PGSIZE at *
      omega
    have hsmall : (PGROUNDUP oldsz - PGROUNDUP newsz) / PGSIZE < 2 ^ 31 := by
      rw [MAXVA_eq] at o4
      unfold PGSIZE
      omega
    obtain ⟨t, h1, h2, h3, h4, h5, h6, h7, h8⟩ := uvmunmap_spec pt
      (PGROUNDUP newsz) ((PGROUNDUP oldsz - PGROUNDUP newsz) / PGSIZE) 1 I n1
      (by rw [hn]; omega)
    rw [hn] at h6 h7
    refine ⟨t, ?_, h2, h3, ?_, h5, ?_, ?_, h8⟩
    · unfold uvmdealloc
      rw [if_neg (by omega), if_pos hup, viaInt_small hsmall, h1]
      rfl
    · rw [h4, if_pos (by decide)]
    · intro vb hvb hlo hhi
      exact h6 vb hvb hlo (by omega)
    · intro vb hvb hout
      exact h7 vb hvb (by omega)
  · have heq : PGROUNDUP oldsz = PGROUNDUP newsz := by omega
    refine ⟨s, ?_, I, rfl, ?_, fun _ _ _ _ _ _ => rfl, ?_, fun _ _ _ => rfl,
      fun _ h => absurd rfl h⟩
    · unfold uvmdealloc
      by_cases h : newsz ≥ oldsz
      · rw [if_pos h]
        have : newsz = oldsz := by omega
        rw [this]
      · rw [if_neg h, if_neg hup]
    · rw [heq, Nat.sub_self, Nat.zero_div]
      rfl
    · intro vb _ h1 h2
      omega

theorem missing_le (m : Nat → Nat) (va : Nat) : ∀ level T, missing m va level T ≤ level := by
  intro level
  induction level with
  | zero => intro T; exact Nat.le_refl 0
  | succ level ih =>
    intro T
    rw [missing]
    split
    · exact Nat.le_succ_of_le (ih _)
    · exact Nat.le_refl _

theorem missing_zero_iff (m : Nat → Nat) (va : Nat) :
    ∀ level T, missing m va level T = 0 ↔ ∃ x, lookupFrom m va level T = some x := by
  intro level
  induction level with
  | zero => intro T; exact ⟨fun _ => ⟨_, rfl⟩, fun _ => rfl⟩
  | succ level ih =>
    intro T
    rw [missing, lookupFrom]
    split
    · exact ih _
    · constructor
      · intro h; omega
      · rintro ⟨x, hx⟩; cases hx

theorem uvmallocLoop_stop (pt oldsz newsz xperm : Nat) (s : Kernel) (a : Nat)
    (h : ¬ a < newsz) : ∀ fuel, uvmallocLoop pt oldsz newsz xperm fuel s a = .ret newsz s
  | 0 => by rw [uvmallocLoop, if_neg h]
  | fuel + 1 => by rw [uvmallocLoop, if_neg h]

theorem growSpec_nil {pt perm a : Nat} {s : Kernel} (I : Inv 2 s pt) :
    GrowSpec pt perm a 0 s s [] [] where
  inv := I
  procsz := rfl
  count := rfl
  frames_len := rfl
  frames_free := fun _ h => absurd h (List.not_mem_nil _)
  used_free := fun _ h => absurd h (List.not_mem_nil _)
  used_tables := fun _ h => absurd h (List.not_mem_nil _)
  tables_old := fun _ _ _ h => h
  lookup_mono := fun _ _ h => h
  mapped := fun j hj => absurd hj (Nat.not_lt_zero j)
  outside := fun _ _ _ => rfl
  no_new := fun _ => rfl

/-- One more page in front: the step of the induction for the loop of
`uvmalloc`. -/
theorem growSpec_cons {pt perm a n mem : Nat} {rest : List Nat} {s t1 t : Kernel}
    {used1 frames used2 : List Nat} (hf : s.freelist = mem :: rest)
    (ha : a % PGSIZE = 0) (hmax : a + (n + 1) * PGSIZE ≤ MAXVA)
    (E : TableEq s.mem (memset s.mem mem 0 PGSIZE) pt)
    (M : MapSpec pt { s with mem := memset s.mem mem 0 PGSIZE, freelist := rest } t1 used1)
    (hlen : used1.length = missing s.mem a 2 pt)
    (hp : ∀ vb, pteOf t1.mem pt vb =
      if SamePage a vb then PA2PTE mem ||| perm ||| PTE_V else pteOf s.mem pt vb)
    (G : GrowSpec pt perm (a + PGSIZE) n t1 t frames used2) :
    GrowSpec pt perm a (n + 1) s t (mem :: frames) (used1 ++ used2) := by
  have hP : 0 < PGSIZE := by decide
  have hlt : a < MAXVA := by
    have : 0 < (n + 1) * PGSIZE := Nat.mul_pos (Nat.succ_pos n) hP
    omega
  have hrest : rest = used1 ++ t1.freelist := M.free
  have hsub : ∀ P ∈ t1.freelist, P ∈ s.freelist := fun P hP => by
    rw [hf, hrest]
    exact List.mem_cons_of_mem _ (List.mem_append_right _ hP)
  exact {
    inv := G.inv
    procsz := G.procsz.trans M.procsz
    count := by
      have h1 := G.count
      have h2 : rest.length = used1.length + t1.freelist.length := by
        rw [hrest, List.length_append]
      rw [hf, List.length_cons, List.length_append]
      omega
    frames_len := by rw [List.length_cons, G.frames_len]
    frames_free := fun P hP => by
      rcases List.mem_cons.1 hP with h | h
      · rw [h, hf]; exact List.mem_cons_self _ _
      · exact hsub P (G.frames_free P h)
    used_free := fun P hP => by
      rcases List.mem_append.1 hP with h | h
      · rw [hf, hrest]
        exact List.mem_cons_of_mem _ (List.mem_append_left _ h)
      · exact hsub P (G.used_free P h)
    used_tables := fun P hP => by
      rcases List.mem_append.1 hP with h | h
      · obtain ⟨d, h1, h2, h3⟩ := M.used_tables P h
        exact ⟨d, h1, h2, G.tables_old d P h2 h3⟩
      · exact G.used_tables P h
    tables_old := fun d P hd h =>
      G.tables_old d P hd (M.tables_old d P hd ((E.te_isTable d (by omega) P).2 h))
    lookup_mono := fun va x h =>
      G.lookup_mono va x (M.lookup_mono va x (by
        show lookupFrom (memset s.mem mem 0 PGSIZE) va 2 pt = some x
        rw [E.te_lookup]; exact h))
    mapped := fun j hj => by
      cases j with
      | zero =>
        simp only [Nat.zero_mul, Nat.add_zero, List.getD_cons_zero]
        rw [G.outside a hlt (Or.inl (by omega)), hp, if_pos (samePage_refl a)]
      | succ j =>
        rw [show a + (j + 1) * PGSIZE = a + PGSIZE + j * PGSIZE by ring, List.getD_cons_succ]
        exact G.mapped j (by omega)
    outside := fun vb hvb hout => by
      rw [G.outside vb hvb (by
        rw [show a + PGSIZE + n * PGSIZE = a + (n + 1) * PGSIZE by ring]
        omega), hp, if_neg]
      rw [samePage_of_aligned ha hlt hvb]
      unfold PGSIZE at hout ⊢
      omega
    no_new := fun h => by
      have h0 := h 0 (Nat.succ_pos n)
      simp only [Nat.zero_mul, Nat.add_zero] at h0
      have u1 : used1 = [] := List.eq_nil_of_length_eq_zero (hlen.trans h0)
      have u2 : used2 = [] := G.no_new (fun j hj => by
        have := h (j + 1) (by omega)
        rw [show a + (j + 1) * PGSIZE = a + PGSIZE + j * PGSIZE by ring] at this
        obtain ⟨x, hx⟩ := (missing_zero_iff s.mem _ 2 pt).1 this
        exact (missing_zero_iff t1.mem _ 2 pt).2 ⟨x, M.lookup_mono _ x (by
          show lookupFrom (memset s.mem mem 0 PGSIZE) _ 2 pt = some x
          rw [E.te_lookup]; exact hx)⟩)
      rw [u1, u2]; rfl }

/-- The loop of `uvmalloc` maps every page up to the rounded-up new size when
the allocator holds three pages for each of them. -/
theorem uvmallocLoop_ok (pt oldsz : Nat) {newsz xperm E : Nat} (hx : xperm < U64)
    (hE2 : newsz ≤ E) (hE3 : E < newsz + PGSIZE) (hE4 : E ≤ MAXVA) :
    ∀ fuel n (s : Kernel) (a : Nat), n ≤ fuel → Inv 2 s pt → a % PGSIZE = 0 →
      a + n * PGSIZE = E →
      (∀ j, j < n → pteOf s.mem pt (a + j * PGSIZE) &&& PTE_V = 0) →
      3 * n ≤ s.freelist.length →
      ∃ t frames used, uvmallocLoop pt oldsz newsz xperm fuel s a = .ret newsz t ∧
        GrowSpec pt (PTE_R ||| PTE_U ||| xperm) a n s t frames used := by
  intro fuel
  induction fuel with
  | zero =>
    intro n s a hn I _ hE _ _
    have : n = 0 := by omega
    subst this
    exact ⟨s, [], [], uvmallocLoop_stop pt oldsz newsz xperm s a (by omega) 0, growSpec_nil I⟩
  | succ fuel ih =>
    intro n s a hn I ha hE hinv hfree
    cases n with
    | zero =>
      exact ⟨s, [], [], uvmallocLoop_stop pt oldsz newsz xperm s a (by omega) _, growSpec_nil I⟩
    | succ n =>
      have hP : 0 < PGSIZE := by decide
      have hend : a + (n + 1) * PGSIZE = a + PGSIZE + n * PGSIZE := by ring
      have hlt : a < MAXVA := by
        have : 0 < (n + 1) * PGSIZE := Nat.mul_pos (Nat.succ_pos n) hP
        omega
      have hcond : a < newsz := by
        unfold PGSIZE at *
        omega
      have hnext : (a + PGSIZE) % U64 = a + PGSIZE := by
        rw [MAXVA_eq] at hlt
        unfold PGSIZE U64
        omega
      cases hf : s.freelist with
      | nil => rw [hf] at hfree; simp at hfree
      | cons mem rest =>
        have hmem : mem ∈ s.freelist := by rw [hf]; exact List.mem_cons_self _ _
        obtain ⟨_, _, hmem3⟩ := I.free_aligned mem hmem
        obtain ⟨E', I2⟩ := I.take_page hf (memset_changes s.mem mem 0 PGSIZE)
        have h0 := hinv 0 (Nat.succ_pos n)
        simp only [Nat.zero_mul, Nat.add_zero] at h0
        have hinv2 : pteOf (memset s.mem mem 0 PGSIZE) pt a &&& PTE_V = 0 := by
          rw [E'.te_pteOf]; exact h0
        have hperm : PTE_R ||| PTE_U ||| xperm < U64 :=
          Nat.or_lt_two_pow (Nat.or_lt_two_pow (by decide) (by decide)) hx
        obtain ⟨r, t1, used1, hm, M, hr⟩ := mappages_one mem
          (PTE_R ||| PTE_U ||| xperm) I2 ha hlt hinv2 hmem3 hperm
        have hmiss : missing (memset s.mem mem 0 PGSIZE) a 2 pt = missing s.mem a 2 pt :=
          E'.te_missing _ 2 0 pt rfl rfl
        have hle2 := missing_le s.mem a 2 pt
        rw [hf, List.length_cons] at hfree
        rcases hr with ⟨hr0, hlen, hp⟩ | ⟨_, _, hlen, _⟩
        · have hrest : rest = used1 ++ t1.freelist := M.free
          have hrl : rest.length = used1.length + t1.freelist.length := by
            rw [hrest, List.length_append]
          rw [hmiss] at hlen
          obtain ⟨t, frames, used2, hl, G⟩ := ih n t1 (a + PGSIZE) (by omega) M.inv
            (by unfold PGSIZE at ha ⊢; omega) (by omega)
            (fun j hj => by
              have hj1 : a + PGSIZE + j * PGSIZE < MAXVA := by
                have : j * PGSIZE < n * PGSIZE := Nat.mul_lt_mul_of_pos_right hj hP
                omega
              rw [hp, if_neg (samePage_step ha hj1), E'.te_pteOf]
              have := hinv (j + 1) (by omega)
              rw [show a + (j + 1) * PGSIZE = a + PGSIZE + j * PGSIZE by ring] at this
              exact this)
            (by omega)
          refine ⟨t, mem :: frames, used1 ++ used2, ?_,
            growSpec_cons hf ha (by omega) E' M hlen (fun vb => by rw [hp, E'.te_pteOf]) G⟩
          rw [uvmallocLoop, if_pos hcond]
          simp only [kalloc, hf]
          rw [hm, hr0]
          simp only [Outcome.bind, ne_eq, not_true_eq_false, if_false]
          rw [hnext]
          exact hl
        · simp only at hlen
          rw [hmiss] at hlen
          omega

/-! ## Empty tables -/

theorem ld64_zero_mem {m : Nat → Nat} (h : ∀ x, m x = 0) (a : Nat) : ld64 m a = 0 := by
  unfold ld64 ld8
  simp [h]

theorem pteOf_zero_mem {m : Nat → Nat} (h : ∀ x, m x = 0) (pt a : Nat) : pteOf m pt a = 0 := by
  rw [pteOf_unfold]
  unfold entry
  rw [ld64_zero_mem h, if_neg zero_not_valid]

theorem demo_unmapped (a : Nat) : pteOf demo.mem 0x1000 a &&& PTE_V = 0 := by
  rw [pteOf_zero_mem (m := demo.mem) (fun _ => rfl)]
  rfl

theorem samePage_rounddown {va : Nat} (h : va < MAXVA) : SamePage (PGROUNDDOWN va) va := by
  obtain ⟨h1, h2, h3, h4⟩ := PGROUNDDOWN_facts h
  exact (samePage_of_aligned h1 h4 h).2 ⟨h2, h3⟩

theorem off_eq {va : Nat} (h : va < MAXVA) : va - PGROUNDDOWN va = va % PGSIZE := by
  rw [MAXVA_eq] at h
  rw [PGROUNDDOWN_eq va (by unfold U64; omega)]
  unfold PGSIZE
  omega

theorem walkaddr_readable {s : Kernel} {pt va : Nat} (h : va < MAXVA)
    (hr : Readable s.mem pt va) :
    walkaddr s pt (PGROUNDDOWN va) = .ret (PTE2PA (pteOf s.mem pt va)) s := by
  obtain ⟨h1, h2, h3, h4⟩ := PGROUNDDOWN_facts h
  rw [walkaddr_eq s pt _ h4, pteOf_samePage s.mem pt (samePage_rounddown h), if_neg]
  rintro (h | h)
  · exact hr.1 h
  · exact hr.2.1 h

theorem copyinLoop_done (pt : Nat) (s : Kernel) (dst : List Nat) (srcva : Nat) :
    ∀ fuel, copyinLoop pt fuel s dst srcva 0 = .ret (0, dst) s
  | 0 => by rw [copyinLoop, if_neg (by omega)]
  | fuel + 1 => by rw [copyinLoop, if_neg (by omega)]

theorem copyinLoop_step {pt fuel : Nat} {s : Kernel} {dst : List Nat} {srcva len : Nat}
    (hlen : 0 < len) (h : srcva < MAXVA) (hr : Readable s.mem pt srcva) :
    copyinLoop pt (fuel + 1) s dst srcva len =
      copyinLoop pt fuel s
        (dst ++ memmoveOut s.mem (physOf s.mem pt srcva) (min (PGSIZE - srcva % PGSIZE) len))
        (PGROUNDDOWN srcva + PGSIZE) (len - min (PGSIZE - srcva % PGSIZE) len) := by
  obtain ⟨h1, h2, h3, h4⟩ := PGROUNDDOWN_facts h
  have hnext : (PGROUNDDOWN srcva + PGSIZE) % U64 = PGROUNDDOWN srcva + PGSIZE := by
    rw [MAXVA_eq] at h4
    unfold PGSIZE U64
    omega
  rw [copyinLoop, if_pos hlen, walkaddr_readable h hr]
  simp only [Outcome.bind, if_neg hr.2.2]
  rw [hnext, off_eq h]
  rfl

theorem physOf_add {m : Nat → Nat} {pt va i : Nat} (h : va + i < MAXVA)
    (hi : i < PGSIZE - va % PGSIZE) : physOf m pt (va + i) = physOf m pt va + i := by
  have hs : SamePage va (va + i) := by
    rw [MAXVA_eq] at h
    rw [samePage_iff (by omega) (by omega)]
    unfold PGSIZE at hi
    omega
  unfold physOf
  rw [← pteOf_samePage m pt hs]
  unfold PGSIZE at hi ⊢
  omega

/-- Reading `len` bytes of mapped user memory: `copyin` returns 0 without
changing the state, and the bytes are those at the translated addresses. -/
theorem copyinLoop_read (pt : Nat) :
    ∀ fuel (s : Kernel) (dst : List Nat) (srcva len : Nat), len ≤ fuel →
      srcva + len ≤ MAXVA → (∀ i, i < len → Readable s.mem pt (srcva + i)) →
      copyinLoop pt fuel s dst srcva len =
        .ret (0, dst ++ (List.range len).map fun i => ld8 s.mem (physOf s.mem pt (srcva + i))) s := by
  intro fuel
  induction fuel with
  | zero =>
    intro s dst srcva len hl _ _
    have : len = 0 := by omega
    subst this
    rw [copyinLoop_done]
    simp
  | succ fuel ih =>
    intro s dst srcva len hl hmax hr
    by_cases h0 : len = 0
    · subst h0
      rw [copyinLoop_done]
      simp
    · have hlt : srcva < MAXVA := by omega
      obtain ⟨h1, h2, h3, h4⟩ := PGROUNDDOWN_facts hlt
      have hr0 := hr 0 (by omega)
      rw [Nat.add_zero] at hr0
      rw [copyinLoop_step (by omega) hlt hr0]
      have hoff : srcva % PGSIZE < PGSIZE := Nat.mod_lt _ (by decide)
      have hn1 : 0 < min (PGSIZE - srcva % PGSIZE) len := by
        rw [Nat.lt_min]; omega
      have hn2 : min (PGSIZE - srcva % PGSIZE) len ≤ len := Nat.min_le_right _ _
      have hn3 : min (PGSIZE - srcva % PGSIZE) len ≤ PGSIZE - srcva % PGSIZE :=
        Nat.min_le_left _ _
      have hpage : PGROUNDDOWN srcva + PGSIZE = srcva + (PGSIZE - srcva % PGSIZE) := by
        rw [← off_eq hlt]; omega
      by_cases hfull : PGSIZE - srcva % PGSIZE ≤ len
      · have hn : min (PGSIZE - srcva % PGSIZE) len = PGSIZE - srcva % PGSIZE :=
          Nat.min_eq_left hfull
        rw [hn] at hn1 ⊢
        rw [hpage, ih s _ _ _ (by omega) (by omega) (fun i hi => by
          rw [Nat.add_assoc]; exact hr _ (by omega))]
        congr 2
        rw [List.append_assoc]
        congr 1
        have hsplit : len = (PGSIZE - srcva % PGSIZE) + (len - (PGSIZE - srcva % PGSIZE)) := by
          omega
        conv_rhs => rw [hsplit, List.range_add, List.map_append, List.map_map]
        congr 1
        · unfold memmoveOut
          apply List.map_congr_left
          intro i hi
          rw [List.mem_range] at hi
          rw [physOf_add (by omega) hi]
        · apply List.map_congr_left
          intro i _
          simp only [Function.comp, Nat.add_assoc]
      · have hn : min (PGSIZE - srcva % PGSIZE) len = len := Nat.min_eq_right (by omega)
        rw [hn, Nat.sub_self, copyinLoop_done]
        congr 3
        unfold memmoveOut
        apply List.map_congr_left
        intro i hi
        rw [List.mem_range] at hi
        rw [physOf_add (by omega) (by omega)]

/-! ## Frames -/

theorem SamePage.sp_symm {va vb : Nat} (h : SamePage va vb) : SamePage vb va :=
  ⟨h.1.symm, h.2.1.symm, h.2.2.symm⟩

theorem SamePage.sp_trans {va vb vc : Nat} (h : SamePage va vb) (g : SamePage vb vc) :
    SamePage va vc :=
  ⟨h.1.trans g.1, h.2.1.trans g.2.1, h.2.2.trans g.2.2⟩

/-- Rewriting bytes inside a mapped frame leaves the tables, the invariant and
the ownership of frames as they are. -/
theorem frame_write {s : Kernel} {pt va : Nat} {n : Nat → Nat} (I : Inv 2 s pt)
    (F : FrameOK s pt) (hva : va < MAXVA) (hv : pteOf s.mem pt va &&& PTE_V ≠ 0)
    (hn : ∀ x, n x ≠ s.mem x →
      PTE2PA (pteOf s.mem pt va) ≤ x ∧ x < PTE2PA (pteOf s.mem pt va) + PGSIZE) :
    TableEq s.mem n pt ∧ Inv 2 { s with mem := n } pt ∧ FrameOK { s with mem := n } pt := by
  obtain ⟨_, _, f3, _⟩ := F va hva hv
  have E : TableEq s.mem n pt := tableEq_of_outside I.tree (fun x hx =>
    ⟨_, PTE2PA_aligned _, f3, hn x hx⟩)
  refine ⟨E, E.te_inv I I.free_nodup (fun _ h => h), ?_⟩
  intro v1 h1 h2
  simp only at h2 ⊢
  rw [E.te_pteOf] at h2 ⊢
  obtain ⟨g1, g2, g3, g4⟩ := F v1 h1 h2
  refine ⟨g1, g2, fun d hd hT => g3 d hd ((E.te_isTable d (by omega) _).1 hT), ?_⟩
  intro vb hb1 hb2 hb3
  rw [E.te_pteOf] at hb2 hb3
  exact g4 vb hb1 hb2 hb3

/-- After a successful `vmfault` the frames are still exclusively owned. -/
theorem vmfault_frameOK {s t : Kernel} {pt va0 pa : Nat} {rest used : List Nat}
    (I : Inv 2 s pt) (F : FrameOK s pt) (hf : s.freelist = pa :: rest)
    (E : TableEq s.mem (memset s.mem pa 0 PGSIZE) pt)
    (M : MapSpec pt { s with mem := memset s.mem pa 0 PGSIZE, freelist := rest } t used)
    (hp : ∀ vb, pteOf t.mem pt vb =
      if SamePage va0 vb then PA2PTE pa ||| (PTE_W ||| PTE_U ||| PTE_R) ||| PTE_V
      else pteOf s.mem pt vb) :
    FrameOK t pt := by
  have hpa : pa ∈ s.freelist := by rw [hf]; exact List.mem_cons_self _ _
  obtain ⟨hpa1, hpa2, hpa3⟩ := I.free_aligned pa hpa
  have hnd : (pa :: rest).Nodup := hf ▸ I.free_nodup
  have hrest : rest = used ++ t.freelist := M.free
  have hsub : ∀ p ∈ t.freelist, p ∈ rest := fun p h => by
    rw [hrest]; exact List.mem_append_right _ h
  have hused : ∀ p ∈ used, p ∈ rest := fun p h => by
    rw [hrest]; exact List.mem_append_left _ h
  have hfr : PTE2PA (PA2PTE pa ||| (PTE_W ||| PTE_U ||| PTE_R) ||| PTE_V) = pa :=
    leaf_PTE2PA (by decide) hpa3 hpa1
  have htab : ∀ d, d ≤ 2 → ∀ P, IsTable t.mem pt d P → IsTable s.mem pt d P ∨ P ∈ rest := by
    intro d hd P hT
    rcases M.tables_new d P hd hT with h | ⟨h, _⟩
    · exact Or.inl ((E.te_isTable d (by omega) P).1 h)
    · exact Or.inr (hused P h)
  intro v1 h1 h2
  by_cases hs : SamePage va0 v1
  · rw [hp, if_pos hs, hfr]
    refine ⟨hpa2, fun h => (List.nodup_cons.1 hnd).1 (hsub pa h), ?_, ?_⟩
    · intro d hd hT
      rcases htab d hd pa hT with h | h
      · exact I.free_fresh d hd pa h hpa
      · exact (List.nodup_cons.1 hnd).1 h
    · intro vb hb1 hb2 hb3
      by_cases hsb : SamePage va0 vb
      · exact hs.sp_symm.sp_trans hsb
      · rw [hp, if_neg hsb] at hb2 hb3
        exact absurd (hb3 ▸ hpa) (F vb hb1 hb2).2.1
  · rw [hp, if_neg hs] at h2 ⊢
    obtain ⟨g1, g2, g3, g4⟩ := F v1 h1 h2
    have hnotin : PTE2PA (pteOf s.mem pt v1) ∉ rest := fun h =>
      g2 (by rw [hf]; exact List.mem_cons_of_mem _ h)
    refine ⟨g1, fun h => hnotin (hsub _ h), ?_, ?_⟩
    · intro d hd hT
      rcases htab d hd _ hT with h | h
      · exact g3 d hd h
      · exact hnotin h
    · intro vb hb1 hb2 hb3
      by_cases hsb : SamePage va0 vb
      · rw [hp, if_pos hsb, hfr] at hb3
        exact absurd (hb3 ▸ hpa) g2
      · rw [hp, if_neg hsb] at hb2 hb3
        exact g4 vb hb1 hb2 hb3

/-- After a successful `vmfault` the bytes of the frames that were mapped
before are as they were. -/
theorem vmfault_bytes {s t : Kernel} {pt pa : Nat} {rest used : List Nat}
    (I : Inv 2 s pt) (F : FrameOK s pt) (hf : s.freelist = pa :: rest)
    (E : TableEq s.mem (memset s.mem pa 0 PGSIZE) pt)
    (M : MapSpec pt { s with mem := memset s.mem pa 0 PGSIZE, freelist := rest } t used)
    {vb : Nat} (hb : vb < MAXVA) (hv : pteOf s.mem pt vb &&& PTE_V ≠ 0) {i : Nat}
    (hi : i < PGSIZE) :
    t.mem (PTE2PA (pteOf s.mem pt vb) + i) = s.mem (PTE2PA (pteOf s.mem pt vb) + i) := by
  obtain ⟨_, g2, g3, _⟩ := F vb hb hv
  have hpa : pa ∈ s.freelist := by rw [hf]; exact List.mem_cons_self _ _
  have hrest : rest = used ++ t.freelist := M.free
  have key : ∀ P, P % PGSIZE = 0 → P ≠ PTE2PA (pteOf s.mem pt vb) →
      ¬ (P ≤ PTE2PA (pteOf s.mem pt vb) + i ∧ PTE2PA (pteOf s.mem pt vb) + i < P + PGSIZE) := by
    intro P hP hne
    have := page_disj hP (PTE2PA_aligned (pteOf s.mem pt vb)) hne
    omega
  by_contra hx
  by_cases h1 : t.mem (PTE2PA (pteOf s.mem pt vb) + i) =
      memset s.mem pa 0 PGSIZE (PTE2PA (pteOf s.mem pt vb) + i)
  · rw [h1] at hx
    exact key pa (I.free_aligned pa hpa).1 (fun e => g2 (e ▸ hpa)) (memset_changes _ _ _ _ _ hx)
  · obtain ⟨P, hP, hP2⟩ := M.foot _ h1
    rcases hP with hP | ⟨d, hd, hT⟩
    · have hPf : P ∈ s.freelist := by
        rw [hf, hrest]
        exact List.mem_cons_of_mem _ (List.mem_append_left _ hP)
      exact key P (I.free_aligned P hPf).1 (fun e => g2 (e ▸ hPf)) hP2
    · have hT1 := (E.te_isTable d (by omega) P).1 hT
      exact key P (I.tree.table_aligned hT1) (fun e => g3 d hd (e ▸ hT1)) hP2

theorem PGROUNDDOWN_idem {va : Nat} (h : va < MAXVA) :
    PGROUNDDOWN (PGROUNDDOWN va) = PGROUNDDOWN va := by
  obtain ⟨h1, h2, h3, h4⟩ := PGROUNDDOWN_facts h
  rw [MAXVA_eq] at h4
  rw [PGROUNDDOWN_eq (PGROUNDDOWN va) (by unfold U64; omega)]
  unfold PGSIZE at h1
  omega

theorem leaf_write_bit (pa : Nat) {perm : Nat} (h : perm &&& PTE_W ≠ 0) :
    (PA2PTE pa ||| perm ||| PTE_V) &&& PTE_W ≠ 0 := by
  rw [show PTE_W = 2 ^ 2 by decide, and_bit] at h ⊢
  rw [or_bit, or_bit]
  exact Or.inl (Or.inr h)

/-! ## `copyout` -/

theorem copyoutLoop_done (pt : Nat) (s : Kernel) (dstva : Nat) (src : List Nat) :
    ∀ fuel, copyoutLoop pt fuel s dstva src 0 = .ret 0 s
  | 0 => by rw [copyoutLoop, if_neg (by omega)]
  | fuel + 1 => by rw [copyoutLoop, if_neg (by omega)]

/-- The body of the loop of `copyout` on a page that is mapped writable for the
user: the bytes go to the frame and the loop continues with the next page. -/
theorem copyoutLoop_mapped {pt : Nat} {s : Kernel} {dstva len : Nat} (hlen : 0 < len)
    (h : dstva < MAXVA) (hv : pteOf s.mem pt dstva &&& PTE_V ≠ 0)
    (hu : pteOf s.mem pt dstva &&& PTE_U ≠ 0) (hw : pteOf s.mem pt dstva &&& PTE_W ≠ 0)
    (h0 : PTE2PA (pteOf s.mem pt dstva) ≠ 0) (fuel : Nat) (src : List Nat) :
    copyoutLoop pt (fuel + 1) s dstva src len =
      copyoutLoop pt fuel
        { s with
          mem := memmoveIn s.mem (physOf s.mem pt dstva) src (min (PGSIZE - dstva % PGSIZE) len) }
        (PGROUNDDOWN dstva + PGSIZE) (src.drop (min (PGSIZE - dstva % PGSIZE) len))
        (len - min (PGSIZE - dstva % PGSIZE) len) := by
  obtain ⟨h1, h2, h3, h4⟩ := PGROUNDDOWN_facts h
  have hnext : (PGROUNDDOWN dstva + PGSIZE) % U64 = PGROUNDDOWN dstva + PGSIZE := by
    rw [MAXVA_eq] at h4
    unfold PGSIZE U64
    omega
  have hs := samePage_rounddown h
  have hv' := hv
  rw [← pteOf_samePage s.mem pt hs] at hv'
  obtain ⟨slot, hl, hsl⟩ := pteOf_valid_slot hv'
  rw [copyoutLoop, if_pos hlen, if_neg (by omega), walkaddr_readable h ⟨hv, hu, h0⟩]
  simp only [Outcome.bind, if_neg h0]
  rw [walk_zero s pt _ h4, hl]
  simp only
  rw [← hsl, pteOf_samePage s.mem pt hs, if_neg hw, hnext, off_eq h]
  rfl

theorem resolved_refl {pt va : Nat} {s : Kernel} (I : Inv 2 s pt) (F : FrameOK s pt)
    (hv : pteOf s.mem pt va &&& PTE_V ≠ 0) (hu : pteOf s.mem pt va &&& PTE_U ≠ 0)
    (hw : pteOf s.mem pt va &&& PTE_W ≠ 0) : Resolved pt va s s where
  inv := I
  frames := F
  procsz := rfl
  valid := hv
  user := hu
  writable := hw
  keep := fun _ _ _ => rfl
  other := fun _ _ => rfl
  bytes := fun _ _ _ _ _ => rfl
  free_len := Nat.le_add_right _ _

/-- The body of the loop of `copyout` on a page below the process size that has
no valid leaf entry: `vmfault` maps a fresh page, the bytes go to it and the loop
continues with the next page. -/
theorem copyoutLoop_unmapped {pt : Nat} {s : Kernel} {dstva len : Nat} (I : Inv 2 s pt)
    (F : FrameOK s pt) (hlen : 0 < len) (h : dstva < MAXVA)
    (hsz : PGROUNDDOWN dstva < s.procsz) (hinv : pteOf s.mem pt dstva &&& PTE_V = 0)
    (hfree : 3 ≤ s.freelist.length) :
    ∃ t, Resolved pt dstva s t ∧ ∀ fuel src,
      copyoutLoop pt (fuel + 1) s dstva src len =
        copyoutLoop pt fuel
          { t with
            mem := memmoveIn t.mem (physOf t.mem pt dstva) src
              (min (PGSIZE - dstva % PGSIZE) len) }
          (PGROUNDDOWN dstva + PGSIZE) (src.drop (min (PGSIZE - dstva % PGSIZE) len))
          (len - min (PGSIZE - dstva % PGSIZE) len) := by
  obtain ⟨h1, h2, h3, h4⟩ := PGROUNDDOWN_facts h
  have hnext : (PGROUNDDOWN dstva + PGSIZE) % U64 = PGROUNDDOWN dstva + PGSIZE := by
    rw [MAXVA_eq] at h4
    unfold PGSIZE U64
    omega
  have hs := samePage_rounddown h
  have hinv0 : pteOf s.mem pt (PGROUNDDOWN (PGROUNDDOWN dstva)) &&& PTE_V = 0 := by
    rw [PGROUNDDOWN_idem h, pteOf_samePage s.mem pt hs]; exact hinv
  have hm2 := missing_le s.mem (PGROUNDDOWN (PGROUNDDOWN dstva)) 2 pt
  obtain ⟨pa, rest, used, t, hf, hv, E, M, hlenu, hp, _⟩ :=
    vmfault_ok 0 I hsz h4 hinv0 (by omega)
  rw [PGROUNDDOWN_idem h] at hp hlenu
  have hpa : pa ∈ s.freelist := by rw [hf]; exact List.mem_cons_self _ _
  obtain ⟨hpa1, hpa2, hpa3⟩ := I.free_aligned pa hpa
  have hleaf : pteOf t.mem pt dstva =
      PA2PTE pa ||| (PTE_W ||| PTE_U ||| PTE_R) ||| PTE_V := by
    rw [hp, if_pos hs]
  have hfr : PTE2PA (pteOf t.mem pt dstva) = pa := by
    rw [hleaf]; exact leaf_PTE2PA (by decide) hpa3 hpa1
  have hval : pteOf t.mem pt dstva &&& PTE_V ≠ 0 := by rw [hleaf]; exact leaf_valid _ _
  have husr : pteOf t.mem pt dstva &&& PTE_U ≠ 0 := by
    rw [hleaf]; exact leaf_user _ (by decide)
  have hwr : pteOf t.mem pt dstva &&& PTE_W ≠ 0 := by
    rw [hleaf]; exact leaf_write_bit _ (by decide)
  have hrest : rest = used ++ t.freelist := M.free
  refine ⟨t, ?_, ?_⟩
  · exact {
      inv := M.inv
      frames := vmfault_frameOK I F hf E M hp
      procsz := M.procsz
      valid := hval
      user := husr
      writable := hwr
      keep := fun vb _ hvb => by
        rw [hp, if_neg]
        intro hsb
        rw [pteOf_samePage s.mem pt (hs.sp_symm.sp_trans hsb)] at hinv
        exact hvb hinv
      other := fun vb hsb => by
        rw [hp, if_neg (fun hc => hsb (hs.sp_symm.sp_trans hc))]
      bytes := fun vb hb hvb i hi => vmfault_bytes I F hf E M hb hvb hi
      free_len := by
        have hm3 := missing_le s.mem (PGROUNDDOWN dstva) 2 pt
        rw [hf, hrest, List.length_cons, List.length_append]
        omega }
  · intro fuel src
    have hv' := hval
    rw [← pteOf_samePage t.mem pt hs] at hv'
    obtain ⟨slot, hl, hsl⟩ := pteOf_valid_slot hv'
    rw [copyoutLoop, if_pos hlen, if_neg (by omega), walkaddr_eq s pt _ h4,
      pteOf_samePage s.mem pt hs, if_pos (Or.inl hinv)]
    simp only [Outcome.bind, if_true]
    rw [hv]
    simp only [if_neg hpa2]
    rw [walk_zero t pt _ h4, hl]
    simp only
    rw [← hsl, pteOf_samePage t.mem pt hs, if_neg hwr, hnext, off_eq h]
    unfold physOf
    rw [hfr]

theorem memmoveIn_out (m : Nat → Nat) (dst : Nat) (src : List Nat) (n x : Nat)
    (h : x < dst ∨ dst + n ≤ x) : memmoveIn m dst src n x = m x := by
  unfold memmoveIn
  rw [if_neg (by omega)]

theorem memmoveIn_in (m : Nat → Nat) (dst : Nat) (src : List Nat) (n i : Nat) (h : i < n) :
    memmoveIn m dst src n (dst + i) = src.getD i 0 % 256 := by
  unfold memmoveIn
  rw [if_pos (by omega), Nat.add_sub_cancel_left]

/-- The write of `n` bytes into the frame of the resolved page of `dstva`. -/
theorem copy_write {pt dstva n : Nat} {s t : Kernel} (src : List Nat)
    (R : Resolved pt dstva s t) (h : dstva < MAXVA) (hn : n ≤ PGSIZE - dstva % PGSIZE) :
    Inv 2 { t with mem := memmoveIn t.mem (physOf t.mem pt dstva) src n } pt ∧
    FrameOK { t with mem := memmoveIn t.mem (physOf t.mem pt dstva) src n } pt ∧
    (∀ vb, pteOf (memmoveIn t.mem (physOf t.mem pt dstva) src n) pt vb = pteOf t.mem pt vb) ∧
    (∀ i, i < n →
      ld8 (memmoveIn t.mem (physOf t.mem pt dstva) src n)
        (physOf (memmoveIn t.mem (physOf t.mem pt dstva) src n) pt (dstva + i)) =
        src.getD i 0 % 256) ∧
    (∀ vb, vb < MAXVA → pteOf s.mem pt vb &&& PTE_V ≠ 0 → (vb < dstva ∨ dstva + n ≤ vb) →
      memmoveIn t.mem (physOf t.mem pt dstva) src n (physOf s.mem pt vb) =
        s.mem (physOf s.mem pt vb)) := by
  have hoff : dstva % PGSIZE < PGSIZE := Nat.mod_lt _ (by decide)
  have hch : ∀ x, memmoveIn t.mem (physOf t.mem pt dstva) src n x ≠ t.mem x →
      PTE2PA (pteOf t.mem pt dstva) ≤ x ∧ x < PTE2PA (pteOf t.mem pt dstva) + PGSIZE := by
    intro x hx
    by_contra hc
    apply hx
    apply memmoveIn_out
    unfold physOf
    omega
  obtain ⟨E, I4, F4⟩ := frame_write R.inv R.frames h R.valid hch
  refine ⟨I4, F4, fun vb => E.te_pteOf vb, ?_, ?_⟩
  · intro i hi
    have hphys : physOf (memmoveIn t.mem (physOf t.mem pt dstva) src n) pt (dstva + i) =
        physOf t.mem pt dstva + i := by
      have h1 : physOf (memmoveIn t.mem (physOf t.mem pt dstva) src n) pt (dstva + i) =
          physOf t.mem pt (dstva + i) := by
        have e := E.te_pteOf (dstva + i)
        unfold physOf at e ⊢
        rw [e]
      rw [h1]
      by_cases hi0 : i = 0
      · subst hi0; rfl
      · exact physOf_add (by
          rw [MAXVA_eq] at h ⊢
          unfold PGSIZE at hn hoff
          omega) (by omega)
    rw [hphys]
    unfold ld8
    rw [memmoveIn_in _ _ _ _ _ hi, Nat.mod_mod]
  · intro vb hb hvb hout
    have hkeep := R.keep vb hb hvb
    have hoffb : vb % PGSIZE < PGSIZE := Nat.mod_lt _ (by decide)
    have hbytes := R.bytes vb hb hvb (vb % PGSIZE) hoffb
    have e1 : physOf s.mem pt vb = PTE2PA (pteOf s.mem pt vb) + vb % PGSIZE := rfl
    rw [e1, ← hbytes]
    apply memmoveIn_out
    by_cases hs : SamePage dstva vb
    · have e2 : pteOf s.mem pt vb = pteOf t.mem pt dstva := by
        rw [← hkeep, pteOf_samePage t.mem pt hs]
      rw [e2]
      unfold physOf
      rw [MAXVA_eq] at h hb
      rw [samePage_iff (by omega) (by omega)] at hs
      unfold PGSIZE at hn hoff hoffb ⊢
      omega
    · have hne : PTE2PA (pteOf s.mem pt vb) ≠ PTE2PA (pteOf t.mem pt dstva) := by
        intro e
        rw [← hkeep] at e
        exact hs ((R.frames dstva h R.valid).2.2.2 vb hb (by rw [hkeep]; exact hvb) e)
      have := page_disj (PTE2PA_aligned (pteOf s.mem pt vb))
        (PTE2PA_aligned (pteOf t.mem pt dstva)) hne
      unfold physOf
      omega

/-- The body of the loop of `copyout` on a page that may be written. -/
theorem copyout_resolve {pt : Nat} {s : Kernel} {dstva : Nat} (len : Nat) (I : Inv 2 s pt)
    (F : FrameOK s pt) (hlen : 0 < len) (h : dstva < MAXVA)
    (hsz : PGROUNDDOWN dstva < s.procsz) (hc : CanWrite s.mem pt dstva)
    (hfree : 3 ≤ s.freelist.length) :
    ∃ t, Resolved pt dstva s t ∧ ∀ fuel src,
      copyoutLoop pt (fuel + 1) s dstva src len =
        copyoutLoop pt fuel
          { t with
            mem := memmoveIn t.mem (physOf t.mem pt dstva) src
              (min (PGSIZE - dstva % PGSIZE) len) }
          (PGROUNDDOWN dstva + PGSIZE) (src.drop (min (PGSIZE - dstva % PGSIZE) len))
          (len - min (PGSIZE - dstva % PGSIZE) len) := by
  rcases hc with hinv | ⟨hv, hu, hw⟩
  · exact copyoutLoop_unmapped I F hlen h hsz hinv hfree
  · exact ⟨s, resolved_refl I F hv hu hw, fun fuel src =>
      copyoutLoop_mapped hlen h hv hu hw (F dstva h hv).1 fuel src⟩

theorem copied_refl {pt dstva : Nat} {src : List Nat} {s : Kernel} (I : Inv 2 s pt)
    (F : FrameOK s pt) : Copied pt dstva 0 src s s where
  inv := I
  frames := F
  procsz := rfl
  written := fun i hi => absurd hi (Nat.not_lt_zero i)
  keep := fun _ _ _ => rfl
  bytes := fun _ _ _ _ => rfl

theorem getD_drop_nat (l : List Nat) (n i : Nat) : (l.drop n).getD i 0 = l.getD (n + i) 0 := by
  rw [List.getD_eq_getElem?_getD, List.getD_eq_getElem?_getD, List.getElem?_drop]

theorem samePage_add {va i : Nat} (h : va + i < MAXVA) (hi : i < PGSIZE - va % PGSIZE) :
    SamePage va (va + i) := by
  rw [MAXVA_eq] at h
  rw [samePage_iff (by omega) (by omega)]
  unfold PGSIZE at hi
  omega

theorem copied_step {pt dstva n : Nat} {s t : Kernel} (src : List Nat)
    (R : Resolved pt dstva s t) (h : dstva + n ≤ MAXVA) (h0 : 0 < n)
    (hn : n ≤ PGSIZE - dstva % PGSIZE) :
    Copied pt dstva n src s
      { t with mem := memmoveIn t.mem (physOf t.mem pt dstva) src n } := by
  obtain ⟨I4, F4, hpte, hwr, hby⟩ := copy_write src R (by omega) hn
  exact {
    inv := I4
    frames := F4
    procsz := R.procsz
    written := fun i hi => by
      have hs : SamePage dstva (dstva + i) := samePage_add (by omega) (by omega)
      have e : pteOf (memmoveIn t.mem (physOf t.mem pt dstva) src n) pt (dstva + i) =
          pteOf t.mem pt dstva := by
        rw [hpte, ← pteOf_samePage t.mem pt hs]
      refine ⟨⟨?_, ?_, ?_⟩, hwr i hi⟩
      · rw [e]; exact R.valid
      · rw [e]; exact R.user
      · rw [e]; exact (R.frames dstva (by omega) R.valid).1
    keep := fun vb hb hvb => by
      show pteOf (memmoveIn t.mem (physOf t.mem pt dstva) src n) pt vb = _
      rw [hpte, R.keep vb hb hvb]
    bytes := hby }

theorem copied_trans {pt dstva n len : Nat} {src : List Nat} {s u t : Kernel}
    (A : Copied pt dstva n src s u) (B : Copied pt (dstva + n) len (src.drop n) u t)
    (h : dstva + n ≤ MAXVA) : Copied pt dstva (n + len) src s t where
  inv := B.inv
  frames := B.frames
  procsz := B.procsz.trans A.procsz
  written := fun i hi => by
    by_cases hin : i < n
    · obtain ⟨⟨r1, r2, r3⟩, hw⟩ := A.written i hin
      have hk := B.keep (dstva + i) (by omega) r1
      have hp : physOf t.mem pt (dstva + i) = physOf u.mem pt (dstva + i) := by
        unfold physOf; rw [hk]
      refine ⟨⟨by rw [hk]; exact r1, by rw [hk]; exact r2, by rw [hk]; exact r3⟩, ?_⟩
      rw [hp, ← hw]
      unfold ld8
      rw [B.bytes (dstva + i) (by omega) r1 (Or.inl (by omega))]
    · have := B.written (i - n) (by omega)
      rw [show dstva + n + (i - n) = dstva + i by omega, getD_drop_nat,
        show n + (i - n) = i by omega] at this
      exact this
  keep := fun vb hb hvb => by
    rw [B.keep vb hb (by rw [A.keep vb hb hvb]; exact hvb), A.keep vb hb hvb]
  bytes := fun vb hb hvb hout => by
    have hk := A.keep vb hb hvb
    have hp : physOf u.mem pt vb = physOf s.mem pt vb := by
      unfold physOf; rw [hk]
    rw [← hp, B.bytes vb hb (by rw [hk]; exact hvb) (by omega), hp,
      A.bytes vb hb hvb (by omega)]

/-- The loop of `copyout` on a prefix of `len1` bytes whose pages may all be
written, followed by `len2` more bytes: the loop copies the prefix and arrives
at `dstva + len1` with the rest of the buffer. -/
theorem copyoutLoop_prefix (pt : Nat) :
    ∀ fuel (s : Kernel) (dstva : Nat) (src : List Nat) (len1 len2 : Nat),
      len1 + len2 ≤ fuel → Inv 2 s pt → FrameOK s pt → dstva + len1 ≤ MAXVA →
      (∀ i, i < len1 → PGROUNDDOWN (dstva + i) < s.procsz) →
      (len2 = 0 ∨ (dstva + len1) % PGSIZE = 0) →
      (∀ i, i < len1 → CanWrite s.mem pt (dstva + i)) →
      (0 < len1 → 3 * ((dstva % PGSIZE + len1 + PGSIZE - 1) / PGSIZE) ≤ s.freelist.length) →
      ∃ t fuel', len2 ≤ fuel' ∧
        copyoutLoop pt fuel s dstva src (len1 + len2) =
          copyoutLoop pt fuel' t (dstva + len1) (src.drop len1) len2 ∧
        Copied pt dstva len1 src s t := by
  intro fuel
  induction fuel with
  | zero =>
    intro s dstva src len1 len2 hf I F _ _ _ _ _
    have h1 : len1 = 0 := by omega
    have h2 : len2 = 0 := by omega
    subst h1 h2
    exact ⟨s, 0, Nat.le_refl 0, rfl, copied_refl I F⟩
  | succ fuel ih =>
    intro s dstva src len1 len2 hf I F hmax hsz hal hcw hfree
    by_cases h1 : len1 = 0
    · subst h1
      refine ⟨s, fuel + 1, by omega, ?_, copied_refl I F⟩
      simp only [Nat.zero_add, Nat.add_zero, List.drop_zero]
    · have hlt : dstva < MAXVA := by omega
      obtain ⟨g1, g2, g3, g4⟩ := PGROUNDDOWN_facts hlt
      have hoff : dstva % PGSIZE < PGSIZE := Nat.mod_lt _ (by decide)
      have hpage : PGROUNDDOWN dstva + PGSIZE = dstva + (PGSIZE - dstva % PGSIZE) := by
        rw [← off_eq hlt]; omega
      have hfr := hfree (by omega)
      have h3 : 3 ≤ s.freelist.length := by
        unfold PGSIZE at hfr hoff
        omega
      have hc0 := hcw 0 (by omega)
      rw [Nat.add_zero] at hc0
      have hsz0 := hsz 0 (by omega)
      rw [Nat.add_zero] at hsz0
      obtain ⟨t1, R, hstep⟩ := copyout_resolve (len1 + len2) I F (by omega) hlt
        hsz0 hc0 h3
      rw [hstep fuel src]
      have hmin : min (PGSIZE - dstva % PGSIZE) (len1 + len2) =
          min (PGSIZE - dstva % PGSIZE) len1 := by
        rcases hal with hal | hal
        · rw [hal, Nat.add_zero]
        · have : PGSIZE - dstva % PGSIZE ≤ len1 := by
            unfold PGSIZE at hal hoff ⊢
            omega
          rw [Nat.min_eq_left this, Nat.min_eq_left (by omega)]
      rw [hmin]
      by_cases hlast : len1 ≤ PGSIZE - dstva % PGSIZE
      · have hn : min (PGSIZE - dstva % PGSIZE) len1 = len1 := Nat.min_eq_right hlast
        rw [hn]
        have C := copied_step (n := len1) src R hmax (by omega) hlast
        refine ⟨_, fuel, by omega, ?_, C⟩
        rcases hal with hal | hal
        · subst hal
          rw [Nat.add_zero, Nat.sub_self, copyoutLoop_done, copyoutLoop_done]
        · have : PGSIZE - dstva % PGSIZE = len1 := by
            unfold PGSIZE at hal hoff hlast ⊢
            omega
          rw [hpage, this, Nat.add_sub_cancel_left]
      · have hn : min (PGSIZE - dstva % PGSIZE) len1 = PGSIZE - dstva % PGSIZE :=
          Nat.min_eq_left (by omega)
        rw [hn, hpage]
        have C := copied_step (n := PGSIZE - dstva % PGSIZE) src R (by omega) (by omega)
          (Nat.le_refl _)
        have hsplit : len1 + len2 - (PGSIZE - dstva % PGSIZE) =
            (len1 - (PGSIZE - dstva % PGSIZE)) + len2 := by omega
        have hend : dstva + (PGSIZE - dstva % PGSIZE) + (len1 - (PGSIZE - dstva % PGSIZE)) =
            dstva + len1 := by omega
        obtain ⟨t, fuel', hf', heq, C2⟩ := ih
          { t1 with
            mem := memmoveIn t1.mem (physOf t1.mem pt dstva) src (PGSIZE - dstva % PGSIZE) }
          (dstva + (PGSIZE - dstva % PGSIZE)) (src.drop (PGSIZE - dstva % PGSIZE))
          (len1 - (PGSIZE - dstva % PGSIZE)) len2 (by omega) C.inv C.frames
          (by rw [hend]; exact hmax)
          (fun i hi => by
            show _ < t1.procsz
            rw [R.procsz, Nat.add_assoc]
            exact hsz _ (by omega))
          (by rw [hend]; exact hal)
          (fun i hi => by
            have hb : dstva + (PGSIZE - dstva % PGSIZE) + i < MAXVA := by omega
            have hns : ¬ SamePage dstva (dstva + (PGSIZE - dstva % PGSIZE) + i) := by
              rw [MAXVA_eq] at hlt hb
              rw [samePage_iff (by omega) (by omega)]
              unfold PGSIZE at hoff ⊢
              omega
            have e : pteOf (memmoveIn t1.mem (physOf t1.mem pt dstva) src
                (PGSIZE - dstva % PGSIZE)) pt (dstva + (PGSIZE - dstva % PGSIZE) + i) =
                pteOf s.mem pt (dstva + (PGSIZE - dstva % PGSIZE) + i) := by
              rw [(copy_write src R hlt (Nat.le_refl _)).2.2.1, R.other _ hns]
            have := hcw ((PGSIZE - dstva % PGSIZE) + i) (by omega)
            rw [← Nat.add_assoc] at this
            unfold CanWrite at this ⊢
            rw [e]
            exact this)
          (fun _ => by
            have hl := R.free_len
            show 3 * _ ≤ t1.freelist.length
            have hz : (dstva + (PGSIZE - dstva % PGSIZE)) % PGSIZE = 0 := by
              unfold PGSIZE at hoff ⊢
              omega
            rw [hz]
            unfold PGSIZE at hfr hoff hlast ⊢
            omega)
        refine ⟨t, fuel', hf', ?_, ?_⟩
        · rw [hsplit, heq, hend, List.drop_drop, show PGSIZE - dstva % PGSIZE +
            (len1 - (PGSIZE - dstva % PGSIZE)) = len1 by omega]
        · have := copied_trans C C2 (by omega)
          rw [show PGSIZE - dstva % PGSIZE + (len1 - (PGSIZE - dstva % PGSIZE)) = len1 by
            omega] at this
          exact this

/-- At a page that is valid but not writable, or not user-accessible, the loop
of `copyout` returns -1 and leaves the state as it is. -/
theorem copyoutLoop_refuse {pt : Nat} {s : Kernel} {dstva : Nat} (len : Nat) (hlen : 0 < len)
    (h : dstva < MAXVA) (hv : pteOf s.mem pt dstva &&& PTE_V ≠ 0)
    (hbad : pteOf s.mem pt dstva &&& PTE_W = 0 ∨ pteOf s.mem pt dstva &&& PTE_U = 0)
    (fuel : Nat) (src : List Nat) :
    copyoutLoop pt (fuel + 1) s dstva src len = .ret (-1) s := by
  obtain ⟨h1, h2, h3, h4⟩ := PGROUNDDOWN_facts h
  have hs := samePage_rounddown h
  have hv0 : pteOf s.mem pt (PGROUNDDOWN (PGROUNDDOWN dstva)) &&& PTE_V ≠ 0 := by
    rw [PGROUNDDOWN_idem h, pteOf_samePage s.mem pt hs]; exact hv
  have hfault : vmfault s pt (PGROUNDDOWN dstva) 0 = .ret 0 s :=
    vmfault_mapped 0 (by rw [PGROUNDDOWN_idem h]; exact h4) hv0
  rw [copyoutLoop, if_pos hlen, if_neg (by omega), walkaddr_eq s pt _ h4,
    pteOf_samePage s.mem pt hs]
  by_cases hu : pteOf s.mem pt dstva &&& PTE_U = 0
  · rw [if_pos (Or.inr hu)]
    simp only [Outcome.bind, if_true]
    rw [hfault]
    simp
  · rw [if_neg (by
      rintro (hc | hc)
      · exact hv hc
      · exact hu hc)]
    have hw : pteOf s.mem pt dstva &&& PTE_W = 0 := by
      rcases hbad with hb | hb
      · exact hb
      · exact absurd hb hu
    by_cases h0 : PTE2PA (pteOf s.mem pt dstva) = 0
    · simp only [Outcome.bind, h0, if_true]
      rw [hfault]
      simp
    · have hv' := hv
      rw [← pteOf_samePage s.mem pt hs] at hv'
      obtain ⟨slot, hl, hsl⟩ := pteOf_valid_slot hv'
      simp only [Outcome.bind, if_neg h0]
      rw [walk_zero s pt _ h4, hl]
      simp only
      rw [← hsl, pteOf_samePage s.mem pt hs, if_pos hw]

/-- At a page that is valid but not user-accessible the loop of `copyin`
returns -1 and leaves the state as it is. -/
theorem copyinLoop_refuse {pt : Nat} {s : Kernel} {srcva : Nat} (len : Nat) (hlen : 0 < len)
    (h : srcva < MAXVA) (hv : pteOf s.mem pt srcva &&& PTE_V ≠ 0)
    (hu : pteOf s.mem pt srcva &&& PTE_U = 0) (fuel : Nat) (dst : List Nat) :
    copyinLoop pt (fuel + 1) s dst srcva len = .ret (-1, dst) s := by
  obtain ⟨h1, h2, h3, h4⟩ := PGROUNDDOWN_facts h
  have hs := samePage_rounddown h
  have hv0 : pteOf s.mem pt (PGROUNDDOWN (PGROUNDDOWN srcva)) &&& PTE_V ≠ 0 := by
    rw [PGROUNDDOWN_idem h, pteOf_samePage s.mem pt hs]; exact hv
  have hfault : vmfault s pt (PGROUNDDOWN srcva) 1 = .ret 0 s :=
    vmfault_mapped 1 (by rw [PGROUNDDOWN_idem h]; exact h4) hv0
  rw [copyinLoop, if_pos hlen, walkaddr_eq s pt _ h4, pteOf_samePage s.mem pt hs,
    if_pos (Or.inr hu)]
  simp only [Outcome.bind, if_true]
  rw [hfault]
  simp

theorem map_range_getD (l : List Nat) (h : ∀ b ∈ l, b < 256) :
    ((List.range l.length).map fun i => l.getD i 0 % 256) = l := by
  apply List.ext_getElem
  · simp
  · intro i h1 h2
    simp only [List.getElem_map, List.getElem_range, List.getD_eq_getElem?_getD]
    rw [List.getElem?_eq_getElem h2, Option.getD_some]
    exact Nat.mod_eq_of_lt (h _ (List.getElem_mem _))

/-! ## C3: `copyout` then `copyin` -/

/-- C3: for every well-formed address space whose frames are exclusively owned,
every user address `dstva` and every byte sequence `src` of length `len` such
that the pages of `[dstva, dstva+len)` start below the process size, lie below
`MAXVA` and are each either without a valid leaf entry or mapped
user-accessible and writable, and an allocator that holds three free pages for
each page of the range: `copyout(pt, dstva, src, len)` returns 0, and the
following `copyin(pt, dst, dstva, len)` returns 0 with `dst` equal to `src`. -/
theorem copyout_copyin_roundtrip (s : Kernel) (pt dstva : Nat) (src : List Nat) (len : Nat)
    (I : Inv 2 s pt) (F : FrameOK s pt) (hsrc : src.length = len)
    (hbyte : ∀ b ∈ src, b < 256) (hmax : dstva + len ≤ MAXVA)
    (hsz : ∀ i, i < len → PGROUNDDOWN (dstva + i) < s.procsz)
    (hcw : ∀ i, i < len → CanWrite s.mem pt (dstva + i))
    (hfree : 3 * ((dstva % PGSIZE + len + PGSIZE - 1) / PGSIZE) ≤ s.freelist.length) :
    ∃ t, copyout s pt dstva src len = .ret 0 t ∧ copyin t pt dstva len = .ret (0, src) t := by
  obtain ⟨t, fuel', _, heq, C⟩ := copyoutLoop_prefix pt len s dstva src len 0 (by omega) I F
    hmax hsz (Or.inl rfl) hcw (fun _ => hfree)
  rw [Nat.add_zero, copyoutLoop_done] at heq
  refine ⟨t, heq, ?_⟩
  unfold copyin
  rw [copyinLoop_read pt len t [] dstva len (Nat.le_refl _) hmax
    (fun i hi => (C.written i hi).1), List.nil_append]
  congr 2
  rw [← map_range_getD src hbyte, hsrc]
  apply List.map_congr_left
  intro i hi
  rw [List.mem_range] at hi
  exact (C.written i hi).2

theorem frameOK_empty {s : Kernel} {pt : Nat} (h : ∀ va, pteOf s.mem pt va = 0) :
    FrameOK s pt := by
  intro va _ hv
  rw [h va] at hv
  exact absurd hv zero_not_valid

theorem demo_frameOK : FrameOK demo 0x1000 :=
  frameOK_empty (fun va => pteOf_zero_mem (m := demo.mem) (fun _ => rfl) 0x1000 va)

theorem PGROUNDDOWN_le (a : Nat) (h : a < MAXVA) : PGROUNDDOWN a ≤ a :=
  (PGROUNDDOWN_facts h).2.1

theorem copyout_copyin_roundtrip_witness :
    ∃ t, copyout demo 0x1000 0xff8 [1, 2, 3, 4, 5, 6, 7, 8, 9, 10, 11, 12, 13, 14, 15, 16] 16 =
        .ret 0 t ∧
      copyin t 0x1000 0xff8 16 =
        .ret (0, [1, 2, 3, 4, 5, 6, 7, 8, 9, 10, 11, 12, 13, 14, 15, 16]) t :=
  copyout_copyin_roundtrip demo 0x1000 0xff8
    [1, 2, 3, 4, 5, 6, 7, 8, 9, 10, 11, 12, 13, 14, 15, 16] 16 demo_inv demo_frameOK
    (by decide) (by decide) (by decide)
    (fun i hi => Nat.lt_of_le_of_lt
      (PGROUNDDOWN_le (0xff8 + i) (by rw [MAXVA_eq]; omega))
      (by show 0xff8 + i < 0x10000; omega))
    (fun i _ => Or.inl (demo_unmapped (0xff8 + i))) (by decide)

/-! ## C4: `copyout` and `copyin` refuse protected pages -/

/-- Mapping one page onto a frame that nothing owns yet keeps the frames
exclusively owned. -/
theorem frameOK_map_one {s t : Kernel} {pt a pa perm : Nat} {used : List Nat}
    (F : FrameOK s pt) (M : MapSpec pt s t used)
    (hp : ∀ vb, pteOf t.mem pt vb =
      if SamePage a vb then PA2PTE pa ||| perm ||| PTE_V else pteOf s.mem pt vb)
    (hperm : perm < 1024) (hpa1 : pa % PGSIZE = 0) (hpa2 : pa ≠ 0) (hpa3 : pa < U64)
    (hfree : pa ∉ s.freelist) (htab : ∀ d, d ≤ 2 → ¬ IsTable s.mem pt d pa)
    (hfr : ∀ vb, vb < MAXVA → pteOf s.mem pt vb &&& PTE_V ≠ 0 →
      PTE2PA (pteOf s.mem pt vb) ≠ pa) :
    FrameOK t pt := by
  have hsub : ∀ p ∈ t.freelist, p ∈ s.freelist := fun p h => by
    rw [M.free]; exact List.mem_append_right _ h
  have hused : ∀ p ∈ used, p ∈ s.freelist := fun p h => by
    rw [M.free]; exact List.mem_append_left _ h
  have hleaf : PTE2PA (PA2PTE pa ||| perm ||| PTE_V) = pa := leaf_PTE2PA hperm hpa3 hpa1
  have htabs : ∀ d, d ≤ 2 → ∀ P, IsTable t.mem pt d P →
      IsTable s.mem pt d P ∨ P ∈ s.freelist := by
    intro d hd P hT
    rcases M.tables_new d P hd hT with h | ⟨h, _⟩
    · exact Or.inl h
    · exact Or.inr (hused P h)
  intro v1 h1 h2
  by_cases hs : SamePage a v1
  · rw [hp, if_pos hs, hleaf]
    refine ⟨hpa2, fun h => hfree (hsub pa h), ?_, ?_⟩
    · intro d hd hT
      rcases htabs d hd pa hT with h | h
      · exact htab d hd h
      · exact hfree h
    · intro vb hb1 hb2 hb3
      by_cases hsb : SamePage a vb
      · exact hs.sp_symm.sp_trans hsb
      · rw [hp, if_neg hsb] at hb2 hb3
        exact absurd hb3 (hfr vb hb1 hb2)
  · rw [hp, if_neg hs] at h2 ⊢
    obtain ⟨g1, g2, g3, g4⟩ := F v1 h1 h2
    refine ⟨g1, fun h => g2 (hsub _ h), ?_, ?_⟩
    · intro d hd hT
      rcases htabs d hd _ hT with h | h
      · exact g3 d hd h
      · exact g2 h
    · intro vb hb1 hb2 hb3
      by_cases hsb : SamePage a vb
      · rw [hp, if_pos hsb, hleaf] at hb3
        exact absurd hb3.symm (hfr v1 h1 h2)
      · rw [hp, if_neg hsb] at hb2 hb3
        exact g4 vb hb1 hb2 hb3

theorem demo_tables (d P : Nat) (h : IsTable demo.mem 0x1000 d P) : P = 0x1000 := by
  cases d with
  | zero => exact h
  | succ d =>
    exfalso
    induction d generalizing P with
    | zero =>
      obtain ⟨q, i, _, _, hv, _⟩ := h
      unfold entry at hv
      rw [ld64_zero_mem (m := demo.mem) (fun _ => rfl)] at hv
      exact zero_not_valid hv
    | succ d ih =>
      obtain ⟨q, i, hq, _⟩ := h
      exact ih q hq

/-- One page of `demo`, mapped at virtual address `0x1000` onto the frame
`0x80000000` with the flags `perm`. -/
theorem demo_page_ok (perm : Nat) (hperm : perm < 1024) :
    Inv 2 ((mappages demo 0x1000 0x1000 0x1000 0x80000000 perm).final demo) 0x1000 ∧
    FrameOK ((mappages demo 0x1000 0x1000 0x1000 0x80000000 perm).final demo) 0x1000 ∧
    (∀ vb, pteOf ((mappages demo 0x1000 0x1000 0x1000 0x80000000 perm).final demo).mem 0x1000 vb =
      if SamePage 0x1000 vb then PA2PTE 0x80000000 ||| perm ||| PTE_V else 0) ∧
    ((mappages demo 0x1000 0x1000 0x1000 0x80000000 perm).final demo).procsz = 0x10000 ∧
    6 ≤ ((mappages demo 0x1000 0x1000 0x1000 0x80000000 perm).final demo).freelist.length := by
  obtain ⟨r, t, used, hm, M, hr⟩ := mappages_one 0x80000000 perm
    demo_inv (a := 0x1000) (by decide) (by decide) (demo_unmapped 0x1000) (by decide)
    (by unfold U64; omega)
  have ht : (mappages demo 0x1000 0x1000 0x1000 0x80000000 perm).final demo = t := by
    show (mappages demo 0x1000 0x1000 PGSIZE 0x80000000 perm).final demo = t
    rw [hm]
    rfl
  rw [ht]
  have h2 := missing_le demo.mem 0x1000 2 0x1000
  have h8 : demo.freelist.length = 8 := rfl
  rcases hr with ⟨_, hu, hp⟩ | ⟨_, _, hlen, _⟩
  · refine ⟨M.inv, frameOK_map_one demo_frameOK M hp hperm (by decide)
      (by decide) (by decide) (by decide)
      (fun d _ hT => absurd (demo_tables d _ hT) (by decide))
      (fun vb _ hv => absurd (demo_unmapped vb) hv), ?_, M.procsz, ?_⟩
    · intro vb
      rw [hp vb, pteOf_zero_mem (m := demo.mem) (fun _ => rfl)]
    · have := congrArg List.length M.free
      rw [List.length_append] at this
      omega
  · omega

/-- The body of the loop of `copyin` on a page that `copyin` may read: an
unmapped page is filled by `vmfault`, the bytes are fetched and the loop
continues with the next page. -/
theorem copyin_resolve {pt : Nat} {s : Kernel} {srcva : Nat} (len : Nat) (I : Inv 2 s pt)
    (F : FrameOK s pt) (hlen : 0 < len) (h : srcva < MAXVA)
    (hsz : PGROUNDDOWN srcva < s.procsz) (hc : CanRead s.mem pt srcva)
    (hfree : 3 ≤ s.freelist.length) :
    ∃ t, Inv 2 t pt ∧ FrameOK t pt ∧ t.procsz = s.procsz ∧
      (∀ vb, vb < MAXVA → pteOf s.mem pt vb &&& PTE_V ≠ 0 →
        pteOf t.mem pt vb = pteOf s.mem pt vb) ∧
      (∀ vb, ¬ SamePage srcva vb → pteOf t.mem pt vb = pteOf s.mem pt vb) ∧
      s.freelist.length ≤ t.freelist.length + 3 ∧
      ∀ fuel dst,
        copyinLoop pt (fuel + 1) s dst srcva len =
          copyinLoop pt fuel t
            (dst ++ memmoveOut t.mem (physOf t.mem pt srcva) (min (PGSIZE - srcva % PGSIZE) len))
            (PGROUNDDOWN srcva + PGSIZE) (len - min (PGSIZE - srcva % PGSIZE) len) := by
  rcases hc with hinv | ⟨hv, hu⟩
  · obtain ⟨h1, h2, h3, h4⟩ := PGROUNDDOWN_facts h
    have hnext : (PGROUNDDOWN srcva + PGSIZE) % U64 = PGROUNDDOWN srcva + PGSIZE := by
      rw [MAXVA_eq] at h4
      unfold PGSIZE U64
      omega
    have hs := samePage_rounddown h
    have hinv0 : pteOf s.mem pt (PGROUNDDOWN (PGROUNDDOWN srcva)) &&& PTE_V = 0 := by
      rw [PGROUNDDOWN_idem h, pteOf_samePage s.mem pt hs]; exact hinv
    have hm2 := missing_le s.mem (PGROUNDDOWN (PGROUNDDOWN srcva)) 2 pt
    obtain ⟨pa, rest, used, t, hf, hv, E, M, hlenu, hp, _⟩ :=
      vmfault_ok 1 I hsz h4 hinv0 (by omega)
    rw [PGROUNDDOWN_idem h] at hp hlenu
    have hpa : pa ∈ s.freelist := by rw [hf]; exact List.mem_cons_self _ _
    obtain ⟨hpa1, hpa2, hpa3⟩ := I.free_aligned pa hpa
    have hleaf : pteOf t.mem pt srcva =
        PA2PTE pa ||| (PTE_W ||| PTE_U ||| PTE_R) ||| PTE_V := by
      rw [hp, if_pos hs]
    have hfr : PTE2PA (pteOf t.mem pt srcva) = pa := by
      rw [hleaf]; exact leaf_PTE2PA (by decide) hpa3 hpa1
    have hrest : rest = used ++ t.freelist := M.free
    refine ⟨t, M.inv, vmfault_frameOK I F hf E M hp, M.procsz, ?_, ?_, ?_, ?_⟩
    · intro vb _ hvb
      rw [hp, if_neg]
      intro hsb
      rw [pteOf_samePage s.mem pt (hs.sp_symm.sp_trans hsb)] at hinv
      exact hvb hinv
    · intro vb hsb
      rw [hp, if_neg (fun hc => hsb (hs.sp_symm.sp_trans hc))]
    · have hm3 := missing_le s.mem (PGROUNDDOWN srcva) 2 pt
      rw [hf, hrest, List.length_cons, List.length_append]
      omega
    · intro fuel dst
      rw [copyinLoop, if_pos hlen, walkaddr_eq s pt _ h4,
        pteOf_samePage s.mem pt hs, if_pos (Or.inl hinv)]
      simp only [Outcome.bind, if_true]
      rw [hv]
      simp only [if_neg hpa2]
      rw [hnext, off_eq h]
      unfold physOf
      rw [hfr]
  · exact ⟨s, I, F, rfl, fun _ _ _ => rfl, fun _ _ => rfl, Nat.le_add_right _ _,
      fun fuel dst => copyinLoop_step hlen h ⟨hv, hu, (F srcva h hv).1⟩⟩

/-- The loop of `copyin` passes over `len1` bytes of pages that it may read and
arrives at the page after them with every mapping that existed still in place. -/
theorem copyinLoop_prefix (pt : Nat) :
    ∀ fuel (s : Kernel) (dst : List Nat) (srcva len1 len2 : Nat),
      len1 + len2 ≤ fuel → Inv 2 s pt → FrameOK s pt → srcva + len1 ≤ MAXVA →
      (∀ i, i < len1 → PGROUNDDOWN (srcva + i) < s.procsz) →
      (len2 = 0 ∨ (srcva + len1) % PGSIZE = 0) →
      (∀ i, i < len1 → CanRead s.mem pt (srcva + i)) →
      (0 < len1 → 3 * ((srcva % PGSIZE + len1 + PGSIZE - 1) / PGSIZE) ≤ s.freelist.length) →
      ∃ t fuel' dst', len2 ≤ fuel' ∧
        copyinLoop pt fuel s dst srcva (len1 + len2) =
          copyinLoop pt fuel' t dst' (srcva + len1) len2 ∧
        ∀ vb, vb < MAXVA → pteOf s.mem pt vb &&& PTE_V ≠ 0 →
          pteOf t.mem pt vb = pteOf s.mem pt vb := by
  intro fuel
  induction fuel with
  | zero =>
    intro s dst srcva len1 len2 hf I F _ _ _ _ _
    have h1 : len1 = 0 := by omega
    have h2 : len2 = 0 := by omega
    subst h1 h2
    exact ⟨s, 0, dst, Nat.le_refl 0, rfl, fun _ _ _ => rfl⟩
  | succ fuel ih =>
    intro s dst srcva len1 len2 hf I F hmax hsz hal hcr hfree
    by_cases h1 : len1 = 0
    · subst h1
      refine ⟨s, fuel + 1, dst, by omega, ?_, fun _ _ _ => rfl⟩
      simp only [Nat.zero_add, Nat.add_zero]
    · have hlt : srcva < MAXVA := by omega
      obtain ⟨g1, g2, g3, g4⟩ := PGROUNDDOWN_facts hlt
      have hoff : srcva % PGSIZE < PGSIZE := Nat.mod_lt _ (by decide)
      have hpage : PGROUNDDOWN srcva + PGSIZE = srcva + (PGSIZE - srcva % PGSIZE) := by
        rw [← off_eq hlt]; omega
      have hfr := hfree (by omega)
      have h3 : 3 ≤ s.freelist.length := by
        unfold PGSIZE at hfr hoff
        omega
      have hc0 := hcr 0 (by omega)
      rw [Nat.add_zero] at hc0
      have hsz0 := hsz 0 (by omega)
      rw [Nat.add_zero] at hsz0
      obtain ⟨t1, I1, F1, hp1, hkeep, hother, hfl, hstep⟩ :=
        copyin_resolve (len1 + len2) I F (by omega) hlt hsz0 hc0 h3
      rw [hstep fuel dst]
      have hmin : min (PGSIZE - srcva % PGSIZE) (len1 + len2) =
          min (PGSIZE - srcva % PGSIZE) len1 := by
        rcases hal with hal | hal
        · rw [hal, Nat.add_zero]
        · have : PGSIZE - srcva % PGSIZE ≤ len1 := by
            unfold PGSIZE at hal hoff ⊢
            omega
          rw [Nat.min_eq_left this, Nat.min_eq_left (by omega)]
      rw [hmin]
      by_cases hlast : len1 ≤ PGSIZE - srcva % PGSIZE
      · have hn : min (PGSIZE - srcva % PGSIZE) len1 = len1 := Nat.min_eq_right hlast
        rw [hn]
        refine ⟨t1, fuel, dst ++ memmoveOut t1.mem (physOf t1.mem pt srcva) len1, by omega, ?_,
          hkeep⟩
        rcases hal with hal | hal
        · subst hal
          rw [Nat.add_zero, Nat.sub_self, copyinLoop_done, copyinLoop_done]
        · have : PGSIZE - srcva % PGSIZE = len1 := by
            unfold PGSIZE at hal hoff hlast ⊢
            omega
          rw [hpage, this, Nat.add_sub_cancel_left]
      · have hn : min (PGSIZE - srcva % PGSIZE) len1 = PGSIZE - srcva % PGSIZE :=
          Nat.min_eq_left (by omega)
        rw [hn, hpage]
        have hsplit : len1 + len2 - (PGSIZE - srcva % PGSIZE) =
            (len1 - (PGSIZE - srcva % PGSIZE)) + len2 := by omega
        have hend : srcva + (PGSIZE - srcva % PGSIZE) + (len1 - (PGSIZE - srcva % PGSIZE)) =
            srcva + len1 := by omega
        obtain ⟨t, fuel', dst', hf', heq, hk2⟩ := ih t1
          (dst ++ memmoveOut t1.mem (physOf t1.mem pt srcva) (PGSIZE - srcva % PGSIZE))
          (srcva + (PGSIZE - srcva % PGSIZE))
          (len1 - (PGSIZE - srcva % PGSIZE)) len2 (by omega) I1 F1
          (by rw [hend]; exact hmax)
          (fun i hi => by
            rw [hp1, Nat.add_assoc]
            exact hsz _ (by omega))
          (by rw [hend]; exact hal)
          (fun i hi => by
            have hb : srcva + (PGSIZE - srcva % PGSIZE) + i < MAXVA := by omega
            have hns : ¬ SamePage srcva (srcva + (PGSIZE - srcva % PGSIZE) + i) := by
              rw [MAXVA_eq] at hlt hb
              rw [samePage_iff (by omega) (by omega)]
              unfold PGSIZE at hoff ⊢
              omega
            have := hcr ((PGSIZE - srcva % PGSIZE) + i) (by omega)
            rw [← Nat.add_assoc] at this
            unfold CanRead at this ⊢
            rw [hother _ hns]
            exact this)
          (fun _ => by
            have hz : (srcva + (PGSIZE - srcva % PGSIZE)) % PGSIZE = 0 := by
              unfold PGSIZE at hoff ⊢
              omega
            rw [hz]
            unfold PGSIZE at hfr hoff hlast ⊢
            omega)
        refine ⟨t, fuel', dst', hf', ?_, ?_⟩
        · rw [hsplit, heq, hend]
        · intro vb hb hvb
          rw [hk2 vb hb (by rw [hkeep vb hb hvb]; exact hvb), hkeep vb hb hvb]

/-- C4: in a well-formed address space whose frames are exclusively owned, let
`copyout(pt, va, src, len1 + len2)` or `copyin(pt, dst, va, len1 + len2)` with
`len2 > 0` pass over `len1` bytes of pages that it can handle (below the process
size, each without a valid leaf entry or mapped suitably, three free pages for
each) and so reach the page of `va + len1`, the first page when `len1 = 0`. If
that page is valid but lacks `PTE_W`, or is valid but lacks `PTE_U`, `copyout`
returns -1 and every byte of the frame of that page is as it was before the
call; if it is valid but lacks `PTE_U`, `copyin` returns -1. -/
theorem copy_refuses_protected (s : Kernel) (pt va : Nat) (src : List Nat) (len1 len2 : Nat)
    (I : Inv 2 s pt) (F : FrameOK s pt) (hlen : 0 < len2) (hmax : va + len1 < MAXVA)
    (hsz : ∀ i, i < len1 → PGROUNDDOWN (va + i) < s.procsz)
    (hpage : len1 = 0 ∨ (va + len1) % PGSIZE = 0)
    (hfree : 0 < len1 → 3 * ((va % PGSIZE + len1 + PGSIZE - 1) / PGSIZE) ≤ s.freelist.length)
    (hv : pteOf s.mem pt (va + len1) &&& PTE_V ≠ 0) :
    ((∀ i, i < len1 → CanWrite s.mem pt (va + i)) →
      (pteOf s.mem pt (va + len1) &&& PTE_W = 0 ∨ pteOf s.mem pt (va + len1) &&& PTE_U = 0) →
      ∃ t, copyout s pt va src (len1 + len2) = .ret (-1) t ∧
        ∀ i, i < PGSIZE →
          t.mem (PTE2PA (pteOf s.mem pt (va + len1)) + i) =
            s.mem (PTE2PA (pteOf s.mem pt (va + len1)) + i)) ∧
    ((∀ i, i < len1 → CanRead s.mem pt (va + i)) →
      pteOf s.mem pt (va + len1) &&& PTE_U = 0 →
      ∃ dst t, copyin s pt va (len1 + len2) = .ret (-1, dst) t) := by
  obtain ⟨k, hk⟩ : ∃ k, len2 = k + 1 := ⟨len2 - 1, by omega⟩
  constructor
  · intro hcw hbad
    rcases hpage with h0 | hal
    · subst h0
      refine ⟨s, ?_, fun _ _ => rfl⟩
      unfold copyout
      rw [Nat.zero_add, hk]
      rw [Nat.add_zero] at hmax hv hbad
      exact copyoutLoop_refuse (k + 1) (by omega) hmax hv hbad k src
    · obtain ⟨t, fuel', hf', heq, C⟩ := copyoutLoop_prefix pt (len1 + len2) s va src len1 len2
        (Nat.le_refl _) I F (Nat.le_of_lt hmax) hsz (Or.inr hal) hcw hfree
      obtain ⟨j, hj⟩ : ∃ j, fuel' = j + 1 := ⟨fuel' - 1, by omega⟩
      have hkeep := C.keep (va + len1) hmax hv
      refine ⟨t, ?_, ?_⟩
      · unfold copyout
        rw [heq, hj]
        exact copyoutLoop_refuse len2 hlen hmax (by rw [hkeep]; exact hv)
          (by rw [hkeep]; exact hbad) j _
      · intro i hi
        have hb : va + len1 + i < MAXVA := by
          rw [MAXVA_eq] at hmax ⊢
          unfold PGSIZE at hal hi
          omega
        have hsp : SamePage (va + len1) (va + len1 + i) :=
          samePage_add hb (by rw [hal]; exact hi)
        have hvi : pteOf s.mem pt (va + len1 + i) &&& PTE_V ≠ 0 := by
          rw [← pteOf_samePage s.mem pt hsp]; exact hv
        have hph : physOf s.mem pt (va + len1 + i) =
            PTE2PA (pteOf s.mem pt (va + len1)) + i := by
          rw [physOf_add hb (by rw [hal]; exact hi)]
          unfold physOf
          rw [hal, Nat.add_zero]
        have := C.bytes (va + len1 + i) hb hvi (Or.inr (Nat.le_add_right _ _))
        rw [hph] at this
        exact this
  · intro hcr hu
    unfold copyin
    rcases hpage with h0 | hal
    · subst h0
      rw [Nat.zero_add, hk]
      rw [Nat.add_zero] at hmax hv hu
      exact ⟨[], s, copyinLoop_refuse (k + 1) (by omega) hmax hv hu k []⟩
    · obtain ⟨t, fuel', dst', hf', heq, hkeep⟩ := copyinLoop_prefix pt (len1 + len2) s [] va
        len1 len2 (Nat.le_refl _) I F (Nat.le_of_lt hmax) hsz (Or.inr hal) hcr hfree
      obtain ⟨j, hj⟩ : ∃ j, fuel' = j + 1 := ⟨fuel' - 1, by omega⟩
      have hkp := hkeep (va + len1) hmax hv
      refine ⟨dst', t, ?_⟩
      rw [heq, hj]
      exact copyinLoop_refuse len2 hlen hmax (by rw [hkp]; exact hv)
        (by rw [hkp]; exact hu) j dst'

theorem demo_page_out (perm i : Nat) (hperm : perm < 1024) (hi : i < 8) :
    pteOf ((mappages demo 0x1000 0x1000 0x1000 0x80000000 perm).final demo).mem 0x1000
      (0xff8 + i) &&& PTE_V = 0 := by
  rw [(demo_page_ok perm hperm).2.2.1, if_neg]
  · rfl
  · rw [samePage_iff (by omega) (by omega)]
    omega

theorem demo_page_in (perm : Nat) (hperm : perm < 1024) :
    pteOf ((mappages demo 0x1000 0x1000 0x1000 0x80000000 perm).final demo).mem 0x1000
      (0xff8 + 8) = PA2PTE 0x80000000 ||| perm ||| PTE_V := by
  rw [(demo_page_ok perm hperm).2.2.1, if_pos (by decide)]

theorem copy_refuses_protected_witness :
    (∃ t, copyout demoText 0x1000 0xff8 [1, 2, 3, 4, 5, 6, 7, 8, 9, 10, 11, 12, 13, 14, 15, 16]
        (8 + 8) = .ret (-1) t ∧
      ∀ i, i < PGSIZE →
        t.mem (PTE2PA (pteOf demoText.mem 0x1000 (0xff8 + 8)) + i) =
          demoText.mem (PTE2PA (pteOf demoText.mem 0x1000 (0xff8 + 8)) + i)) ∧
    (∃ dst t, copyin demoGuard 0x1000 0xff8 (8 + 8) = .ret (-1, dst) t) :=
  ⟨(copy_refuses_protected demoText 0x1000 0xff8
      [1, 2, 3, 4, 5, 6, 7, 8, 9, 10, 11, 12, 13, 14, 15, 16] 8 8
      (demo_page_ok _ (by decide)).1 (demo_page_ok _ (by decide)).2.1 (by decide) (by decide)
      (fun i hi => Nat.lt_of_le_of_lt (PGROUNDDOWN_le (0xff8 + i) (by rw [MAXVA_eq]; omega))
        (by rw [show demoText.procsz = 0x10000 from (demo_page_ok _ (by decide)).2.2.2.1]
            omega))
      (Or.inr (by decide))
      (fun _ => Nat.le_trans (by decide) (demo_page_ok _ (by decide)).2.2.2.2)
      (by rw [show pteOf demoText.mem 0x1000 (0xff8 + 8) = _ from demo_page_in _ (by decide)]
          exact leaf_valid _ _)).1
    (fun i hi => Or.inl (demo_page_out _ i (by decide) hi))
    (Or.inl (by
      rw [show pteOf demoText.mem 0x1000 (0xff8 + 8) = _ from demo_page_in _ (by decide)]
      decide)),
   (copy_refuses_protected demoGuard 0x1000 0xff8 [] 8 8
      (demo_page_ok _ (by decide)).1 (demo_page_ok _ (by decide)).2.1 (by decide) (by decide)
      (fun i hi => Nat.lt_of_le_of_lt (PGROUNDDOWN_le (0xff8 + i) (by rw [MAXVA_eq]; omega))
        (by rw [show demoGuard.procsz = 0x10000 from (demo_page_ok _ (by decide)).2.2.2.1]
            omega))
      (Or.inr (by decide))
      (fun _ => Nat.le_trans (by decide) (demo_page_ok _ (by decide)).2.2.2.2)
      (by rw [show pteOf demoGuard.mem 0x1000 (0xff8 + 8) = _ from demo_page_in _ (by decide)]
          exact leaf_valid _ _)).2
    (fun i hi => Or.inl (demo_page_out _ i (by decide) hi))
    (by
      rw [show pteOf demoGuard.mem 0x1000 (0xff8 + 8) = _ from demo_page_in _ (by decide)]
      decide)⟩

/-! ## `uvmcopy` -/

theorem inv_of_tableEq {s t : Kernel} {pt : Nat} (E : TableEq s.mem t.mem pt) (I : Inv 2 s pt)
    (hn : t.freelist.Nodup) (hsub : ∀ p ∈ t.freelist, p ∈ s.freelist) : Inv 2 t pt where
  tree := E.te_tree I.tree
  free_nodup := hn
  free_aligned := fun p hp => I.free_aligned p (hsub p hp)
  free_fresh := fun d hd p hp hf =>
    I.free_fresh d hd p ((E.te_isTable d (by omega) p).1 hp) (hsub p hf)

theorem frameOK_of_tableEq {s t : Kernel} {pt : Nat} (E : TableEq s.mem t.mem pt)
    (F : FrameOK s pt) (hsub : ∀ p ∈ t.freelist, p ∈ s.freelist) : FrameOK t pt := by
  intro va hva hv
  rw [E.te_pteOf va] at hv ⊢
  obtain ⟨g1, g2, g3, g4⟩ := F va hva hv
  refine ⟨g1, fun h => g2 (hsub _ h), fun d hd hT => g3 d hd ((E.te_isTable d (by omega) _).1 hT),
    ?_⟩
  intro vb hb hvb hb3
  rw [E.te_pteOf vb] at hvb hb3
  exact g4 vb hb hvb hb3

/-- A page-aligned page that differs from every page an operation writes keeps
its bytes. -/
theorem page_keeps {m n : Nat → Nat} {Q : Nat} (hQ : Q % PGSIZE = 0)
    (h : ∀ x, n x ≠ m x → ∃ P, P % PGSIZE = 0 ∧ P ≠ Q ∧ P ≤ x ∧ x < P + PGSIZE) :
    ∀ k, k < PGSIZE → n (Q + k) = m (Q + k) := by
  intro k hk
  by_contra hx
  obtain ⟨P, hP, hne, h1, h2⟩ := h _ hx
  have := page_disj hP hQ hne
  omega

theorem memmove_changes (m : Nat → Nat) (dst src n x : Nat) (h : memmove m dst src n x ≠ m x) :
    dst ≤ x ∧ x < dst + n := by
  by_contra hc
  apply h
  unfold memmove
  rw [if_neg hc]

theorem memmove_in (m : Nat → Nat) (dst src n k : Nat) (h : k < n) :
    memmove m dst src n (dst + k) = m (src + k) := by
  unfold memmove
  rw [if_pos (by omega), Nat.add_sub_cancel_left]

theorem validFrames_snoc (m : Nat → Nat) (pt : Nat) :
    ∀ n a, validFrames m pt a (n + 1) =
      (if pteOf m pt (a + n * PGSIZE) &&& PTE_V ≠ 0
        then [PTE2PA (pteOf m pt (a + n * PGSIZE))] else []) ++ validFrames m pt a n := by
  intro n
  induction n with
  | zero =>
    intro a
    simp [validFrames]
  | succ n ih =>
    intro a
    rw [validFrames, ih (a + PGSIZE), validFrames,
      show a + PGSIZE + n * PGSIZE = a + (n + 1) * PGSIZE by ring, List.append_assoc]

/-- The part of one iteration of `uvmcopy` that is common to both results of
`mappages`: the data page `mem` is taken from the free pages and filled, and
`mappages` on `new` turns the pages `used` into interior tables. -/
theorem uvmcopy_link {s t1 : Kernel} {old new mem : Nat} {rest used : List Nat}
    {m1 : Nat → Nat} (A : Apart s old new) (hf : s.freelist = mem :: rest)
    (hm1 : ∀ x, m1 x ≠ s.mem x → mem ≤ x ∧ x < mem + PGSIZE)
    (M : MapSpec new { s with mem := m1, freelist := rest } t1 used) :
    TableEq s.mem t1.mem old ∧ Inv 2 t1 old ∧ FrameOK t1 old ∧
    (∀ Q, Q % PGSIZE = 0 → Q ∉ s.freelist → (∀ d ≤ 2, ¬ IsTable s.mem new d Q) →
      ∀ k, k < PGSIZE → t1.mem (Q + k) = s.mem (Q + k)) ∧
    (∀ k, k < PGSIZE → t1.mem (mem + k) = m1 (mem + k)) ∧
    (∀ d ≤ 2, ∀ P, IsTable t1.mem new d P → IsTable s.mem new d P ∨ P ∈ rest) ∧
    (∀ d ≤ 2, ∀ P, IsTable s.mem new d P → IsTable t1.mem new d P) ∧
    (∀ p ∈ t1.freelist, p ∈ rest) ∧
    (∀ d ≤ 2, ∀ e ≤ 2, ∀ P, IsTable t1.mem new d P → ¬ IsTable t1.mem old e P) ∧
    (∀ d ≤ 2, ∀ P, IsTable t1.mem new d P → ∀ vb, vb < MAXVA →
      pteOf t1.mem old vb &&& PTE_V ≠ 0 → PTE2PA (pteOf t1.mem old vb) ≠ P) := by
  have hmem : mem ∈ s.freelist := by rw [hf]; exact List.mem_cons_self _ _
  have hnd : (mem :: rest).Nodup := hf ▸ A.inv_new.free_nodup
  have hrest : ∀ p ∈ rest, p ∈ s.freelist := fun p hp => by
    rw [hf]; exact List.mem_cons_of_mem _ hp
  obtain ⟨En, In⟩ := A.inv_new.take_page hf hm1
  have hfree : rest = used ++ t1.freelist := M.free
  have hused : ∀ p ∈ used, p ∈ rest := fun p hp => by
    rw [hfree]; exact List.mem_append_left _ hp
  have hsub : ∀ p ∈ t1.freelist, p ∈ rest := fun p hp => by
    rw [hfree]; exact List.mem_append_right _ hp
  have hfoot : ∀ x, t1.mem x ≠ s.mem x → ∃ P, P % PGSIZE = 0 ∧
      (P ∈ s.freelist ∨ ∃ d, d ≤ 2 ∧ IsTable s.mem new d P) ∧ P ≤ x ∧ x < P + PGSIZE := by
    intro x hx
    by_cases h1 : t1.mem x = m1 x
    · rw [h1] at hx
      exact ⟨mem, (A.inv_new.free_aligned mem hmem).1, Or.inl hmem, hm1 x hx⟩
    · obtain ⟨P, hP, hP2⟩ := M.foot x h1
      rcases hP with hP | ⟨d, hd, hT⟩
      · have := hrest P (hused P hP)
        exact ⟨P, (A.inv_new.free_aligned P this).1, Or.inl this, hP2⟩
      · have hT1 : IsTable s.mem new d P := (En.te_isTable d (by omega) P).1 hT
        exact ⟨P, A.inv_new.tree.table_aligned hT1, Or.inr ⟨d, hd, hT1⟩, hP2⟩
  have Eo : TableEq s.mem t1.mem old := tableEq_of_outside A.inv_old.tree (fun x hx => by
    obtain ⟨P, hP, hown, hP2⟩ := hfoot x hx
    refine ⟨P, hP, ?_, hP2⟩
    intro e he hT
    rcases hown with h | ⟨d, hd, hT1⟩
    · exact A.inv_old.free_fresh e he P hT h
    · exact A.tab_tab d hd e he P hT1 hT)
  have htn : ∀ d ≤ 2, ∀ P, IsTable t1.mem new d P → IsTable s.mem new d P ∨ P ∈ rest := by
    intro d hd P hT
    rcases M.tables_new d P hd hT with h | ⟨h, _⟩
    · exact Or.inl ((En.te_isTable d (by omega) P).1 h)
    · exact Or.inr (hused P h)
  refine ⟨Eo, inv_of_tableEq Eo A.inv_old M.inv.free_nodup (fun p hp => hrest p (hsub p hp)),
    frameOK_of_tableEq Eo A.frames_old (fun p hp => hrest p (hsub p hp)), ?_, ?_, htn, ?_, hsub,
    ?_, ?_⟩
  · intro Q hQ hQf hQt
    apply page_keeps hQ
    intro x hx
    obtain ⟨P, hP, hown, hP2⟩ := hfoot x hx
    refine ⟨P, hP, ?_, hP2⟩
    rintro rfl
    rcases hown with h | ⟨d, hd, hT1⟩
    · exact hQf h
    · exact hQt d hd hT1
  · apply page_keeps (A.inv_new.free_aligned mem hmem).1
    intro x hx
    obtain ⟨P, hP, hP2⟩ := M.foot x hx
    rcases hP with hP | ⟨d, hd, hT⟩
    · refine ⟨P, (A.inv_new.free_aligned P (hrest P (hused P hP))).1, ?_, hP2⟩
      rintro rfl
      exact (List.nodup_cons.1 hnd).1 (hused _ hP)
    · have hT1 : IsTable s.mem new d P := (En.te_isTable d (by omega) P).1 hT
      refine ⟨P, A.inv_new.tree.table_aligned hT1, ?_, hP2⟩
      rintro rfl
      exact A.inv_new.free_fresh d hd _ hT1 hmem
  · intro d hd P hT
    exact M.tables_old d P hd ((En.te_isTable d (by omega) P).2 hT)
  · intro d hd e he P hT hO
    have hO1 := (Eo.te_isTable e (by omega) P).1 hO
    rcases htn d hd P hT with h | h
    · exact A.tab_tab d hd e he P h hO1
    · exact A.inv_old.free_fresh e he P hO1 (hrest P h)
  · intro d hd P hT vb hb hv
    rw [Eo.te_pteOf vb] at hv ⊢
    rcases htn d hd P hT with h | h
    · exact A.tab_frame d hd P h vb hb hv
    · intro e
      exact (A.frames_old vb hb hv).2.1 (e ▸ hrest P h)

/-- One iteration of `uvmcopy` in which `mappages` installed the leaf entry for
the page of `a`: the two address spaces still share nothing. -/
theorem uvmcopy_mapped {s t1 : Kernel} {old new mem a perm : Nat} {rest used : List Nat}
    {m1 : Nat → Nat} (A : Apart s old new) (hf : s.freelist = mem :: rest)
    (hm1 : ∀ x, m1 x ≠ s.mem x → mem ≤ x ∧ x < mem + PGSIZE)
    (M : MapSpec new { s with mem := m1, freelist := rest } t1 used) (hperm : perm < 1024)
    (hp : ∀ vb, pteOf t1.mem new vb =
      if SamePage a vb then PA2PTE mem ||| perm ||| PTE_V else pteOf m1 new vb) :
    Apart t1 old new ∧
    ∀ vb, pteOf t1.mem new vb =
      if SamePage a vb then PA2PTE mem ||| perm ||| PTE_V else pteOf s.mem new vb := by
  have hmem : mem ∈ s.freelist := by rw [hf]; exact List.mem_cons_self _ _
  have hnd : (mem :: rest).Nodup := hf ▸ A.inv_new.free_nodup
  have hrest : ∀ p ∈ rest, p ∈ s.freelist := fun p hp => by
    rw [hf]; exact List.mem_cons_of_mem _ hp
  obtain ⟨hm1a, hm2, hm3⟩ := A.inv_new.free_aligned mem hmem
  obtain ⟨En, In⟩ := A.inv_new.take_page hf hm1
  obtain ⟨Eo, Io, Fo, _, _, htn, _, hsub, htt, htf⟩ := uvmcopy_link A hf hm1 M
  have hleaf : PTE2PA (PA2PTE mem ||| perm ||| PTE_V) = mem := leaf_PTE2PA hperm hm3 hm1a
  have hp2 : ∀ vb, pteOf t1.mem new vb =
      if SamePage a vb then PA2PTE mem ||| perm ||| PTE_V else pteOf s.mem new vb := by
    intro vb
    rw [hp vb, En.te_pteOf vb]
  have Fn1 : FrameOK { s with mem := m1, freelist := rest } new :=
    frameOK_of_tableEq (t := { s with mem := m1, freelist := rest }) En A.frames_new hrest
  have Fn : FrameOK t1 new := frameOK_map_one Fn1 M hp hperm hm1a hm2 hm3
    (List.nodup_cons.1 hnd).1
    (fun d hd hT => A.inv_new.free_fresh d hd mem ((En.te_isTable d (by omega) mem).1 hT) hmem)
    (fun vb hb hv he => by
      have hv2 : pteOf m1 new vb &&& PTE_V ≠ 0 := hv
      have he2 : PTE2PA (pteOf m1 new vb) = mem := he
      rw [En.te_pteOf vb] at hv2 he2
      exact (A.frames_new vb hb hv2).2.1 (he2 ▸ hmem))
  refine ⟨?_, hp2⟩
  exact {
    inv_old := Io
    frames_old := Fo
    inv_new := M.inv
    frames_new := Fn
    tab_tab := htt
    tab_frame := htf
    frame_tab := fun va hva hv e he hO => by
      have hO1 := (Eo.te_isTable e (by omega) _).1 hO
      rw [hp2 va] at hv hO1
      by_cases hs : SamePage a va
      · rw [if_pos hs, hleaf] at hO1
        exact A.inv_old.free_fresh e he mem hO1 hmem
      · rw [if_neg hs] at hv hO1
        exact A.frame_tab va hva hv e he hO1
    frame_frame := fun va hva hv vb hb hvb => by
      rw [Eo.te_pteOf vb] at hvb ⊢
      rw [hp2 va] at hv ⊢
      by_cases hs : SamePage a va
      · rw [if_pos hs, hleaf]
        intro e
        exact (A.frames_old vb hb hvb).2.1 (e ▸ hmem)
      · rw [if_neg hs] at hv ⊢
        exact A.frame_frame va hva hv vb hb hvb }

theorem Apart.ap_symm {s : Kernel} {old new : Nat} (A : Apart s old new) : Apart s new old where
  inv_old := A.inv_new
  frames_old := A.frames_new
  inv_new := A.inv_old
  frames_new := A.frames_old
  tab_tab := fun d hd e he P hT hO => A.tab_tab e he d hd P hO hT
  tab_frame := fun d hd _ hT vb hb hv e => A.frame_tab vb hb hv d hd (e ▸ hT)
  frame_tab := fun va hva hv e he hT => A.tab_frame e he _ hT va hva hv rfl
  frame_frame := fun va hva hv vb hb hvb e => A.frame_frame vb hb hvb va hva hv e.symm

theorem CopyKeep.ck_refl (old new : Nat) (s : Kernel) : CopyKeep old new s s where
  old_tables := TableEq.te_refl _ _
  old_bytes := fun _ _ _ _ _ => rfl
  tables_mono := fun _ _ _ h => h

theorem CopyKeep.ck_trans {old new : Nat} {s u t : Kernel} (A : CopyKeep old new s u)
    (B : CopyKeep old new u t) : CopyKeep old new s t where
  old_tables := A.old_tables.te_trans B.old_tables
  old_bytes := fun vb hb hv k hk => by
    have e := A.old_tables.te_pteOf vb
    have := B.old_bytes vb hb (by rw [e]; exact hv) k hk
    rw [e] at this
    rw [this, A.old_bytes vb hb hv k hk]
  tables_mono := fun d hd P h => B.tables_mono d hd P (A.tables_mono d hd P h)

/-- The first part of an iteration of `uvmcopy` keeps what `CopyKeep` lists. -/
theorem copyKeep_link {s t1 : Kernel} {old new mem : Nat} {rest used : List Nat}
    {m1 : Nat → Nat} (A : Apart s old new) (hf : s.freelist = mem :: rest)
    (hm1 : ∀ x, m1 x ≠ s.mem x → mem ≤ x ∧ x < mem + PGSIZE)
    (M : MapSpec new { s with mem := m1, freelist := rest } t1 used) :
    CopyKeep old new s t1 := by
  obtain ⟨Eo, _, _, hkeep, _, _, hmono, _, _, _⟩ := uvmcopy_link A hf hm1 M
  exact {
    old_tables := Eo
    old_bytes := fun vb hb hv k hk =>
      hkeep _ (PTE2PA_aligned _) (A.frames_old vb hb hv).2.1
        (fun d hd hT => A.tab_frame d hd _ hT vb hb hv rfl) k hk
    tables_mono := hmono }

/-- The `err:` exit of `uvmcopy` at page number `k`: the pages of `new` below it
are unmapped and their frames freed; `old` is not touched. -/
theorem uvmcopyErr_spec (s : Kernel) (old : Nat) {new k : Nat} (Tn : Tree 2 s.mem new)
    (To : Tree 2 s.mem old)
    (htt : ∀ d ≤ 2, ∀ e ≤ 2, ∀ P, IsTable s.mem new d P → ¬ IsTable s.mem old e P)
    (htf : ∀ d ≤ 2, ∀ P, IsTable s.mem new d P → ∀ vb, vb < MAXVA →
      pteOf s.mem old vb &&& PTE_V ≠ 0 → PTE2PA (pteOf s.mem old vb) ≠ P)
    (hk : k * PGSIZE ≤ MAXVA)
    (hinv : ∀ vb, vb < MAXVA → k * PGSIZE ≤ vb → pteOf s.mem new vb &&& PTE_V = 0) :
    ∃ t, uvmcopyErr s new (k * PGSIZE) = .ret (-1) t ∧
      t.freelist = validFrames s.mem new 0 k ++ s.freelist ∧
      CopyKeep old new s t ∧
      (∀ d ≤ 2, ∀ P, IsTable t.mem new d P ↔ IsTable s.mem new d P) ∧
      (∀ vb, vb < MAXVA → pteOf t.mem new vb &&& PTE_V = 0) := by
  obtain ⟨t, h1, h2, h3, h4, h5, h6, h7, h8⟩ := uvmunmap_spec new 0 k 1 Tn (by decide)
    (by rw [Nat.zero_add]; exact hk)
  have hiff := isTable_congr 2 h5
  refine ⟨t, ?_, ?_, ?_, hiff, ?_⟩
  · unfold uvmcopyErr
    rw [Nat.mul_div_cancel k (by decide : 0 < PGSIZE), h1]
    rfl
  · rw [h4, if_pos (by decide)]
  · have hout : ∀ x, t.mem x ≠ s.mem x → ∃ P, P % PGSIZE = 0 ∧ IsTable s.mem new 2 P ∧
        P ≤ x ∧ x < P + PGSIZE := by
      intro x hx
      obtain ⟨P, hP, hP2⟩ := h8 x hx
      exact ⟨P, Tn.table_aligned hP, hP, hP2⟩
    exact {
      old_tables := tableEq_of_outside To (fun x hx => by
        obtain ⟨P, hP, hT, hP2⟩ := hout x hx
        exact ⟨P, hP, fun e he hO => htt 2 (le_refl 2) e he P hT hO, hP2⟩)
      old_bytes := fun vb hb hv => page_keeps (PTE2PA_aligned _) (fun x hx => by
        obtain ⟨P, hP, hT, hP2⟩ := hout x hx
        exact ⟨P, hP, fun e => htf 2 (le_refl 2) P hT vb hb hv e.symm, hP2⟩)
      tables_mono := fun d hd P hT => (hiff d hd P).2 hT }
  · intro vb hb
    by_cases hlt : vb < k * PGSIZE
    · exact h6 vb hb (Nat.zero_le _) (by rw [Nat.zero_add]; exact hlt)
    · rw [h7 vb hb (Or.inr (by rw [Nat.zero_add]; omega))]
      exact hinv vb hb (by omega)

theorem flags_valid {e : Nat} (h : e &&& PTE_V ≠ 0) : PTE_FLAGS e ||| PTE_V = PTE_FLAGS e := by
  rw [valid_iff] at h
  unfold PTE_FLAGS
  rw [show (0x3FF : Nat) = 2 ^ 10 - 1 by norm_num, Nat.and_pow_two_sub_one_eq_mod]
  apply Nat.eq_of_testBit_eq
  intro i
  rw [Nat.testBit_or]
  by_cases hi : i = 0
  · subst hi
    have : (e % 2 ^ 10).testBit 0 = true := by
      rw [Nat.testBit_zero]
      simp
      omega
    rw [this]
    rfl
  · have : PTE_V.testBit i = false := by
      rw [show PTE_V = 2 ^ 0 by decide, Nat.testBit_two_pow]
      simp
      omega
    rw [this, Bool.or_false]

theorem flags_lt_1024 (e : Nat) : PTE_FLAGS e < 1024 := by
  unfold PTE_FLAGS
  rw [show (0x3FF : Nat) = 2 ^ 10 - 1 by norm_num, Nat.and_pow_two_sub_one_eq_mod]
  omega

theorem uvmcopyLoop_stop (old new sz : Nat) (s : Kernel) (i : Nat) (h : ¬ i < sz) :
    ∀ fuel, uvmcopyLoop old new sz fuel s i = .ret 0 s
  | 0 => by rw [uvmcopyLoop, if_neg h]
  | fuel + 1 => by rw [uvmcopyLoop, if_neg h]

theorem copyDone_nil {old new k : Nat} {s : Kernel} (A : Apart s old new) :
    CopyDone old new k 0 s s where
  apart := A
  count := by simp
  new_keep := fun _ _ _ => rfl
  new_bytes := fun _ _ _ _ _ => rfl
  copied := fun j hj => absurd hj (Nat.not_lt_zero j)

/-- The loop of `uvmcopy` over the `n` pages from page number `k` on: it
returns 0 with the pages copied, or -1 with `new` unmapped again. -/
theorem uvmcopyLoop_spec (old new sz : Nat) :
    ∀ fuel n (s : Kernel) (k : Nat), n ≤ fuel → Apart s old new →
      (k + n) * PGSIZE ≤ MAXVA → sz ≤ (k + n) * PGSIZE →
      (0 < n → (k + n - 1) * PGSIZE < sz) →
      (∀ j, j < n → pteOf s.mem old ((k + j) * PGSIZE) &&& PTE_V ≠ 0) →
      (∀ vb, vb < MAXVA → k * PGSIZE ≤ vb → pteOf s.mem new vb &&& PTE_V = 0) →
      ∃ r t, uvmcopyLoop old new sz fuel s (k * PGSIZE) = .ret r t ∧ CopyKeep old new s t ∧
        ((r = 0 ∧ CopyDone old new k n s t) ∨
         (r = -1 ∧ s.freelist.length < 3 * n ∧ ∃ used, CopyUndone new k s t used)) := by
  intro fuel
  induction fuel with
  | zero =>
    intro n s k hn A _ hsz _ _ _
    have : n = 0 := by omega
    subst this
    exact ⟨0, s, uvmcopyLoop_stop old new sz s _ (by rw [Nat.add_zero] at hsz; omega) 0,
      CopyKeep.ck_refl _ _ _, Or.inl ⟨rfl, copyDone_nil A⟩⟩
  | succ fuel ih =>
    intro n s k hn A hmax hsz hrun hvalid hinv
    cases n with
    | zero =>
      exact ⟨0, s, uvmcopyLoop_stop old new sz s _ (by rw [Nat.add_zero] at hsz; omega) _,
        CopyKeep.ck_refl _ _ _, Or.inl ⟨rfl, copyDone_nil A⟩⟩
    | succ n =>
      have hP : 0 < PGSIZE := by decide
      have hal : k * PGSIZE % PGSIZE = 0 := Nat.mul_mod_left _ _
      have hlt : k * PGSIZE < MAXVA := by
        unfold PGSIZE at hmax ⊢
        omega
      have hcond : k * PGSIZE < sz := by
        have := hrun (Nat.succ_pos n)
        unfold PGSIZE at this ⊢
        omega
      have hnext : (k * PGSIZE + PGSIZE) % U64 = (k + 1) * PGSIZE := by
        rw [MAXVA_eq] at hlt
        unfold PGSIZE U64 at *
        omega
      have hv0 : pteOf s.mem old (k * PGSIZE) &&& PTE_V ≠ 0 := by
        have := hvalid 0 (Nat.succ_pos n)
        rwa [Nat.add_zero] at this
      have hi0 : pteOf s.mem new (k * PGSIZE) &&& PTE_V = 0 := hinv _ hlt (Nat.le_refl _)
      obtain ⟨slot, hl, hsl⟩ := pteOf_valid_slot hv0
      have hself : SamePage (k * PGSIZE) (k * PGSIZE) := ⟨rfl, rfl, rfl⟩
      have hbody : ∀ X : Outcome Int,
          (match kalloc s with
            | (none, s2) => uvmcopyErr s2 new (k * PGSIZE)
            | (some mem, s2) =>
              (mappages
                  { s2 with
                    mem := memmove s2.mem mem (PTE2PA (pteOf s.mem old (k * PGSIZE))) PGSIZE }
                  new (k * PGSIZE) PGSIZE mem (PTE_FLAGS (pteOf s.mem old (k * PGSIZE)))).bind
                fun r s4 =>
                  if r ≠ 0 then uvmcopyErr (kfree s4 mem) new (k * PGSIZE)
                  else uvmcopyLoop old new sz fuel s4 ((k * PGSIZE + PGSIZE) % U64)) = X →
          uvmcopyLoop old new sz (fuel + 1) s (k * PGSIZE) = X := by
        intro X hX
        rw [uvmcopyLoop, if_pos hcond, walk_zero s old _ hlt, hl]
        simp only [Outcome.bind]
        rw [← hsl, if_neg hv0]
        exact hX
      cases hf : s.freelist with
      | nil =>
        obtain ⟨t, he, hfl, K, _, hcl⟩ := uvmcopyErr_spec s old A.inv_new.tree A.inv_old.tree
          A.tab_tab A.tab_frame (Nat.le_of_lt hlt) hinv
        refine ⟨-1, t, ?_, K, Or.inr ⟨rfl, by simp, [], ?_⟩⟩
        · apply hbody
          simp only [kalloc, hf]
          exact he
        · exact {
            cleared := hcl
            returned := by rw [hfl, hf]; simp
            used_tables := fun _ h => absurd h (List.not_mem_nil _) }
      | cons mem rest =>
        have hmem : mem ∈ s.freelist := by rw [hf]; exact List.mem_cons_self _ _
        obtain ⟨hmem1, hmem2, hmem3⟩ := A.inv_new.free_aligned mem hmem
        have hm1 := memmove_changes s.mem mem (PTE2PA (pteOf s.mem old (k * PGSIZE))) PGSIZE
        obtain ⟨En, In⟩ := A.inv_new.take_page hf hm1
        have hinv2 : pteOf (memmove s.mem mem (PTE2PA (pteOf s.mem old (k * PGSIZE))) PGSIZE)
            new (k * PGSIZE) &&& PTE_V = 0 := by
          rw [En.te_pteOf]; exact hi0
        have hfl1024 := flags_lt_1024 (pteOf s.mem old (k * PGSIZE))
        obtain ⟨r, t1, used1, hm, M, hr⟩ := mappages_one mem
          (PTE_FLAGS (pteOf s.mem old (k * PGSIZE))) In hal hlt hinv2 hmem3
          (by unfold U64; omega)
        have K1 := copyKeep_link A hf hm1 M
        obtain ⟨Eo, Io, Fo, hkeep, hfresh, htn, hmono, hsub, htt, htf⟩ :=
          uvmcopy_link A hf hm1 M
        have hmiss : missing (memmove s.mem mem (PTE2PA (pteOf s.mem old (k * PGSIZE))) PGSIZE)
            (k * PGSIZE) 2 new = missing s.mem (k * PGSIZE) 2 new :=
          En.te_missing _ 2 0 new rfl rfl
        have hle2 := missing_le s.mem (k * PGSIZE) 2 new
        have hrest : rest = used1 ++ t1.freelist := M.free
        have hrl : rest.length = used1.length + t1.freelist.length := by
          rw [hrest, List.length_append]
        rcases hr with ⟨hr0, hlen, hp⟩ | ⟨hr1, hnil, hlen, hsame⟩
        · rw [hmiss] at hlen
          obtain ⟨A1, hp2⟩ := uvmcopy_mapped A hf hm1 M hfl1024 hp
          have hleaf1 : pteOf t1.mem new (k * PGSIZE) =
              PA2PTE mem ||| PTE_FLAGS (pteOf s.mem old (k * PGSIZE)) ||| PTE_V := by
            rw [hp2, if_pos hself]
          have hv1 : pteOf t1.mem new (k * PGSIZE) &&& PTE_V ≠ 0 := by
            rw [hleaf1]; exact leaf_valid _ _
          have hfr1 : PTE2PA (pteOf t1.mem new (k * PGSIZE)) = mem := by
            rw [hleaf1]; exact leaf_PTE2PA hfl1024 hmem3 hmem1
          have hother : ∀ vb, vb < MAXVA → (vb < k * PGSIZE ∨ (k + 1) * PGSIZE ≤ vb) →
              pteOf t1.mem new vb = pteOf s.mem new vb := by
            intro vb hb hout
            rw [hp2, if_neg]
            rw [samePage_of_aligned hal hlt hb]
            unfold PGSIZE at hout ⊢
            omega
          obtain ⟨r2, t, hl2, K2, hres⟩ := ih n t1 (k + 1) (by omega) A1
            (by rw [show k + 1 + n = k + (n + 1) by omega]; exact hmax)
            (by rw [show k + 1 + n = k + (n + 1) by omega]; exact hsz)
            (fun h => by
              rw [show k + 1 + n - 1 = k + (n + 1) - 1 by omega]
              exact hrun (Nat.succ_pos n))
            (fun j hj => by
              rw [Eo.te_pteOf, show k + 1 + j = k + (j + 1) by omega]
              exact hvalid (j + 1) (by omega))
            (fun vb hb hge => by
              rw [hother vb hb (Or.inr hge)]
              exact hinv vb hb (by unfold PGSIZE at hge ⊢; omega))
          refine ⟨r2, t, ?_, K1.ck_trans K2, ?_⟩
          · apply hbody
            simp only [kalloc, hf]
            rw [hm, hr0]
            simp only [Outcome.bind, ne_eq, not_true_eq_false, if_false]
            rw [hnext]
            exact hl2
          · rcases hres with ⟨h0, D⟩ | ⟨h1, hlenf, used2, U⟩
            · left
              refine ⟨h0, ?_⟩
              exact {
                apart := D.apart
                count := by
                  have := D.count
                  rw [if_neg (Nat.succ_ne_zero n), hf, List.length_cons, hrl, hlen]
                  split at this <;> omega
                new_keep := fun vb hb hv => by
                  have hns : ¬ SamePage (k * PGSIZE) vb := fun hs => by
                    rw [← pteOf_samePage s.mem new hs] at hv
                    exact hv hi0
                  have e1 : pteOf t1.mem new vb = pteOf s.mem new vb := by
                    rw [hp2, if_neg hns]
                  rw [D.new_keep vb hb (by rw [e1]; exact hv), e1]
                new_bytes := fun vb hb hv x hx => by
                  have hns : ¬ SamePage (k * PGSIZE) vb := fun hs => by
                    rw [← pteOf_samePage s.mem new hs] at hv
                    exact hv hi0
                  have e1 : pteOf t1.mem new vb = pteOf s.mem new vb := by
                    rw [hp2, if_neg hns]
                  have h1 := D.new_bytes vb hb (by rw [e1]; exact hv) x hx
                  rw [e1] at h1
                  rw [h1]
                  exact hkeep _ (PTE2PA_aligned _) (A.frames_new vb hb hv).2.1
                    (fun d hd hT => (A.frames_new vb hb hv).2.2.1 d hd hT) x hx
                copied := fun j hj => by
                  cases j with
                  | zero =>
                    rw [Nat.add_zero]
                    have e2 : pteOf t.mem new (k * PGSIZE) =
                        PA2PTE mem ||| PTE_FLAGS (pteOf s.mem old (k * PGSIZE)) ||| PTE_V := by
                      rw [D.new_keep _ hlt hv1, hleaf1]
                    refine ⟨by rw [e2]; exact leaf_valid _ _,
                      by rw [e2, leaf_flags hfl1024, flags_valid hv0], ?_⟩
                    intro x hx
                    have h1 := D.new_bytes _ hlt hv1 x hx
                    rw [hfr1] at h1
                    rw [e2, leaf_PTE2PA hfl1024 hmem3 hmem1, h1, hfresh x hx, memmove_in _ _ _ _ _ hx]
                  | succ j =>
                    rw [show k + (j + 1) = k + 1 + j by omega]
                    obtain ⟨c1, c2, c3⟩ := D.copied j (by omega)
                    have eo := Eo.te_pteOf ((k + 1 + j) * PGSIZE)
                    rw [eo] at c2 c3
                    have hvj : pteOf s.mem old ((k + 1 + j) * PGSIZE) &&& PTE_V ≠ 0 := by
                      rw [show k + 1 + j = k + (j + 1) by omega]
                      exact hvalid (j + 1) hj
                    have hbj : (k + 1 + j) * PGSIZE < MAXVA := by
                      unfold PGSIZE at hmax ⊢
                      omega
                    refine ⟨c1, c2, fun x hx => ?_⟩
                    rw [c3 x hx]
                    exact K1.old_bytes _ hbj hvj x hx }
            · right
              refine ⟨h1, by rw [List.length_cons, hrl]; omega, used1 ++ used2, ?_⟩
              have hvf0 : validFrames t1.mem new 0 k = validFrames s.mem new 0 k :=
                validFrames_congr k 0 (fun j hj => by
                  rw [Nat.zero_add]
                  exact hother _ (by unfold PGSIZE at hlt ⊢; omega)
                    (Or.inl (by unfold PGSIZE; omega)))
              have hvf : validFrames t1.mem new 0 (k + 1) = mem :: validFrames s.mem new 0 k := by
                rw [validFrames_snoc, Nat.zero_add, if_pos hv1, hfr1, hvf0]
                rfl
              exact {
                cleared := U.cleared
                returned := by
                  have hU := U.returned
                  rw [hvf] at hU
                  rw [hf, hrest, List.perm_iff_count]
                  intro a
                  have := hU.count_eq a
                  simp only [List.count_append, List.count_cons, List.cons_append] at this ⊢
                  omega
                used_tables := fun P hP => by
                  rcases List.mem_append.1 hP with h | h
                  · obtain ⟨d, d1, d2, d3⟩ := M.used_tables P h
                    exact ⟨d, d1, d2, K2.tables_mono d d2 P d3⟩
                  · exact U.used_tables P h }
        · have hinv3 : ∀ vb, vb < MAXVA → k * PGSIZE ≤ vb →
              pteOf (kfree t1 mem).mem new vb &&& PTE_V = 0 := by
            intro vb hb hge
            show pteOf t1.mem new vb &&& PTE_V = 0
            rw [hsame vb]
            show pteOf (memmove s.mem mem (PTE2PA (pteOf s.mem old (k * PGSIZE))) PGSIZE)
              new vb &&& PTE_V = 0
            rw [En.te_pteOf]
            exact hinv vb hb hge
          obtain ⟨t, he, hfl, K, hiff, hcl⟩ := uvmcopyErr_spec (kfree t1 mem) old
            M.inv.tree Io.tree htt htf (Nat.le_of_lt hlt) hinv3
          have K' : CopyKeep old new t1 t := ⟨K.old_tables, K.old_bytes, K.tables_mono⟩
          have hlen2 : rest.length < missing s.mem (k * PGSIZE) 2 new := by
            rw [← hmiss]; exact hlen
          refine ⟨-1, t, ?_, K1.ck_trans K', Or.inr ⟨rfl, ?_, used1, ?_⟩⟩
          · apply hbody
            simp only [kalloc, hf]
            rw [hm, hr1]
            simp only [Outcome.bind]
            rw [if_pos (by decide)]
            exact he
          · rw [List.length_cons]
            omega
          · have hvf : validFrames (kfree t1 mem).mem new 0 k = validFrames s.mem new 0 k :=
              validFrames_congr k 0 (fun j hj => by
                show pteOf t1.mem new _ = _
                rw [hsame]
                exact En.te_pteOf _)
            exact {
              cleared := hcl
              returned := by
                rw [hfl, hvf, hf, hrest, hnil, List.perm_iff_count]
                intro a
                simp only [kfree, hnil, List.count_append, List.count_cons, List.append_nil,
                  List.count_nil]
                omega
              used_tables := fun P hP => by
                obtain ⟨d, d1, d2, d3⟩ := M.used_tables P hP
                exact ⟨d, d1, d2, (hiff d d2 P).2 d3⟩ }

/-- In zeroed memory a table tree consists of its root. -/
theorem zero_tables {m : Nat → Nat} (hz : ∀ x, m x = 0) (pt d P : Nat)
    (h : IsTable m pt d P) : P = pt := by
  cases d with
  | zero => exact h
  | succ d =>
    exfalso
    induction d generalizing P with
    | zero =>
      obtain ⟨q, i, _, _, hv, _⟩ := h
      unfold entry at hv
      rw [ld64_zero_mem hz] at hv
      exact zero_not_valid hv
    | succ d ih =>
      obtain ⟨q, i, hq, _⟩ := h
      exact ih q hq

/-- Two distinct empty root tables in zeroed memory, neither of them free,
share nothing. -/
theorem apart_zero {s : Kernel} {old new : Nat} (hz : ∀ x, s.mem x = 0)
    (ho : old % PGSIZE = 0) (hn : new % PGSIZE = 0) (hne : old ≠ new)
    (hnd : s.freelist.Nodup) (hfa : ∀ p ∈ s.freelist, p % PGSIZE = 0 ∧ p ≠ 0 ∧ p < U64)
    (hof : old ∉ s.freelist) (hnf : new ∉ s.freelist) : Apart s old new where
  inv_old := inv_empty (fun j _ => ld64_zero_mem hz _) ho hnd hfa hof
  frames_old := frameOK_empty (fun va => pteOf_zero_mem hz old va)
  inv_new := inv_empty (fun j _ => ld64_zero_mem hz _) hn hnd hfa hnf
  frames_new := frameOK_empty (fun va => pteOf_zero_mem hz new va)
  tab_tab := fun d _ e _ P hT hO =>
    hne ((zero_tables hz old e P hO).symm.trans (zero_tables hz new d P hT))
  tab_frame := fun _ _ _ _ vb _ hv => by
    rw [pteOf_zero_mem hz] at hv
    exact absurd hv zero_not_valid
  frame_tab := fun va _ hv => by
    rw [pteOf_zero_mem hz] at hv
    exact absurd hv zero_not_valid
  frame_frame := fun va _ hv => by
    rw [pteOf_zero_mem hz] at hv
    exact absurd hv zero_not_valid

/-- A page that `vmfault` maps into `old` leaves `old` and `new` sharing
nothing, and the table rooted at `new` as it was. -/
theorem vmfault_apart {s : Kernel} {old new : Nat} (va : Nat) (A : Apart s old new)
    (hsz : va < s.procsz) (hmax : va < MAXVA)
    (hinv : pteOf s.mem old (PGROUNDDOWN va) &&& PTE_V = 0)
    (hfree : missing s.mem (PGROUNDDOWN va) 2 old + 1 ≤ s.freelist.length) (d : Kernel) :
    Apart ((vmfault s old va 0).final d) old new ∧
    TableEq s.mem ((vmfault s old va 0).final d).mem new := by
  obtain ⟨pa, rest, used, t, hf, hv, E, M, _, hp, _⟩ := vmfault_ok 0 A.inv_old hsz hmax hinv hfree
  rw [hv]
  show Apart t old new ∧ TableEq s.mem t.mem new
  have hm1 := memset_changes s.mem pa 0 PGSIZE
  have B := uvmcopy_mapped A.ap_symm hf hm1 M (by decide : PTE_W ||| PTE_U ||| PTE_R < 1024)
    (fun vb => by rw [hp vb]; congr 1; exact (E.te_pteOf vb).symm)
  exact ⟨B.1.ap_symm, (uvmcopy_link A.ap_symm hf hm1 M).1⟩

/-- The state after `vmfault` has filled the first two pages in the table at
`0x1000` of a machine with zeroed memory: the tables at `0x1000` and `0x2000`
share nothing and the one at `0x2000` is still empty. -/
theorem parent_ready {b : Kernel} (hz : ∀ x, b.mem x = 0) (A : Apart b 0x1000 0x2000)
    (hsz : 0x1000 < b.procsz) (h1 : 3 ≤ b.freelist.length)
    (h2 : missing ((vmfault b 0x1000 0 0).final b).mem (PGROUNDDOWN 0x1000) 2 0x1000 + 1 ≤
      ((vmfault b 0x1000 0 0).final b).freelist.length)
    (hp : ((vmfault b 0x1000 0 0).final b).procsz = b.procsz)
    (hi : pteOf ((vmfault b 0x1000 0 0).final b).mem 0x1000 (PGROUNDDOWN 0x1000) &&& PTE_V = 0) :
    Apart ((vmfault ((vmfault b 0x1000 0 0).final b) 0x1000 0x1000 0).final b) 0x1000 0x2000 ∧
    ∀ vb, pteOf ((vmfault ((vmfault b 0x1000 0 0).final b) 0x1000 0x1000 0).final b).mem
      0x2000 vb &&& PTE_V = 0 := by
  have hm := missing_le b.mem (PGROUNDDOWN 0) 2 0x1000
  have a1 := vmfault_apart 0 A (by omega) (by decide)
    (by rw [pteOf_zero_mem hz]; rfl) (by omega) b
  have a2 := vmfault_apart 0x1000 a1.1 (by rw [hp]; exact hsz) (by decide) hi h2 b
  refine ⟨a2.1, fun vb => ?_⟩
  rw [(a1.2.te_trans a2.2).te_pteOf vb, pteOf_zero_mem hz]
  rfl

theorem demoParent_ready :
    Apart demoParent 0x1000 0x2000 ∧ ∀ vb, pteOf demoParent.mem 0x2000 vb &&& PTE_V = 0 :=
  parent_ready (b := demoPair) (fun _ => rfl)
    (apart_zero (fun _ => rfl) (by decide) (by decide) (by decide) (by decide) (by decide)
      (by decide) (by decide))
    (by decide) (by decide) (by decide) (by decide) (by decide)

theorem demoParent_valid (a : Nat) (h1 : a % PGSIZE = 0) (h2 : a < 0x2000) :
    pteOf demoParent.mem 0x1000 a &&& PTE_V ≠ 0 := by
  have : a = 0 ∨ a = 0x1000 := by
    unfold PGSIZE at h1
    omega
  rcases this with rfl | rfl <;> decide

theorem demoParentTight_ready :
    Apart demoParentTight 0x1000 0x2000 ∧
    ∀ vb, pteOf demoParentTight.mem 0x2000 vb &&& PTE_V = 0 :=
  parent_ready (b := demoTight) (fun _ => rfl)
    (apart_zero (fun _ => rfl) (by decide) (by decide) (by decide) (by decide) (by decide)
      (by decide) (by decide))
    (by decide) (by decide) (by decide) (by decide) (by decide)

theorem demoParentTight_valid (a : Nat) (h1 : a % PGSIZE = 0) (h2 : a < 0x2000) :
    pteOf demoParentTight.mem 0x1000 a &&& PTE_V ≠ 0 := by
  have : a = 0 ∨ a = 0x1000 := by
    unfold PGSIZE at h1
    omega
  rcases this with rfl | rfl <;> decide

/-! ## C7: `uvmcopy` copies every page into a frame of its own -/

/-- C7: let the address spaces rooted at `old` and `new` be well formed and
share no page, let `new` have no valid leaf entry, let every page below
`sz ≤ MAXVA` have a valid leaf entry in `old`, and let the allocator hold three
free pages for each page below `sz`. Then `uvmcopy(old, new, sz)` returns 0 and,
for every page-aligned `i < sz`, the leaf entry of `new` for `i` is valid, has
the flag bits of the leaf entry of `old`, which is as before, and points to a
frame other than the frame of `old` that holds the same bytes as the frame of
`old`, whose bytes are as before; and a byte stored afterwards at the physical
address that `new` gives to an address below `sz` changes no leaf entry of
`old` and no byte that `old` maps. -/
theorem uvmcopy_copies (s : Kernel) (old new sz : Nat) (A : Apart s old new)
    (hnew : ∀ vb, vb < MAXVA → pteOf s.mem new vb &&& PTE_V = 0) (hsz : sz ≤ MAXVA)
    (hvalid : ∀ a, a % PGSIZE = 0 → a < sz → pteOf s.mem old a &&& PTE_V ≠ 0)
    (hfree : 3 * (PGROUNDUP sz / PGSIZE) ≤ s.freelist.length) :
    ∃ t, uvmcopy s old new sz = .ret 0 t ∧
      (∀ i, i % PGSIZE = 0 → i < sz →
        pteOf t.mem new i &&& PTE_V ≠ 0 ∧
        PTE_FLAGS (pteOf t.mem new i) = PTE_FLAGS (pteOf s.mem old i) ∧
        pteOf t.mem old i = pteOf s.mem old i ∧
        PTE2PA (pteOf t.mem new i) ≠ PTE2PA (pteOf t.mem old i) ∧
        ∀ x, x < PGSIZE →
          t.mem (PTE2PA (pteOf t.mem new i) + x) = t.mem (PTE2PA (pteOf t.mem old i) + x) ∧
          t.mem (PTE2PA (pteOf t.mem old i) + x) = s.mem (PTE2PA (pteOf s.mem old i) + x)) ∧
      (∀ va b vb, va < sz → vb < MAXVA → pteOf t.mem old vb &&& PTE_V ≠ 0 →
        pteOf (memmoveIn t.mem (physOf t.mem new va) [b] 1) old vb = pteOf t.mem old vb ∧
        memmoveIn t.mem (physOf t.mem new va) [b] 1 (physOf t.mem old vb) =
          t.mem (physOf t.mem old vb)) := by
  obtain ⟨o1, o2, o3, o4⟩ := PGROUNDUP_facts hsz
  have hP : 0 < PGSIZE := by decide
  have hn : PGROUNDUP sz / PGSIZE * PGSIZE = PGROUNDUP sz := by
    unfold PGSIZE at o1 ⊢
    omega
  obtain ⟨r, t, hl, K, hres⟩ := uvmcopyLoop_spec old new sz (sz / PGSIZE + 1)
    (PGROUNDUP sz / PGSIZE) s 0 (by unfold PGSIZE at *; omega) A
    (by rw [Nat.zero_add, hn]; exact o4) (by rw [Nat.zero_add, hn]; exact o2)
    (fun h => by
      unfold PGSIZE at *
      omega)
    (fun j hj => hvalid _ (Nat.mul_mod_left _ _) (by unfold PGSIZE at *; omega))
    (fun vb hb _ => hnew vb hb)
  rw [Nat.zero_mul] at hl
  rcases hres with ⟨h0, D⟩ | ⟨_, hlen, _⟩
  swap
  · omega
  subst h0
  have hpage : ∀ i, i % PGSIZE = 0 → i < sz →
      pteOf t.mem new i &&& PTE_V ≠ 0 ∧
      PTE_FLAGS (pteOf t.mem new i) = PTE_FLAGS (pteOf s.mem old i) ∧
      ∀ x, x < PGSIZE →
        t.mem (PTE2PA (pteOf t.mem new i) + x) = s.mem (PTE2PA (pteOf s.mem old i) + x) := by
    intro i hi hlt
    have := D.copied (i / PGSIZE) (by unfold PGSIZE at *; omega)
    rw [Nat.zero_add, show i / PGSIZE * PGSIZE = i by unfold PGSIZE at hi ⊢; omega] at this
    exact this
  refine ⟨t, hl, ?_, ?_⟩
  · intro i hi hlt
    obtain ⟨c1, c2, c3⟩ := hpage i hi hlt
    have hb : i < MAXVA := by omega
    have hvo := hvalid i hi hlt
    have eo := K.old_tables.te_pteOf i
    refine ⟨c1, c2, eo, ?_, fun x hx => ?_⟩
    · exact D.apart.frame_frame i hb c1 i hb (by rw [eo]; exact hvo)
    · rw [eo, K.old_bytes i hb hvo x hx]
      exact ⟨c3 x hx, rfl⟩
  · intro va b vb hva hb hvb
    have hlt : va < MAXVA := by omega
    obtain ⟨g1, g2, g3, g4⟩ := PGROUNDDOWN_facts hlt
    have hvn : pteOf t.mem new va &&& PTE_V ≠ 0 := by
      rw [← pteOf_samePage t.mem new (samePage_rounddown hlt)]
      exact (hpage _ g1 (by omega)).1
    have hoff : va % PGSIZE < PGSIZE := Nat.mod_lt _ hP
    have hch : ∀ x, memmoveIn t.mem (physOf t.mem new va) [b] 1 x ≠ t.mem x →
        PTE2PA (pteOf t.mem new va) ≤ x ∧ x < PTE2PA (pteOf t.mem new va) + PGSIZE := by
      intro x hx
      by_contra hc
      apply hx
      apply memmoveIn_out
      unfold physOf
      omega
    constructor
    · exact (tableEq_of_outside D.apart.inv_old.tree (fun x hx =>
        ⟨_, PTE2PA_aligned _, fun e he hT => D.apart.frame_tab va hlt hvn e he hT,
          hch x hx⟩)).te_pteOf vb
    · unfold physOf
      exact page_keeps (PTE2PA_aligned _) (fun x hx =>
        ⟨_, PTE2PA_aligned _, D.apart.frame_frame va hlt hvn vb hb hvb, hch x hx⟩) _
        (Nat.mod_lt _ hP)

theorem uvmcopy_copies_witness :
    ∃ t, uvmcopy demoParent 0x1000 0x2000 0x2000 = .ret 0 t ∧
      (∀ i, i % PGSIZE = 0 → i < 0x2000 →
        pteOf t.mem 0x2000 i &&& PTE_V ≠ 0 ∧
        PTE_FLAGS (pteOf t.mem 0x2000 i) = PTE_FLAGS (pteOf demoParent.mem 0x1000 i) ∧
        pteOf t.mem 0x1000 i = pteOf demoParent.mem 0x1000 i ∧
        PTE2PA (pteOf t.mem 0x2000 i) ≠ PTE2PA (pteOf t.mem 0x1000 i) ∧
        ∀ x, x < PGSIZE →
          t.mem (PTE2PA (pteOf t.mem 0x2000 i) + x) =
            t.mem (PTE2PA (pteOf t.mem 0x1000 i) + x) ∧
          t.mem (PTE2PA (pteOf t.mem 0x1000 i) + x) =
            demoParent.mem (PTE2PA (pteOf demoParent.mem 0x1000 i) + x)) ∧
      (∀ va b vb, va < 0x2000 → vb < MAXVA → pteOf t.mem 0x1000 vb &&& PTE_V ≠ 0 →
        pteOf (memmoveIn t.mem (physOf t.mem 0x2000 va) [b] 1) 0x1000 vb =
          pteOf t.mem 0x1000 vb ∧
        memmoveIn t.mem (physOf t.mem 0x2000 va) [b] 1 (physOf t.mem 0x1000 vb) =
          t.mem (physOf t.mem 0x1000 vb)) :=
  uvmcopy_copies demoParent 0x1000 0x2000 0x2000 demoParent_ready.1
    (fun vb _ => demoParent_ready.2 vb) (by decide) demoParent_valid (by decide)

/-! ## C8: `uvmcopy` undoes its work when the allocator runs out -/

/-- C8: let the address spaces rooted at `old` and `new` be well formed and
share no page, let `new` have no valid leaf entry, and let every page below
`sz ≤ MAXVA` have a valid leaf entry in `old`. Then `uvmcopy(old, new, sz)`
returns 0 or -1, and -1 at least when the allocator holds fewer pages than the
pages below `sz` and the interior tables missing for page 0 take together.
Whenever it returns -1, `new` has no valid leaf entry; the free pages are those
from before the call, each once, without the pages `used` that have become
interior tables of `new`; every entry of every table page of `old` is as it
was, and so is every byte of every frame that `old` maps. -/
theorem uvmcopy_undoes (s : Kernel) (old new sz : Nat) (A : Apart s old new)
    (hnew : ∀ vb, vb < MAXVA → pteOf s.mem new vb &&& PTE_V = 0) (hsz : sz ≤ MAXVA)
    (hvalid : ∀ a, a % PGSIZE = 0 → a < sz → pteOf s.mem old a &&& PTE_V ≠ 0) :
    ∃ r t, uvmcopy s old new sz = .ret r t ∧ (r = 0 ∨ r = -1) ∧
      (0 < sz → s.freelist.length < PGROUNDUP sz / PGSIZE + missing s.mem 0 2 new → r = -1) ∧
      (r = -1 → ∃ used,
        (∀ vb, vb < MAXVA → pteOf t.mem new vb &&& PTE_V = 0) ∧
        s.freelist.Perm (used ++ t.freelist) ∧ t.freelist.Nodup ∧
        (∀ P ∈ used, ∃ d, 0 < d ∧ d ≤ 2 ∧ IsTable t.mem new d P) ∧
        TableEq s.mem t.mem old ∧
        (∀ vb, pteOf t.mem old vb = pteOf s.mem old vb) ∧
        ∀ vb, vb < MAXVA → pteOf s.mem old vb &&& PTE_V ≠ 0 → ∀ x, x < PGSIZE →
          t.mem (PTE2PA (pteOf s.mem old vb) + x) = s.mem (PTE2PA (pteOf s.mem old vb) + x)) := by
  obtain ⟨o1, o2, o3, o4⟩ := PGROUNDUP_facts hsz
  have hP : 0 < PGSIZE := by decide
  have hn : PGROUNDUP sz / PGSIZE * PGSIZE = PGROUNDUP sz := by
    unfold PGSIZE at o1 ⊢
    omega
  obtain ⟨r, t, hl, K, hres⟩ := uvmcopyLoop_spec old new sz (sz / PGSIZE + 1)
    (PGROUNDUP sz / PGSIZE) s 0 (by unfold PGSIZE at *; omega) A
    (by rw [Nat.zero_add, hn]; exact o4) (by rw [Nat.zero_add, hn]; exact o2)
    (fun h => by
      unfold PGSIZE at *
      omega)
    (fun j hj => hvalid _ (Nat.mul_mod_left _ _) (by unfold PGSIZE at *; omega))
    (fun vb hb _ => hnew vb hb)
  rw [Nat.zero_mul] at hl
  refine ⟨r, t, hl, ?_, ?_, ?_⟩
  · rcases hres with ⟨h0, _⟩ | ⟨h1, _⟩
    · exact Or.inl h0
    · exact Or.inr h1
  · intro hpos hshort
    rcases hres with ⟨h0, D⟩ | ⟨h1, _⟩
    · exfalso
      have hc := D.count
      rw [Nat.zero_mul, if_neg (by unfold PGSIZE at *; omega)] at hc
      omega
    · exact h1
  · intro hr
    rcases hres with ⟨h0, _⟩ | ⟨_, _, used, U⟩
    · rw [h0] at hr
      exact absurd hr (by decide)
    · have hperm : s.freelist.Perm (used ++ t.freelist) := by
        have := U.returned
        rwa [validFrames, List.nil_append] at this
      exact ⟨used, U.cleared, hperm,
        (List.nodup_append.1 ((hperm.nodup_iff).1 A.inv_old.free_nodup)).2.1,
        U.used_tables, K.old_tables, K.old_tables.te_pteOf, K.old_bytes⟩

theorem uvmcopy_undoes_witness :
    ∃ t used, uvmcopy demoParentTight 0x1000 0x2000 0x2000 = .ret (-1) t ∧
      (∀ vb, vb < MAXVA → pteOf t.mem 0x2000 vb &&& PTE_V = 0) ∧
      demoParentTight.freelist.Perm (used ++ t.freelist) ∧ t.freelist.Nodup ∧
      (∀ P ∈ used, ∃ d, 0 < d ∧ d ≤ 2 ∧ IsTable t.mem 0x2000 d P) ∧
      TableEq demoParentTight.mem t.mem 0x1000 := by
  obtain ⟨r, t, h1, _, h3, h4⟩ := uvmcopy_undoes demoParentTight 0x1000 0x2000 0x2000
    demoParentTight_ready.1 (fun vb _ => demoParentTight_ready.2 vb) (by decide)
    demoParentTight_valid
  have hr : r = -1 := h3 (by decide) (by decide)
  subst hr
  obtain ⟨used, c1, c2, c3, c4, c5, _⟩ := h4 rfl
  exact ⟨t, used, h1, c1, c2, c3, c4, c5⟩

/-! ## The shape of a table: interior entries and leaf entries -/

theorem rwx_mod (e : Nat) :
    e &&& (PTE_R ||| PTE_W ||| PTE_X) = (e % 16) &&& (PTE_R ||| PTE_W ||| PTE_X) := by
  have h : PTE_R ||| PTE_W ||| PTE_X = (2 ^ 4 - 1) &&& (PTE_R ||| PTE_W ||| PTE_X) := by decide
  conv_lhs => rw [h, ← Nat.and_assoc, Nat.and_pow_two_sub_one_eq_mod]

theorem and_or_right (x y z : Nat) : (x ||| y) &&& z = (x &&& z) ||| (y &&& z) := by
  rw [Nat.and_comm, Nat.and_or_distrib_left, Nat.and_comm z x, Nat.and_comm z y]

theorem link_norwx (p : Nat) : (PA2PTE p ||| PTE_V) &&& (PTE_R ||| PTE_W ||| PTE_X) = 0 := by
  rw [and_or_right, rwx_mod (PA2PTE p), PA2PTE_eq,
    show p / 4096 * 1024 % 16 = 0 by omega]
  decide

theorem leaf_rwx (pa perm : Nat) :
    (PA2PTE pa ||| perm ||| PTE_V) &&& (PTE_R ||| PTE_W ||| PTE_X) =
      perm &&& (PTE_R ||| PTE_W ||| PTE_X) := by
  rw [and_or_right, and_or_right, rwx_mod (PA2PTE pa), PA2PTE_eq,
    show pa / 4096 * 1024 % 16 = 0 by omega,
    show PTE_V &&& (PTE_R ||| PTE_W ||| PTE_X) = 0 by decide,
    show (0 : Nat) &&& (PTE_R ||| PTE_W ||| PTE_X) = 0 by decide, Nat.zero_or, Nat.or_zero]

theorem Shaped.of_tableEq {m n : Nat → Nat} {pt : Nat} (E : TableEq m n pt)
    (S : Shaped m pt) : Shaped n pt where
  interior := fun d hd T hT j hj hv => by
    have hT1 := (E.te_isTable d (by omega) T).1 hT
    rw [E d (by omega) T hT1 j hj] at hv ⊢
    exact S.interior d hd T hT1 j hj hv
  leaf := fun T hT j hj hv => by
    have hT1 := (E.te_isTable 2 (by omega) T).1 hT
    rw [E 2 (le_refl 2) T hT1 j hj] at hv ⊢
    exact S.leaf T hT1 j hj hv

/-- Writing the leaf entry for `va` keeps the shape when the value written is
invalid or has one of R, W and X. -/
theorem Shaped.shaped_leaf_write {m : Nat → Nat} {pt va a v : Nat} (I : Tree 2 m pt)
    (S : Shaped m pt) (ha : lookupFrom m va 2 pt = some a) (hv : v < 2 ^ 64)
    (hr : v &&& PTE_V ≠ 0 → v &&& (PTE_R ||| PTE_W ||| PTE_X) ≠ 0) :
    Shaped (st64 m a v) pt where
  interior := fun d hd T hT j hj hval => by
    have hT1 := (I.leaf_isTable (le_refl 2) ha v d (by omega) T).1 hT
    rw [I.leaf_above (le_refl 2) ha v d hd T hT1 j hj] at hval ⊢
    exact S.interior d hd T hT1 j hj hval
  leaf := fun T hT j hj hval => by
    have hT1 := (I.leaf_isTable (le_refl 2) ha v 2 (le_refl 2) T).1 hT
    obtain ⟨T0, h0, rfl⟩ := lookupFrom_table 2 0 pt rfl rfl ha
    by_cases hs : T = T0 ∧ j = PX 0 va
    · obtain ⟨rfl, rfl⟩ := hs
      have e : entry (st64 m (T + 8 * PX 0 va) v) T (PX 0 va) = v := ld64_st64_same _ _ _ hv
      rw [e] at hval ⊢
      exact hr hval
    · have e : entry (st64 m (T0 + 8 * PX 0 va) v) T j = entry m T j := by
        unfold entry
        apply ld64_st64_disj
        have := slot_disj (I.table_aligned hT1) (I.table_aligned h0) hj (PX_lt 0 va) hs
        omega
      rw [e] at hval ⊢
      exact S.leaf T hT1 j hj hval

/-- Linking a fresh, zeroed table page keeps the shape. -/
theorem LinkStep.shaped {s : Kernel} {pt d q i p : Nat} {rest : List Nat}
    (L : LinkStep 2 s pt d q i p rest) (S : Shaped s.mem pt) :
    Shaped (linkTable s.mem q i p) pt := by
  have key : ∀ e ≤ 2, ∀ T, IsTable (linkTable s.mem q i p) pt e T → ∀ j < 512,
      entry (linkTable s.mem q i p) T j &&& PTE_V ≠ 0 →
      (T = q ∧ j = i ∧ entry (linkTable s.mem q i p) T j = PA2PTE p ||| PTE_V) ∨
      (IsTable s.mem pt e T ∧ entry (linkTable s.mem q i p) T j = entry s.mem T j) := by
    intro e he T hT j hj hv
    rcases (L.isTable_iff e he T).1 hT with h | ⟨_, rfl⟩
    · by_cases hs : T = q ∧ j = i
      · obtain ⟨rfl, rfl⟩ := hs
        exact Or.inl ⟨rfl, rfl, entry_link_self _ _ _ _ L.p_lt⟩
      · exact Or.inr ⟨h, L.entry_other he h hj hs⟩
    · rw [L.entry_new hj] at hv
      exact absurd hv zero_not_valid
  constructor
  · intro e he T hT j hj hv
    rcases key e (by omega) T hT j hj hv with ⟨_, _, h⟩ | ⟨h1, h2⟩
    · rw [h]; exact link_norwx p
    · rw [h2] at hv ⊢
      exact S.interior e he T h1 j hj hv
  · intro T hT j hj hv
    rcases key 2 (le_refl 2) T hT j hj hv with ⟨hTq, _, _⟩ | ⟨h1, h2⟩
    · exfalso
      have hq2 : IsTable (linkTable s.mem q i p) pt d T :=
        (L.isTable_iff d (Nat.le_of_lt L.hd) T).2 (Or.inl (hTq ▸ L.hq))
      have := L.link_tree.level_unique d 2 T (Nat.le_of_lt L.hd) (le_refl 2) hq2 hT
      have := L.hd
      omega
    · rw [h2] at hv ⊢
      exact S.leaf T h1 j hj hv

theorem walkLevels_shape {pt va alloc : Nat} :
    ∀ level (s : Kernel) (T e : Nat), e + level = 2 → Inv 2 s pt → IsTable s.mem pt e T →
      Shaped s.mem pt → ∀ r t, walkLevels va alloc level s T = .ret r t → Shaped t.mem pt := by
  intro level
  induction level with
  | zero =>
    intro s T e _ _ _ S r t h
    rw [walkLevels] at h
    cases h
    exact S
  | succ level ih =>
    intro s T e he I hT S r t h
    by_cases hv : entry s.mem T (PX (level + 1) va) &&& PTE_V ≠ 0
    · rw [walkLevels_valid hv] at h
      exact ih s _ (e + 1) (by omega) I ⟨T, _, hT, PX_lt _ va, hv, rfl⟩ S r t h
    · by_cases ha : alloc = 0
      · subst ha
        rw [walkLevels_noalloc hv] at h
        cases h
        exact S
      · cases hf : s.freelist with
        | nil =>
          rw [walkLevels_nomem hv ha hf] at h
          cases h
          exact S
        | cons p rest =>
          have L : LinkStep 2 s pt e T (PX (level + 1) va) p rest :=
            ⟨I, by omega, hT, PX_lt _ va, hv, hf⟩
          rw [walkLevels_link hv ha hf] at h
          exact ih _ p (e + 1) (by omega) L.inv_post
            ((L.isTable_iff (e + 1) (by omega) p).2 (Or.inr ⟨rfl, rfl⟩)) (L.shaped S) r t h

/-- `walk`, with or without allocation, keeps the shape of a well-formed table. -/
theorem walk_shape {s t : Kernel} {pt va alloc : Nat} {r : Option Nat} (I : Inv 2 s pt)
    (S : Shaped s.mem pt) (h : walk s pt va alloc = .ret r t) : Shaped t.mem pt := by
  unfold walk at h
  split at h
  · cases h
  · exact walkLevels_shape 2 s pt 0 rfl I rfl S r t h

/-- `mappages` of one page with a permission that has one of R, W and X keeps
the shape. -/
theorem mappages_one_shape {s t : Kernel} {pt a pa perm : Nat} {r : Int} (I : Inv 2 s pt)
    (S : Shaped s.mem pt) (ha : a % PGSIZE = 0) (hlt : a < MAXVA) (hpa : pa < U64)
    (hperm : perm < U64) (hrwx : perm &&& (PTE_R ||| PTE_W ||| PTE_X) ≠ 0)
    (h : mappages s pt a PGSIZE pa perm = .ret r t) : Shaped t.mem pt := by
  have hmax : a + PGSIZE ≤ MAXVA := by
    rw [MAXVA_eq] at hlt ⊢
    unfold PGSIZE at ha ⊢
    omega
  rw [mappages_eq ha (by decide) (by decide) hmax, Nat.add_sub_cancel,
    show PGSIZE / PGSIZE = 1 by decide, mappagesLoop_succ] at h
  obtain ⟨r1, s1, used, hw, W⟩ := walk_alloc_spec (le_refl 2) hlt I
  have S1 := walk_shape I S hw
  rw [hw] at h
  cases r1 with
  | none =>
    simp only [Outcome.bind] at h
    cases h
    exact S1
  | some slot =>
    simp only [Outcome.bind] at h
    split at h
    · cases h
    · simp only [if_true] at h
      cases h
      exact Shaped.shaped_leaf_write W.inv.tree S1 (W.found slot rfl).1 (leaf_lt hpa hperm)
        (fun _ => by rw [leaf_rwx]; exact hrwx)

/-! ## `uvmunmap`: leaf entries, repetition -/

/-- After the loop of `uvmunmap` every entry of a level-0 table is as it was or
is zero. -/
theorem uvmunmapLoop_leaves (pt do_free : Nat) :
    ∀ fuel n (s : Kernel) (a : Nat), n ≤ fuel → Tree 2 s.mem pt → a % PGSIZE = 0 →
      a + n * PGSIZE ≤ MAXVA →
      ∀ t, uvmunmapLoop pt (a + n * PGSIZE) do_free fuel s a = .ret () t →
        ∀ T, IsTable s.mem pt 2 T → ∀ j < 512,
          entry t.mem T j = entry s.mem T j ∨ entry t.mem T j = 0 := by
  intro fuel
  induction fuel with
  | zero =>
    intro n s a hn _ _ _ t h T _ j _
    have : n = 0 := by omega
    subst this
    rw [uvmunmapLoop_zero pt _ do_free s a (by omega) 0] at h
    cases h
    exact Or.inl rfl
  | succ fuel ih =>
    intro n s a hn I ha hmax t h T hT j hj
    cases n with
    | zero =>
      rw [uvmunmapLoop_zero pt _ do_free s a (by omega) _] at h
      cases h
      exact Or.inl rfl
    | succ n =>
      have hP : 0 < PGSIZE := by decide
      have hend : a + (n + 1) * PGSIZE = a + PGSIZE + n * PGSIZE := by ring
      have hlt : a < MAXVA := by
        have : 0 < (n + 1) * PGSIZE := Nat.mul_pos (Nat.succ_pos n) hP
        omega
      have hnext : (a + PGSIZE) % U64 = a + PGSIZE := by
        rw [MAXVA_eq] at hlt
        unfold PGSIZE U64
        omega
      have ha2 : (a + PGSIZE) % PGSIZE = 0 := by unfold PGSIZE at ha ⊢; omega
      rw [uvmunmapLoop_succ pt _ do_free fuel s a (by rw [hend]; omega) hlt, hnext, hend] at h
      by_cases hv : pteOf s.mem pt a &&& PTE_V = 0
      · rw [if_pos hv] at h
        exact ih n s (a + PGSIZE) (by omega) I ha2 (by omega) t h T hT j hj
      · rw [if_neg hv] at h
        obtain ⟨slot, hl, _⟩ := pteOf_valid_slot hv
        rw [hl] at h
        simp only at h
        have I3 := I.leaf_tree hl 0
        have hT3 := (I.leaf_isTable (le_refl 2) hl 0 2 (le_refl 2) T).2 hT
        have := ih n _ (a + PGSIZE) (by omega) I3 ha2 (by omega) t h T hT3 j hj
        obtain ⟨T0, h0, rfl⟩ := lookupFrom_table 2 0 pt rfl rfl hl
        have e : entry (st64 s.mem (T0 + 8 * PX 0 a) 0) T j = entry s.mem T j ∨
            entry (st64 s.mem (T0 + 8 * PX 0 a) 0) T j = 0 := by
          by_cases hs : T = T0 ∧ j = PX 0 a
          · obtain ⟨rfl, rfl⟩ := hs
            exact Or.inr (ld64_st64_same _ _ _ (by norm_num))
          · left
            unfold entry
            apply ld64_st64_disj
            have := slot_disj (I.table_aligned hT) (I.table_aligned h0) hj (PX_lt 0 a) hs
            omega
        simp only at this
        rcases this with h1 | h1
        · rcases e with h2 | h2
          · exact Or.inl (h1.trans h2)
          · exact Or.inr (h1.trans h2)
        · exact Or.inr h1

/-- `uvmunmap` keeps the shape of an owning tree. -/
theorem uvmunmap_shape {s t : Kernel} {pt va npages do_free : Nat} (I : Tree 2 s.mem pt)
    (S : Shaped s.mem pt) (ha : va % PGSIZE = 0) (hmax : va + npages * PGSIZE ≤ MAXVA)
    (h : uvmunmap s pt va npages do_free = .ret () t) : Shaped t.mem pt := by
  obtain ⟨t1, h1, _, _, _, h5, _, _, _⟩ := uvmunmap_spec pt va npages do_free I ha hmax
  rw [h] at h1
  cases h1
  have hend : (va + npages * PGSIZE) % U64 = va + npages * PGSIZE := by
    rw [MAXVA_eq] at hmax
    unfold U64
    omega
  have hleaf : ∀ T, IsTable s.mem pt 2 T → ∀ j < 512,
      entry t.mem T j = entry s.mem T j ∨ entry t.mem T j = 0 := by
    unfold uvmunmap at h
    rw [if_neg (not_not.2 ha), hend] at h
    exact uvmunmapLoop_leaves pt do_free npages npages s va (Nat.le_refl _) I ha hmax t h
  have hiff := isTable_congr 2 h5
  constructor
  · intro d hd T hT j hj hv
    have hT1 := (hiff d (by omega) T).1 hT
    rw [h5 d hd T hT1 j hj] at hv ⊢
    exact S.interior d hd T hT1 j hj hv
  · intro T hT j hj hv
    have hT1 := (hiff 2 (le_refl 2) T).1 hT
    rcases hleaf T hT1 j hj with e | e
    · rw [e] at hv ⊢
      exact S.leaf T hT1 j hj hv
    · rw [e] at hv
      exact absurd hv zero_not_valid

/-- Over pages that have no valid leaf entry the loop of `uvmunmap` changes
nothing. -/
theorem uvmunmapLoop_skip (pt do_free : Nat) :
    ∀ fuel n (s : Kernel) (a : Nat), n ≤ fuel → a % PGSIZE = 0 → a + n * PGSIZE ≤ MAXVA →
      (∀ j, j < n → pteOf s.mem pt (a + j * PGSIZE) &&& PTE_V = 0) →
      uvmunmapLoop pt (a + n * PGSIZE) do_free fuel s a = .ret () s := by
  intro fuel
  induction fuel with
  | zero =>
    intro n s a hn _ _ _
    have : n = 0 := by omega
    subst this
    exact uvmunmapLoop_zero pt _ do_free s a (by omega) 0
  | succ fuel ih =>
    intro n s a hn ha hmax hinv
    cases n with
    | zero => exact uvmunmapLoop_zero pt _ do_free s a (by omega) _
    | succ n =>
      have hP : 0 < PGSIZE := by decide
      have hend : a + (n + 1) * PGSIZE = a + PGSIZE + n * PGSIZE := by ring
      have hlt : a < MAXVA := by
        have : 0 < (n + 1) * PGSIZE := Nat.mul_pos (Nat.succ_pos n) hP
        omega
      have hnext : (a + PGSIZE) % U64 = a + PGSIZE := by
        rw [MAXVA_eq] at hlt
        unfold PGSIZE U64
        omega
      have h0 := hinv 0 (Nat.succ_pos n)
      rw [Nat.zero_mul, Nat.add_zero] at h0
      rw [uvmunmapLoop_succ pt _ do_free fuel s a (by rw [hend]; omega) hlt, hnext, hend,
        if_pos h0]
      exact ih n s (a + PGSIZE) (by omega) (by unfold PGSIZE at ha ⊢; omega) (by omega)
        (fun j hj => by
          have := hinv (j + 1) (by omega)
          rw [show a + (j + 1) * PGSIZE = a + PGSIZE + j * PGSIZE by ring] at this
          exact this)

theorem uvmunmap_skip {s : Kernel} {pt va n : Nat} (do_free : Nat) (ha : va % PGSIZE = 0)
    (hmax : va + n * PGSIZE ≤ MAXVA)
    (hinv : ∀ a, a < MAXVA → va ≤ a → a < va + n * PGSIZE → pteOf s.mem pt a &&& PTE_V = 0) :
    uvmunmap s pt va n do_free = .ret () s := by
  have hend : (va + n * PGSIZE) % U64 = va + n * PGSIZE := by
    rw [MAXVA_eq] at hmax
    unfold U64
    omega
  unfold uvmunmap
  rw [if_neg (not_not.2 ha), hend]
  exact uvmunmapLoop_skip pt do_free n n s va (Nat.le_refl _) ha hmax (fun j hj => by
    have : j * PGSIZE < n * PGSIZE := Nat.mul_lt_mul_of_pos_right hj (by decide)
    exact hinv _ (by omega) (by omega) (by omega))

/-! ## C12: `uvmunmap` clears the range and can be repeated -/

/-- C12: for every page table that is an owning tree, every page-aligned `va`
and page count `n` with `va + n*PGSIZE ≤ MAXVA` and either value of `do_free`,
`uvmunmap(pt, va, n, do_free)` returns; afterwards `walkaddr` returns 0 for
every address of the range, the free pages are those from before preceded,
when `do_free` is set, by the frames of the leaf entries that were valid (and
by nothing for entries that were invalid or whose tables are missing); a range
without a valid leaf entry is passed over with the state unchanged; and a
second identical `uvmunmap` returns with the state unchanged. -/
theorem uvmunmap_idempotent (s : Kernel) (pt va n do_free : Nat) (I : Tree 2 s.mem pt)
    (ha : va % PGSIZE = 0) (hmax : va + n * PGSIZE ≤ MAXVA) :
    ∃ t, uvmunmap s pt va n do_free = .ret () t ∧
      (∀ a, va ≤ a → a < va + n * PGSIZE → walkaddr t pt a = .ret 0 t) ∧
      t.freelist = (if do_free ≠ 0 then validFrames s.mem pt va n else []) ++ s.freelist ∧
      ((∀ a, a < MAXVA → va ≤ a → a < va + n * PGSIZE → pteOf s.mem pt a &&& PTE_V = 0) →
        t = s) ∧
      uvmunmap t pt va n do_free = .ret () t := by
  obtain ⟨t, h1, h2, h3, h4, h5, h6, h7, h8⟩ := uvmunmap_spec pt va n do_free I ha hmax
  refine ⟨t, h1, ?_, h4, ?_, uvmunmap_skip do_free ha hmax h6⟩
  · intro a hlo hhi
    rw [walkaddr_eq t pt a (by omega), if_pos (Or.inl (h6 a (by omega) hlo hhi))]
  · intro hinv
    have := uvmunmap_skip do_free ha hmax hinv
    rw [h1] at this
    cases this
    rfl

theorem uvmunmap_idempotent_witness :
    ∃ t, uvmunmap demoParent 0x1000 0 3 1 = .ret () t ∧
      (∀ a, 0 ≤ a → a < 0 + 3 * PGSIZE → walkaddr t 0x1000 a = .ret 0 t) ∧
      t.freelist =
        (if 1 ≠ 0 then validFrames demoParent.mem 0x1000 0 3 else []) ++ demoParent.freelist ∧
      ((∀ a, a < MAXVA → 0 ≤ a → a < 0 + 3 * PGSIZE →
        pteOf demoParent.mem 0x1000 a &&& PTE_V = 0) → t = demoParent) ∧
      uvmunmap t 0x1000 0 3 1 = .ret () t :=
  uvmunmap_idempotent demoParent 0x1000 0 3 1 demoParent_ready.1.inv_old.tree (by decide)
    (by decide)

/-! ## `uvmalloc`: both outcomes -/

theorem rwx_of_R {e : Nat} (h : e &&& PTE_R ≠ 0) : e &&& (PTE_R ||| PTE_W ||| PTE_X) ≠ 0 := by
  intro h0
  apply h
  have : e &&& PTE_R = (e &&& (PTE_R ||| PTE_W ||| PTE_X)) &&& PTE_R := by
    rw [Nat.and_assoc, show (PTE_R ||| PTE_W ||| PTE_X) &&& PTE_R = PTE_R by decide]
  rw [this, h0]
  exact Nat.zero_and _

theorem perm_has_R (xperm : Nat) : (PTE_R ||| PTE_U ||| xperm) &&& PTE_R ≠ 0 := by
  rw [show PTE_R = 2 ^ 1 by decide, and_bit, or_bit, or_bit]
  exact Or.inl (Or.inl (by decide))

theorem PGROUNDUP_aligned {a : Nat} (ha : a % PGSIZE = 0) (hmax : a ≤ MAXVA) :
    PGROUNDUP a = a := by
  obtain ⟨h1, h2, h3, _⟩ := PGROUNDUP_facts hmax
  unfold PGSIZE at *
  omega

/-- `uvmdealloc` keeps the shape of an owning tree. -/
theorem uvmdealloc_shape {s t : Kernel} {pt oldsz newsz r : Nat} (I : Tree 2 s.mem pt)
    (S : Shaped s.mem pt) (hle : newsz ≤ oldsz) (hmax : oldsz ≤ MAXVA)
    (h : uvmdealloc s pt oldsz newsz = .ret r t) : Shaped t.mem pt := by
  obtain ⟨o1, o2, o3, o4⟩ := PGROUNDUP_facts hmax
  obtain ⟨n1, n2, n3, n4⟩ := PGROUNDUP_facts (le_trans hle hmax)
  unfold uvmdealloc at h
  split at h
  · cases h
    exact S
  · split at h
    · rename_i hup
      have hn : (PGROUNDUP oldsz - PGROUNDUP newsz) / PGSIZE * PGSIZE =
          PGROUNDUP oldsz - PGROUNDUP newsz := by
        unfold PGSIZE at *
        omega
      have hsmall : (PGROUNDUP oldsz - PGROUNDUP newsz) / PGSIZE < 2 ^ 31 := by
        rw [MAXVA_eq] at o4
        unfold PGSIZE
        omega
      rw [viaInt_small hsmall] at h
      obtain ⟨t1, h1, _⟩ := uvmunmap_spec pt (PGROUNDUP newsz)
        ((PGROUNDUP oldsz - PGROUNDUP newsz) / PGSIZE) 1 I n1 (by rw [hn]; omega)
      have S1 := uvmunmap_shape I S n1 (by rw [hn]; omega) h1
      rw [h1] at h
      cases h
      exact S1
    · cases h
      exact S

/-- The rollback of `uvmalloc`: `uvmdealloc` from the page-aligned `a0 + k*PGSIZE`
back to the page-aligned `a0`. -/
theorem uvmdealloc_back {s : Kernel} {pt a0 : Nat} (k : Nat) (I : Tree 2 s.mem pt)
    (ha0 : a0 % PGSIZE = 0) (hmax : a0 + k * PGSIZE ≤ MAXVA) :
    ∃ t, uvmdealloc s pt (a0 + k * PGSIZE) a0 = .ret a0 t ∧
      Tree 2 t.mem pt ∧ t.procsz = s.procsz ∧
      t.freelist = validFrames s.mem pt a0 k ++ s.freelist ∧
      (∀ e < 2, ∀ T, IsTable s.mem pt e T → ∀ j < 512, entry t.mem T j = entry s.mem T j) ∧
      (∀ vb, vb < MAXVA → a0 ≤ vb → vb < a0 + k * PGSIZE → pteOf t.mem pt vb &&& PTE_V = 0) ∧
      (∀ vb, vb < MAXVA → (vb < a0 ∨ a0 + k * PGSIZE ≤ vb) →
        pteOf t.mem pt vb = pteOf s.mem pt vb) ∧
      (Shaped s.mem pt → Shaped t.mem pt) := by
  have hak : (a0 + k * PGSIZE) % PGSIZE = 0 := by
    rw [Nat.add_mul_mod_self_right]; exact ha0
  obtain ⟨t, h1, h2, h3, h4, h5, h6, h7, _⟩ := uvmdealloc_spec pt (a0 + k * PGSIZE) a0 I
    (Nat.le_add_right _ _) hmax
  rw [PGROUNDUP_aligned ha0 (by omega), PGROUNDUP_aligned hak hmax] at h4 h6 h7
  rw [Nat.add_sub_cancel_left, Nat.mul_div_cancel k (by decide : 0 < PGSIZE)] at h4
  exact ⟨t, h1, h2, h3, h4, h5, h6, h7,
    fun S => uvmdealloc_shape I S (Nat.le_add_right _ _) hmax h1⟩

/-- The loop of `uvmalloc` over the `n` pages from page number `k` of the range
that starts at `a0`: it returns `newsz` with the pages mapped, or 0 with the
range unmapped again. -/
theorem uvmallocLoop_spec (pt a0 : Nat) {newsz xperm E : Nat} (hx : xperm < U64)
    (hE2 : newsz ≤ E) (hE3 : E < newsz + PGSIZE) (hE4 : E ≤ MAXVA) (ha0 : a0 % PGSIZE = 0) :
    ∀ fuel n (s : Kernel) (k : Nat), n ≤ fuel → Inv 2 s pt → a0 + (k + n) * PGSIZE = E →
      (∀ vb, vb < MAXVA → a0 + k * PGSIZE ≤ vb → vb < E → pteOf s.mem pt vb &&& PTE_V = 0) →
      ∃ r t, uvmallocLoop pt a0 newsz xperm fuel s (a0 + k * PGSIZE) = .ret r t ∧
        t.procsz = s.procsz ∧ Tree 2 t.mem pt ∧
        (∀ d ≤ 2, ∀ P, IsTable s.mem pt d P → IsTable t.mem pt d P) ∧
        (Shaped s.mem pt → Shaped t.mem pt) ∧
        ((r = newsz ∧ ∃ frames used,
            GrowSpec pt (PTE_R ||| PTE_U ||| xperm) (a0 + k * PGSIZE) n s t frames used ∧
            (∀ d ≤ 2, ∀ P, IsTable t.mem pt d P → IsTable s.mem pt d P ∨ P ∈ used) ∧
            (0 < n → missing s.mem (a0 + k * PGSIZE) 2 pt ≤ used.length) ∧
            s.freelist.Perm (frames ++ used ++ t.freelist) ∧
            (∀ vb, vb < 2 ^ 39 → MAXVA ≤ vb → pteOf t.mem pt vb = pteOf s.mem pt vb) ∧
            (FrameOK s pt → PTE_R ||| PTE_U ||| xperm < 1024 → FrameOK t pt)) ∨
         (r = 0 ∧ s.freelist.length < 3 * n ∧ ∃ used, GrowUndone pt a0 E s t used ∧
            (PTE_R ||| PTE_U ||| xperm < 1024 →
              (validFrames s.mem pt a0 k ++ s.freelist).Perm (used ++ t.freelist)))) := by
  intro fuel
  induction fuel with
  | zero =>
    intro n s k hn I hE _
    have : n = 0 := by omega
    subst this
    rw [Nat.add_zero] at hE
    exact ⟨newsz, s, uvmallocLoop_stop pt a0 newsz xperm s _ (by omega) 0, rfl, I.tree,
      fun _ _ _ h => h, fun S => S,
      Or.inl ⟨rfl, [], [], growSpec_nil I, fun _ _ _ h => Or.inl h,
        fun h => absurd h (Nat.lt_irrefl 0), List.Perm.refl _, fun _ _ _ => rfl,
        fun F _ => F⟩⟩
  | succ fuel ih =>
    intro n s k hn I hE hinv
    cases n with
    | zero =>
      rw [Nat.add_zero] at hE
      exact ⟨newsz, s, uvmallocLoop_stop pt a0 newsz xperm s _ (by omega) _, rfl, I.tree,
        fun _ _ _ h => h, fun S => S,
        Or.inl ⟨rfl, [], [], growSpec_nil I, fun _ _ _ h => Or.inl h,
        fun h => absurd h (Nat.lt_irrefl 0), List.Perm.refl _, fun _ _ _ => rfl,
        fun F _ => F⟩⟩
    | succ n =>
      have hP : 0 < PGSIZE := by decide
      have hal : (a0 + k * PGSIZE) % PGSIZE = 0 := by
        rw [Nat.add_mul_mod_self_right]; exact ha0
      have hEk : a0 + k * PGSIZE + (n + 1) * PGSIZE = E := by rw [← hE]; ring
      have hlt : a0 + k * PGSIZE < MAXVA := by
        have : 0 < (n + 1) * PGSIZE := Nat.mul_pos (Nat.succ_pos n) hP
        omega
      have hcond : a0 + k * PGSIZE < newsz := by
        unfold PGSIZE at *
        omega
      have hnext : (a0 + k * PGSIZE + PGSIZE) % U64 = a0 + (k + 1) * PGSIZE := by
        rw [MAXVA_eq] at hlt
        unfold PGSIZE U64 at *
        omega
      have hi0 : pteOf s.mem pt (a0 + k * PGSIZE) &&& PTE_V = 0 :=
        hinv _ hlt (Nat.le_refl _) (by
          have : 0 < (n + 1) * PGSIZE := Nat.mul_pos (Nat.succ_pos n) hP
          omega)
      have hperm : PTE_R ||| PTE_U ||| xperm < U64 :=
        Nat.or_lt_two_pow (Nat.or_lt_two_pow (by decide) (by decide)) hx
      have hbody : ∀ X : Outcome Nat,
          (match kalloc s with
            | (none, s1) => (uvmdealloc s1 pt (a0 + k * PGSIZE) a0).bind fun _ s2 => .ret 0 s2
            | (some mem, s1) =>
              (mappages { s1 with mem := memset s1.mem mem 0 PGSIZE } pt (a0 + k * PGSIZE)
                  PGSIZE mem (PTE_R ||| PTE_U ||| xperm)).bind fun r s3 =>
                if r ≠ 0 then
                  (uvmdealloc (kfree s3 mem) pt (a0 + k * PGSIZE) a0).bind fun _ s4 => .ret 0 s4
                else uvmallocLoop pt a0 newsz xperm fuel s3
                  ((a0 + k * PGSIZE + PGSIZE) % U64)) = X →
          uvmallocLoop pt a0 newsz xperm (fuel + 1) s (a0 + k * PGSIZE) = X := by
        intro X hX
        rw [uvmallocLoop, if_pos hcond]
        exact hX
      cases hf : s.freelist with
      | nil =>
        obtain ⟨t, h1, h2, h3, h4, h5, h6, h7, h8⟩ := uvmdealloc_back k I.tree ha0
          (Nat.le_of_lt hlt)
        have hiff := isTable_congr 2 h5
        refine ⟨0, t, ?_, h3, h2, fun d hd P hT => (hiff d hd P).2 hT, h8,
          Or.inr ⟨rfl, by simp, [], ?_, ?_⟩⟩
        · apply hbody
          simp only [kalloc, hf]
          rw [h1]
          rfl
        · exact {
            cleared := fun vb hb hlo hhi => by
              by_cases hin : vb < a0 + k * PGSIZE
              · exact h6 vb hb hlo hin
              · rw [h7 vb hb (Or.inr (by omega))]
                exact hinv vb hb (by omega) hhi
            outside := fun vb hb hout => h7 vb hb (by
              have : 0 < (n + 1) * PGSIZE := Nat.mul_pos (Nat.succ_pos n) hP
              omega)
            used_tables := fun _ h => absurd h (List.not_mem_nil _) }
        · intro _
          rw [h4, hf]
          simp
      | cons mem rest =>
        have hmem : mem ∈ s.freelist := by rw [hf]; exact List.mem_cons_self _ _
        obtain ⟨hmem1, hmem2, hmem3⟩ := I.free_aligned mem hmem
        obtain ⟨E', I2⟩ := I.take_page hf (memset_changes s.mem mem 0 PGSIZE)
        have hinv2 : pteOf (memset s.mem mem 0 PGSIZE) pt (a0 + k * PGSIZE) &&& PTE_V = 0 := by
          rw [E'.te_pteOf]; exact hi0
        obtain ⟨r, t1, used1, hm, M, hr⟩ := mappages_one mem
          (PTE_R ||| PTE_U ||| xperm) I2 hal hlt hinv2 hmem3 hperm
        have hmiss : missing (memset s.mem mem 0 PGSIZE) (a0 + k * PGSIZE) 2 pt =
            missing s.mem (a0 + k * PGSIZE) 2 pt := E'.te_missing _ 2 0 pt rfl rfl
        have hle2 := missing_le s.mem (a0 + k * PGSIZE) 2 pt
        have hrest : rest = used1 ++ t1.freelist := M.free
        have hrl : rest.length = used1.length + t1.freelist.length := by
          rw [hrest, List.length_append]
        have hmono1 : ∀ d ≤ 2, ∀ P, IsTable s.mem pt d P → IsTable t1.mem pt d P :=
          fun d hd P hT => M.tables_old d P hd ((E'.te_isTable d (by omega) P).2 hT)
        have hS1 : Shaped s.mem pt → Shaped t1.mem pt := fun S =>
          mappages_one_shape I2 (Shaped.of_tableEq E' S) hal hlt hmem3 hperm
            (rwx_of_R (perm_has_R xperm)) hm
        rcases hr with ⟨hr0, hlen, hp⟩ | ⟨hr1, hnil, hlen, hsame⟩
        · rw [hmiss] at hlen
          have hp2 : ∀ vb, pteOf t1.mem pt vb =
              if SamePage (a0 + k * PGSIZE) vb
              then PA2PTE mem ||| (PTE_R ||| PTE_U ||| xperm) ||| PTE_V
              else pteOf s.mem pt vb := fun vb => by rw [hp, E'.te_pteOf]
          have hother : ∀ vb, vb < MAXVA →
              (vb < a0 + k * PGSIZE ∨ a0 + (k + 1) * PGSIZE ≤ vb) →
              pteOf t1.mem pt vb = pteOf s.mem pt vb := by
            intro vb hb hout
            rw [hp2, if_neg]
            rw [samePage_of_aligned hal hlt hb]
            unfold PGSIZE at hout ⊢
            omega
          obtain ⟨r2, t, hl2, q1, q2, q3, q4, hres⟩ := ih n t1 (k + 1) (by omega) M.inv
            (by rw [← hE]; ring)
            (fun vb hb hlo hhi => by
              rw [hother vb hb (Or.inr hlo)]
              exact hinv vb hb (by unfold PGSIZE at hlo ⊢; omega) hhi)
          refine ⟨r2, t, ?_, q1.trans M.procsz, q2,
            fun d hd P hT => q3 d hd P (hmono1 d hd P hT), fun S => q4 (hS1 S), ?_⟩
          · apply hbody
            simp only [kalloc, hf]
            rw [hm, hr0]
            simp only [Outcome.bind, ne_eq, not_true_eq_false, if_false]
            rw [hnext]
            exact hl2
          · rcases hres with ⟨h0, frames, used2, G, hnew, _, hpm, hhi, hFO⟩ |
              ⟨h1, hlenf, used2, U, hret⟩
            · left
              refine ⟨h0, mem :: frames, used1 ++ used2, ?_, ?_,
                fun _ => by rw [List.length_append, hlen]; omega, ?_, ?_, ?_⟩
              rotate_left 2
              · rw [hrest, List.perm_iff_count]
                intro a
                have := hpm.count_eq a
                simp only [List.count_append, List.count_cons, List.cons_append] at this ⊢
                omega
              · intro vb hb1 hb2
                rw [hhi vb hb1 hb2, hp2, if_neg]
                rw [MAXVA_eq] at hlt hb2
                rw [samePage_iff (by omega) hb1]
                omega
              · intro F hsmall
                have hnd : (mem :: rest).Nodup := hf ▸ I.free_nodup
                have F1 : FrameOK { s with mem := memset s.mem mem 0 PGSIZE, freelist := rest }
                    pt :=
                  frameOK_of_tableEq
                    (t := { s with mem := memset s.mem mem 0 PGSIZE, freelist := rest }) E' F
                    (fun p hp => by rw [hf]; exact List.mem_cons_of_mem _ hp)
                exact hFO (frameOK_map_one F1 M hp hsmall hmem1 hmem2 hmem3
                  (List.nodup_cons.1 hnd).1
                  (fun d hd hT =>
                    I.free_fresh d hd mem ((E'.te_isTable d (by omega) mem).1 hT) hmem)
                  (fun vb hb hv he => by
                    have hv2 : pteOf (memset s.mem mem 0 PGSIZE) pt vb &&& PTE_V ≠ 0 := hv
                    have he2 : PTE2PA (pteOf (memset s.mem mem 0 PGSIZE) pt vb) = mem := he
                    rw [E'.te_pteOf vb] at hv2 he2
                    exact (F vb hb hv2).2.1 (he2 ▸ hmem))) hsmall
              · have G' : GrowSpec pt (PTE_R ||| PTE_U ||| xperm) (a0 + k * PGSIZE + PGSIZE) n
                    t1 t frames used2 := by
                  rw [show a0 + k * PGSIZE + PGSIZE = a0 + (k + 1) * PGSIZE by ring]
                  exact G
                exact growSpec_cons hf hal (by omega) E' M hlen hp2 G'
              · intro d hd P hT
                rcases hnew d hd P hT with h | h
                · rcases M.tables_new d P hd h with h2 | ⟨h2, _⟩
                  · exact Or.inl ((E'.te_isTable d (by omega) P).1 h2)
                  · exact Or.inr (List.mem_append_left _ h2)
                · exact Or.inr (List.mem_append_right _ h)
            · right
              refine ⟨h1, by rw [List.length_cons, hrl]; omega, used1 ++ used2, ?_, ?_⟩
              · exact {
                  cleared := U.cleared
                  outside := fun vb hb hout => by
                    rw [U.outside vb hb hout, hother vb hb (by
                      have : 0 < (n + 1) * PGSIZE := Nat.mul_pos (Nat.succ_pos n) hP
                      unfold PGSIZE at *
                      omega)]
                  used_tables := fun P hP => by
                    rcases List.mem_append.1 hP with h | h
                    · obtain ⟨d, d1, d2, d3⟩ := M.used_tables P h
                      exact ⟨d, d1, d2, q3 d d2 P d3⟩
                    · exact U.used_tables P h }
              · intro hsmall
                have hleaf1 : pteOf t1.mem pt (a0 + k * PGSIZE) =
                    PA2PTE mem ||| (PTE_R ||| PTE_U ||| xperm) ||| PTE_V := by
                  rw [hp2, if_pos (samePage_refl _)]
                have hv1 : pteOf t1.mem pt (a0 + k * PGSIZE) &&& PTE_V ≠ 0 := by
                  rw [hleaf1]; exact leaf_valid _ _
                have hfr1 : PTE2PA (pteOf t1.mem pt (a0 + k * PGSIZE)) = mem := by
                  rw [hleaf1]; exact leaf_PTE2PA hsmall hmem3 hmem1
                have hvf0 : validFrames t1.mem pt a0 k = validFrames s.mem pt a0 k :=
                  validFrames_congr k a0 (fun j hj => by
                    have : j * PGSIZE < k * PGSIZE := Nat.mul_lt_mul_of_pos_right hj hP
                    exact hother _ (by omega) (Or.inl (by omega)))
                have hvf : validFrames t1.mem pt a0 (k + 1) =
                    mem :: validFrames s.mem pt a0 k := by
                  rw [validFrames_snoc, if_pos hv1, hfr1, hvf0]
                  rfl
                have hU := hret hsmall
                rw [hvf] at hU
                rw [hrest, List.perm_iff_count]
                intro a
                have := hU.count_eq a
                simp only [List.count_append, List.count_cons, List.cons_append] at this ⊢
                omega
        · have hinv3 : ∀ vb, pteOf (kfree t1 mem).mem pt vb = pteOf s.mem pt vb := by
            intro vb
            show pteOf t1.mem pt vb = _
            rw [hsame vb]
            exact E'.te_pteOf vb
          obtain ⟨t, h1, h2, h3, h4, h5, h6, h7, h8⟩ := uvmdealloc_back (s := kfree t1 mem) k
            M.inv.tree ha0 (Nat.le_of_lt hlt)
          have hiff := isTable_congr 2 h5
          have hlen2 : rest.length < missing s.mem (a0 + k * PGSIZE) 2 pt := by
            rw [← hmiss]; exact hlen
          refine ⟨0, t, ?_, h3.trans M.procsz, h2,
            fun d hd P hT => (hiff d hd P).2 (hmono1 d hd P hT), fun S => h8 (hS1 S),
            Or.inr ⟨rfl, by rw [List.length_cons]; omega, used1, ?_, ?_⟩⟩
          · apply hbody
            simp only [kalloc, hf]
            rw [hm, hr1]
            simp only [Outcome.bind]
            rw [if_pos (by decide), h1]
          · exact {
              cleared := fun vb hb hlo hhi => by
                by_cases hin : vb < a0 + k * PGSIZE
                · exact h6 vb hb hlo hin
                · rw [h7 vb hb (Or.inr (by omega)), hinv3]
                  exact hinv vb hb (by omega) hhi
              outside := fun vb hb hout => by
                rw [h7 vb hb (by
                  have : 0 < (n + 1) * PGSIZE := Nat.mul_pos (Nat.succ_pos n) hP
                  omega), hinv3]
              used_tables := fun P hP => by
                obtain ⟨d, d1, d2, d3⟩ := M.used_tables P hP
                exact ⟨d, d1, d2, (hiff d d2 P).2 d3⟩ }
          · intro _
            have hvf : validFrames (kfree t1 mem).mem pt a0 k = validFrames s.mem pt a0 k :=
              validFrames_congr k a0 (fun j _ => hinv3 _)
            rw [h4, hvf, hrest, hnil, List.perm_iff_count]
            intro a
            simp only [kfree, hnil, List.count_append, List.count_cons, List.append_nil,
              List.count_nil]
            omega

/-! ## The machine `demoThree` -/

/-- C19: for every address, length, protection, flags, descriptor and offset,
`do_mmap` returns a value other than the failure value `(uint64)-1`, and for
every address and length `do_munmap` returns 0; neither changes the process or
the kernel state, page tables included; so unmapping the address that `do_mmap`
returned, with the same length, reports success too. -/
theorem do_mmap_do_munmap_succeed (s : Kernel) (p : Proc) (addr length : Nat)
    (prot flags fd : Int) (offset : Nat) :
    ∃ r, do_mmap s p addr length prot flags fd offset = .ret (r, p) s ∧ r ≠ U64 - 1 ∧
      (∀ a l, do_munmap s p a l = .ret (0, p) s) ∧
      do_munmap s p r length = .ret (0, p) s :=
  ⟨0, rfl, by decide, fun _ _ => rfl, rfl⟩

/-! ## C18: a page fault beyond the process size -/

/-- C18 (the code's behaviour): for every trap from user mode whose cause is a
load page fault (13) or a store page fault (15) and whose faulting address is
at or beyond the size of the process, `usertrap` does not end in the
termination of the process: after `vmfault` has refused the address and
`killed` has been set, it takes the fatal halt `panic("some error message")`. -/
theorem usertrap_fault_beyond_halts (E : Env) (sstatus sepc scause stval : Nat) (s : Kernel)
    (p : Proc) (hu : sstatus &&& SSTATUS_SPP = 0) (hc : scause = 13 ∨ scause = 15)
    (hb : s.procsz ≤ stval) :
    vmfault s p.pagetable stval (if scause = 15 then 1 else 0) = .ret 0 s ∧
    usertrap E sstatus sepc scause stval s p = .panic "some error message" := by
  have hv : vmfault s p.pagetable stval (if scause = 15 then 1 else 0) = .ret 0 s := by
    unfold vmfault
    rw [if_pos hb]
  refine ⟨hv, ?_⟩
  have h8 : scause ≠ 8 := by omega
  unfold usertrap
  rw [if_neg (not_not.2 hu), if_neg h8, if_pos hc, hv]
  rfl

theorem usertrap_fault_beyond_halts_witness :
    vmfault demo demoProc.pagetable 0x10000 (if 13 = 15 then 1 else 0) = .ret 0 demo ∧
    usertrap demoEnv 0x20 0x40 13 0x10000 demo demoProc = .panic "some error message" :=
  usertrap_fault_beyond_halts demoEnv 0x20 0x40 13 0x10000 demo demoProc (by decide)
    (by decide) (by decide)

/-! ## C16: `kexec` on a file without the ELF magic number -/

/-- C16: for every executable file whose header has been read and whose magic
number differs from `ELF_MAGIC`, `kexec` returns -1 and leaves the kernel state
and the process exactly as they were, whatever `proc_pagetable` would do: no
page table is allocated, and the page table, the size and the name of the
calling process are unchanged. -/
theorem kexec_bad_magic (E : Env) (s : Kernel) (p : Proc) (path : List Nat)
    (argv : List (List Nat)) (ip : Inode) (elf : elfhdr) (hn : E.namei path = some ip)
    (he : ip.elf = some elf) (hm : elf.magic ≠ ELF_MAGIC) :
    kexec E s p path argv = .ret (-1, p) s := by
  unfold kexec
  rw [hn]
  simp only []
  rw [he]
  simp only []
  rw [if_pos hm]

theorem kexec_bad_magic_witness :
    kexec demoEnv demo demoProc [116] [[116]] = .ret (-1, demoProc) demo :=
  kexec_bad_magic demoEnv demo demoProc [116] [[116]] demoText0 ⟨0x12345678, 0, 0, 0⟩ rfl rfl
    (by decide)

/-! ## C15: a failing `kexec` and the table of memory-mapped regions -/

theorem modify_fixed {α : Type} (f : α → α) : ∀ (L : List α) (i : Nat) (d : α),
    f (L.getD i d) = L.getD i d → i < L.length → L.modify f i = L := by
  intro L
  induction L with
  | nil => intro i d _ h; cases h
  | cons a l ih =>
    intro i d hf hi
    cases i with
    | zero =>
      rw [List.getD_cons_zero] at hf
      rw [List.modify_zero_cons, hf]
    | succ i =>
      rw [List.getD_cons_succ] at hf
      rw [List.modify_succ_cons, ih i d hf (by simpa using hi)]

theorem modify_take_drop {α : Type} (f : α → α) :
    ∀ (L : List α) (i : Nat), i < L.length →
      (L.modify f i).take (i + 1) ++ ((L.modify f i).drop (i + 1)).map f =
        L.take i ++ (L.drop i).map f := by
  intro L
  induction L with
  | nil => intro i h; cases h
  | cons a l ih =>
    intro i hi
    cases i with
    | zero => simp [List.modify_zero_cons]
    | succ i =>
      rw [List.modify_succ_cons, List.take_succ_cons, List.drop_succ_cons, List.take_succ_cons,
        List.drop_succ_cons, List.cons_append, List.cons_append, ih i (by simpa using hi)]

/-- The loop over the table of regions returns with every slot from `i` on
marked unused, and leaves the kernel state alone. -/
theorem kexecMunmap_spec : ∀ (n : Nat) (s : Kernel) (p : Proc) (i : Nat),
    i + n = p.mmap_areas.length →
    kexecMunmap n s p i = .ret { p with
      mmap_areas := p.mmap_areas.take i ++
        (p.mmap_areas.drop i).map fun m => { m with used := 0 } } s := by
  intro n
  induction n with
  | zero =>
    intro s p i hi
    rw [Nat.add_zero] at hi
    rw [kexecMunmap, hi, List.take_length, List.drop_length, List.map_nil, List.append_nil]
  | succ n ih =>
    intro s p i hi
    have hlt : i < p.mmap_areas.length := by omega
    have key : kexecMunmap (n + 1) s p i = kexecMunmap n s (clearUsed p i) (i + 1) := by
      by_cases hu : (p.mmap_areas.getD i ⟨0, 0, 0, 0⟩).used ≠ 0
      · rw [kexecMunmap, if_pos hu]
        rfl
      · rw [kexecMunmap, if_neg hu]
        have hfix : clearUsed p i = p := by
          unfold clearUsed
          rw [modify_fixed _ p.mmap_areas i ⟨0, 0, 0, 0⟩ ?_ hlt]
          rw [not_not] at hu
          generalize p.mmap_areas.getD i ⟨0, 0, 0, 0⟩ = m at hu
          cases m
          simp only at hu
          simp only [hu]
        rw [hfix]
    rw [key, ih s (clearUsed p i) (i + 1) (by
      unfold clearUsed
      simp only [List.length_modify]
      omega)]
    unfold clearUsed
    simp only []
    rw [modify_take_drop (fun m : mmap_area => { m with used := 0 }) p.mmap_areas i hlt]

/-- C15 (the code's behaviour): once the header is accepted, the new page table
is there and the segments are loaded, `kexec` marks every memory-mapped region
of the calling process unused and resets `mmap_hint` before it builds the
stack; so when the stack-building step then fails (the stack cannot be
allocated, there are too many arguments, or a push underflows or fails),
`kexec` returns -1 and the process is not what it was before the call: its
table of regions is cleared, and it differs from the old one whenever a region
was in use or the hint was not 0. -/
theorem kexec_bad_after_munmap (E : Env) (s : Kernel) (p : Proc) (path : List Nat)
    (argv : List (List Nat)) (ip : Inode) (elf : elfhdr) (pagetable sz sz1 : Nat)
    (s1 s2 s3 s4 : Kernel) (hn : E.namei path = some ip) (he : ip.elf = some elf)
    (hm : elf.magic = ELF_MAGIC) (hp : E.proc_pagetable s p = .ret pagetable s1)
    (hp0 : pagetable ≠ 0)
    (hs : kexecSegments pagetable ip elf elf.phnum s1 0 0 = .ret (true, sz) s2)
    (hk : kexecStack s2 pagetable sz argv = .ret (sz1, none) s3)
    (hf : E.proc_freepagetable s3 pagetable sz1 = .ret () s4) :
    kexec E s p path argv = .ret (-1, { p with
      mmap_areas := p.mmap_areas.map fun m => { m with used := 0 }
      mmap_hint := 0 }) s4 ∧
    (p.mmap_hint ≠ 0 ∨ (∃ m ∈ p.mmap_areas, m.used ≠ 0) →
      ({ p with
        mmap_areas := p.mmap_areas.map fun m => { m with used := 0 }
        mmap_hint := 0 } : Proc) ≠ p) := by
  constructor
  · unfold kexec
    rw [hn]
    simp only []
    rw [he]
    simp only []
    rw [if_neg (not_not.2 hm), hp]
    simp only [Outcome.bind]
    rw [if_neg hp0, hs]
    simp only [Bool.true_eq_false, if_false]
    rw [kexecMunmap_spec _ s2 p 0 (by omega)]
    simp only [List.take_zero, List.nil_append, List.drop_zero]
    unfold kexecTail
    rw [hk]
    simp only [Outcome.bind]
    unfold kexecBad
    rw [hf]
    rfl
  · intro h hc
    rcases h with h | ⟨m, hm1, hm2⟩
    · exact h (congrArg Proc.mmap_hint hc).symm
    · have hl : (p.mmap_areas.map fun m => ({ m with used := 0 } : mmap_area)) =
          p.mmap_areas := congrArg Proc.mmap_areas hc
      have hmem : m ∈ p.mmap_areas.map fun m => ({ m with used := 0 } : mmap_area) := by
        rw [hl]
        exact hm1
      rcases List.mem_map.1 hmem with ⟨m0, _, h0⟩
      apply hm2
      rw [← h0]

set_option maxRecDepth 100000 in
theorem kexec_bad_after_munmap_witness :
    demoProc.mmap_hint ≠ 0 ∧
    kexec demoEnv demoThree demoProc [115, 104] [[115, 104]] = .ret (-1, { demoProc with
      mmap_areas := demoProc.mmap_areas.map fun m => { m with used := 0 }
      mmap_hint := 0 }) demoExecFreed ∧
    (demoProc.mmap_hint ≠ 0 ∨ (∃ m ∈ demoProc.mmap_areas, m.used ≠ 0) →
      ({ demoProc with
        mmap_areas := demoProc.mmap_areas.map fun m => { m with used := 0 }
        mmap_hint := 0 } : Proc) ≠ demoProc) :=
  ⟨by decide, kexec_bad_after_munmap demoEnv demoThree demoProc [115, 104] [[115, 104]] demoElf
    ⟨ELF_MAGIC, 0, 64, 0⟩ 0x2000 0 0 demoExecTable demoExecTable demoExecStack demoExecFreed
    rfl rfl rfl (Outcome.eq_ret_of_val demoThree (by decide)) (by decide) rfl
    (Outcome.eq_ret_of_val demoExecTable (by decide))
    (Outcome.eq_ret_of_val demoExecStack (by decide))⟩

/-! ## C14: `copyinstr` -/

theorem range_map_shift (f : Nat → Nat) (n j : Nat) :
    (List.range (n + j)).map f = (List.range n).map f ++ (List.range j).map fun i => f (n + i) := by
  rw [List.range_add, List.map_append, List.map_map]
  rfl

/-- The inner loop of `copyinstr` over `n` bytes from `p`: it stops at the first
NUL, or copies all `n` bytes. -/
theorem copyinstrScan_spec (m : Nat → Nat) : ∀ (n p : Nat) (dst : List Nat) (max : Nat),
    (∃ k < n, (∀ i < k, ld8 m (p + i) ≠ 0) ∧ ld8 m (p + k) = 0 ∧
      ∃ mx, copyinstrScan m n p dst max =
        (true, dst ++ (List.range (k + 1)).map (fun i => ld8 m (p + i)), mx)) ∨
    ((∀ i < n, ld8 m (p + i) ≠ 0) ∧
      copyinstrScan m n p dst max =
        (false, dst ++ (List.range n).map (fun i => ld8 m (p + i)), max - n)) := by
  intro n
  induction n with
  | zero =>
    intro p dst max
    right
    refine ⟨fun i h => absurd h (by omega), ?_⟩
    rw [copyinstrScan]
    simp
  | succ n ih =>
    intro p dst max
    by_cases h0 : ld8 m p = 0
    · left
      refine ⟨0, by omega, fun i h => absurd h (by omega), h0, max, ?_⟩
      rw [copyinstrScan, if_pos h0, show List.range (0 + 1) = [0] from rfl]
      simp [h0]
    · rw [copyinstrScan, if_neg h0]
      have hsh : ∀ j, (List.range (1 + j)).map (fun i => ld8 m (p + i)) =
          [ld8 m p] ++ (List.range j).map fun i => ld8 m (p + 1 + i) := by
        intro j
        rw [range_map_shift, show List.range 1 = [0] from rfl]
        simp [Nat.add_assoc]
      rcases ih (p + 1) (dst ++ [ld8 m p]) (max - 1) with ⟨k, hk, hne, hz, mx, he⟩ | ⟨hne, he⟩
      · left
        refine ⟨k + 1, by omega, ?_, ?_, mx, ?_⟩
        · intro i hi
          cases i with
          | zero => exact h0
          | succ i =>
            have := hne i (by omega)
            rwa [Nat.add_assoc, Nat.add_comm 1 i] at this
        · rwa [Nat.add_assoc, Nat.add_comm 1 k] at hz
        · rw [he, List.append_assoc, ← hsh (k + 1), Nat.add_comm 1 (k + 1)]
      · right
        refine ⟨?_, ?_⟩
        · intro i hi
          cases i with
          | zero => exact h0
          | succ i =>
            have := hne i (by omega)
            rwa [Nat.add_assoc, Nat.add_comm 1 i] at this
        · rw [he, List.append_assoc, ← hsh n, Nat.sub_sub, Nat.add_comm 1 n]

theorem copyinstrLoop_done (pt : Nat) (s : Kernel) (dst : List Nat) (srcva : Nat) :
    ∀ fuel, copyinstrLoop pt fuel s dst srcva 0 = .ret (-1, dst) s
  | 0 => by rw [copyinstrLoop, if_neg (by omega)]
  | fuel + 1 => by rw [copyinstrLoop, if_neg (by omega)]

/-- `walkaddr` on the page of `a` returns 0 when `a` does not translate. -/
theorem walkaddr_refuses {s : Kernel} {pt a : Nat} (ha : a < U64)
    (h : ¬ (a < MAXVA ∧ Readable s.mem pt a)) :
    walkaddr s pt (PGROUNDDOWN a) = .ret 0 s := by
  by_cases hlt : a < MAXVA
  · obtain ⟨h1, h2, h3, h4⟩ := PGROUNDDOWN_facts hlt
    rw [walkaddr_eq s pt _ h4, pteOf_samePage s.mem pt (samePage_rounddown hlt)]
    by_cases hc : pteOf s.mem pt a &&& PTE_V = 0 ∨ pteOf s.mem pt a &&& PTE_U = 0
    · rw [if_pos hc]
    · rw [if_neg hc]
      rw [not_or] at hc
      have : PTE2PA (pteOf s.mem pt a) = 0 := by
        by_contra h0
        exact h ⟨hlt, hc.1, hc.2, h0⟩
      rw [this]
  · unfold walkaddr
    rw [if_pos]
    rw [PGROUNDDOWN_eq a ha]
    rw [MAXVA_eq] at hlt ⊢
    omega

/-- The outer loop of `copyinstr` from the address `a` with `m` bytes still
allowed: it returns 0 with the bytes up to the first NUL, or -1, and never
changes the state. -/
theorem copyinstrLoop_spec (pt : Nat) (s : Kernel) :
    ∀ fuel (dst : List Nat) (a m : Nat), m ≤ fuel → a < U64 →
      (∃ k < m, (∀ i ≤ k, a + i < MAXVA ∧ Readable s.mem pt (a + i)) ∧
        (∀ i < k, ld8 s.mem (physOf s.mem pt (a + i)) ≠ 0) ∧
        ld8 s.mem (physOf s.mem pt (a + k)) = 0 ∧
        copyinstrLoop pt fuel s dst a m =
          .ret (0, dst ++ (List.range (k + 1)).map
            fun i => ld8 s.mem (physOf s.mem pt (a + i))) s) ∨
      ((¬ ∃ k < m, (∀ i ≤ k, a + i < MAXVA ∧ Readable s.mem pt (a + i)) ∧
          ld8 s.mem (physOf s.mem pt (a + k)) = 0) ∧
        ∃ j ≤ m, copyinstrLoop pt fuel s dst a m =
          .ret (-1, dst ++ (List.range j).map
            fun i => ld8 s.mem (physOf s.mem pt (a + i))) s) := by
  intro fuel
  induction fuel with
  | zero =>
    intro dst a m hm _
    have : m = 0 := by omega
    subst this
    right
    refine ⟨fun ⟨k, hk, _⟩ => absurd hk (by omega), 0, le_refl _, ?_⟩
    rw [copyinstrLoop_done]
    simp
  | succ fuel ih =>
    intro dst a m hm ha
    by_cases hm0 : m = 0
    · subst hm0
      right
      refine ⟨fun ⟨k, hk, _⟩ => absurd hk (by omega), 0, le_refl _, ?_⟩
      rw [copyinstrLoop_done]
      simp
    by_cases hok : a < MAXVA ∧ Readable s.mem pt a
    · obtain ⟨hlt, hr⟩ := hok
      obtain ⟨h1, h2, h3, h4⟩ := PGROUNDDOWN_facts hlt
      have hoff := off_eq hlt
      have hP : a % PGSIZE < PGSIZE := Nat.mod_lt _ (by decide)
      have hnext : (PGROUNDDOWN a + PGSIZE) % U64 = a + (PGSIZE - a % PGSIZE) := by
        rw [MAXVA_eq] at h4
        unfold PGSIZE U64 at *
        omega
      have hphys : PTE2PA (pteOf s.mem pt a) + (a - PGROUNDDOWN a) = physOf s.mem pt a := by
        rw [hoff]
        rfl
      have hin : ∀ i, i < PGSIZE - a % PGSIZE → a + i < MAXVA := by
        intro i hi
        rw [MAXVA_eq] at h4 ⊢
        unfold PGSIZE at *
        omega
      have hrd : ∀ i, i < PGSIZE - a % PGSIZE → Readable s.mem pt (a + i) := by
        intro i hi
        unfold Readable
        rw [← pteOf_samePage s.mem pt (samePage_add (hin i hi) hi)]
        exact hr
      have hby : ∀ i, i < PGSIZE - a % PGSIZE →
          ld8 s.mem (physOf s.mem pt a + i) = ld8 s.mem (physOf s.mem pt (a + i)) := by
        intro i hi
        rw [physOf_add (hin i hi) hi]
      have hmapeq : ∀ j, j ≤ PGSIZE - a % PGSIZE →
          (List.range j).map (fun i => ld8 s.mem (physOf s.mem pt a + i)) =
          (List.range j).map (fun i => ld8 s.mem (physOf s.mem pt (a + i))) := by
        intro j hj
        apply List.map_congr_left
        intro i hi
        exact hby i (by rw [List.mem_range] at hi; omega)
      have hbody : copyinstrLoop pt (fuel + 1) s dst a m =
          match copyinstrScan s.mem (min (PGSIZE - a % PGSIZE) m) (physOf s.mem pt a) dst m with
          | (true, dst, _) => .ret (0, dst) s
          | (false, dst, max) =>
            copyinstrLoop pt fuel s dst (a + (PGSIZE - a % PGSIZE)) max := by
        rw [copyinstrLoop, if_pos (by omega), walkaddr_readable hlt hr]
        simp only [Outcome.bind, if_neg hr.2.2]
        rw [hnext, hphys, hoff]
        try rfl
      rcases copyinstrScan_spec s.mem (min (PGSIZE - a % PGSIZE) m) (physOf s.mem pt a) dst m with
        ⟨k, hk, hne, hz, mx, he⟩ | ⟨hne, he⟩
      · left
        have hk1 : k < PGSIZE - a % PGSIZE := lt_of_lt_of_le hk (Nat.min_le_left _ _)
        have hk2 : k < m := lt_of_lt_of_le hk (Nat.min_le_right _ _)
        refine ⟨k, hk2, fun i hi => ⟨hin i (by omega), hrd i (by omega)⟩, ?_, ?_, ?_⟩
        · intro i hi
          rw [← hby i (by omega)]
          exact hne i hi
        · rw [← hby k hk1]
          exact hz
        · rw [hbody, he, hmapeq (k + 1) (by omega)]
      · by_cases hnm : m ≤ PGSIZE - a % PGSIZE
        · right
          rw [Nat.min_eq_right hnm] at he hne
          refine ⟨?_, m, le_refl _, ?_⟩
          · rintro ⟨k, hk, _, hz⟩
            rw [← hby k (by omega)] at hz
            exact hne k hk hz
          · rw [hbody, Nat.min_eq_right hnm, he]
            simp only [Nat.sub_self]
            rw [copyinstrLoop_done, hmapeq m hnm]
        · have hmin : min (PGSIZE - a % PGSIZE) m = PGSIZE - a % PGSIZE :=
            Nat.min_eq_left (by omega)
          rw [hmin] at he hne
          have hstep : copyinstrLoop pt (fuel + 1) s dst a m =
              copyinstrLoop pt fuel s
                (dst ++ (List.range (PGSIZE - a % PGSIZE)).map
                  fun i => ld8 s.mem (physOf s.mem pt (a + i)))
                (a + (PGSIZE - a % PGSIZE)) (m - (PGSIZE - a % PGSIZE)) := by
            rw [hbody, hmin, he, hmapeq _ (le_refl _)]
          have ha2 : a + (PGSIZE - a % PGSIZE) < U64 := by
            rw [MAXVA_eq] at hlt
            unfold PGSIZE U64 at *
            omega
          rcases ih (dst ++ (List.range (PGSIZE - a % PGSIZE)).map
              fun i => ld8 s.mem (physOf s.mem pt (a + i)))
              (a + (PGSIZE - a % PGSIZE)) (m - (PGSIZE - a % PGSIZE)) (by omega) ha2 with
            ⟨k, hk, hall, hnz, hz, hl⟩ | ⟨hno, j, hj, hl⟩
          · left
            refine ⟨PGSIZE - a % PGSIZE + k, by omega, ?_, ?_, ?_, ?_⟩
            · intro i hi
              by_cases hi1 : i < PGSIZE - a % PGSIZE
              · exact ⟨hin i hi1, hrd i hi1⟩
              · have := hall (i - (PGSIZE - a % PGSIZE)) (by omega)
                rwa [Nat.add_assoc, Nat.add_sub_cancel' (by omega)] at this
            · intro i hi
              by_cases hi1 : i < PGSIZE - a % PGSIZE
              · rw [← hby i hi1]
                exact hne i hi1
              · have := hnz (i - (PGSIZE - a % PGSIZE)) (by omega)
                rwa [Nat.add_assoc, Nat.add_sub_cancel' (by omega)] at this
            · rwa [Nat.add_assoc] at hz
            · rw [hstep, hl, List.append_assoc, Nat.add_assoc,
                range_map_shift _ (PGSIZE - a % PGSIZE) (k + 1)]
              simp only [Nat.add_assoc]
          · right
            refine ⟨?_, PGSIZE - a % PGSIZE + j, by omega, ?_⟩
            · rintro ⟨k, hk, hall, hz⟩
              by_cases hk1 : k < PGSIZE - a % PGSIZE
              · rw [← hby k hk1] at hz
                exact hne k hk1 hz
              · apply hno
                refine ⟨k - (PGSIZE - a % PGSIZE), by omega, ?_, ?_⟩
                · intro i hi
                  have := hall (PGSIZE - a % PGSIZE + i) (by omega)
                  rwa [← Nat.add_assoc] at this
                · rw [Nat.add_assoc, Nat.add_sub_cancel' (by omega)]
                  exact hz
            · rw [hstep, hl, List.append_assoc, range_map_shift _ (PGSIZE - a % PGSIZE) j]
              simp only [Nat.add_assoc]
    · right
      refine ⟨?_, 0, Nat.zero_le _, ?_⟩
      · rintro ⟨k, _, hall, _⟩
        exact hok (by simpa using hall 0 (Nat.zero_le _))
      · rw [copyinstrLoop, if_pos (by omega), walkaddr_refuses ha hok]
        simp [Outcome.bind]

/-- C14: `copyinstr(pt, dst, srcva, max)` always returns, with 0 or -1, and
leaves memory, the page table and the allocator exactly as they were (no fault
is resolved, whatever the process size). It returns 0 exactly when the user
memory from `srcva` on holds a NUL byte at some offset `k < max` and every
address of `[srcva, srcva+k]` translates (it lies below `MAXVA` in a page that
`walkaddr` resolves: valid, with `PTE_U`, on a non-null frame); `dst` then
holds the `k+1` bytes up to and including the first NUL. In every case at most
`max` bytes are written to `dst`. -/
theorem copyinstr_spec (s : Kernel) (pt srcva max : Nat) (hsrc : srcva < U64) :
    ∃ r dst, copyinstr s pt srcva max = .ret (r, dst) s ∧ (r = 0 ∨ r = -1) ∧
      dst.length ≤ max ∧
      (r = 0 ↔ ∃ k < max, (∀ i ≤ k, srcva + i < MAXVA ∧ Readable s.mem pt (srcva + i)) ∧
        ld8 s.mem (physOf s.mem pt (srcva + k)) = 0) ∧
      (r = 0 → ∃ k < max,
        dst = (List.range (k + 1)).map (fun i => ld8 s.mem (physOf s.mem pt (srcva + i))) ∧
        ld8 s.mem (physOf s.mem pt (srcva + k)) = 0 ∧
        ∀ i < k, ld8 s.mem (physOf s.mem pt (srcva + i)) ≠ 0) := by
  unfold copyinstr
  rcases copyinstrLoop_spec pt s max [] srcva max (le_refl _) hsrc with
    ⟨k, hk, hall, hnz, hz, hl⟩ | ⟨hno, j, hj, hl⟩
  · rw [List.nil_append] at hl
    refine ⟨0, _, hl, Or.inl rfl, ?_, ?_, ?_⟩
    · rw [List.length_map, List.length_range]
      omega
    · exact ⟨fun _ => ⟨k, hk, hall, hz⟩, fun _ => rfl⟩
    · exact fun _ => ⟨k, hk, rfl, hz, hnz⟩
  · rw [List.nil_append] at hl
    refine ⟨-1, _, hl, Or.inr rfl, ?_, ?_, ?_⟩
    · rw [List.length_map, List.length_range]
      exact hj
    · exact ⟨fun h => absurd h (by decide), fun h => absurd h hno⟩
    · exact fun h => absurd h (by decide)

theorem copyinstr_spec_witness :
    (copyinstr demo 0x1000 0 8).val = some (-1, []) ∧
    (copyinstr demoString 0x1000 0xfff 8).val = some (0, [104, 105, 0]) ∧
    ∃ r dst, copyinstr demoString 0x1000 0xfff 8 = .ret (r, dst) demoString ∧
      (r = 0 ∨ r = -1) ∧ dst.length ≤ 8 ∧
      (r = 0 ↔ ∃ k < 8,
        (∀ i ≤ k, 0xfff + i < MAXVA ∧ Readable demoString.mem 0x1000 (0xfff + i)) ∧
        ld8 demoString.mem (physOf demoString.mem 0x1000 (0xfff + k)) = 0) ∧
      (r = 0 → ∃ k < 8,
        dst = (List.range (k + 1)).map
          (fun i => ld8 demoString.mem (physOf demoString.mem 0x1000 (0xfff + i))) ∧
        ld8 demoString.mem (physOf demoString.mem 0x1000 (0xfff + k)) = 0 ∧
        ∀ i < k, ld8 demoString.mem (physOf demoString.mem 0x1000 (0xfff + i)) ≠ 0) :=
  ⟨by decide, by decide, copyinstr_spec demoString 0x1000 0xfff 8 (by decide)⟩

/-! ## The shape of the page table, step by step -/

/-- A root table without a valid entry has no table below it. -/
theorem isTable_empty {m : Nat → Nat} {pt : Nat} (hz : ∀ j < 512, entry m pt j = 0) :
    ∀ d T, IsTable m pt d T → d = 0 ∧ T = pt := by
  have none : ∀ d p, ¬ IsTable m pt (d + 1) p := by
    intro d
    induction d with
    | zero =>
      rintro p ⟨q, i, hq, hi, hv, _⟩
      have : q = pt := hq
      rw [this, hz i hi] at hv
      exact zero_not_valid hv
    | succ d ih =>
      rintro p ⟨q, i, hq, _⟩
      exact ih q hq
  intro d T hT
  cases d with
  | zero => exact ⟨rfl, hT⟩
  | succ d => exact absurd hT (none d T)

theorem tree_empty {m : Nat → Nat} {pt : Nat} (hz : ∀ j < 512, entry m pt j = 0)
    (ha : pt % PGSIZE = 0) : Tree 2 m pt := by
  have inval : ∀ d q i, IsTable m pt d q → i < 512 → ¬ (entry m q i &&& PTE_V ≠ 0) := by
    intro d q i hq hi hv
    rw [(isTable_empty hz d q hq).2, hz i hi] at hv
    exact zero_not_valid hv
  exact {
    root_aligned := ha
    nonzero := fun d _ p hp => absurd (isTable_empty hz _ p hp).1 (Nat.succ_ne_zero d)
    no_root_child := fun d _ q i hq hi hv => absurd hv (inval d q i hq hi)
    unique_parent := fun d _ _ _ q _ i _ hq _ hi _ hv _ _ => absurd hv (inval d q i hq hi) }

theorem shaped_empty {m : Nat → Nat} {pt : Nat} (hz : ∀ j < 512, entry m pt j = 0) :
    Shaped m pt where
  interior := fun d _ T hT j hj hv => by
    rw [(isTable_empty hz d T hT).2, hz j hj] at hv
    exact absurd hv zero_not_valid
  leaf := fun T hT j hj hv => by
    rw [(isTable_empty hz 2 T hT).2, hz j hj] at hv
    exact absurd hv zero_not_valid

/-- `mappages` of one page returns only for an address below `MAXVA`. -/
theorem mappages_one_lt {s t : Kernel} {pt a pa perm : Nat} {r : Int}
    (h : mappages s pt a PGSIZE pa perm = .ret r t) : a < MAXVA := by
  by_contra hge
  unfold mappages at h
  split at h
  · cases h
  · rw [if_neg (by decide), show PGSIZE / PGSIZE = 1 by decide, mappagesLoop_succ,
      walk_panic s pt a 1 (by omega)] at h
    cases h

/-- `mappages` of one page with a permission that has one of R, W and X keeps a
well-formed address space well formed and shaped, whatever it returns. -/
theorem mappages_one_wf {s t : Kernel} {pt a pa perm : Nat} {r : Int} (I : Inv 2 s pt)
    (S : Shaped s.mem pt) (ha : a % PGSIZE = 0) (hpa : pa < U64)
    (hperm : perm < U64) (hrwx : perm &&& (PTE_R ||| PTE_W ||| PTE_X) ≠ 0)
    (h : mappages s pt a PGSIZE pa perm = .ret r t) : Inv 2 t pt ∧ Shaped t.mem pt := by
  have hlt := mappages_one_lt h
  refine ⟨?_, mappages_one_shape I S ha hlt hpa hperm hrwx h⟩
  have hmax : a + PGSIZE ≤ MAXVA := by
    rw [MAXVA_eq] at hlt ⊢
    unfold PGSIZE at ha ⊢
    omega
  rw [mappages_eq ha (by decide) (by decide) hmax, Nat.add_sub_cancel,
    show PGSIZE / PGSIZE = 1 by decide, mappagesLoop_succ] at h
  obtain ⟨r1, s1, used, hw, W⟩ := walk_alloc_spec (le_refl 2) hlt I
  rw [hw] at h
  cases r1 with
  | none =>
    simp only [Outcome.bind] at h
    cases h
    exact W.inv
  | some slot =>
    simp only [Outcome.bind] at h
    split at h
    · cases h
    · simp only [if_true] at h
      cases h
      exact W.inv.leaf_write (W.found slot rfl).1 _

theorem PGROUNDUP_mod (sz : Nat) : PGROUNDUP sz % PGSIZE = 0 := by
  rw [PGROUNDUP_eq]
  unfold PGSIZE
  omega

theorem PGROUNDDOWN_mod (va : Nat) (h : va < U64) : PGROUNDDOWN va % PGSIZE = 0 := by
  rw [PGROUNDDOWN_eq va h]
  unfold PGSIZE
  omega

/-- Taking a page off the free pages, zeroing it and mapping it keeps a
well-formed address space well formed and shaped. -/
theorem fresh_map_wf {s s3 : Kernel} {pt a mem perm : Nat} {rest : List Nat} {r3 : Int}
    (I : Inv 2 s pt) (S : Shaped s.mem pt) (ha : a % PGSIZE = 0) (hperm : perm < U64)
    (hrwx : perm &&& (PTE_R ||| PTE_W ||| PTE_X) ≠ 0) (hf : s.freelist = mem :: rest)
    (hm : mappages { s with mem := memset s.mem mem 0 PGSIZE, freelist := rest } pt a PGSIZE
      mem perm = .ret r3 s3) : Inv 2 s3 pt ∧ Shaped s3.mem pt := by
  have hmem : mem ∈ s.freelist := by rw [hf]; exact List.mem_cons_self _ _
  obtain ⟨hmem1, hmem2, hmem3⟩ := I.free_aligned mem hmem
  obtain ⟨E1, I1⟩ := I.take_page hf (memset_changes s.mem mem 0 PGSIZE)
  exact mappages_one_wf I1 (Shaped.of_tableEq E1 S) ha hmem3 hperm hrwx hm

/-- The part of `vmfault` after the checks keeps the address space well formed
and shaped. -/
theorem vmfault_fill_wf {s t : Kernel} {pt a r : Nat} (I : Inv 2 s pt) (S : Shaped s.mem pt)
    (ha : a % PGSIZE = 0) (o : Outcome Nat)
    (ho : o = match kalloc s with
      | (none, s2) => Outcome.ret 0 s2
      | (some mem, s2) =>
        (mappages { s2 with mem := memset s2.mem mem 0 PGSIZE } pt a
            PGSIZE mem (PTE_W ||| PTE_U ||| PTE_R)).bind fun r s4 =>
          if r ≠ 0 then .ret 0 (kfree s4 mem) else .ret mem s4)
    (h : o = .ret r t) : Tree 2 t.mem pt ∧ Shaped t.mem pt := by
  rw [ho] at h
  cases hf : s.freelist with
  | nil =>
    simp only [kalloc, hf] at h
    cases h
    exact ⟨I.tree, S⟩
  | cons mem rest =>
    simp only [kalloc, hf] at h
    cases hm : mappages { s with mem := memset s.mem mem 0 PGSIZE, freelist := rest } pt
        a PGSIZE mem (PTE_W ||| PTE_U ||| PTE_R) with
    | ret r3 s3 =>
      rw [hm] at h
      simp only [Outcome.bind] at h
      obtain ⟨I3, S3⟩ := fresh_map_wf I S ha (by decide) (by decide) hf hm
      split at h
      · cases h
        exact ⟨I3.tree, S3⟩
      · cases h
        exact ⟨I3.tree, S3⟩
    | panic m => rw [hm] at h; cases h
    | diverge => rw [hm] at h; cases h

/-- `vmfault` keeps a well-formed address space well formed and shaped, whatever
it returns. -/
theorem vmfault_wf {s t : Kernel} {pt va read r : Nat} (I : Inv 2 s pt) (S : Shaped s.mem pt)
    (hva : va < U64) (h : vmfault s pt va read = .ret r t) :
    Tree 2 t.mem pt ∧ Shaped t.mem pt := by
  unfold vmfault at h
  split at h
  · cases h
    exact ⟨I.tree, S⟩
  · unfold ismapped at h
    by_cases hlt : PGROUNDDOWN va < MAXVA
    · rw [walk_zero s pt _ hlt] at h
      cases hl : lookupFrom s.mem (PGROUNDDOWN va) 2 pt with
      | none =>
        rw [hl] at h
        simp only [Outcome.bind] at h
        rw [if_neg (by decide)] at h
        exact vmfault_fill_wf I S (PGROUNDDOWN_mod va hva) _ rfl h
      | some slot =>
        rw [hl] at h
        simp only [Outcome.bind] at h
        by_cases hv : ld64 s.mem slot &&& PTE_V ≠ 0
        · rw [if_pos hv, if_pos (by decide)] at h
          cases h
          exact ⟨I.tree, S⟩
        · rw [if_neg hv, if_neg (by decide)] at h
          exact vmfault_fill_wf I S (PGROUNDDOWN_mod va hva) _ rfl h
    · rw [walk_panic s pt _ 0 (by omega)] at h
      cases h

theorem clear_U_valid (e : Nat) : (e &&& (U64 - 1 - PTE_U)) &&& PTE_V = e &&& PTE_V := by
  rw [Nat.and_assoc, show (U64 - 1 - PTE_U) &&& PTE_V = PTE_V by decide]

theorem entry_agree {m n : Nat → Nat} {P j : Nat} (hj : j < 512)
    (h : ∀ x, P ≤ x → x < P + PGSIZE → n x = m x) : entry n P j = entry m P j := by
  unfold entry
  apply ld64_congr
  intro x h1 h2
  have := slot_in_page (T := P) hj
  exact h x (by omega) (by omega)

theorem kids_congr {m n : Nat → Nat} {T : Nat} :
    ∀ k i, i + k ≤ 512 → (∀ j, i ≤ j → j < i + k → entry n T j = entry m T j) →
      kids n T k i = kids m T k i := by
  intro k
  induction k with
  | zero => intro i _ _; rfl
  | succ k ih =>
    intro i hi h
    rw [kids, kids, h i (le_refl _) (by omega),
      ih (i + 1) (by omega) (fun j h1 h2 => h j (by omega) (by omega))]

theorem mem_kids {m : Nat → Nat} {T P : Nat} :
    ∀ k i, P ∈ kids m T k i ↔
      ∃ j, i ≤ j ∧ j < i + k ∧ entry m T j &&& PTE_V ≠ 0 ∧ P = PTE2PA (entry m T j) := by
  intro k
  induction k with
  | zero =>
    intro i
    rw [kids]
    constructor
    · intro h; cases h
    · rintro ⟨j, h1, h2, _⟩
      omega
  | succ k ih =>
    intro i
    rw [kids, List.mem_append, ih]
    constructor
    · rintro (h | ⟨j, h1, h2, h3, h4⟩)
      · by_cases hv : entry m T i &&& PTE_V ≠ 0
        · rw [if_pos hv, List.mem_singleton] at h
          exact ⟨i, le_refl _, by omega, hv, h⟩
        · rw [if_neg hv] at h
          cases h
      · exact ⟨j, by omega, by omega, h3, h4⟩
    · rintro ⟨j, h1, h2, h3, h4⟩
      by_cases hji : j = i
      · subst hji
        left
        rw [if_pos h3, List.mem_singleton]
        exact h4
      · right
        exact ⟨j, by omega, by omega, h3, h4⟩

/-- Over entries that are all invalid the loop of `freewalk` does nothing. -/
theorem freewalkLoop_skip (descend : Kernel → Nat → Outcome Unit) (T : Nat) :
    ∀ n (s : Kernel) (i : Nat), (∀ j, i ≤ j → j < i + n → entry s.mem T j &&& PTE_V = 0) →
      freewalkLoop descend T n s i = .ret () s := by
  intro n
  induction n with
  | zero => intro s i _; rfl
  | succ n ih =>
    intro s i h
    have h0 : ld64 s.mem (T + 8 * i) &&& PTE_V = 0 := h i (le_refl _) (by omega)
    rw [freewalkLoop, if_neg (fun hc => hc.1 h0), if_neg (not_not.2 h0)]
    exact ih s (i + 1) (fun j h1 h2 => h j (by omega) (by omega))

/-- On a table without a valid entry `freewalk` frees the table and nothing
else. -/
theorem freewalk_leafTable (f : Nat) (s : Kernel) (C : Nat)
    (h : ∀ j, j < 512 → entry s.mem C j &&& PTE_V = 0) :
    freewalk (f + 1) s C = .ret () (kfree s C) := by
  rw [freewalk, freewalkLoop_skip _ C 512 s 0 (fun j _ hj => h j (by omega))]
  rfl

/-- The loop of `freewalk` over a table whose valid entries reference tables
without a valid entry: it frees those tables in the order of the entries and
clears the entries. -/
theorem freewalkLoop_mid (f T : Nat) (m0 : Nat → Nat) (hT : T % PGSIZE = 0)
    (hkid : ∀ j, j < 512 → entry m0 T j &&& PTE_V ≠ 0 →
      entry m0 T j &&& (PTE_R ||| PTE_W ||| PTE_X) = 0 ∧ PTE2PA (entry m0 T j) ≠ T ∧
      ∀ j', j' < 512 → entry m0 (PTE2PA (entry m0 T j)) j' &&& PTE_V = 0) :
    ∀ n (s : Kernel) (i : Nat), i + n = 512 →
      (∀ x, (x < T ∨ T + 8 * i ≤ x) → s.mem x = m0 x) →
      ∃ t, freewalkLoop (freewalk (f + 1)) T n s i = .ret () t ∧
        t.freelist = (kids m0 T n i).reverse ++ s.freelist ∧ t.procsz = s.procsz ∧
        ∀ x, (x < T ∨ T + PGSIZE ≤ x) → t.mem x = s.mem x := by
  intro n
  induction n with
  | zero =>
    intro s i _ _
    exact ⟨s, rfl, by simp [kids], rfl, fun _ _ => rfl⟩
  | succ n ih =>
    intro s i hi hag
    have hi5 : i < 512 := by omega
    have he : entry s.mem T i = entry m0 T i := by
      unfold entry
      exact ld64_congr (fun x h1 h2 => hag x (Or.inr h1))
    have he2 : ld64 s.mem (T + 8 * i) = entry m0 T i := he
    have hag2 : ∀ (fl : List Nat) x, (x < T ∨ T + 8 * (i + 1) ≤ x) →
        ({ s with freelist := fl, mem := st64 s.mem (T + 8 * i) 0 } : Kernel).mem x = m0 x := by
      intro fl x hx
      show st64 s.mem (T + 8 * i) 0 x = m0 x
      rw [st64_out _ _ _ _ (by omega)]
      exact hag x (by omega)
    by_cases hv : entry m0 T i &&& PTE_V ≠ 0
    · obtain ⟨h1, h2, h3⟩ := hkid i hi5 hv
      have hch : ∀ j', j' < 512 → entry s.mem (PTE2PA (entry m0 T i)) j' &&& PTE_V = 0 := by
        intro j' hj'
        rw [entry_agree hj' (m := m0)]
        · exact h3 j' hj'
        · intro x hx1 hx2
          have := page_disj (PTE2PA_aligned (entry m0 T i)) hT h2
          have := slot_in_page (T := T) hi5
          exact hag x (by omega)
      obtain ⟨t, ht, hfl, hps, hmem⟩ := ih
        { s with freelist := PTE2PA (entry m0 T i) :: s.freelist,
                 mem := st64 s.mem (T + 8 * i) 0 } (i + 1) (by omega) (hag2 _)
      refine ⟨t, ?_, ?_, hps, ?_⟩
      · rw [freewalkLoop, he2, if_pos ⟨hv, h1⟩, freewalk_leafTable f s _ hch]
        exact ht
      · rw [hfl, kids, if_pos hv]
        simp
      · intro x hx
        rw [hmem x hx]
        show st64 s.mem (T + 8 * i) 0 x = s.mem x
        have := slot_in_page (T := T) hi5
        exact st64_out _ _ _ _ (by omega)
    · have hag3 : ∀ x, (x < T ∨ T + 8 * (i + 1) ≤ x) → s.mem x = m0 x :=
        fun x hx => hag x (by omega)
      obtain ⟨t, ht, hfl, hps, hmem⟩ := ih s (i + 1) (by omega) hag3
      refine ⟨t, ?_, ?_, hps, hmem⟩
      · rw [freewalkLoop, he2, if_neg (fun hc => hv hc.1), if_neg hv]
        exact ht
      · rw [hfl, kids, if_neg hv]
        simp

/-- On a table whose valid entries reference tables without a valid entry,
`freewalk` frees those tables and then the table. -/
theorem freewalk_mid (f : Nat) (s : Kernel) (T : Nat) (hT : T % PGSIZE = 0)
    (hkid : ∀ j, j < 512 → entry s.mem T j &&& PTE_V ≠ 0 →
      entry s.mem T j &&& (PTE_R ||| PTE_W ||| PTE_X) = 0 ∧ PTE2PA (entry s.mem T j) ≠ T ∧
      ∀ j', j' < 512 → entry s.mem (PTE2PA (entry s.mem T j)) j' &&& PTE_V = 0) :
    ∃ t, freewalk (f + 2) s T = .ret () t ∧
      t.freelist = (kids s.mem T 512 0 ++ [T]).reverse ++ s.freelist ∧ t.procsz = s.procsz ∧
      ∀ x, (x < T ∨ T + PGSIZE ≤ x) → t.mem x = s.mem x := by
  obtain ⟨t, ht, hfl, hps, hmem⟩ := freewalkLoop_mid f T s.mem hT hkid 512 s 0 (by omega)
    (fun _ _ => rfl)
  refine ⟨kfree t T, ?_, ?_, hps, hmem⟩
  · rw [freewalk, ht]
    rfl
  · show T :: t.freelist = _
    rw [hfl]
    simp

/-- All entries of the level-0 tables of the tree are invalid. -/
theorem freewalkLoop_root (f pt : Nat) (m0 : Nat → Nat) (I : Tree 2 m0 pt) (S : Shaped m0 pt)
    (hleaf : ∀ C, IsTable m0 pt 2 C → ∀ j, j < 512 → entry m0 C j &&& PTE_V = 0) :
    ∀ n (s : Kernel) (i : Nat), i + n = 512 →
      (∀ x, s.mem x ≠ m0 x → (pt ≤ x ∧ x < pt + 8 * i) ∨
        ∃ j, j < i ∧ entry m0 pt j &&& PTE_V ≠ 0 ∧
          PTE2PA (entry m0 pt j) ≤ x ∧ x < PTE2PA (entry m0 pt j) + PGSIZE) →
      ∃ t, freewalkLoop (freewalk (f + 2)) pt n s i = .ret () t ∧
        t.freelist = ((kids m0 pt n i).flatMap fun T => kids m0 T 512 0 ++ [T]).reverse ++
          s.freelist ∧ t.procsz = s.procsz := by
  intro n
  induction n with
  | zero =>
    intro s i _ _
    exact ⟨s, rfl, rfl, rfl⟩
  | succ n ih =>
    intro s i hi hag
    have hi5 : i < 512 := by omega
    have hroot : IsTable m0 pt 0 pt := rfl
    -- a page other than the root and the children already freed is as in `m0`
    have hsame : ∀ P, P % PGSIZE = 0 → P ≠ pt →
        (∀ j, j < i → entry m0 pt j &&& PTE_V ≠ 0 → PTE2PA (entry m0 pt j) ≠ P) →
        ∀ x, P ≤ x → x < P + PGSIZE → s.mem x = m0 x := by
      intro P hP hne hch x hx1 hx2
      by_contra hx
      rcases hag x hx with ⟨h1, h2⟩ | ⟨j, hj, hv, h1, h2⟩
      · have := page_disj hP I.root_aligned hne
        have : 8 * i ≤ PGSIZE := by unfold PGSIZE; omega
        omega
      · have := page_disj hP (PTE2PA_aligned (entry m0 pt j)) (fun h => hch j hj hv h.symm)
        omega
    have he : entry s.mem pt i = entry m0 pt i := by
      unfold entry
      apply ld64_congr
      intro x h1 h2
      by_contra hx
      rcases hag x hx with ⟨_, h4⟩ | ⟨j, hj, hv, h3, h4⟩
      · omega
      · have hne := I.no_root_child 0 (by omega) pt j hroot (by omega) hv
        have := page_disj (PTE2PA_aligned (entry m0 pt j)) I.root_aligned hne
        have := slot_in_page (T := pt) hi5
        omega
    have he2 : ld64 s.mem (pt + 8 * i) = entry m0 pt i := he
    by_cases hv : entry m0 pt i &&& PTE_V ≠ 0
    · have hrwx := S.interior 0 (by omega) pt hroot i hi5 hv
      have hT1 : IsTable m0 pt 1 (PTE2PA (entry m0 pt i)) := ⟨pt, i, hroot, hi5, hv, rfl⟩
      have hTne : PTE2PA (entry m0 pt i) ≠ pt := I.no_root_child 0 (by omega) pt i hroot hi5 hv
      have hTold : ∀ j, j < i → entry m0 pt j &&& PTE_V ≠ 0 →
          PTE2PA (entry m0 pt j) ≠ PTE2PA (entry m0 pt i) := by
        intro j hj hvj hc
        have := (I.unique_parent 0 (by omega) 0 (by omega) pt pt j i hroot hroot (by omega) hi5
          hvj hv hc).2
        omega
      have hpage := hsame _ (PTE2PA_aligned (entry m0 pt i)) hTne hTold
      have hent : ∀ j, j < 512 →
          entry s.mem (PTE2PA (entry m0 pt i)) j = entry m0 (PTE2PA (entry m0 pt i)) j :=
        fun j hj => entry_agree hj hpage
      have hkid : ∀ j, j < 512 → entry s.mem (PTE2PA (entry m0 pt i)) j &&& PTE_V ≠ 0 →
          entry s.mem (PTE2PA (entry m0 pt i)) j &&& (PTE_R ||| PTE_W ||| PTE_X) = 0 ∧
          PTE2PA (entry s.mem (PTE2PA (entry m0 pt i)) j) ≠ PTE2PA (entry m0 pt i) ∧
          ∀ j', j' < 512 →
            entry s.mem (PTE2PA (entry s.mem (PTE2PA (entry m0 pt i)) j)) j' &&& PTE_V = 0 := by
        intro j hj hvj
        rw [hent j hj] at hvj ⊢
        have hC : IsTable m0 pt 2 (PTE2PA (entry m0 (PTE2PA (entry m0 pt i)) j)) :=
          ⟨_, j, hT1, hj, hvj, rfl⟩
        refine ⟨S.interior 1 (by omega) _ hT1 j hj hvj, ?_, ?_⟩
        · intro hc
          rw [hc] at hC
          have := I.level_unique 2 1 _ (le_refl 2) (by omega) hC hT1
          omega
        · intro j' hj'
          rw [entry_agree hj' (m := m0)]
          · exact hleaf _ hC j' hj'
          · apply hsame _ (PTE2PA_aligned _)
            · intro hc
              rw [hc] at hC
              have := I.level_unique 2 0 _ (le_refl 2) (by omega) hC hroot
              omega
            · intro j2 _ hv2 hc
              rw [← hc] at hC
              have := I.level_unique 2 1 _ (le_refl 2) (by omega) hC
                ⟨pt, j2, hroot, by omega, hv2, rfl⟩
              omega
      obtain ⟨t1, ht1, hfl1, hps1, hmem1⟩ := freewalk_mid f s _ (PTE2PA_aligned _) hkid
      have hk : kids s.mem (PTE2PA (entry m0 pt i)) 512 0 =
          kids m0 (PTE2PA (entry m0 pt i)) 512 0 :=
        kids_congr 512 0 (by omega) (fun j _ hj => hent j (by omega))
      rw [hk] at hfl1
      obtain ⟨t, ht, hfl, hps⟩ := ih { t1 with mem := st64 t1.mem (pt + 8 * i) 0 } (i + 1)
        (by omega) (by
          intro x hx
          by_cases hslot : pt + 8 * i ≤ x ∧ x < pt + 8 * i + 8
          · left
            omega
          · have e1 : st64 t1.mem (pt + 8 * i) 0 x = t1.mem x :=
              st64_out _ _ _ _ (by omega)
            have hx1 : t1.mem x ≠ m0 x := by
              intro hc
              apply hx
              show st64 t1.mem (pt + 8 * i) 0 x = m0 x
              rw [e1, hc]
            by_cases hin : PTE2PA (entry m0 pt i) ≤ x ∧ x < PTE2PA (entry m0 pt i) + PGSIZE
            · right
              exact ⟨i, by omega, hv, hin.1, hin.2⟩
            · rw [hmem1 x (by omega)] at hx1
              rcases hag x hx1 with ⟨h1, h2⟩ | ⟨j, hj, hvj, h1, h2⟩
              · left
                omega
              · right
                exact ⟨j, by omega, hvj, h1, h2⟩)
      refine ⟨t, ?_, ?_, ?_⟩
      · rw [freewalkLoop, he2, if_pos ⟨hv, hrwx⟩, ht1]
        exact ht
      · rw [hfl, kids, if_pos hv]
        show _ ++ t1.freelist = _
        rw [hfl1]
        simp
      · rw [hps]
        exact hps1
    · obtain ⟨t, ht, hfl, hps⟩ := ih s (i + 1) (by omega) (by
        intro x hx
        rcases hag x hx with ⟨h1, h2⟩ | ⟨j, hj, hvj, h1, h2⟩
        · left
          omega
        · right
          exact ⟨j, by omega, hvj, h1, h2⟩)
      refine ⟨t, ?_, ?_, hps⟩
      · rw [freewalkLoop, he2, if_neg (fun hc => hv hc.1), if_neg hv]
        exact ht
      · rw [hfl, kids, if_neg hv]
        simp

/-- On a shaped three-level tree whose level-0 tables have no valid entry,
`freewalk` with three levels of recursion frees every table page. -/
theorem freewalk_tree (f : Nat) (s : Kernel) (pt : Nat) (I : Tree 2 s.mem pt)
    (S : Shaped s.mem pt)
    (hleaf : ∀ C, IsTable s.mem pt 2 C → ∀ j, j < 512 → entry s.mem C j &&& PTE_V = 0) :
    ∃ t, freewalk (f + 3) s pt = .ret () t ∧
      t.freelist = (tablePages s.mem pt).reverse ++ s.freelist ∧ t.procsz = s.procsz := by
  obtain ⟨t, ht, hfl, hps⟩ := freewalkLoop_root f pt s.mem I S hleaf 512 s 0 (by omega)
    (fun x hx => absurd rfl hx)
  refine ⟨kfree t pt, ?_, ?_, hps⟩
  · rw [freewalk, ht]
    rfl
  · show pt :: t.freelist = _
    rw [hfl, tablePages]
    simp

/-- Every entry of a level-0 table is the leaf entry of some address below
`2^39`. -/
theorem leaf_slot_va {m : Nat → Nat} {pt C j : Nat} (hC : IsTable m pt 2 C) (hj : j < 512) :
    ∃ va, va < 2 ^ 39 ∧ lookupFrom m va 2 pt = some (C + 8 * j) := by
  obtain ⟨q, i1, ⟨q0, i0, hq0, hi0, hv0, rfl⟩, hi1, hv1, rfl⟩ := hC
  have hq : q0 = pt := hq0
  subst hq
  refine ⟨i0 * 2 ^ 30 + i1 * 2 ^ 21 + j * 2 ^ 12, by omega, ?_⟩
  have h2 : PX 2 (i0 * 2 ^ 30 + i1 * 2 ^ 21 + j * 2 ^ 12) = i0 := by
    rw [PX_eq]
    omega
  have h1 : PX 1 (i0 * 2 ^ 30 + i1 * 2 ^ 21 + j * 2 ^ 12) = i1 := by
    rw [PX_eq]
    omega
  have h0 : PX 0 (i0 * 2 ^ 30 + i1 * 2 ^ 21 + j * 2 ^ 12) = j := by
    rw [PX_eq]
    omega
  rw [lookupFrom, h2, if_pos hv0, lookupFrom, h1, if_pos hv1, lookupFrom, h0]

theorem flatMap_congr_mem {α β : Type} (f g : α → List β) :
    ∀ l : List α, (∀ x ∈ l, f x = g x) → l.flatMap f = l.flatMap g := by
  intro l
  induction l with
  | nil => intro _; rfl
  | cons a l ih =>
    intro h
    rw [List.flatMap_cons, List.flatMap_cons, h a (List.mem_cons_self _ _),
      ih (fun x hx => h x (List.mem_cons_of_mem _ hx))]

theorem tablePages_congr {m n : Nat → Nat} {pt : Nat}
    (h : ∀ e < 2, ∀ T, IsTable m pt e T → ∀ j < 512, entry n T j = entry m T j) :
    tablePages n pt = tablePages m pt := by
  have hroot : IsTable m pt 0 pt := rfl
  unfold tablePages
  rw [kids_congr 512 0 (by omega) (fun j _ hj => h 0 (by omega) pt hroot j (by omega))]
  rw [flatMap_congr_mem (fun T => kids n T 512 0 ++ [T]) (fun T => kids m T 512 0 ++ [T])]
  intro T hT
  obtain ⟨j, _, hj, hv, rfl⟩ := (mem_kids 512 0).1 hT
  have hT1 : IsTable m pt 1 (PTE2PA (entry m pt j)) := ⟨pt, j, hroot, by omega, hv, rfl⟩
  show kids n _ 512 0 ++ _ = kids m _ 512 0 ++ _
  rw [kids_congr 512 0 (by omega) (fun j' _ hj' => h 1 (by omega) _ hT1 j' (by omega))]

/-- The list `tablePages` holds exactly the table pages of the tree. -/
theorem mem_tablePages {m : Nat → Nat} {pt P : Nat} :
    P ∈ tablePages m pt ↔ ∃ d, d ≤ 2 ∧ IsTable m pt d P := by
  have hroot : IsTable m pt 0 pt := rfl
  unfold tablePages
  rw [List.mem_append, List.mem_flatMap, List.mem_singleton]
  constructor
  · rintro (⟨T, hT, hP⟩ | rfl)
    · obtain ⟨j, _, hj, hv, rfl⟩ := (mem_kids 512 0).1 hT
      have hT1 : IsTable m pt 1 (PTE2PA (entry m pt j)) := ⟨pt, j, hroot, by omega, hv, rfl⟩
      rcases List.mem_append.1 hP with h | h
      · obtain ⟨j', _, hj', hv', rfl⟩ := (mem_kids 512 0).1 h
        exact ⟨2, le_refl 2, _, j', hT1, by omega, hv', rfl⟩
      · rw [List.mem_singleton] at h
        subst h
        exact ⟨1, by omega, hT1⟩
    · exact ⟨0, by omega, hroot⟩
  · rintro ⟨d, hd, hT⟩
    match d, hT with
    | 0, hT => exact Or.inr hT
    | 1, ⟨q, i, hq, hi, hv, e⟩ =>
      have hq' : q = pt := hq
      subst hq'
      left
      exact ⟨P, (mem_kids 512 0).2 ⟨i, by omega, by omega, hv, e⟩,
        List.mem_append_right _ (List.mem_singleton.2 rfl)⟩
    | 2, ⟨q, i, ⟨q0, i0, hq0, hi0, hv0, e0⟩, hi, hv, e⟩ =>
      have hq' : q0 = pt := hq0
      subst hq'
      left
      exact ⟨q, (mem_kids 512 0).2 ⟨i0, by omega, by omega, hv0, e0⟩,
        List.mem_append_left _ ((mem_kids 512 0).2 ⟨i, by omega, by omega, hv, e⟩)⟩
    | d + 3, _ => omega

theorem kids_nodup {m : Nat → Nat} {T : Nat}
    (h : ∀ i j, i < 512 → j < 512 → entry m T i &&& PTE_V ≠ 0 → entry m T j &&& PTE_V ≠ 0 →
      PTE2PA (entry m T i) = PTE2PA (entry m T j) → i = j) :
    ∀ k i, i + k ≤ 512 → (kids m T k i).Nodup := by
  intro k
  induction k with
  | zero => intro i _; exact List.nodup_nil
  | succ k ih =>
    intro i hi
    rw [kids, List.nodup_append]
    refine ⟨by split <;> simp, ih (i + 1) (by omega), ?_⟩
    intro P h1 h2
    by_cases hv : entry m T i &&& PTE_V ≠ 0
    · rw [if_pos hv, List.mem_singleton] at h1
      obtain ⟨j, hj1, hj2, hvj, e⟩ := (mem_kids k (i + 1)).1 h2
      have := h i j (by omega) (by omega) hv hvj (h1.symm.trans e)
      omega
    · rw [if_neg hv] at h1
      cases h1

/-- In an owning tree the table pages are pairwise distinct. -/
theorem nodup_tablePages {m : Nat → Nat} {pt : Nat} (I : Tree 2 m pt) :
    (tablePages m pt).Nodup := by
  have hroot : IsTable m pt 0 pt := rfl
  have hk1 : ∀ T, T ∈ kids m pt 512 0 → IsTable m pt 1 T := by
    intro T hT
    obtain ⟨j, _, hj, hv, rfl⟩ := (mem_kids 512 0).1 hT
    exact ⟨pt, j, hroot, by omega, hv, rfl⟩
  have hk2 : ∀ T, IsTable m pt 1 T → ∀ P, P ∈ kids m T 512 0 →
      IsTable m pt 2 P ∧ ∃ j, j < 512 ∧ entry m T j &&& PTE_V ≠ 0 ∧ P = PTE2PA (entry m T j) := by
    intro T hT P hP
    obtain ⟨j, _, hj, hv, rfl⟩ := (mem_kids 512 0).1 hP
    exact ⟨⟨T, j, hT, by omega, hv, rfl⟩, j, by omega, hv, rfl⟩
  have hkn : ∀ d, d < 2 → ∀ T, IsTable m pt d T → (kids m T 512 0).Nodup := by
    intro d hd T hT
    exact kids_nodup (fun i j hi hj hvi hvj e =>
      (I.unique_parent d hd d hd T T i j hT hT hi hj hvi hvj e).2) 512 0 (by omega)
  unfold tablePages
  rw [List.nodup_append]
  refine ⟨?_, List.nodup_singleton _, ?_⟩
  · rw [List.nodup_flatMap]
    constructor
    · intro T hT
      have hT1 := hk1 T hT
      rw [List.nodup_append]
      refine ⟨hkn 1 (by omega) T hT1, List.nodup_singleton _, ?_⟩
      intro P h1 h2
      rw [List.mem_singleton] at h2
      subst h2
      have := I.level_unique 2 1 P (le_refl 2) (by omega) (hk2 P hT1 P h1).1 hT1
      omega
    · apply List.Nodup.pairwise_of_forall_ne (hkn 0 (by omega) pt hroot)
      intro T hT T' hT' hne P h1 h2
      have hT1 := hk1 T hT
      have hT1' := hk1 T' hT'
      rcases List.mem_append.1 h1 with a | a <;> rcases List.mem_append.1 h2 with b | b
      · obtain ⟨_, j, hj, hv, e⟩ := hk2 T hT1 P a
        obtain ⟨_, j', hj', hv', e'⟩ := hk2 T' hT1' P b
        exact hne (I.unique_parent 1 (by omega) 1 (by omega) T T' j j' hT1 hT1' hj hj' hv hv'
          (e.symm.trans e')).1
      · rw [List.mem_singleton] at b
        subst b
        have := I.level_unique 2 1 P (le_refl 2) (by omega) (hk2 T hT1 P a).1 hT1'
        omega
      · rw [List.mem_singleton] at a
        subst a
        have := I.level_unique 2 1 P (le_refl 2) (by omega) (hk2 T' hT1' P b).1 hT1
        omega
      · rw [List.mem_singleton] at a b
        exact hne (a.symm.trans b)
  · intro P h1 h2
    rw [List.mem_singleton] at h2
    subst h2
    obtain ⟨T, hT, hP⟩ := List.mem_flatMap.1 h1
    have hT1 := hk1 T hT
    rcases List.mem_append.1 hP with a | a
    · have := I.level_unique 2 0 P (le_refl 2) (by omega) (hk2 T hT1 P a).1 hroot
      omega
    · rw [List.mem_singleton] at a
      subst a
      have := I.level_unique 1 0 P (by omega) (by omega) hT1 hroot
      omega

theorem mem_validFrames {m : Nat → Nat} {pt P : Nat} :
    ∀ n a, P ∈ validFrames m pt a n ↔
      ∃ j, j < n ∧ pteOf m pt (a + j * PGSIZE) &&& PTE_V ≠ 0 ∧
        P = PTE2PA (pteOf m pt (a + j * PGSIZE)) := by
  intro n
  induction n with
  | zero =>
    intro a
    rw [validFrames]
    constructor
    · intro h; cases h
    · rintro ⟨j, hj, _⟩
      omega
  | succ n ih =>
    intro a
    rw [validFrames_snoc, List.mem_append, ih]
    constructor
    · rintro (h | ⟨j, hj, hv, e⟩)
      · by_cases hv : pteOf m pt (a + n * PGSIZE) &&& PTE_V ≠ 0
        · rw [if_pos hv, List.mem_singleton] at h
          exact ⟨n, by omega, hv, h⟩
        · rw [if_neg hv] at h
          cases h
      · exact ⟨j, by omega, hv, e⟩
    · rintro ⟨j, hj, hv, e⟩
      by_cases hjn : j = n
      · subst hjn
        left
        rw [if_pos hv, List.mem_singleton]
        exact e
      · right
        exact ⟨j, by omega, hv, e⟩

/-- The frames of distinct pages of an address space that owns its frames are
distinct. -/
theorem nodup_validFrames {s : Kernel} {pt : Nat} (F : FrameOK s pt) :
    ∀ n, n * PGSIZE ≤ MAXVA → (validFrames s.mem pt 0 n).Nodup := by
  intro n
  induction n with
  | zero => intro _; exact List.nodup_nil
  | succ n ih =>
    intro hn
    have hP : 0 < PGSIZE := by decide
    have hlt : n * PGSIZE < MAXVA := by
      unfold PGSIZE at hn ⊢
      omega
    rw [validFrames_snoc, List.nodup_append]
    refine ⟨by split <;> simp, ih (by omega), ?_⟩
    intro P h1 h2
    by_cases hv : pteOf s.mem pt (0 + n * PGSIZE) &&& PTE_V ≠ 0
    · rw [if_pos hv, List.mem_singleton] at h1
      obtain ⟨j, hj, hvj, e⟩ := (mem_validFrames n 0).1 h2
      rw [Nat.zero_add] at hv h1 hvj e
      have hjlt : j * PGSIZE < MAXVA := by
        have : j * PGSIZE < n * PGSIZE := Nat.mul_lt_mul_of_pos_right hj hP
        omega
      have hs := (F _ hjlt hvj).2.2.2 _ hlt hv (h1.symm.trans e)
      rw [samePage_of_aligned (Nat.mul_mod_left _ _) hjlt hlt] at hs
      have : (j + 1) * PGSIZE ≤ n * PGSIZE := Nat.mul_le_mul_right _ hj
      rw [Nat.add_mul, Nat.one_mul] at this
      omega
    · rw [if_neg hv] at h1
      cases h1

/-- After `uvmunmap` has removed the pages below `PGROUNDUP(sz)` no level-0
table holds a valid entry, when the valid leaf entries all lay below
`PGROUNDUP(sz)`. -/
theorem uvmfree_spec (f : Nat) (s : Kernel) (pt sz : Nat) (I : Tree 2 s.mem pt)
    (S : Shaped s.mem pt) (hsz : sz ≤ MAXVA)
    (hlow : ∀ va, va < 2 ^ 39 → pteOf s.mem pt va &&& PTE_V ≠ 0 → va < PGROUNDUP sz) :
    ∃ t, uvmfree (f + 3) s pt sz = .ret () t ∧
      t.freelist = (tablePages s.mem pt).reverse ++
        (validFrames s.mem pt 0 (PGROUNDUP sz / PGSIZE) ++ s.freelist) ∧
      t.procsz = s.procsz := by
  obtain ⟨o1, o2, o3, o4⟩ := PGROUNDUP_facts hsz
  have hn : PGROUNDUP sz / PGSIZE * PGSIZE = PGROUNDUP sz := by
    unfold PGSIZE at o1 ⊢
    omega
  have hmax : 0 + PGROUNDUP sz / PGSIZE * PGSIZE ≤ MAXVA := by
    rw [Nat.zero_add, hn]
    exact o4
  obtain ⟨t1, h1, I1, hps1, hfl1, h5, h6, h7, _⟩ :=
    uvmunmap_spec pt 0 (PGROUNDUP sz / PGSIZE) 1 I (by decide) hmax
  rw [if_pos (by decide)] at hfl1
  have hstep : (if sz > 0 then uvmunmap s pt 0 (PGROUNDUP sz / PGSIZE) 1 else .ret () s) =
      .ret () t1 := by
    by_cases h0 : sz > 0
    · rw [if_pos h0]
      exact h1
    · rw [if_neg h0]
      have hz : sz = 0 := by omega
      subst hz
      have hsk : uvmunmap s pt 0 (PGROUNDUP 0 / PGSIZE) 1 = .ret () s :=
        uvmunmap_skip 1 (by decide) hmax (fun a _ _ ha => by
          rw [show PGROUNDUP 0 / PGSIZE = 0 by decide] at ha
          omega)
      rw [← hsk]
      exact h1
  have hleaves : ∀ T, IsTable s.mem pt 2 T → ∀ j < 512,
      entry t1.mem T j = entry s.mem T j ∨ entry t1.mem T j = 0 := by
    have hu := h1
    unfold uvmunmap at hu
    rw [if_neg (by decide), show (0 + PGROUNDUP sz / PGSIZE * PGSIZE) % U64 =
      0 + PGROUNDUP sz / PGSIZE * PGSIZE by
        rw [MAXVA_eq] at hmax
        unfold U64
        omega] at hu
    exact uvmunmapLoop_leaves pt 1 _ _ s 0 (le_refl _) I (by decide) hmax t1 hu
  have hiff := isTable_congr 2 h5
  have hfree : ∀ C, IsTable t1.mem pt 2 C → ∀ j, j < 512 → entry t1.mem C j &&& PTE_V = 0 := by
    intro C hC j hj
    have hC0 := (hiff 2 (le_refl 2) C).1 hC
    rcases hleaves C hC0 j hj with e | e
    · by_contra hv
      obtain ⟨va, hva, hl⟩ := leaf_slot_va hC0 hj
      have hp : pteOf s.mem pt va = entry s.mem C j := pteOf_of_lookup hl
      have hlo := hlow va hva (by rw [hp, ← e]; exact hv)
      have hl1 : lookupFrom t1.mem va 2 pt = some (C + 8 * j) := by
        rw [lookupFrom_congr va h5 2 0 pt rfl rfl]
        exact hl
      have hp1 : pteOf t1.mem pt va = entry t1.mem C j := pteOf_of_lookup hl1
      have := h6 va (by omega) (Nat.zero_le _) (by rw [Nat.zero_add, hn]; exact hlo)
      rw [hp1] at this
      exact hv this
    · rw [e]
      simp
  have S1 : Shaped t1.mem pt := by
    constructor
    · intro d hd T hT j hj hv
      have hT1 := (hiff d (by omega) T).1 hT
      rw [h5 d hd T hT1 j hj] at hv ⊢
      exact S.interior d hd T hT1 j hj hv
    · intro T hT j hj hv
      exact absurd (hfree T hT j hj) hv
  obtain ⟨t, ht, hfl, hps⟩ := freewalk_tree f t1 pt I1 S1 hfree
  refine ⟨t, ?_, ?_, hps.trans hps1⟩
  · unfold uvmfree
    rw [hstep]
    exact ht
  · rw [hfl, hfl1, tablePages_congr h5]

theorem pteOf_empty {m : Nat → Nat} {pt : Nat} (hz : ∀ j < 512, entry m pt j = 0) (va : Nat) :
    pteOf m pt va = 0 := by
  rw [pteOf_unfold, hz _ (PX_lt 2 va), if_neg zero_not_valid]

/-- Building an address space of `size` bytes in a fresh table and destroying
it again leaves as many pages free as there were. -/
theorem create_alloc_free (f : Nat) (s0 : Kernel) (size xperm : Nat) (hnd : s0.freelist.Nodup)
    (hfa : ∀ p ∈ s0.freelist, p % PGSIZE = 0 ∧ p ≠ 0 ∧ p < U64) (hx : xperm < U64)
    (hsz : size ≤ MAXVA) (hfree : 1 + 3 * (PGROUNDUP size / PGSIZE) ≤ s0.freelist.length) :
    ∃ pt t1 t2 t3, uvmcreate s0 = .ret pt t1 ∧ pt ≠ 0 ∧
      uvmalloc t1 pt 0 size xperm = .ret size t2 ∧ uvmfree (f + 3) t2 pt size = .ret () t3 ∧
      t3.freelist.length = s0.freelist.length := by
  obtain ⟨n1, n2, n3, n4⟩ := PGROUNDUP_facts hsz
  have hP : 0 < PGSIZE := by decide
  cases hf : s0.freelist with
  | nil =>
    rw [hf] at hfree
    simp at hfree
  | cons pt rest =>
    have hmem : pt ∈ s0.freelist := by rw [hf]; exact List.mem_cons_self _ _
    obtain ⟨hp1, hp2, hp3⟩ := hfa pt hmem
    have hnd2 : (pt :: rest).Nodup := hf ▸ hnd
    have hc : uvmcreate s0 =
        .ret pt { s0 with freelist := rest, mem := memset s0.mem pt 0 PGSIZE } := by
      unfold uvmcreate kalloc
      rw [hf]
    have hz : ∀ j < 512, entry (memset s0.mem pt 0 PGSIZE) pt j = 0 := by
      intro j hj
      unfold entry
      exact ld64_memset_zero _ _ _ _ (by omega) (by unfold PGSIZE; omega)
    have I1 : Inv 2 { s0 with freelist := rest, mem := memset s0.mem pt 0 PGSIZE } pt :=
      inv_empty hz hp1 (List.nodup_cons.1 hnd2).2
        (fun p hp => hfa p (by rw [hf]; exact List.mem_cons_of_mem _ hp))
        (List.nodup_cons.1 hnd2).1
    have S1 : Shaped (memset s0.mem pt 0 PGSIZE) pt := shaped_empty hz
    have hn : 0 + (0 + PGROUNDUP size / PGSIZE) * PGSIZE = PGROUNDUP size := by
      unfold PGSIZE at *
      omega
    obtain ⟨r, t2, hl, _, T2, _, hS, hres⟩ := uvmallocLoop_spec pt 0 hx n2 n3 n4 (by decide)
      (size / PGSIZE + 1) (PGROUNDUP size / PGSIZE)
      { s0 with freelist := rest, mem := memset s0.mem pt 0 PGSIZE } 0
      (by unfold PGSIZE at *; omega) I1 hn
      (fun vb _ _ _ => by
        show pteOf (memset s0.mem pt 0 PGSIZE) pt vb &&& PTE_V = 0
        rw [pteOf_empty hz]
        rfl)
    rw [Nat.zero_mul, Nat.add_zero] at hl hres
    have hrl : rest.length + 1 = s0.freelist.length := by rw [hf]; rfl
    rcases hres with ⟨hr, frames, used, G, hnew, _, hpm, hhi, _⟩ | ⟨_, hlen, _⟩
    swap
    · exfalso
      have : rest.length < 3 * (PGROUNDUP size / PGSIZE) := hlen
      omega
    rw [hr] at hl
    have hl2 : uvmalloc { s0 with freelist := rest, mem := memset s0.mem pt 0 PGSIZE } pt 0
        size xperm = .ret size t2 := by
      unfold uvmalloc
      rw [if_neg (by omega), show PGROUNDUP 0 = 0 by decide]
      exact hl
    have hnP : PGROUNDUP size / PGSIZE * PGSIZE = PGROUNDUP size := by
      unfold PGSIZE at *
      omega
    have hlow : ∀ va, va < 2 ^ 39 → pteOf t2.mem pt va &&& PTE_V ≠ 0 → va < PGROUNDUP size := by
      intro va hva hv
      by_contra hge
      by_cases hlt : va < MAXVA
      · rw [G.outside va hlt (Or.inr (by rw [hnP]; omega))] at hv
        apply hv
        show pteOf (memset s0.mem pt 0 PGSIZE) pt va &&& PTE_V = 0
        rw [pteOf_empty hz]
        rfl
      · rw [hhi va hva (by omega)] at hv
        apply hv
        show pteOf (memset s0.mem pt 0 PGSIZE) pt va &&& PTE_V = 0
        rw [pteOf_empty hz]
        rfl
    obtain ⟨t3, h3, hfl3, _⟩ := uvmfree_spec f t2 pt size T2 (hS S1) hsz hlow
    refine ⟨pt, _, t2, t3, hc, hp2, hl2, h3, ?_⟩
    -- the frames: one for each page
    have hvf : (validFrames t2.mem pt 0 (PGROUNDUP size / PGSIZE)).length =
        PGROUNDUP size / PGSIZE :=
      validFrames_all _ 0 (fun j hj => by
        rw [G.mapped j hj]
        exact leaf_valid _ _)
    -- the tables: the root and the pages that became interior tables
    have hundp : (frames ++ used ++ t2.freelist).Nodup :=
      (hpm.nodup_iff).1 (List.nodup_cons.1 hnd2).2
    have hused : used.Nodup := (List.nodup_append.1 (List.nodup_append.1 hundp).1).2.1
    have hptu : pt ∉ used := fun h =>
      (List.nodup_cons.1 hnd2).1 (G.used_free pt h)
    have hsub1 : tablePages t2.mem pt ⊆ pt :: used := by
      intro P hP
      obtain ⟨d, hd, hT⟩ := mem_tablePages.1 hP
      rcases hnew d hd P hT with h | h
      · rw [(isTable_empty hz d P h).2]
        exact List.mem_cons_self _ _
      · exact List.mem_cons_of_mem _ h
    have hsub2 : pt :: used ⊆ tablePages t2.mem pt := by
      intro P hP
      rcases List.mem_cons.1 hP with h | h
      · rw [h]
        exact mem_tablePages.2 ⟨0, by omega, rfl⟩
      · obtain ⟨d, _, d2, d3⟩ := G.used_tables P h
        exact mem_tablePages.2 ⟨d, d2, d3⟩
    have hlen1 := (List.subperm_of_subset (nodup_tablePages T2) hsub1).length_le
    have hlen2 := (List.subperm_of_subset (List.nodup_cons.2 ⟨hptu, hused⟩) hsub2).length_le
    have hcount := hpm.length_eq
    have hfl := G.frames_len
    rw [hfl3]
    simp only [List.length_append, List.length_reverse, List.length_cons] at hlen1 hlen2 hcount ⊢
    rw [hvf]
    omega

/-- C13: for every well-formed three-level address space (an owning tree of
table pages with a sane allocator, owning its frames, shaped) of a size
`sz ≤ MAXVA` whose valid leaf entries all belong to addresses below
`PGROUNDUP(sz)`, `uvmfree(pt, sz)` returns (it does not reach the halt
`freewalk: leaf`, and three levels of recursion suffice) and afterwards the
free pages are, each exactly once, the pages that were free, the table pages
of the tree (root, level-1 and level-0 tables) and the frames of the valid leaf
entries. Hence `uvmcreate`, then `uvmalloc` from 0 to `size`, then
`uvmfree(pt, size)` leave as many pages free as there were before `uvmcreate`,
for every `xperm`, when the allocator holds the pages for it. -/
theorem uvmfree_returns_all (f : Nat) (s : Kernel) (pt sz : Nat) (I : Inv 2 s pt)
    (F : FrameOK s pt) (S : Shaped s.mem pt) (hsz : sz ≤ MAXVA)
    (hlow : ∀ va, va < 2 ^ 39 → pteOf s.mem pt va &&& PTE_V ≠ 0 → va < PGROUNDUP sz) :
    (∃ t, uvmfree (f + 3) s pt sz = .ret () t ∧ t.freelist.Nodup ∧
      (∀ P, P ∈ t.freelist ↔ P ∈ s.freelist ∨ (∃ d, d ≤ 2 ∧ IsTable s.mem pt d P) ∨
        ∃ va, va < MAXVA ∧ pteOf s.mem pt va &&& PTE_V ≠ 0 ∧
          P = PTE2PA (pteOf s.mem pt va)) ∧
      t.freelist.Perm (tablePages s.mem pt ++
        validFrames s.mem pt 0 (PGROUNDUP sz / PGSIZE) ++ s.freelist)) ∧
    (∀ (s0 : Kernel) (size xperm : Nat), s0.freelist.Nodup →
      (∀ p ∈ s0.freelist, p % PGSIZE = 0 ∧ p ≠ 0 ∧ p < U64) → xperm < U64 → size ≤ MAXVA →
      1 + 3 * (PGROUNDUP size / PGSIZE) ≤ s0.freelist.length →
      ∃ pt0 t1 t2 t3, uvmcreate s0 = .ret pt0 t1 ∧ pt0 ≠ 0 ∧
        uvmalloc t1 pt0 0 size xperm = .ret size t2 ∧
        uvmfree (f + 3) t2 pt0 size = .ret () t3 ∧
        t3.freelist.length = s0.freelist.length) := by
  refine ⟨?_, fun s0 size xperm hnd hfa hx hs hfree =>
    create_alloc_free f s0 size xperm hnd hfa hx hs hfree⟩
  obtain ⟨o1, o2, o3, o4⟩ := PGROUNDUP_facts hsz
  have hP : 0 < PGSIZE := by decide
  have hn : PGROUNDUP sz / PGSIZE * PGSIZE = PGROUNDUP sz := by
    unfold PGSIZE at o1 ⊢
    omega
  obtain ⟨t, ht, hfl, _⟩ := uvmfree_spec f s pt sz I.tree S hsz hlow
  have hframe : ∀ P, P ∈ validFrames s.mem pt 0 (PGROUNDUP sz / PGSIZE) ↔
      ∃ va, va < MAXVA ∧ pteOf s.mem pt va &&& PTE_V ≠ 0 ∧ P = PTE2PA (pteOf s.mem pt va) := by
    intro P
    rw [mem_validFrames]
    constructor
    · rintro ⟨j, hj, hv, e⟩
      refine ⟨0 + j * PGSIZE, ?_, hv, e⟩
      have : j * PGSIZE < PGROUNDUP sz / PGSIZE * PGSIZE := Nat.mul_lt_mul_of_pos_right hj hP
      omega
    · rintro ⟨va, hva, hv, e⟩
      have hlo := hlow va (by rw [MAXVA_eq] at hva; omega) hv
      have hsp := pteOf_samePage s.mem pt (samePage_rounddown hva)
      have hrd : PGROUNDDOWN va = 0 + va / PGSIZE * PGSIZE := by
        rw [PGROUNDDOWN_eq va (by rw [MAXVA_eq] at hva; unfold U64; omega), Nat.zero_add]
        rfl
      rw [hrd] at hsp
      refine ⟨va / PGSIZE, ?_, by rw [hsp]; exact hv, by rw [hsp]; exact e⟩
      unfold PGSIZE at *
      omega
  have hnd : t.freelist.Nodup := by
    rw [hfl, List.nodup_append]
    refine ⟨List.nodup_reverse.2 (nodup_tablePages I.tree), ?_, ?_⟩
    · rw [List.nodup_append]
      refine ⟨nodup_validFrames F _ (by rw [hn]; exact o4), I.free_nodup, ?_⟩
      intro P h1 h2
      obtain ⟨va, hva, hv, e⟩ := (hframe P).1 h1
      rw [e] at h2
      exact (F va hva hv).2.1 h2
    · intro P h1 h2
      obtain ⟨d, hd, hT⟩ := mem_tablePages.1 (List.mem_reverse.1 h1)
      rcases List.mem_append.1 h2 with h | h
      · obtain ⟨va, hva, hv, e⟩ := (hframe P).1 h
        rw [e] at hT
        exact (F va hva hv).2.2.1 d hd hT
      · exact I.free_fresh d hd P hT h
  refine ⟨t, ht, hnd, ?_, ?_⟩
  · intro P
    rw [hfl, List.mem_append, List.mem_append, List.mem_reverse, mem_tablePages, hframe]
    constructor
    · rintro (h | h | h)
      · exact Or.inr (Or.inl h)
      · exact Or.inr (Or.inr h)
      · exact Or.inl h
    · rintro (h | h | h)
      · exact Or.inr (Or.inr h)
      · exact Or.inl h
      · exact Or.inr (Or.inl h)
  · rw [hfl, List.append_assoc]
    exact List.Perm.append_right _ (List.reverse_perm _)

/-- After `vmfault` a leaf entry is valid only where one was, or in the page of
the faulting address. -/
theorem vmfault_leaves {s : Kernel} {pt va : Nat} (read : Nat) (I : Inv 2 s pt)
    (hsz : va < s.procsz) (hlt : va < MAXVA)
    (hinv : pteOf s.mem pt (PGROUNDDOWN va) &&& PTE_V = 0) (d : Kernel) (vb : Nat)
    (hv : pteOf ((vmfault s pt va read).final d).mem pt vb &&& PTE_V ≠ 0) :
    pteOf s.mem pt vb &&& PTE_V ≠ 0 ∨ SamePage (PGROUNDDOWN va) vb := by
  obtain ⟨g1, g2, g3, g4⟩ := PGROUNDDOWN_facts hlt
  rcases vmfault_cases read I hsz g1 g4 hinv with
    ⟨pa, rest, used, t, _, he, _, _, _, hp, _⟩ | ⟨t, he, _, _, hp⟩
  · rw [he] at hv
    have hv2 : pteOf t.mem pt vb &&& PTE_V ≠ 0 := hv
    rw [hp vb] at hv2
    by_cases hs : SamePage (PGROUNDDOWN va) vb
    · exact Or.inr hs
    · rw [if_neg hs] at hv2
      exact Or.inl hv2
  · rw [he] at hv
    have hv2 : pteOf t.mem pt vb &&& PTE_V ≠ 0 := hv
    rw [hp vb] at hv2
    exact Or.inl hv2

theorem demoParent_shaped : Shaped demoParent.mem 0x1000 := by
  have S0 : Shaped demoPair.mem 0x1000 :=
    shaped_empty fun _ _ => ld64_zero_mem (fun _ => rfl) _
  have A0 : Apart demoPair 0x1000 0x2000 :=
    apart_zero (fun _ => rfl) (by decide) (by decide) (by decide) (by decide) (by decide)
      (by decide) (by decide)
  have a1 := vmfault_apart 0 A0 (by decide) (by decide)
    (by rw [pteOf_zero_mem (m := demoPair.mem) (fun _ => rfl)]; rfl) (by decide) demoPair
  have h1 : vmfault demoPair 0x1000 0 0 =
      .ret 0x3000 ((vmfault demoPair 0x1000 0 0).final demoPair) :=
    Outcome.eq_ret_of_val demoPair (by decide)
  have S1 := (vmfault_wf A0.inv_old S0 (by decide) h1).2
  have h2 : vmfault ((vmfault demoPair 0x1000 0 0).final demoPair) 0x1000 0x1000 0 =
      .ret 0x6000 demoParent :=
    Outcome.eq_ret_of_val demoPair (by decide)
  exact (vmfault_wf a1.1.inv_old S1 (by decide) h2).2

theorem demoParent_low (va : Nat) (hva : va < 2 ^ 39)
    (hv : pteOf demoParent.mem 0x1000 va &&& PTE_V ≠ 0) : va < PGROUNDUP 0x2000 := by
  have A0 : Apart demoPair 0x1000 0x2000 :=
    apart_zero (fun _ => rfl) (by decide) (by decide) (by decide) (by decide) (by decide)
      (by decide) (by decide)
  have a1 := vmfault_apart 0 A0 (by decide) (by decide)
    (by rw [pteOf_zero_mem (m := demoPair.mem) (fun _ => rfl)]; rfl) (by decide) demoPair
  have hpage : SamePage 0x1000 va ∨ SamePage 0 va := by
    rcases vmfault_leaves 0 a1.1.inv_old (by decide) (by decide) (by decide) demoPair va hv with
      h | h
    · rcases vmfault_leaves 0 A0.inv_old (by decide) (by decide)
          (by rw [pteOf_zero_mem (m := demoPair.mem) (fun _ => rfl)]; rfl) demoPair va h with
        h' | h'
      · rw [pteOf_zero_mem (m := demoPair.mem) (fun _ => rfl)] at h'
        exact absurd h' zero_not_valid
      · exact Or.inr h'
    · exact Or.inl h
  rw [show PGROUNDUP 0x2000 = 0x2000 by decide]
  rcases hpage with h | h
  · rw [samePage_iff (by norm_num) hva] at h
    omega
  · rw [samePage_iff (by norm_num) hva] at h
    omega

theorem uvmfree_returns_all_witness :
    (∃ t, uvmfree (0 + 3) demoParent 0x1000 0x2000 = .ret () t ∧ t.freelist.Nodup ∧
      (∀ P, P ∈ t.freelist ↔ P ∈ demoParent.freelist ∨
        (∃ d, d ≤ 2 ∧ IsTable demoParent.mem 0x1000 d P) ∨
        ∃ va, va < MAXVA ∧ pteOf demoParent.mem 0x1000 va &&& PTE_V ≠ 0 ∧
          P = PTE2PA (pteOf demoParent.mem 0x1000 va)) ∧
      t.freelist.Perm (tablePages demoParent.mem 0x1000 ++
        validFrames demoParent.mem 0x1000 0 (PGROUNDUP 0x2000 / PGSIZE) ++
        demoParent.freelist)) ∧
    (∀ (s0 : Kernel) (size xperm : Nat), s0.freelist.Nodup →
      (∀ p ∈ s0.freelist, p % PGSIZE = 0 ∧ p ≠ 0 ∧ p < U64) → xperm < U64 → size ≤ MAXVA →
      1 + 3 * (PGROUNDUP size / PGSIZE) ≤ s0.freelist.length →
      ∃ pt0 t1 t2 t3, uvmcreate s0 = .ret pt0 t1 ∧ pt0 ≠ 0 ∧
        uvmalloc t1 pt0 0 size xperm = .ret size t2 ∧
        uvmfree (0 + 3) t2 pt0 size = .ret () t3 ∧
        t3.freelist.length = s0.freelist.length) :=
  uvmfree_returns_all 0 demoParent 0x1000 0x2000 demoParent_ready.1.inv_old
    demoParent_ready.1.frames_old demoParent_shaped (by decide) demoParent_low

/-! ## C17: the argument stack of `kexec` -/

theorem stackAfter_le : ∀ (l : List (List Nat)) (sp : Nat), stackAfter sp l ≤ sp
  | [], sp => le_refl sp
  | arg :: rest, sp => by
    rw [stackAfter]
    have := stackAfter_le rest ((sp - (arg.length + 1)) / 16 * 16)
    omega

theorem stackAfter_mod : ∀ (l : List (List Nat)) (sp : Nat), sp % 16 = 0 →
    stackAfter sp l % 16 = 0
  | [], sp, h => h
  | arg :: rest, sp, _ => by
    rw [stackAfter]
    exact stackAfter_mod rest _ (by omega)

theorem StackPage.pte {pt b f : Nat} {s : Kernel} (P : StackPage pt b f s) {x : Nat}
    (h1 : b ≤ x) (h2 : x < b + PGSIZE) : pteOf s.mem pt x = pteOf s.mem pt b := by
  have hb := P.below
  exact (pteOf_samePage s.mem pt
    ((samePage_of_aligned P.aligned (by unfold PGSIZE at *; omega) (by omega)).2 ⟨h1, h2⟩)).symm

theorem StackPage.phys {pt b f : Nat} {s : Kernel} (P : StackPage pt b f s) {x : Nat}
    (h1 : b ≤ x) (h2 : x < b + PGSIZE) : physOf s.mem pt x = f + (x - b) := by
  unfold physOf
  rw [P.pte h1 h2, P.frame]
  have := P.aligned
  unfold PGSIZE at *
  omega

theorem StackPage.readable {pt b f : Nat} {s : Kernel} (P : StackPage pt b f s) {x : Nat}
    (h1 : b ≤ x) (h2 : x < b + PGSIZE) : Readable s.mem pt x := by
  have hb := P.below
  unfold Readable
  rw [P.pte h1 h2]
  exact ⟨P.valid, P.user, (P.frames b (by unfold PGSIZE at *; omega) P.valid).1⟩

/-- A `copyout` that stays inside the mapped stack page writes its bytes into
the frame of the page and returns 0. -/
theorem copyout_page {pt b f : Nat} {s : Kernel} (P : StackPage pt b f s) {x len : Nat}
    (src : List Nat) (h1 : b ≤ x) (h2 : x + len ≤ b + PGSIZE) (h0 : 0 < len) :
    copyout s pt x src len = .ret 0 { s with mem := memmoveIn s.mem (f + (x - b)) src len } ∧
    StackPage pt b f { s with mem := memmoveIn s.mem (f + (x - b)) src len } := by
  have hb := P.below
  have hx : x < MAXVA := by omega
  have hpx := P.pte h1 (by omega : x < b + PGSIZE)
  have hv : pteOf s.mem pt x &&& PTE_V ≠ 0 := by rw [hpx]; exact P.valid
  have hu : pteOf s.mem pt x &&& PTE_U ≠ 0 := by rw [hpx]; exact P.user
  have hw : pteOf s.mem pt x &&& PTE_W ≠ 0 := by rw [hpx]; exact P.writable
  have hf0 : PTE2PA (pteOf s.mem pt x) ≠ 0 := (P.frames x hx hv).1
  have hmin : min (PGSIZE - x % PGSIZE) len = len := by
    have := P.aligned
    unfold PGSIZE at *
    omega
  have hph := P.phys h1 (by omega : x < b + PGSIZE)
  obtain ⟨k, rfl⟩ : ∃ k, len = k + 1 := ⟨len - 1, by omega⟩
  constructor
  · unfold copyout
    rw [copyoutLoop_mapped h0 hx hv hu hw hf0, hmin, Nat.sub_self, copyoutLoop_done, hph]
  · have R := resolved_refl P.inv P.frames hv hu hw
    obtain ⟨I2, F2, hp, _, _⟩ := copy_write (n := k + 1) src R hx (by omega)
    rw [hph] at I2 F2 hp
    exact
      { inv := I2
        frames := F2
        aligned := P.aligned
        below := P.below
        valid := by
          show pteOf (memmoveIn s.mem (f + (x - b)) src (k + 1)) pt b &&& PTE_V ≠ 0
          rw [hp]; exact P.valid
        user := by
          show pteOf (memmoveIn s.mem (f + (x - b)) src (k + 1)) pt b &&& PTE_U ≠ 0
          rw [hp]; exact P.user
        writable := by
          show pteOf (memmoveIn s.mem (f + (x - b)) src (k + 1)) pt b &&& PTE_W ≠ 0
          rw [hp]; exact P.writable
        frame := by
          show PTE2PA (pteOf (memmoveIn s.mem (f + (x - b)) src (k + 1)) pt b) = f
          rw [hp]; exact P.frame }

theorem copyout_page_mem {pt b f : Nat} {s : Kernel} (P : StackPage pt b f s) {x len : Nat}
    (src : List Nat) (h1 : b ≤ x) (h2 : x + len ≤ b + PGSIZE) (h0 : 0 < len) :
    ∃ t, copyout s pt x src len = .ret 0 t ∧ StackPage pt b f t ∧
      t.mem = memmoveIn s.mem (f + (x - b)) src len :=
  ⟨_, (copyout_page P src h1 h2 h0).1, (copyout_page P src h1 h2 h0).2, rfl⟩

theorem bind_ret_eq {α β : Type} (a : α) (t : Kernel) (g : α → Kernel → Outcome β) :
    (Outcome.ret a t).bind g = g a t := rfl

/-- The loop of `kexec` over the argument strings, on a mapped stack page that
has room for them: every string goes below the one before, at a multiple of 16,
and the bytes of the strings pushed before are left alone. -/
theorem kexecArgs_spec (pt b f : Nat) (hb0 : 0 < b) :
    ∀ (rest : List (List Nat)) (s : Kernel) (argc sp : Nat) (ustack : List Nat),
      StackPage pt b f s → argc + rest.length ≤ MAXARG → sp ≤ b + PGSIZE →
      b ≤ stackAfter sp rest →
      ∃ t addrs, kexecArgs pt b s rest argc sp ustack =
          .ret (some (stackAfter sp rest, ustack ++ addrs)) t ∧
        StackPage pt b f t ∧ t.freelist = s.freelist ∧ t.procsz = s.procsz ∧
        addrs.length = rest.length ∧
        (∀ i, i < rest.length →
          addrs.getD i 0 = stackAfter sp (rest.take (i + 1)) ∧
          addrs.getD i 0 % 16 = 0 ∧ b ≤ addrs.getD i 0 ∧
          stackAfter sp rest ≤ addrs.getD i 0 ∧
          addrs.getD i 0 + (rest.getD i []).length + 1 ≤
            (if i = 0 then sp else addrs.getD (i - 1) 0) ∧
          ∀ k, k ≤ (rest.getD i []).length →
            t.mem (f + (addrs.getD i 0 - b) + k) = (rest.getD i [] ++ [0]).getD k 0 % 256) ∧
        (∀ x, x < f + (stackAfter sp rest - b) ∨ f + (sp - b) ≤ x → t.mem x = s.mem x) := by
  intro rest
  induction rest with
  | nil =>
    intro s argc sp ustack P _ _ _
    refine ⟨s, [], ?_, P, rfl, rfl, rfl, ?_, fun _ _ => rfl⟩
    · rw [kexecArgs, stackAfter, List.append_nil]
    · intro i hi
      exact absurd hi (Nat.not_lt_zero i)
  | cons arg rest ih =>
    intro s argc sp ustack P hc hsp hfit
    have hb := P.below
    rw [MAXVA_eq] at hb
    rw [stackAfter] at hfit
    obtain ⟨x, hxd⟩ : ∃ x, x = (sp - (arg.length + 1)) / 16 * 16 := ⟨_, rfl⟩
    rw [← hxd] at hfit
    have hle := stackAfter_le rest x
    have hx : (sp + (U64 - (arg.length + 1) % U64)) % U64 -
        (sp + (U64 - (arg.length + 1) % U64)) % U64 % 16 = x := by
      unfold U64 PGSIZE at *
      omega
    have hlen : (arg.length + 1) % U64 = arg.length + 1 := by
      unfold U64 PGSIZE at *
      omega
    have hx1 : b ≤ x := by omega
    have hx2 : x + (arg.length + 1) ≤ b + PGSIZE := by
      unfold PGSIZE at *
      omega
    obtain ⟨hco, P1⟩ := copyout_page P (arg ++ [0]) hx1 hx2 (by omega)
    simp only [List.length_cons] at hc
    obtain ⟨t, addrs, hk, Pt, hfl, hps, hal, hall, hout⟩ :=
      ih { s with mem := memmoveIn s.mem (f + (x - b)) (arg ++ [0]) (arg.length + 1) } (argc + 1)
        x (ustack ++ [x]) P1 (by omega) (by unfold PGSIZE at *; omega) hfit
    refine ⟨t, x :: addrs, ?_, Pt, hfl, hps, ?_, ?_, ?_⟩
    · rw [kexecArgs, if_neg (by omega), hx, if_neg (by omega), hlen, hco]
      simp only [Outcome.bind]
      rw [if_neg (by decide), hk, stackAfter, List.append_assoc, ← hxd]
      rfl
    · simp only [List.length_cons, hal]
    · intro i hi
      cases i with
      | zero =>
        simp only [List.getD_cons_zero, if_true]
        refine ⟨?_, by omega, by omega, ?_, by unfold PGSIZE at *; omega, ?_⟩
        · rw [hxd]; rfl
        · rw [stackAfter, ← hxd]; exact hle
        · intro k hk2
          rw [hout _ (Or.inr (by omega))]
          show memmoveIn s.mem _ (arg ++ [0]) (arg.length + 1) _ = _
          rw [memmoveIn_in _ _ _ _ _ (by omega)]
      | succ j =>
        simp only [List.length_cons, Nat.add_lt_add_iff_right] at hi
        obtain ⟨a0, a1, a2, a3, a4, a5⟩ := hall j hi
        simp only [List.getD_cons_succ, Nat.add_sub_cancel]
        refine ⟨?_, a1, a2, ?_, ?_, a5⟩
        · rw [a0, hxd]; rfl
        · rw [stackAfter, ← hxd]; exact a3
        · rw [if_neg (by omega)]
          cases j with
          | zero => simpa using a4
          | succ j2 => simpa using a4
    · intro y hyo
      rw [stackAfter, ← hxd] at hyo
      rw [hout y (by omega)]
      show memmoveIn s.mem _ (arg ++ [0]) (arg.length + 1) _ = _
      rw [memmoveIn_out _ _ _ _ _ (by unfold PGSIZE at *; omega)]

theorem bytes64_getD (v i : Nat) (h : i < 8) : (bytes64 v).getD i 0 = v / 256 ^ i % 256 := by
  unfold bytes64
  interval_cases i <;> rfl

theorem flatMap_bytes64_getD : ∀ (l : List Nat) (j i : Nat), j < l.length → i < 8 →
    (l.flatMap bytes64).getD (8 * j + i) 0 = l.getD j 0 / 256 ^ i % 256
  | [], j, i, hj, _ => absurd hj (Nat.not_lt_zero j)
  | a :: rest, 0, i, _, hi => by
    rw [List.flatMap_cons, Nat.mul_zero, Nat.zero_add, List.getD_cons_zero,
      List.getD_append _ _ _ _ (by simpa [bytes64] using hi)]
    exact bytes64_getD a i hi
  | a :: rest, j + 1, i, hj, hi => by
    have hl : (bytes64 a).length = 8 := by simp [bytes64]
    rw [List.flatMap_cons, List.getD_append_right _ _ _ _ (by rw [hl]; omega), hl,
      show 8 * (j + 1) + i - 8 = 8 * j + i by omega, List.getD_cons_succ]
    exact flatMap_bytes64_getD rest j i (by simpa using hj) hi

/-- The words that `copyout` stores from an array of `uint64` read back as the
entries of the array. -/
theorem ld64_words (m : Nat → Nat) (dst : Nat) (l : List Nat) (j : Nat) (hj : j < l.length)
    (hv : l.getD j 0 < 2 ^ 64) :
    ld64 (memmoveIn m dst (l.flatMap bytes64) (8 * l.length)) (dst + 8 * j) = l.getD j 0 := by
  have key : ∀ i, i < 8 →
      ld8 (memmoveIn m dst (l.flatMap bytes64) (8 * l.length)) (dst + 8 * j + i) =
        l.getD j 0 / 256 ^ i % 256 := by
    intro i hi
    unfold ld8
    rw [Nat.add_assoc, memmoveIn_in _ _ _ _ _ (by omega), flatMap_bytes64_getD l j i hj hi]
    simp only [Nat.mod_mod]
  have k0 := key 0 (by omega)
  rw [Nat.add_zero] at k0
  unfold ld64
  rw [k0, key 1 (by omega), key 2 (by omega), key 3 (by omega), key 4 (by omega),
    key 5 (by omega), key 6 (by omega), key 7 (by omega)]
  generalize l.getD j 0 = v at hv ⊢
  norm_num
  omega

theorem shiftRight_and (a b i : Nat) : (a &&& b) >>> i = a >>> i &&& b >>> i := by
  apply Nat.eq_of_testBit_eq
  intro j
  simp only [Nat.testBit_shiftRight, Nat.testBit_and]

theorem clear_U_PTE2PA (e : Nat) : PTE2PA (e &&& (U64 - 1 - PTE_U)) = PTE2PA e := by
  unfold PTE2PA
  rw [shiftRight_and, show (U64 - 1 - PTE_U) >>> 10 = 2 ^ 54 - 1 by decide,
    Nat.and_pow_two_sub_one_eq_mod, Nat.shiftLeft_eq, Nat.shiftLeft_eq,
    Nat.shiftRight_eq_div_pow]
  unfold U64
  omega

/-- `uvmclear` on a mapped page: the entry of the page loses `PTE_U`, the other
entries, the tree and the allocator are as before. -/
theorem uvmclear_spec {s : Kernel} {pt va : Nat} (I : Inv 2 s pt) (F : FrameOK s pt)
    (hlt : va < MAXVA) (hv : pteOf s.mem pt va &&& PTE_V ≠ 0) :
    ∃ t, uvmclear s pt va = .ret () t ∧ Inv 2 t pt ∧ FrameOK t pt ∧
      t.freelist = s.freelist ∧ t.procsz = s.procsz ∧
      ∀ vb, pteOf t.mem pt vb =
        if SamePage va vb then pteOf s.mem pt va &&& (U64 - 1 - PTE_U) else pteOf s.mem pt vb := by
  cases hl : lookupFrom s.mem va 2 pt with
  | none =>
    exfalso
    apply hv
    unfold pteOf pteFrom
    rw [hl]
    exact Nat.zero_and _
  | some slot =>
    have e := pteOf_of_lookup hl
    have hp : ∀ vb, pteOf (st64 s.mem slot (ld64 s.mem slot &&& (U64 - 1 - PTE_U))) pt vb =
        if SamePage va vb then pteOf s.mem pt va &&& (U64 - 1 - PTE_U)
        else pteOf s.mem pt vb := by
      intro vb
      rw [I.tree.leaf_pteOf (le_refl 2) hl
        (lt_of_le_of_lt Nat.and_le_left (ld64_lt _ _)) vb, e]
    have hP : ∀ vb,
        PTE2PA (pteOf (st64 s.mem slot (ld64 s.mem slot &&& (U64 - 1 - PTE_U))) pt vb) =
          PTE2PA (pteOf s.mem pt vb) ∧
        pteOf (st64 s.mem slot (ld64 s.mem slot &&& (U64 - 1 - PTE_U))) pt vb &&& PTE_V =
          pteOf s.mem pt vb &&& PTE_V := by
      intro vb
      rw [hp vb]
      by_cases hs : SamePage va vb
      · rw [if_pos hs, ← pteOf_samePage s.mem pt hs, clear_U_PTE2PA, clear_U_valid]
        exact ⟨rfl, rfl⟩
      · rw [if_neg hs]
        exact ⟨rfl, rfl⟩
    refine ⟨{ s with mem := st64 s.mem slot (ld64 s.mem slot &&& (U64 - 1 - PTE_U)) }, ?_,
      I.leaf_write hl _, ?_, rfl, rfl, hp⟩
    · unfold uvmclear
      rw [walk_zero s pt va hlt, hl]
      rfl
    · intro v1 h1 hv1
      have hv1b : pteOf s.mem pt v1 &&& PTE_V ≠ 0 := by
        rw [← (hP v1).2]; exact hv1
      obtain ⟨a1, a2, a3, a4⟩ := F v1 h1 hv1b
      show PTE2PA (pteOf (st64 s.mem slot _) pt v1) ≠ 0 ∧
        PTE2PA (pteOf (st64 s.mem slot _) pt v1) ∉ s.freelist ∧
        (∀ d, d ≤ 2 → ¬ IsTable (st64 s.mem slot _) pt d
          (PTE2PA (pteOf (st64 s.mem slot _) pt v1))) ∧
        (∀ vb, vb < MAXVA → pteOf (st64 s.mem slot _) pt vb &&& PTE_V ≠ 0 →
          PTE2PA (pteOf (st64 s.mem slot _) pt vb) =
            PTE2PA (pteOf (st64 s.mem slot _) pt v1) → SamePage v1 vb)
      rw [(hP v1).1]
      refine ⟨a1, a2, fun d hd hT => a3 d hd
        ((I.tree.leaf_isTable (le_refl 2) hl _ d hd _).1 hT), fun vb hb hvb he => ?_⟩
      rw [(hP vb).1] at he
      rw [(hP vb).2] at hvb
      exact a4 vb hb hvb he

/-- The first two steps of the stack-building step of `kexec`: `uvmalloc` maps
the guard page and the stack page above the image, and `uvmclear` takes the
guard page from the user. -/
theorem stack_ready {s : Kernel} {pt sz : Nat} (I : Inv 2 s pt) (F : FrameOK s pt)
    (hmax : PGROUNDUP sz + 2 * PGSIZE ≤ MAXVA)
    (hun : ∀ vb, vb < MAXVA → PGROUNDUP sz ≤ vb → vb < PGROUNDUP sz + 2 * PGSIZE →
      pteOf s.mem pt vb &&& PTE_V = 0)
    (hfree : 6 ≤ s.freelist.length) :
    ∃ t1 t2 f,
      uvmalloc s pt (PGROUNDUP sz) ((PGROUNDUP sz + (USERSTACK + 1) * PGSIZE) % U64)
        (PTE_R ||| PTE_W ||| PTE_U) = .ret (PGROUNDUP sz + 2 * PGSIZE) t1 ∧
      uvmclear t1 pt ((PGROUNDUP sz + 2 * PGSIZE + (U64 - (USERSTACK + 1) * PGSIZE)) % U64) =
        .ret () t2 ∧
      StackPage pt (PGROUNDUP sz + PGSIZE) f t2 ∧
      pteOf t2.mem pt (PGROUNDUP sz) &&& PTE_V ≠ 0 ∧ pteOf t2.mem pt (PGROUNDUP sz) &&& PTE_U = 0 := by
  have ha0 : PGROUNDUP sz % PGSIZE = 0 := PGROUNDUP_mod sz
  obtain ⟨a, had⟩ : ∃ a, a = PGROUNDUP sz := ⟨_, rfl⟩
  rw [← had] at ha0 hmax hun ⊢
  have hM := MAXVA_eq
  have hnew : (a + (USERSTACK + 1) * PGSIZE) % U64 = a + 2 * PGSIZE := by
    unfold USERSTACK U64 PGSIZE at *
    omega
  have hcl : (a + 2 * PGSIZE + (U64 - (USERSTACK + 1) * PGSIZE)) % U64 = a := by
    unfold USERSTACK U64 PGSIZE at *
    omega
  have hxp : PTE_R ||| PTE_W ||| PTE_U < U64 := by decide
  have hS := uvmallocLoop_spec pt a hxp (le_refl (a + 2 * PGSIZE))
    (by unfold PGSIZE; omega) hmax ha0 ((a + 2 * PGSIZE) / PGSIZE + 1) 2 s 0
    (by unfold PGSIZE; omega) I (by omega)
    (by
      intro vb h1 h2 h3
      exact hun vb h1 (by omega) h3)
  rw [show a + 0 * PGSIZE = a by omega] at hS
  obtain ⟨r, t1, hr, _, _, _, _, hcase⟩ := hS
  rcases hcase with ⟨hrn, frames, used, G, _, _, _, _, hF⟩ | ⟨_, hlt, _⟩
  · have F1 : FrameOK t1 pt := hF F (by decide)
    have m0 := G.mapped 0 (by omega)
    have m1 := G.mapped 1 (by omega)
    rw [show a + 0 * PGSIZE = a by omega] at m0
    rw [show a + 1 * PGSIZE = a + PGSIZE by omega] at m1
    have hv0 : pteOf t1.mem pt a &&& PTE_V ≠ 0 := by rw [m0]; exact leaf_valid _ _
    obtain ⟨t2, hc, I2, F2, _, _, hp⟩ :=
      uvmclear_spec G.inv F1 (by unfold PGSIZE at *; omega) hv0
    have hns : ¬ SamePage a (a + PGSIZE) := by
      rw [samePage_of_aligned ha0 (by unfold PGSIZE at *; omega) (by unfold PGSIZE at *; omega)]
      unfold PGSIZE
      omega
    have hb1 : pteOf t2.mem pt (a + PGSIZE) = pteOf t1.mem pt (a + PGSIZE) := by
      rw [hp, if_neg hns]
    refine ⟨t1, t2, PTE2PA (pteOf t2.mem pt (a + PGSIZE)), ?_, ?_, ?_, ?_, ?_⟩
    · unfold uvmalloc
      rw [hnew, if_neg (by omega), PGROUNDUP_aligned ha0 (by omega), hr, hrn]
    · rw [hcl, hc]
    · exact
        { inv := I2
          frames := F2
          aligned := by unfold PGSIZE at *; omega
          below := by unfold PGSIZE at *; omega
          valid := by rw [hb1, m1]; exact leaf_valid _ _
          user := by rw [hb1, m1]; exact leaf_user _ (by decide)
          writable := by rw [hb1, m1]; exact leaf_write_bit _ (by decide)
          frame := rfl }
    · rw [hp, if_pos (samePage_refl a), clear_U_valid]
      exact hv0
    · rw [hp, if_pos (samePage_refl a), Nat.and_assoc,
        show (U64 - 1 - PTE_U) &&& PTE_U = 0 by decide]
      exact Nat.and_zero _
  · omega

theorem getD_lt_of_all {l : List Nat} {B : Nat} (h : ∀ c ∈ l, c < B) (hB : 0 < B) (i : Nat) :
    l.getD i 0 < B := by
  by_cases hi : i < l.length
  · rw [List.getD_eq_getElem _ _ hi]
    exact h _ (List.getElem_mem _)
  · rw [List.getD_eq_default _ _ (by omega)]
    exact hB

/-- Regions that each end below the start of the one before end below the
start of every earlier one. -/
theorem chain_below (a len : Nat → Nat) (n top : Nat)
    (A : ∀ i, i < n → a i + len i + 1 ≤ if i = 0 then top else a (i - 1)) :
    ∀ d i, i < n → d < i → a i + len i + 1 ≤ a (i - (d + 1)) := by
  intro d
  induction d with
  | zero =>
    intro i hi hd
    have := A i hi
    rw [if_neg (by omega)] at this
    exact this
  | succ d ih =>
    intro i hi hd
    have h1 := ih i hi (by omega)
    have h2 := A (i - (d + 1)) (by omega)
    rw [if_neg (by omega), show i - (d + 1) - 1 = i - (d + 1 + 1) by omega] at h2
    omega

/-- C17: the stack-building step of `kexec` (exec.c:128-192). On a new table in
which the two pages above the image are unmapped and with six free pages, for
`argv` of fewer than `MAXARG` strings that fit in the stack page, `kexecStack`
returns the final stack pointer `sp`, and there are as many string addresses
`addrs` as strings: `sp` and the addresses are multiples of 16 in
`[stackbase, sz)`, each string region lies below all earlier ones (so the
addresses decrease strictly and the regions do not overlap) and above the
pointer array; at the `i`-th address are the bytes of `argv[i]` and its NUL; at
`sp` are `argv.length + 1` words, the addresses in order and then 0; and
`kexec` returns `argv.length` with `a1 = sp` and the stack pointer `sp`. -/
theorem kexec_stack_layout (s : Kernel) (pt sz : Nat) (argv : List (List Nat))
    (I : Inv 2 s pt) (F : FrameOK s pt) (hmax : PGROUNDUP sz + 2 * PGSIZE ≤ MAXVA)
    (hun : ∀ vb, vb < MAXVA → PGROUNDUP sz ≤ vb → vb < PGROUNDUP sz + 2 * PGSIZE →
      pteOf s.mem pt vb &&& PTE_V = 0)
    (hfree : 6 ≤ s.freelist.length) (hn : argv.length < MAXARG)
    (hbyte : ∀ arg ∈ argv, ∀ c ∈ arg, c < 256)
    (hfit : PGROUNDUP sz + PGSIZE ≤
      (stackAfter (PGROUNDUP sz + 2 * PGSIZE) argv - 8 * (argv.length + 1)) / 16 * 16) :
    ∃ t sp addrs,
      kexecStack s pt sz argv = .ret (PGROUNDUP sz + 2 * PGSIZE, some sp) t ∧
      addrs.length = argv.length ∧
      sp = (stackAfter (PGROUNDUP sz + 2 * PGSIZE) argv - 8 * (argv.length + 1)) / 16 * 16 ∧
      sp % 16 = 0 ∧ PGROUNDUP sz + PGSIZE ≤ sp ∧
      sp + 8 * (argv.length + 1) ≤ PGROUNDUP sz + 2 * PGSIZE ∧
      (∀ i, i < argv.length →
        addrs.getD i 0 = stackAfter (PGROUNDUP sz + 2 * PGSIZE) (argv.take (i + 1)) ∧
        addrs.getD i 0 % 16 = 0 ∧ PGROUNDUP sz + PGSIZE ≤ addrs.getD i 0 ∧
        addrs.getD i 0 < PGROUNDUP sz + 2 * PGSIZE ∧
        sp + 8 * (argv.length + 1) ≤ addrs.getD i 0 ∧
        addrs.getD i 0 + (argv.getD i []).length + 1 ≤ PGROUNDUP sz + 2 * PGSIZE ∧
        (∀ j, j < i → addrs.getD i 0 + (argv.getD i []).length + 1 ≤ addrs.getD j 0) ∧
        ∀ k, k ≤ (argv.getD i []).length → Readable t.mem pt (addrs.getD i 0 + k) ∧
          ld8 t.mem (physOf t.mem pt (addrs.getD i 0 + k)) = (argv.getD i [] ++ [0]).getD k 0) ∧
      (∀ j, j ≤ argv.length → Readable t.mem pt (sp + 8 * j) ∧
        ld64 t.mem (physOf t.mem pt (sp + 8 * j)) = (addrs ++ [0]).getD j 0) ∧
      (∀ (E : Env) (elf : elfhdr) (path : List Nat) (oldsz : Nat) (p : Proc) (u : Kernel),
        E.proc_freepagetable { t with procsz := PGROUNDUP sz + 2 * PGSIZE } p.pagetable oldsz =
          .ret () u →
        ∃ q, kexecTail E elf path argv pt sz oldsz s p = .ret ((argv.length : Int), q) u ∧
          q.a1 = sp ∧ q.sp = sp) := by
  obtain ⟨t1, t2, f, hua, hcl, P2, _, _⟩ := stack_ready I F hmax hun hfree
  have hM := MAXVA_eq
  have hPG : PGSIZE = 4096 := rfl
  have hMA : MAXARG = 32 := rfl
  have hq := stackAfter_le argv (PGROUNDUP sz + 2 * PGSIZE)
  obtain ⟨q, hqd⟩ : ∃ q, q = stackAfter (PGROUNDUP sz + 2 * PGSIZE) argv := ⟨_, rfl⟩
  rw [← hqd] at hq hfit ⊢
  obtain ⟨sp, hspd⟩ : ∃ sp, sp = (q - 8 * (argv.length + 1)) / 16 * 16 := ⟨_, rfl⟩
  rw [← hspd] at hfit ⊢
  obtain ⟨t3, addrs, hk, P3, _, _, hal, hall, hout⟩ :=
    kexecArgs_spec pt (PGROUNDUP sz + PGSIZE) f (by omega) argv t2 0
      (PGROUNDUP sz + 2 * PGSIZE) [] P2 (by omega) (by omega) (by rw [← hqd]; omega)
  rw [List.nil_append, ← hqd] at hk
  have hbase : (PGROUNDUP sz + 2 * PGSIZE + (U64 - USERSTACK * PGSIZE)) % U64 =
      PGROUNDUP sz + PGSIZE := by
    unfold USERSTACK U64
    omega
  have hsp : (q + (U64 - (argv.length + 1) * 8 % U64)) % U64 -
      (q + (U64 - (argv.length + 1) * 8 % U64)) % U64 % 16 = sp := by
    unfold U64
    omega
  have hlen2 : (addrs ++ [0]).length = argv.length + 1 := by
    rw [List.length_append, hal]
    rfl
  have hlen : (argv.length + 1) * 8 % U64 = 8 * (addrs ++ [0]).length := by
    rw [hlen2]
    unfold U64
    omega
  have hw2 : sp + 8 * (addrs ++ [0]).length ≤ PGROUNDUP sz + PGSIZE + PGSIZE := by
    rw [hlen2]
    omega
  obtain ⟨t4, hco, P4, hm4⟩ := copyout_page_mem P3 ((addrs ++ [0]).flatMap bytes64) hfit hw2
    (by rw [hlen2]; omega)
  have hks : kexecStack s pt sz argv = .ret (PGROUNDUP sz + 2 * PGSIZE, some sp) t4 := by
    unfold kexecStack
    rw [hua, bind_ret_eq, if_neg (by omega), hcl, bind_ret_eq, hbase, hk, bind_ret_eq]
    show (if _ < _ then _ else _) = _
    rw [hsp, if_neg (by omega), hlen, hco, bind_ret_eq, if_neg (by decide)]
  have A : ∀ i, i < argv.length →
      (fun i => addrs.getD i 0) i + (fun i => (argv.getD i []).length) i + 1 ≤
        if i = 0 then PGROUNDUP sz + 2 * PGSIZE else (fun i => addrs.getD i 0) (i - 1) :=
    fun i hi => (hall i hi).2.2.2.2.1
  have hch := chain_below (fun i => addrs.getD i 0) (fun i => (argv.getD i []).length)
    argv.length (PGROUNDUP sz + 2 * PGSIZE) A
  have htop : ∀ i, i < argv.length →
      addrs.getD i 0 + (argv.getD i []).length + 1 ≤ PGROUNDUP sz + 2 * PGSIZE := by
    intro i hi
    have h0 := A 0 (by omega)
    rw [if_pos rfl] at h0
    by_cases hi0 : i = 0
    · subst hi0
      exact h0
    · have := hch (i - 1) i hi (by omega)
      rw [show i - (i - 1 + 1) = 0 by omega] at this
      simp only at this h0
      omega
  have hsp16 : sp % 16 = 0 := by omega
  have hspq : sp + 8 * (argv.length + 1) ≤ q := by omega
  clear hbase hsp hlen hco hua hcl hk A
  refine ⟨t4, sp, addrs, hks, hal, rfl, hsp16, hfit, by omega, ?_, ?_, ?_⟩
  · intro i hi
    obtain ⟨a0, a1, a2, a3, a4, a5⟩ := hall i hi
    rw [← hqd] at a3
    have ht := htop i hi
    refine ⟨a0, a1, a2, by omega, by omega, ht, ?_, ?_⟩
    · intro j hj
      have := hch (i - j - 1) i hi (by omega)
      rw [show i - (i - j - 1 + 1) = j by omega] at this
      exact this
    · intro k hk2
      have h1 : PGROUNDUP sz + PGSIZE ≤ addrs.getD i 0 + k := by omega
      have h2 : addrs.getD i 0 + k < PGROUNDUP sz + PGSIZE + PGSIZE := by omega
      refine ⟨P4.readable h1 h2, ?_⟩
      rw [P4.phys h1 h2]
      unfold ld8
      rw [hm4, memmoveIn_out _ _ _ _ _ (Or.inr (by rw [hlen2]; omega)),
        show f + (addrs.getD i 0 + k - (PGROUNDUP sz + PGSIZE)) =
          f + (addrs.getD i 0 - (PGROUNDUP sz + PGSIZE)) + k by omega, a5 k hk2, Nat.mod_mod]
      apply Nat.mod_eq_of_lt
      apply getD_lt_of_all _ (by norm_num)
      intro c hc
      rcases List.mem_append.1 hc with h | h
      · refine hbyte _ ?_ c h
        rw [List.getD_eq_getElem _ _ hi]
        exact List.getElem_mem _
      · rw [List.mem_singleton.1 h]
        norm_num
  · intro j hj
    have h1 : PGROUNDUP sz + PGSIZE ≤ sp + 8 * j := by omega
    have h2 : sp + 8 * j < PGROUNDUP sz + PGSIZE + PGSIZE := by omega
    refine ⟨P4.readable h1 h2, ?_⟩
    rw [P4.phys h1 h2, show f + (sp + 8 * j - (PGROUNDUP sz + PGSIZE)) =
      f + (sp - (PGROUNDUP sz + PGSIZE)) + 8 * j by omega, hm4]
    apply ld64_words _ _ _ _ (by rw [hlen2]; omega)
    by_cases hjn : j < argv.length
    · rw [List.getD_append _ _ _ _ (by rw [hal]; exact hjn)]
      have := htop j hjn
      rw [hM] at hmax
      omega
    · rw [List.getD_append_right _ _ _ _ (by rw [hal]; omega)]
      rw [hal, show j - argv.length = 0 by omega]
      norm_num
  · intro E elf path oldsz p u hu
    have e : kexecTail E elf path argv pt sz oldsz s p =
        .ret ((argv.length : Int),
          { p with
            a1 := sp
            name := (lastComponent path path).take (sizeof_name - 1)
            pagetable := pt
            epc := elf.entry
            sp := sp }) u := by
      unfold kexecTail
      rw [hks, bind_ret_eq]
      show Outcome.bind (E.proc_freepagetable _ _ _) _ = _
      rw [hu]
      rfl
    exact ⟨_, e, rfl, rfl⟩

set_option maxRecDepth 1000000 in
theorem kexec_stack_layout_witness :
    (∃ t sp addrs,
      kexecStack demo 0x1000 0x1000 [[112, 114, 111, 103], [97], [98, 98]] =
        .ret (PGROUNDUP 0x1000 + 2 * PGSIZE, some sp) t ∧
      addrs.length = [[112, 114, 111, 103], [97], [98, 98]].length ∧
      sp = (stackAfter (PGROUNDUP 0x1000 + 2 * PGSIZE) [[112, 114, 111, 103], [97], [98, 98]] -
        8 * ([[112, 114, 111, 103], [97], [98, 98]].length + 1)) / 16 * 16 ∧
      sp % 16 = 0 ∧ PGROUNDUP 0x1000 + PGSIZE ≤ sp ∧
      sp + 8 * ([[112, 114, 111, 103], [97], [98, 98]].length + 1) ≤
        PGROUNDUP 0x1000 + 2 * PGSIZE ∧
      (∀ i, i < [[112, 114, 111, 103], [97], [98, 98]].length →
        addrs.getD i 0 = stackAfter (PGROUNDUP 0x1000 + 2 * PGSIZE)
          ([[112, 114, 111, 103], [97], [98, 98]].take (i + 1)) ∧
        addrs.getD i 0 % 16 = 0 ∧ PGROUNDUP 0x1000 + PGSIZE ≤ addrs.getD i 0 ∧
        addrs.getD i 0 < PGROUNDUP 0x1000 + 2 * PGSIZE ∧
        sp + 8 * ([[112, 114, 111, 103], [97], [98, 98]].length + 1) ≤ addrs.getD i 0 ∧
        addrs.getD i 0 + ([[112, 114, 111, 103], [97], [98, 98]].getD i []).length + 1 ≤
          PGROUNDUP 0x1000 + 2 * PGSIZE ∧
        (∀ j, j < i →
          addrs.getD i 0 + ([[112, 114, 111, 103], [97], [98, 98]].getD i []).length + 1 ≤
            addrs.getD j 0) ∧
        ∀ k, k ≤ ([[112, 114, 111, 103], [97], [98, 98]].getD i []).length →
          Readable t.mem 0x1000 (addrs.getD i 0 + k) ∧
          ld8 t.mem (physOf t.mem 0x1000 (addrs.getD i 0 + k)) =
            ([[112, 114, 111, 103], [97], [98, 98]].getD i [] ++ [0]).getD k 0) ∧
      (∀ j, j ≤ [[112, 114, 111, 103], [97], [98, 98]].length →
        Readable t.mem 0x1000 (sp + 8 * j) ∧
        ld64 t.mem (physOf t.mem 0x1000 (sp + 8 * j)) = (addrs ++ [0]).getD j 0) ∧
      (∀ (E : Env) (elf : elfhdr) (path : List Nat) (oldsz : Nat) (p : Proc) (u : Kernel),
        E.proc_freepagetable { t with procsz := PGROUNDUP 0x1000 + 2 * PGSIZE } p.pagetable
          oldsz = .ret () u →
        ∃ q, kexecTail E elf path [[112, 114, 111, 103], [97], [98, 98]] 0x1000 0x1000 oldsz
            demo p = .ret (([[112, 114, 111, 103], [97], [98, 98]].length : Int), q) u ∧
          q.a1 = sp ∧ q.sp = sp)) ∧
    (kexec demoProgEnv demo demoProc [112, 114, 111, 103]
        [[112, 114, 111, 103], [97], [98, 98]]).val.map
      (fun r => (r.1, r.2.a1, r.2.sp, r.2.pagetable)) = some (3, 0x2fb0, 0x2fb0, 0x2000) ∧
    (List.range 4).map (fun j =>
      ld64 demoExecDone.mem (physOf demoExecDone.mem 0x2000 (0x2fb0 + 8 * j))) =
      [0x2ff0, 0x2fe0, 0x2fd0, 0] ∧
    (List.range 3).map (fun k =>
      ld8 demoExecDone.mem (physOf demoExecDone.mem 0x2000 (0x2fd0 + k))) = [98, 98, 0] :=
  ⟨kexec_stack_layout demo 0x1000 0x1000 [[112, 114, 111, 103], [97], [98, 98]] demo_inv
    demo_frameOK (by decide) (fun vb _ _ _ => demo_unmapped vb) (by decide) (by decide)
    (by decide) (by decide), by decide, by decide, by decide⟩

/-! ## C22: the pages that `mappages` leaves alone -/

/-- The loop of `mappages` does not return 0 once `a` is past `last`: it goes on
until `walk` halts at `MAXVA`, fails, or meets a mapped page. -/
theorem mappagesLoop_past {pt perm last : Nat} :
    ∀ fuel (s : Kernel) (a pa : Nat) (t : Kernel), last < a →
      mappagesLoop pt perm last fuel s a pa ≠ .ret 0 t := by
  intro fuel
  induction fuel with
  | zero =>
    intro s a pa t _ h
    cases h
  | succ fuel ih =>
    intro s a pa t hlt h
    rw [mappagesLoop_succ] at h
    by_cases hva : a < MAXVA
    · cases hw : walk s pt a 1 with
      | ret r s1 =>
        rw [hw] at h
        cases r with
        | none => simp [Outcome.bind] at h
        | some slot =>
          simp only [Outcome.bind] at h
          split at h
          · cases h
          · rw [if_neg (by omega)] at h
            have hnext : (a + PGSIZE) % U64 = a + PGSIZE := by
              rw [MAXVA_eq] at hva
              unfold PGSIZE U64
              omega
            rw [hnext] at h
            exact ih _ _ _ t (by omega) h
      | panic m =>
        rw [hw] at h
        cases h
      | diverge =>
        rw [hw] at h
        cases h
    · rw [walk_panic s pt a 1 (by omega)] at h
      cases h

/-- C22: for every well-formed page table and allocator state and all 64-bit
arguments, when `mappages(pt, va, size, pa, perm)` returns 0 the range
`[va, va+size)` lies below `MAXVA`, and for every address `vb` below `MAXVA`
outside the range the leaf entry is as before the call (an entry that no table
holds counting as 0): a slot that `walk` found before is found at the same
address with the same contents, so the flag bits and the result of `walkaddr`
are the same. -/
theorem mappages_frame (s t : Kernel) (pt va size pa perm : Nat) (I : Inv 2 s pt)
    (hva : va < U64) (hsize : size < U64) (hpa : pa < U64) (hperm : perm < U64)
    (h : mappages s pt va size pa perm = .ret 0 t) :
    va % PGSIZE = 0 ∧ size % PGSIZE = 0 ∧ 0 < size ∧ va + size ≤ MAXVA ∧
    ∀ vb, vb < MAXVA → (vb < va ∨ va + size ≤ vb) →
      pteOf t.mem pt vb = pteOf s.mem pt vb ∧
      PTE_FLAGS (pteOf t.mem pt vb) = PTE_FLAGS (pteOf s.mem pt vb) ∧
      (∀ x, lookupFrom s.mem vb 2 pt = some x →
        lookupFrom t.mem vb 2 pt = some x ∧ ld64 t.mem x = ld64 s.mem x) ∧
      ∃ r, walkaddr s pt vb = .ret r s ∧ walkaddr t pt vb = .ret r t := by
  unfold mappages at h
  by_cases hal : va % PGSIZE ≠ 0 ∨ size % PGSIZE ≠ 0
  · rw [if_pos hal] at h
    cases h
  rw [if_neg hal] at h
  by_cases hs0 : size = 0
  · rw [if_pos hs0] at h
    cases h
  rw [if_neg hs0] at h
  have hal1 : va % PGSIZE = 0 := by omega
  have hal2 : size % PGSIZE = 0 := by omega
  clear hal
  have hM := MAXVA_eq
  by_cases hwrap : va + size < U64 + PGSIZE
  · have hlast : (va + size + (U64 - PGSIZE)) % U64 = va + size - PGSIZE := by
      unfold U64 PGSIZE at *
      omega
    rw [hlast] at h
    have hge : PGSIZE ≤ size := by
      unfold PGSIZE at *
      omega
    have hmod : (va + size - PGSIZE - va) % PGSIZE = 0 := by
      unfold PGSIZE at *
      omega
    obtain ⟨hmax, ⟨used, M⟩, _, hout⟩ := mappagesLoop_ok hperm _ s va pa t I hal1 hpa
      (by omega) hmod h
    have hle : va + size ≤ MAXVA := by
      unfold PGSIZE at *
      omega
    refine ⟨hal1, hal2, by omega, hle, ?_⟩
    intro vb hvb ho
    have e : pteOf t.mem pt vb = pteOf s.mem pt vb := hout vb hvb (by omega)
    refine ⟨e, by rw [e], ?_, ?_⟩
    · intro x hx
      have hx2 := M.lookup_mono vb x hx
      refine ⟨hx2, ?_⟩
      rw [← pteOf_of_lookup hx2, ← pteOf_of_lookup hx, e]
    · refine ⟨_, walkaddr_eq s pt vb hvb, ?_⟩
      rw [walkaddr_eq t pt vb hvb, e]
  · exfalso
    have hlt : (va + size + (U64 - PGSIZE)) % U64 < va := by
      unfold U64 PGSIZE at *
      omega
    exact mappagesLoop_past _ s va pa t hlt h

theorem mappages_frame_witness :
    0x40000000 % PGSIZE = 0 ∧ 0x1000 % PGSIZE = 0 ∧ 0 < 0x1000 ∧
    0x40000000 + 0x1000 ≤ MAXVA ∧
    (∀ vb, vb < MAXVA → (vb < 0x40000000 ∨ 0x40000000 + 0x1000 ≤ vb) →
      pteOf demoTextMore.mem 0x1000 vb = pteOf demoText.mem 0x1000 vb ∧
      PTE_FLAGS (pteOf demoTextMore.mem 0x1000 vb) = PTE_FLAGS (pteOf demoText.mem 0x1000 vb) ∧
      (∀ x, lookupFrom demoText.mem vb 2 0x1000 = some x →
        lookupFrom demoTextMore.mem vb 2 0x1000 = some x ∧
        ld64 demoTextMore.mem x = ld64 demoText.mem x) ∧
      ∃ r, walkaddr demoText 0x1000 vb = .ret r demoText ∧
        walkaddr demoTextMore 0x1000 vb = .ret r demoTextMore) ∧
    demoTextMore.freelist.length + 2 = demoText.freelist.length ∧
    pteOf demoText.mem 0x1000 0x1000 = 0x2000001b ∧
    pteOf demoTextMore.mem 0x1000 0x1000 = 0x2000001b ∧
    pteOf demoText.mem 0x1000 0x40000000 = 0 ∧
    pteOf demoTextMore.mem 0x1000 0x40000000 = 0x20000417 := by
  have h := mappages_frame demoText demoTextMore 0x1000 0x40000000 0x1000 0x80001000
    (PTE_R ||| PTE_W ||| PTE_U) (demo_page_ok _ (by decide)).1 (by decide) (by decide)
    (by decide) (by decide) (Outcome.eq_ret_of_val demoText (by decide))
  exact ⟨h.1, h.2.1, h.2.2.1, h.2.2.2.1, h.2.2.2.2, by decide, by decide, by decide, by decide,
    by decide⟩

/-! ## C21: the indices of the writes to `ustack` -/

/-- The watched loop is the loop of `kexec`: it returns what `kexecArgs`
returns, in the same state, and adds the indices written. -/
theorem kexecArgsIdx_fst (pt b : Nat) :
    ∀ (rest : List (List Nat)) (s : Kernel) (argc sp : Nat) (ustack idx : List Nat),
      ∃ tr, kexecArgsIdx pt b s rest argc sp ustack idx =
        (kexecArgs pt b s rest argc sp ustack).bind fun r t => .ret (r, idx ++ tr) t := by
  intro rest
  induction rest with
  | nil =>
    intro s argc sp ustack idx
    exact ⟨[argc], by rw [kexecArgsIdx, kexecArgs]; rfl⟩
  | cons arg rest ih =>
    intro s argc sp ustack idx
    rw [kexecArgsIdx, kexecArgs]
    generalize (sp + (U64 - (arg.length + 1) % U64)) % U64 -
      (sp + (U64 - (arg.length + 1) % U64)) % U64 % 16 = x
    by_cases h1 : argc ≥ MAXARG
    · exact ⟨[], by rw [if_pos h1, if_pos h1, List.append_nil]; rfl⟩
    rw [if_neg h1, if_neg h1]
    by_cases h2 : x < b
    · exact ⟨[], by rw [if_pos h2, if_pos h2, List.append_nil]; rfl⟩
    rw [if_neg h2, if_neg h2]
    cases copyout s pt x (arg ++ [0]) ((arg.length + 1) % U64) with
    | ret r s1 =>
      rw [bind_ret_eq, bind_ret_eq]
      by_cases h3 : r < 0
      · exact ⟨[], by rw [if_pos h3, if_pos h3, List.append_nil]; rfl⟩
      · obtain ⟨tr, htr⟩ := ih s1 (argc + 1) x (ustack ++ [x]) (idx ++ [argc])
        refine ⟨argc :: tr, ?_⟩
        rw [if_neg h3, if_neg h3, htr, List.append_assoc]
        rfl
    | panic m => exact ⟨[], rfl⟩
    | diverge => exact ⟨[], rfl⟩

/-- A run of the watched loop that is not rejected has written `ustack` at the
indices `argc`, `argc + 1`, ... up to the number of strings, the last one after
the loop; the guard at exec.c:153 has let at most `MAXARG` strings through. -/
theorem kexecArgsIdx_indices (pt b : Nat) :
    ∀ (rest : List (List Nat)) (s : Kernel) (argc sp : Nat) (ustack idx : List Nat)
      (r : Nat × List Nat) (idx2 : List Nat) (t : Kernel),
      argc ≤ MAXARG → kexecArgsIdx pt b s rest argc sp ustack idx = .ret (some r, idx2) t →
      idx2 = idx ++ List.range' argc (rest.length + 1) ∧ argc + rest.length ≤ MAXARG := by
  intro rest
  induction rest with
  | nil =>
    intro s argc sp ustack idx r idx2 t ha h
    rw [kexecArgsIdx] at h
    cases h
    exact ⟨rfl, ha⟩
  | cons arg rest ih =>
    intro s argc sp ustack idx r idx2 t ha h
    rw [kexecArgsIdx] at h
    generalize (sp + (U64 - (arg.length + 1) % U64)) % U64 -
      (sp + (U64 - (arg.length + 1) % U64)) % U64 % 16 = x at h
    by_cases h1 : argc ≥ MAXARG
    · rw [if_pos h1] at h
      cases h
    rw [if_neg h1] at h
    by_cases h2 : x < b
    · rw [if_pos h2] at h
      cases h
    rw [if_neg h2] at h
    cases hco : copyout s pt x (arg ++ [0]) ((arg.length + 1) % U64) with
    | ret r0 s1 =>
      rw [hco, bind_ret_eq] at h
      by_cases h3 : r0 < 0
      · rw [if_pos h3] at h
        cases h
      · rw [if_neg h3] at h
        obtain ⟨e1, e2⟩ := ih s1 (argc + 1) x (ustack ++ [x]) (idx ++ [argc]) r idx2 t
          (by omega) h
        refine ⟨?_, ?_⟩
        · rw [e1, List.append_assoc]
          rfl
        · simp only [List.length_cons]
          omega
    | panic m =>
      rw [hco] at h
      cases h
    | diverge =>
      rw [hco] at h
      cases h

/-- The stack-building step of `kexec` returns for every argument vector of at
most `MAXARG` strings that fits in the stack page. -/
theorem kexecStack_full {s : Kernel} {pt sz : Nat} {argv : List (List Nat)}
    (I : Inv 2 s pt) (F : FrameOK s pt) (hmax : PGROUNDUP sz + 2 * PGSIZE ≤ MAXVA)
    (hun : ∀ vb, vb < MAXVA → PGROUNDUP sz ≤ vb → vb < PGROUNDUP sz + 2 * PGSIZE →
      pteOf s.mem pt vb &&& PTE_V = 0)
    (hfree : 6 ≤ s.freelist.length) (hn : argv.length ≤ MAXARG)
    (hfit : PGROUNDUP sz + PGSIZE ≤
      (stackAfter (PGROUNDUP sz + 2 * PGSIZE) argv - 8 * (argv.length + 1)) / 16 * 16) :
    ∃ t1 t2 t3 t addrs,
      uvmalloc s pt (PGROUNDUP sz) ((PGROUNDUP sz + (USERSTACK + 1) * PGSIZE) % U64)
        (PTE_R ||| PTE_W ||| PTE_U) = .ret (PGROUNDUP sz + 2 * PGSIZE) t1 ∧
      uvmclear t1 pt ((PGROUNDUP sz + 2 * PGSIZE + (U64 - (USERSTACK + 1) * PGSIZE)) % U64) =
        .ret () t2 ∧
      kexecArgs pt ((PGROUNDUP sz + 2 * PGSIZE + (U64 - USERSTACK * PGSIZE)) % U64) t2 argv 0
        (PGROUNDUP sz + 2 * PGSIZE) [] =
        .ret (some (stackAfter (PGROUNDUP sz + 2 * PGSIZE) argv, addrs)) t3 ∧
      kexecStack s pt sz argv = .ret (PGROUNDUP sz + 2 * PGSIZE,
        some ((stackAfter (PGROUNDUP sz + 2 * PGSIZE) argv - 8 * (argv.length + 1)) / 16 * 16))
        t := by
  obtain ⟨t1, t2, f, hua, hcl, P2, _, _⟩ := stack_ready I F hmax hun hfree
  have hM := MAXVA_eq
  have hPG : PGSIZE = 4096 := rfl
  have hMA : MAXARG = 32 := rfl
  have hq := stackAfter_le argv (PGROUNDUP sz + 2 * PGSIZE)
  obtain ⟨q, hqd⟩ : ∃ q, q = stackAfter (PGROUNDUP sz + 2 * PGSIZE) argv := ⟨_, rfl⟩
  rw [← hqd] at hq hfit ⊢
  obtain ⟨sp, hspd⟩ : ∃ sp, sp = (q - 8 * (argv.length + 1)) / 16 * 16 := ⟨_, rfl⟩
  rw [← hspd] at hfit ⊢
  obtain ⟨t3, addrs, hk, P3, _, _, hal, _, _⟩ :=
    kexecArgs_spec pt (PGROUNDUP sz + PGSIZE) f (by omega) argv t2 0
      (PGROUNDUP sz + 2 * PGSIZE) [] P2 (by omega) (by omega) (by rw [← hqd]; omega)
  rw [List.nil_append, ← hqd] at hk
  have hbase : (PGROUNDUP sz + 2 * PGSIZE + (U64 - USERSTACK * PGSIZE)) % U64 =
      PGROUNDUP sz + PGSIZE := by
    unfold USERSTACK U64
    omega
  have hsp : (q + (U64 - (argv.length + 1) * 8 % U64)) % U64 -
      (q + (U64 - (argv.length + 1) * 8 % U64)) % U64 % 16 = sp := by
    unfold U64
    omega
  have hlen2 : (addrs ++ [0]).length = argv.length + 1 := by
    rw [List.length_append, hal]
    rfl
  have hlen : (argv.length + 1) * 8 % U64 = 8 * (addrs ++ [0]).length := by
    rw [hlen2]
    unfold U64
    omega
  have hw2 : sp + 8 * (addrs ++ [0]).length ≤ PGROUNDUP sz + PGSIZE + PGSIZE := by
    rw [hlen2]
    omega
  obtain ⟨t4, hco, _, _⟩ := copyout_page_mem P3 ((addrs ++ [0]).flatMap bytes64) hfit hw2
    (by rw [hlen2]; omega)
  refine ⟨t1, t2, t3, t4, addrs, hua, hcl, by rw [hbase]; exact hk, ?_⟩
  unfold kexecStack
  rw [hua, bind_ret_eq, if_neg (by omega), hcl, bind_ret_eq, hbase, hk, bind_ret_eq]
  show (if _ < _ then _ else _) = _
  rw [hsp, if_neg (by omega), hlen, hco, bind_ret_eq, if_neg (by decide)]

/-- C21: for an argument vector of exactly `MAXARG` strings that fits in the
stack page (on a new table in which the two pages above the image are unmapped,
with six free pages), `kexec` is not rejected: the argument loop
(exec.c:152-162) lets all the strings through, the stack-building step returns
the final stack pointer, and `kexec` returns `MAXARG`. On that run the writes to
the array `uint64 ustack[MAXARG]` are at the indices `0, 1, ..., MAXARG`: the
writes of the loop stay below `MAXARG`, and the write `ustack[argc] = 0` after
the loop (exec.c:163) is at the index `MAXARG`, the length of the array. -/
theorem kexec_ustack_overrun (s : Kernel) (pt sz : Nat) (argv : List (List Nat))
    (I : Inv 2 s pt) (F : FrameOK s pt) (hmax : PGROUNDUP sz + 2 * PGSIZE ≤ MAXVA)
    (hun : ∀ vb, vb < MAXVA → PGROUNDUP sz ≤ vb → vb < PGROUNDUP sz + 2 * PGSIZE →
      pteOf s.mem pt vb &&& PTE_V = 0)
    (hfree : 6 ≤ s.freelist.length) (hn : argv.length = MAXARG)
    (hfit : PGROUNDUP sz + PGSIZE ≤
      (stackAfter (PGROUNDUP sz + 2 * PGSIZE) argv - 8 * (argv.length + 1)) / 16 * 16) :
    ∃ t1 t2 t3 t sp r idx,
      uvmalloc s pt (PGROUNDUP sz) ((PGROUNDUP sz + (USERSTACK + 1) * PGSIZE) % U64)
        (PTE_R ||| PTE_W ||| PTE_U) = .ret (PGROUNDUP sz + 2 * PGSIZE) t1 ∧
      uvmclear t1 pt ((PGROUNDUP sz + 2 * PGSIZE + (U64 - (USERSTACK + 1) * PGSIZE)) % U64) =
        .ret () t2 ∧
      kexecArgsIdx pt ((PGROUNDUP sz + 2 * PGSIZE + (U64 - USERSTACK * PGSIZE)) % U64) t2 argv 0
        (PGROUNDUP sz + 2 * PGSIZE) [] [] = .ret (some r, idx) t3 ∧
      idx = List.range (MAXARG + 1) ∧ idx.getLast? = some MAXARG ∧
      (∀ i, i < MAXARG → idx.getD i 0 = i) ∧ idx.getD MAXARG 0 = MAXARG ∧
      kexecStack s pt sz argv = .ret (PGROUNDUP sz + 2 * PGSIZE, some sp) t ∧
      (∀ (E : Env) (elf : elfhdr) (path : List Nat) (oldsz : Nat) (p : Proc) (u : Kernel),
        E.proc_freepagetable { t with procsz := PGROUNDUP sz + 2 * PGSIZE } p.pagetable oldsz =
          .ret () u →
        ∃ q, kexecTail E elf path argv pt sz oldsz s p = .ret ((MAXARG : Int), q) u) := by
  obtain ⟨t1, t2, t3, t, addrs, hua, hcl, hk, hks⟩ :=
    kexecStack_full I F hmax hun hfree (le_of_eq hn) hfit
  obtain ⟨tr, htr⟩ := kexecArgsIdx_fst pt
    ((PGROUNDUP sz + 2 * PGSIZE + (U64 - USERSTACK * PGSIZE)) % U64) argv t2 0
    (PGROUNDUP sz + 2 * PGSIZE) [] []
  rw [hk, bind_ret_eq] at htr
  obtain ⟨e1, _⟩ := kexecArgsIdx_indices _ _ _ _ _ _ _ _ _ _ _ (Nat.zero_le _) htr
  rw [hn, List.nil_append, ← List.range_eq_range'] at e1
  refine ⟨t1, t2, t3, t, _, _, _, hua, hcl, htr, e1, ?_, ?_, ?_, hks, ?_⟩
  · rw [e1]
    decide
  · intro i hi
    rw [e1]
    have hMA : MAXARG = 32 := rfl
    rw [hMA] at hi ⊢
    interval_cases i <;> rfl
  · rw [e1]
    decide
  · intro E elf path oldsz p u hu
    have e : kexecTail E elf path argv pt sz oldsz s p =
        .ret ((argv.length : Int),
          { p with
            a1 := (stackAfter (PGROUNDUP sz + 2 * PGSIZE) argv - 8 * (argv.length + 1)) / 16 * 16
            name := (lastComponent path path).take (sizeof_name - 1)
            pagetable := pt
            epc := elf.entry
            sp := (stackAfter (PGROUNDUP sz + 2 * PGSIZE) argv - 8 * (argv.length + 1)) / 16 *
              16 }) u := by
      unfold kexecTail
      rw [hks, bind_ret_eq]
      show Outcome.bind (E.proc_freepagetable _ _ _) _ = _
      rw [hu]
      rfl
    rw [hn] at e
    exact ⟨_, e⟩

theorem kexec_ustack_overrun_witness :
    ∃ t1 t2 t3 t sp r idx,
      uvmalloc demo 0x1000 (PGROUNDUP 0x1000) ((PGROUNDUP 0x1000 + (USERSTACK + 1) * PGSIZE) % U64)
        (PTE_R ||| PTE_W ||| PTE_U) = .ret (PGROUNDUP 0x1000 + 2 * PGSIZE) t1 ∧
      uvmclear t1 0x1000
        ((PGROUNDUP 0x1000 + 2 * PGSIZE + (U64 - (USERSTACK + 1) * PGSIZE)) % U64) =
        .ret () t2 ∧
      kexecArgsIdx 0x1000 ((PGROUNDUP 0x1000 + 2 * PGSIZE + (U64 - USERSTACK * PGSIZE)) % U64) t2
        (List.replicate MAXARG [97]) 0 (PGROUNDUP 0x1000 + 2 * PGSIZE) [] [] =
        .ret (some r, idx) t3 ∧
      idx = List.range (MAXARG + 1) ∧ idx.getLast? = some MAXARG ∧
      (∀ i, i < MAXARG → idx.getD i 0 = i) ∧ idx.getD MAXARG 0 = MAXARG ∧
      kexecStack demo 0x1000 0x1000 (List.replicate MAXARG [97]) =
        .ret (PGROUNDUP 0x1000 + 2 * PGSIZE, some sp) t ∧
      (∀ (E : Env) (elf : elfhdr) (path : List Nat) (oldsz : Nat) (p : Proc) (u : Kernel),
        E.proc_freepagetable { t with procsz := PGROUNDUP 0x1000 + 2 * PGSIZE } p.pagetable
          oldsz = .ret () u →
        ∃ q, kexecTail E elf path (List.replicate MAXARG [97]) 0x1000 0x1000 oldsz demo p =
          .ret ((MAXARG : Int), q) u) :=
  kexec_ustack_overrun demo 0x1000 0x1000 (List.replicate MAXARG [97]) demo_inv demo_frameOK
    (by decide) (fun vb _ _ _ => demo_unmapped vb) (by decide) (by decide) (by decide)

/-! ## The allocator and the frames, step by step -/

end Xv6
